import Mathlib

/-!
# Espruino: rasteriser (`libs/graphics/graphics.c`) and variable model (`src/jsvar.h`)

A shallow embedding of the C sources.

* C `short` values are integers in `[-32768, 32767]`; a conversion to `short`
  is `toShort`.  C `int` arithmetic is carried out on `Int`: within the ranges
  of `short` operands none of the `int` expressions of the rasteriser overflows.
* A routine that talks to the next layer down (the installed pixel sink,
  `graphicsSetPixel`, `graphicsFillRect`) is embedded as the sequence of calls
  it makes, in order.
* A `for` loop over a `short` counter is run with fuel, since the counter wraps
  at 32767 and the loop need not terminate; `none` means the fuel ran out.
-/

namespace Espruino

/-! ## Machine integers -/

/-- Conversion of an integer to a C `short` (16 bits, two's complement). -/
def toShort (n : Int) : Int := (n + 32768) % 65536 - 32768

/-- Conversion of an integer to a C `long` of `longBits` bits (two's complement). -/
def toLong (longBits : Nat) (n : Int) : Int :=
  (n + 2 ^ (longBits - 1)) % 2 ^ longBits - 2 ^ (longBits - 1)

/-- Conversion of an integer to a C `unsigned int` (32 bits). -/
def toUInt (n : Int) : Nat := (n % 2 ^ 32).toNat

/-- Being a value of type `short`. -/
def IsShort (n : Int) : Prop := -32768 ≤ n ∧ n ≤ 32767

instance (n : Int) : Decidable (IsShort n) := by
  unfold IsShort
  infer_instance

/-- The integers `lo, lo+1, ..., hi` (empty when `hi < lo`). -/
def intRange (lo hi : Int) : List Int :=
  (List.range (hi + 1 - lo).toNat).map (fun (i : Nat) => lo + (i : Int))

/-- The loop `for (x = lo; x <= hi; x++) s = body(x, s);` over a `short` counter `x`.
The increment wraps as a conversion to `short` does. -/
def forShort {σ : Type} (body : Int → σ → Option σ) : Nat → Int → Int → σ → Option σ
  | 0, _, _, _ => none
  | fuel + 1, x, hi, s =>
    if x ≤ hi then
      match body x s with
      | none => none
      | some s1 => forShort body fuel (toShort (x + 1)) hi s1
    else some s

/-! ## Graphics state -/

/-- The fields of `JsGraphicsData` the rasteriser reads: `width` and `height` are
`unsigned short`, `bpp` is `unsigned char`, the colours are `unsigned int`. -/
structure JsGraphicsData where
  width : Nat
  height : Nat
  bpp : Nat
  fgColor : Nat
  bgColor : Nat
  deriving DecidableEq, Repr

/-- The arguments `(x, y, col)` of one pixel call. -/
structure Pixel where
  x : Int
  y : Int
  col : Nat
  deriving DecidableEq, Repr

/-- The arguments `(x1, y1, x2, y2)` of one `fillRect` call. -/
structure Rect where
  x1 : Int
  y1 : Int
  x2 : Int
  y2 : Int
  deriving DecidableEq, Repr

/-- The colour mask `(unsigned int)((1L<<bpp)-1)` of `graphicsSetPixel`, for a C
`long` of `longBits` bits. -/
def pixelMask (longBits bpp : Nat) : Nat :=
  toUInt (toLong longBits (2 ^ bpp) - 1)

/-- `graphicsSetPixel`: the calls made to the installed `setPixel` sink. -/
def graphicsSetPixel (longBits : Nat) (gfx : JsGraphicsData) (x y : Int) (col : Nat) :
    List Pixel :=
  if x < 0 ∨ y < 0 ∨ x ≥ gfx.width ∨ y ≥ gfx.height then []
  else [⟨x, y, col &&& pixelMask longBits gfx.bpp⟩]

/-- `graphicsFallbackFillRect`: the calls made to `graphicsSetPixel`, in order. -/
def graphicsFallbackFillRect (gfx : JsGraphicsData) (x1 y1 x2 y2 : Int) (fuel : Nat) :
    Option (List Pixel) :=
  let xa := if x1 > x2 then x2 else x1
  let xb := if x1 > x2 then x1 else x2
  let ya := if y1 > y2 then y2 else y1
  let yb := if y1 > y2 then y1 else y2
  forShort (fun y acc =>
    forShort (fun x acc => some (acc ++ [⟨x, y, gfx.fgColor⟩])) fuel xa xb acc) fuel ya yb []

/-- `graphicsFallbackBitmap1bit`: the calls made to `graphicsSetPixel`, in order.
`data` is the memory behind the `unsigned char *data` pointer, by index. -/
def graphicsFallbackBitmap1bit (gfx : JsGraphicsData) (x1 y1 : Int) (width height : Nat)
    (data : Int → Nat) : List Pixel :=
  (List.range width).flatMap (fun x =>
    (List.range height).map (fun y =>
      let bitOffset : Int := x1 + (x : Int) + ((y : Int) + y1) * (width : Int)
      ⟨toShort x, toShort y,
        if (data (bitOffset >>> (3 : Nat)) >>> (Int.land bitOffset 7).toNat) &&& 1 ≠ 0
        then gfx.fgColor else gfx.bgColor⟩))

/-- One step of the scan loop of `graphicsDrawLine`: the pixel at the rounded
position, then `pos += step`.  `mk c p` is the pixel at scan coordinate `c` and
cross coordinate `p`. -/
def drawLineStep (mk : Int → Int → Pixel) (step : Int) (c : Int)
    (st : Int × List Pixel) : Option (Int × List Pixel) :=
  some (st.1 + step, st.2 ++ [mk c (toShort (st.1 >>> (8 : Nat)))])

/-- `graphicsDrawLine`: the calls made to `graphicsSetPixel`, in order. -/
def graphicsDrawLine (gfx : JsGraphicsData) (x1 y1 x2 y2 : Int) (fuel : Nat) :
    Option (List Pixel) :=
  let xl0 := x2 - x1
  let yl0 := y2 - y1
  let xl := if xl0 < 0 then -xl0 else if xl0 = 0 then 1 else xl0
  let yl := if yl0 < 0 then -yl0 else if yl0 = 0 then 1 else yl0
  if xl > yl then
    let xa := if x1 > x2 then x2 else x1
    let ya := if x1 > x2 then y2 else y1
    let xb := if x1 > x2 then x1 else x2
    let yb := if x1 > x2 then y1 else y2
    let pos := ya * 256 + 128
    let step := Int.tdiv ((yb - ya) * 256) xl
    (forShort (drawLineStep (fun x y => ⟨x, y, gfx.fgColor⟩) step) fuel xa xb (pos, [])).map
      Prod.snd
  else
    let xa := if y1 > y2 then x2 else x1
    let ya := if y1 > y2 then y2 else y1
    let xb := if y1 > y2 then x1 else x2
    let yb := if y1 > y2 then y1 else y2
    let pos := xa * 256 + 128
    let step := Int.tdiv ((xb - xa) * 256) yl
    (forShort (drawLineStep (fun y x => ⟨x, y, gfx.fgColor⟩) step) fuel ya yb (pos, [])).map
      Prod.snd

/-- The state an installed `setPixel` sink leaves after a sequence of calls. -/
def runSink {σ : Type} (sink : σ → Pixel → σ) (s : σ) (calls : List Pixel) : σ :=
  calls.foldl sink s

/-! ## Polygon fill -/

/-- A `short` array on the C stack (`short miny[gfx->data.width]`), by index; `none` is
an element that has not been written yet. -/
abbrev ShortArray := Int → Option Int

/-- Read `a[i]` of an array of `size` elements; `none` when `i` is out of range or the
element was never written. -/
def ShortArray.get (a : ShortArray) (size : Nat) (i : Int) : Option Int :=
  if 0 ≤ i ∧ i < size then a i else none

/-- Write `a[i] = v` in an array of `size` elements; `none` when `i` is out of range. -/
def ShortArray.set (a : ShortArray) (size : Nat) (i : Int) (v : Int) : Option ShortArray :=
  if 0 ≤ i ∧ i < size then some (Function.update a i (some v)) else none

/-- The body of the loop of `graphicsFillPolyCreateVertScanLines` at column `x`; the
state is `(yh, miny, maxy)`. -/
def scanLineStep (gfx : JsGraphicsData) (stepy : Int) (x : Int)
    (st : Int × ShortArray × ShortArray) : Option (Int × ShortArray × ShortArray) :=
  let yh := st.1
  let miny := st.2.1
  let maxy := st.2.2
  let y0 := yh >>> (8 : Nat)
  let y1 := if y0 < -32768 then -32768 else y0
  let y := if y1 > 32767 then 32767 else y1
  if x ≥ 0 ∧ x < gfx.width then
    match miny.get gfx.width x with
    | none => none
    | some lo =>
      match (if y < lo then miny.set gfx.width x (toShort y) else some miny) with
      | none => none
      | some miny1 =>
        match maxy.get gfx.width x with
        | none => none
        | some hi =>
          match (if y > hi then maxy.set gfx.width x (toShort y) else some maxy) with
          | none => none
          | some maxy1 => some (yh + stepy, miny1, maxy1)
  else some (yh + stepy, miny, maxy)

/-- `graphicsFillPolyCreateVertScanLines`: the arrays `miny` and `maxy` after the edge
from `(x1, y1)` to `(x2, y2)` has been walked. -/
def graphicsFillPolyCreateVertScanLines (gfx : JsGraphicsData) (miny maxy : ShortArray)
    (x1 y1 x2 y2 : Int) (fuel : Nat) : Option (ShortArray × ShortArray) :=
  let xa := if x2 < x1 then x2 else x1
  let ya := if x2 < x1 then y2 else y1
  let xb := if x2 < x1 then x1 else x2
  let yb := if x2 < x1 then y1 else y2
  let yh := ya * 256
  let xl0 := xb - xa
  let xl := if xl0 = 0 then 1 else xl0
  let stepy := Int.tdiv ((yb - ya) * 256) xl
  (forShort (scanLineStep gfx stepy) fuel xa xb (yh, miny, maxy)).map (fun st => st.2)

/-- The pairs `(vertices[j], vertices[i])` that `graphicsFillPoly` passes to
`graphicsFillPolyCreateVertScanLines`: `j` starts at the last vertex and follows `i`. -/
def polyEdges (vertices : List (Int × Int)) : List ((Int × Int) × (Int × Int)) :=
  match vertices.getLast? with
  | none => []
  | some l => (l :: vertices).zip vertices

/-- The loop `while (x<maxx && miny[x+1]==miny[oldx] && maxy[x+1]==maxy[oldx]) x++;` of
`graphicsFillPoly`: the value of `x` after it. -/
def fillPolyCoalesce (gfx : JsGraphicsData) (miny maxy : ShortArray) (oldx maxx : Int) :
    Nat → Int → Option Int
  | 0, _ => none
  | fuel + 1, x =>
    if x < maxx then
      match miny.get gfx.width (x + 1), miny.get gfx.width oldx with
      | some a, some b =>
        if a = b then
          match maxy.get gfx.width (x + 1), maxy.get gfx.width oldx with
          | some c, some d =>
            if c = d then fillPolyCoalesce gfx miny maxy oldx maxx fuel (toShort (x + 1))
            else some x
          | _, _ => none
        else some x
      | _, _ => none
    else some x

/-- The last loop of `graphicsFillPoly`, from column `x`: the `graphicsFillRect` calls
made, appended to `acc`.  `interrupted k` is what the `k`-th call of `jspIsInterrupted`
within this fill returns. -/
def fillPolySpans (gfx : JsGraphicsData) (interrupted : Nat → Bool) (maxx : Int) :
    Nat → Int → ShortArray → ShortArray → Nat → List Rect → Option (List Rect)
  | 0, _, _, _, _, _ => none
  | fuel + 1, x, miny, maxy, polls, acc =>
    if x ≤ maxx then
      match maxy.get gfx.width x, miny.get gfx.width x with
      | some hi, some lo =>
        if hi ≥ lo then
          match (if lo < 0 then miny.set gfx.width x 0 else some miny),
                (if hi ≥ gfx.height then maxy.set gfx.width x (toShort (gfx.height - 1))
                 else some maxy) with
          | some miny1, some maxy1 =>
            match fillPolyCoalesce gfx miny1 maxy1 x maxx fuel x with
            | none => none
            | some xe =>
              match miny1.get gfx.width xe, maxy1.get gfx.width xe with
              | some top, some bottom =>
                if interrupted polls = true then some (acc ++ [⟨x, top, xe, bottom⟩])
                else fillPolySpans gfx interrupted maxx fuel (toShort (xe + 1)) miny1 maxy1
                  (polls + 1) (acc ++ [⟨x, top, xe, bottom⟩])
              | _, _ => none
          | _, _ => none
        else fillPolySpans gfx interrupted maxx fuel (toShort (x + 1)) miny maxy polls acc
      | _, _ => none
    else some acc

/-- The column range `(minx, maxx)` of `graphicsFillPoly` before clipping. -/
def fillPolyRange (gfx : JsGraphicsData) (vertices : List (Int × Int)) : Int × Int :=
  vertices.foldl
    (fun m v => (if v.1 < m.1 then v.1 else m.1, if v.1 > m.2 then v.1 else m.2))
    (toShort ((gfx.width : Int) - 1), 0)

/-- `graphicsFillPoly` (vertical scan lines, the build without `HORIZONTAL_SCANLINE`):
the calls made to `graphicsFillRect`, in order.  `vertices` holds the `points` pairs
`(x, y)`. -/
def graphicsFillPoly (gfx : JsGraphicsData) (interrupted : Nat → Bool)
    (vertices : List (Int × Int)) (fuel : Nat) : Option (List Rect) :=
  let r := fillPolyRange gfx vertices
  let minx := if r.1 < 0 then 0 else r.1
  let maxx := if r.2 ≥ gfx.width then toShort ((gfx.width : Int) - 1) else r.2
  match forShort (fun x (st : ShortArray × ShortArray) =>
      match st.1.set gfx.width x (toShort ((gfx.height : Int) - 1)) with
      | none => none
      | some miny =>
        match st.2.set gfx.width x 0 with
        | none => none
        | some maxy => some (miny, maxy))
      fuel minx maxx ((fun _ => none), (fun _ => none)) with
  | none => none
  | some init =>
    match (polyEdges vertices).foldlM
        (fun (st : ShortArray × ShortArray) e =>
          graphicsFillPolyCreateVertScanLines gfx st.1 st.2 e.1.1 e.1.2 e.2.1 e.2.2 fuel)
        init with
    | none => none
    | some arrays => fillPolySpans gfx interrupted maxx fuel minx arrays.1 arrays.2 0 []

/-- The calls to the installed `setPixel` sink that a sequence of `graphicsFillRect`
calls makes when `fillRect` is the software `graphicsFallbackFillRect`. -/
def fillRectsPixels (longBits : Nat) (gfx : JsGraphicsData) (fuel : Nat) :
    List Rect → Option (List Pixel)
  | [] => some []
  | r :: rs =>
    match graphicsFallbackFillRect gfx r.x1 r.y1 r.x2 r.y2 fuel with
    | none => none
    | some reqs =>
      match fillRectsPixels longBits gfx fuel rs with
      | none => none
      | some rest =>
        some (reqs.flatMap (fun p => graphicsSetPixel longBits gfx p.x p.y p.col) ++ rest)

/-- `graphicsFillPoly` with the software `fillRect` installed: the calls made to the
installed `setPixel` sink, in order. -/
def graphicsFillPolyPixels (longBits : Nat) (gfx : JsGraphicsData) (interrupted : Nat → Bool)
    (vertices : List (Int × Int)) (fuel : Nat) : Option (List Pixel) :=
  match graphicsFillPoly gfx interrupted vertices fuel with
  | none => none
  | some rects => fillRectsPixels longBits gfx fuel rects

/-! ## Polygons as the specification speaks of them

The specification speaks of a "simple closed polygon" and of pixels "strictly inside"
and "strictly outside" it.  These notions are defined here on integer points, from
the words of the specification and not from the code: the boundary is the union of the
closed edges, and a point off the boundary is inside when a vertical ray from it
crosses the boundary an odd number of times (even-odd rule). -/

/-- Twice the signed area of the triangle `a`, `b`, `p`. -/
def cross (a b p : Int × Int) : Int :=
  (b.1 - a.1) * (p.2 - a.2) - (b.2 - a.2) * (p.1 - a.1)

/-- The point `p` lies on the closed segment from `a` to `b`. -/
def onSegment (a b p : Int × Int) : Bool :=
  decide (cross a b p = 0) && decide (min a.1 b.1 ≤ p.1) && decide (p.1 ≤ max a.1 b.1) &&
    decide (min a.2 b.2 ≤ p.2) && decide (p.2 ≤ max a.2 b.2)

/-- The point `p` lies on an edge of the closed polygon. -/
def onBoundary (vertices : List (Int × Int)) (p : Int × Int) : Bool :=
  (polyEdges vertices).any (fun e => onSegment e.1 e.2 p)

/-- The vertical line through column `x` separates the end points of the edge: exactly
one of them lies at or left of it. -/
def straddles (a b : Int × Int) (x : Int) : Bool :=
  decide (a.1 ≤ x) != decide (b.1 ≤ x)

/-- The side of the edge on which `p` lies, for an edge read from left to right:
positive when the edge passes above `p` (at a smaller row), negative when it passes
below, zero when `p` is on its line. -/
def sideOf (a b p : Int × Int) : Int :=
  if a.1 ≤ b.1 then cross a b p else cross b a p

/-- The number of edges that a vertical ray from `p` towards smaller rows crosses. -/
def crossingsAbove (vertices : List (Int × Int)) (p : Int × Int) : Nat :=
  (polyEdges vertices).countP (fun e => straddles e.1 e.2 p.1 && decide (0 < sideOf e.1 e.2 p))

/-- The point `p` lies strictly inside the closed polygon (even-odd rule). -/
def strictlyInside (vertices : List (Int × Int)) (p : Int × Int) : Bool :=
  !onBoundary vertices p && decide (crossingsAbove vertices p % 2 = 1)

/-- The point `p` lies strictly outside the closed polygon (even-odd rule). -/
def strictlyOutside (vertices : List (Int × Int)) (p : Int × Int) : Bool :=
  !onBoundary vertices p && decide (crossingsAbove vertices p % 2 = 0)

/-- The closed segments `a b` and `c d` have a point in common: either each separates the
end points of the other, or an end point of one lies on the other. -/
def segmentsMeet (a b c d : Int × Int) : Bool :=
  (decide (cross c d a * cross c d b < 0) && decide (cross a b c * cross a b d < 0)) ||
  onSegment c d a || onSegment c d b || onSegment a b c || onSegment a b d

/-- A simple closed polygon: at least three vertices, consecutive edges meet in their
common vertex only, and other edges do not meet. -/
def isSimplePolygon (vertices : List (Int × Int)) : Bool :=
  let n := vertices.length
  let v := fun (i : Nat) => vertices.getD (i % n) (0, 0)
  decide (3 ≤ n) &&
  (List.range n).all (fun i =>
    (List.range n).all (fun j =>
      if i = j then true
      else if j = (i + 1) % n then
        !onSegment (v i) (v (i + 1)) (v (j + 1)) && !onSegment (v j) (v (j + 1)) (v i)
      else if i = (j + 1) % n then true
      else !segmentsMeet (v i) (v (i + 1)) (v j) (v (j + 1))))

/-! ## Variable model (`jsvar.h`) -/

/-- The constants of `jsutils.h` that `jsvar.h` uses.  `jsutils.h` is not among the
sources at hand, so they are parameters. -/
structure JsvConsts where
  JSVAR_DATA_STRING_LEN : Nat
  JSVAR_DATA_STRING_MAX_LEN : Nat
  JSV_VARTYPEMASK : Nat
  JSV_ROOT : Nat
  JSV_NULL : Nat
  JSV_STRING_0 : Nat
  JSV_STRING_MAX : Nat
  JSV_STRING_EXT_0 : Nat
  JSV_STRING_EXT_MAX : Nat
  JSV_ARRAY : Nat
  JSV_ARRAYBUFFER : Nat
  JSV_OBJECT : Nat
  JSV_FUNCTION : Nat
  JSV_NUMERICSTART : Nat
  JSV_INTEGER : Nat
  JSV_FLOAT : Nat
  JSV_BOOLEAN : Nat
  JSV_PIN : Nat
  JSV_NUMERICEND : Nat
  JSV_NAME : Nat
  JSV_NATIVE : Nat
  JSV_FUNCTION_PARAMETER : Nat
  JSV_ARRAYBUFFERNAME : Nat
  JSV_LOCK_SHIFT : Nat
  JSV_LOCK_MAX : Nat
  deriving DecidableEq, Repr

/-- What the code of `jsvar.h` presumes of the constants: the type mask and the lock
mask are runs of low bits, the type bits lie below the lock bits, the string-head tags
`JSV_STRING_0 .. JSV_STRING_MAX` lie below the extension tags
`JSV_STRING_EXT_0 .. JSV_STRING_EXT_MAX` (the test `f < JSV_STRING_EXT_0` tells them
apart), one tag per character count, and all of them fit the type mask. -/
structure JsvConsts.Valid (K : JsvConsts) : Prop where
  typeBits : ∃ k, K.JSV_VARTYPEMASK + 1 = 2 ^ k ∧ k ≤ K.JSV_LOCK_SHIFT
  lockBits : ∃ m, K.JSV_LOCK_MAX + 1 = 2 ^ m
  string_max : K.JSV_STRING_MAX = K.JSV_STRING_0 + K.JSVAR_DATA_STRING_LEN
  ext_max : K.JSV_STRING_EXT_MAX = K.JSV_STRING_EXT_0 + K.JSVAR_DATA_STRING_MAX_LEN
  string_lt_ext : K.JSV_STRING_MAX < K.JSV_STRING_EXT_0
  ext_le_mask : K.JSV_STRING_EXT_MAX ≤ K.JSV_VARTYPEMASK

/-- A layout of the constants that meets `JsvConsts.Valid`: 8 bytes in a string head,
14 in an extension, six type bits, four lock bits from bit 11. -/
def sampleConsts : JsvConsts where
  JSVAR_DATA_STRING_LEN := 8
  JSVAR_DATA_STRING_MAX_LEN := 14
  JSV_VARTYPEMASK := 63
  JSV_ROOT := 1
  JSV_NULL := 2
  JSV_STRING_0 := 3
  JSV_STRING_MAX := 11
  JSV_STRING_EXT_0 := 12
  JSV_STRING_EXT_MAX := 26
  JSV_ARRAY := 27
  JSV_ARRAYBUFFER := 28
  JSV_OBJECT := 29
  JSV_FUNCTION := 30
  JSV_NUMERICSTART := 31
  JSV_INTEGER := 31
  JSV_FLOAT := 32
  JSV_BOOLEAN := 33
  JSV_PIN := 34
  JSV_NUMERICEND := 34
  JSV_NAME := 64
  JSV_NATIVE := 128
  JSV_FUNCTION_PARAMETER := 1024 + 64
  JSV_ARRAYBUFFERNAME := 64 + 28
  JSV_LOCK_SHIFT := 11
  JSV_LOCK_MAX := 15

/-- A cell `JsVar`.  `str` is the character storage `varData.str`, by index (in an
extension cell it runs on over the fields that follow `varData`); the references are
cell numbers, 0 being the null reference. -/
structure JsVar where
  flags : Nat
  str : List Nat
  nextSibling : Nat
  prevSibling : Nat
  refs : Nat
  firstChild : Nat
  lastChild : Nat
  deriving DecidableEq, Repr

/-- The cell pool: the cell behind each reference.  A pointer `JsVar *` is the number of
the cell it points to, 0 for the null pointer. -/
abbrev Heap := Nat → JsVar

/-- Store a cell at a reference. -/
def Heap.set (h : Heap) (r : Nat) (c : JsVar) : Heap := fun q => if q = r then c else h q

/-- The C expression `f & ~m` on unsigned values: the bits of `f` that are not in `m`. -/
def andNot (f m : Nat) : Nat := f ^^^ (f &&& m)

/-- `jsvGetLocks`. -/
def jsvGetLocks (K : JsvConsts) (v : JsVar) : Nat :=
  (v.flags >>> K.JSV_LOCK_SHIFT) &&& K.JSV_LOCK_MAX

/-- `jsvIsString`; `none` is the null pointer. -/
def jsvIsString (K : JsvConsts) (v : Option JsVar) : Bool :=
  match v with
  | none => false
  | some c =>
    decide (c.flags &&& K.JSV_VARTYPEMASK ≥ K.JSV_STRING_0) &&
    decide (c.flags &&& K.JSV_VARTYPEMASK ≤ K.JSV_STRING_MAX)

/-- `jsvIsStringExt`; `none` is the null pointer. -/
def jsvIsStringExt (K : JsvConsts) (v : Option JsVar) : Bool :=
  match v with
  | none => false
  | some c =>
    decide (c.flags &&& K.JSV_VARTYPEMASK ≥ K.JSV_STRING_EXT_0) &&
    decide (c.flags &&& K.JSV_VARTYPEMASK ≤ K.JSV_STRING_EXT_MAX)

/-- `jsvHasRef`. -/
def jsvHasRef (K : JsvConsts) (v : Option JsVar) : Bool := !jsvIsStringExt K v

/-- `jsvGetCharactersInVar`.  The `assert` makes the cell a string head or extension, so
the subtraction does not go below zero. -/
def jsvGetCharactersInVar (K : JsvConsts) (v : JsVar) : Nat :=
  let f := v.flags &&& K.JSV_VARTYPEMASK
  f - (if f < K.JSV_STRING_EXT_0 then K.JSV_STRING_0 else K.JSV_STRING_EXT_0)

/-- `jsvSetCharactersInVar`. -/
def jsvSetCharactersInVar (K : JsvConsts) (v : JsVar) (chars : Nat) : JsVar :=
  let f := v.flags &&& K.JSV_VARTYPEMASK
  { v with flags := andNot v.flags K.JSV_VARTYPEMASK |||
      ((if f < K.JSV_STRING_EXT_0 then K.JSV_STRING_0 else K.JSV_STRING_EXT_0) + chars) }

/-- Modelled from the spec: `jsvLock`, declared in `jsvar.h` and defined outside the
sources at hand.  "`lock(ref)` requires `ref != 0`, increments `locks`, returns the
pointer.  Saturates at `LOCK_MAX`."  The result is the pool; the pointer returned is
`ref` itself. -/
def jsvLock (K : JsvConsts) (h : Heap) (ref : Nat) : Heap :=
  if jsvGetLocks K (h ref) < K.JSV_LOCK_MAX then
    h.set ref { h ref with flags := (h ref).flags + 2 ^ K.JSV_LOCK_SHIFT }
  else h

/-- Modelled from the spec: `jsvUnLock`, declared in `jsvar.h` and defined outside the
sources at hand.  "`unlock(p)` is safe on the null handle; if it drops both counters to
zero, the cell is freed."  A string extension has no reference counter (`jsvHasRef`)
and is not freed here; a lock count of zero stays zero.  `jsvFreePtr`, which frees a
cell, is declared in `jsvar.h` only and is a parameter. -/
def jsvUnLock (K : JsvConsts) (jsvFreePtr : Heap → Nat → Heap) (h : Heap) (var : Nat) :
    Heap :=
  if var = 0 then h
  else
    let h1 : Heap :=
      if jsvGetLocks K (h var) = 0 then h
      else h.set var { h var with flags := (h var).flags - 2 ^ K.JSV_LOCK_SHIFT }
    if jsvGetLocks K (h1 var) = 0 ∧ jsvHasRef K (some (h1 var)) = true ∧ (h1 var).refs = 0
    then jsvFreePtr h1 var
    else h1

/-- `JsvStringIterator`; `size_t` values are natural numbers. -/
structure JsvStringIterator where
  charIdx : Nat
  charsInVar : Nat
  varIndex : Nat
  var : Nat
  deriving DecidableEq, Repr

/-- `jsvStringIteratorGetChar`. -/
def jsvStringIteratorGetChar (h : Heap) (it : JsvStringIterator) : Nat :=
  if it.var = 0 then 0 else (h it.var).str.getD it.charIdx 0

/-- `jsvStringIteratorHasChar`. -/
def jsvStringIteratorHasChar (it : JsvStringIterator) : Bool :=
  decide (it.charIdx < it.charsInVar)

/-- `jsvStringIteratorGetIndex`. -/
def jsvStringIteratorGetIndex (it : JsvStringIterator) : Nat :=
  it.varIndex + it.charIdx

/-- `jsvStringIteratorNextInline`. -/
def jsvStringIteratorNextInline (K : JsvConsts) (jsvFreePtr : Heap → Nat → Heap) (h : Heap)
    (it : JsvStringIterator) : Heap × JsvStringIterator :=
  let charIdx := it.charIdx + 1
  if charIdx ≥ it.charsInVar then
    let charIdx := charIdx - it.charsInVar
    if it.var ≠ 0 ∧ (h it.var).lastChild ≠ 0 then
      let next := (h it.var).lastChild
      let h1 := jsvLock K h next
      let h2 := jsvUnLock K jsvFreePtr h1 it.var
      (h2, { charIdx := charIdx, var := next, varIndex := it.varIndex + it.charsInVar,
             charsInVar := jsvGetCharactersInVar K (h2 next) })
    else
      (jsvUnLock K jsvFreePtr h it.var,
        { charIdx := charIdx, var := 0, varIndex := it.varIndex + it.charsInVar,
          charsInVar := 0 })
  else (h, { it with charIdx := charIdx })

/-- `jsvStringIteratorFree`. -/
def jsvStringIteratorFree (K : JsvConsts) (jsvFreePtr : Heap → Nat → Heap) (h : Heap)
    (it : JsvStringIterator) : Heap :=
  jsvUnLock K jsvFreePtr h it.var

/-- The loop `while (jsvStringIteratorHasChar(&it)) { read jsvStringIteratorGetIndex and
jsvStringIteratorGetChar; jsvStringIteratorNextInline(&it); }`: the pairs (index, byte)
read, in order, and the pool and iterator at the end.  `none` when the fuel runs out. -/
def stringIteratorWalk (K : JsvConsts) (jsvFreePtr : Heap → Nat → Heap) :
    Nat → Heap → JsvStringIterator → Option (List (Nat × Nat) × Heap × JsvStringIterator)
  | 0, _, _ => none
  | fuel + 1, h, it =>
    if jsvStringIteratorHasChar it = true then
      let rd := (jsvStringIteratorGetIndex it, jsvStringIteratorGetChar h it)
      let st := jsvStringIteratorNextInline K jsvFreePtr h it
      match stringIteratorWalk K jsvFreePtr fuel st.1 st.2 with
      | none => none
      | some (out, hf, itf) => some (rd :: out, hf, itf)
    else some ([], h, it)

/-- `JsvArrayIterator`. -/
structure JsvArrayIterator where
  var : Nat
  deriving DecidableEq, Repr

/-- `jsvArrayIteratorNew`. -/
def jsvArrayIteratorNew (K : JsvConsts) (h : Heap) (arr : Nat) : Heap × JsvArrayIterator :=
  if (h arr).firstChild ≠ 0 then (jsvLock K h (h arr).firstChild, ⟨(h arr).firstChild⟩)
  else (h, ⟨0⟩)

/-- `jsvArrayIteratorNext`. -/
def jsvArrayIteratorNext (K : JsvConsts) (jsvFreePtr : Heap → Nat → Heap) (h : Heap)
    (it : JsvArrayIterator) : Heap × JsvArrayIterator :=
  if it.var ≠ 0 then
    let next := (h it.var).nextSibling
    let h1 := jsvUnLock K jsvFreePtr h it.var
    if next ≠ 0 then (jsvLock K h1 next, ⟨next⟩) else (h1, ⟨0⟩)
  else (h, it)

/-- `jsvArrayIteratorFree`. -/
def jsvArrayIteratorFree (K : JsvConsts) (jsvFreePtr : Heap → Nat → Heap) (h : Heap)
    (it : JsvArrayIterator) : Heap :=
  jsvUnLock K jsvFreePtr h it.var

/-- `JsvObjectIterator`. -/
structure JsvObjectIterator where
  var : Nat
  deriving DecidableEq, Repr

/-- `jsvObjectIteratorNew`. -/
def jsvObjectIteratorNew (K : JsvConsts) (h : Heap) (obj : Nat) :
    Heap × JsvObjectIterator :=
  if (h obj).firstChild ≠ 0 then (jsvLock K h (h obj).firstChild, ⟨(h obj).firstChild⟩)
  else (h, ⟨0⟩)

/-- `jsvObjectIteratorNext`. -/
def jsvObjectIteratorNext (K : JsvConsts) (jsvFreePtr : Heap → Nat → Heap) (h : Heap)
    (it : JsvObjectIterator) : Heap × JsvObjectIterator :=
  if it.var ≠ 0 then
    let next := (h it.var).nextSibling
    let h1 := jsvUnLock K jsvFreePtr h it.var
    if next ≠ 0 then (jsvLock K h1 next, ⟨next⟩) else (h1, ⟨0⟩)
  else (h, it)

/-- `jsvObjectIteratorFree`. -/
def jsvObjectIteratorFree (K : JsvConsts) (jsvFreePtr : Heap → Nat → Heap) (h : Heap)
    (it : JsvObjectIterator) : Heap :=
  jsvUnLock K jsvFreePtr h it.var

/-- Two cells that differ at most in their lock count: the same type tag, characters,
links and reference count. -/
def SameButLocks (K : JsvConsts) (c c' : JsVar) : Prop :=
  c'.flags &&& K.JSV_VARTYPEMASK = c.flags &&& K.JSV_VARTYPEMASK ∧ c'.str = c.str ∧
  c'.nextSibling = c.nextSibling ∧ c'.prevSibling = c.prevSibling ∧ c'.refs = c.refs ∧
  c'.firstChild = c.firstChild ∧ c'.lastChild = c.lastChild

/-- Unlocking the cell does not free it: it has no reference counter, or it is
referenced, or it holds a second lock. -/
def SafeUnlock (K : JsvConsts) (c : JsVar) : Prop :=
  jsvHasRef K (some c) = false ∨ c.refs ≠ 0 ∨ 2 ≤ jsvGetLocks K c

/-- A string chain: the cells in order, each linked to the next through `lastChild`,
the last one with `lastChild = 0`. -/
def IsChain (h : Heap) : List Nat → Prop
  | [] => False
  | [c] => c ≠ 0 ∧ (h c).lastChild = 0
  | c :: d :: rest => c ≠ 0 ∧ (h c).lastChild = d ∧ IsChain h (d :: rest)

/-- The bytes a cell holds: the first `jsvGetCharactersInVar` entries of `str`. -/
def cellBytes (K : JsvConsts) (c : JsVar) : List Nat :=
  (List.range (jsvGetCharactersInVar K c)).map (fun i => c.str.getD i 0)

/-- The bytes of a chain of cells, in chain order. -/
def chainBytes (K : JsvConsts) (h : Heap) (cells : List Nat) : List Nat :=
  cells.flatMap (fun c => cellBytes K (h c))

/-- The sum of the character counts of the cells of a chain. -/
def chainLength (K : JsvConsts) (h : Heap) (cells : List Nat) : Nat :=
  (cells.map (fun c => jsvGetCharactersInVar K (h c))).sum

/-- The reads `(index, byte)` of a walk that stands at position `j` of the first cell of
`cells`, the first byte of that cell having index `v`. -/
def walkReads (K : JsvConsts) (h : Heap) : Nat → Nat → List Nat → List (Nat × Nat)
  | _, _, [] => []
  | v, j, c :: rest =>
    (List.range' j (jsvGetCharactersInVar K (h c) - j)).map
        (fun i => (v + i, (h c).str.getD i 0)) ++
      walkReads K h (v + jsvGetCharactersInVar K (h c)) 0 rest

/-- `n` calls of `jsvArrayIteratorNext`. -/
def jsvArrayIteratorNexts (K : JsvConsts) (fr : Heap → Nat → Heap) :
    Nat → Heap × JsvArrayIterator → Heap × JsvArrayIterator
  | 0, st => st
  | n + 1, st => jsvArrayIteratorNexts K fr n (jsvArrayIteratorNext K fr st.1 st.2)

/-- `n` calls of `jsvObjectIteratorNext`. -/
def jsvObjectIteratorNexts (K : JsvConsts) (fr : Heap → Nat → Heap) :
    Nat → Heap × JsvObjectIterator → Heap × JsvObjectIterator
  | 0, st => st
  | n + 1, st => jsvObjectIteratorNexts K fr n (jsvObjectIteratorNext K fr st.1 st.2)

/-- `n` calls of `jsvStringIteratorNextInline`. -/
def jsvStringIteratorNexts (K : JsvConsts) (fr : Heap → Nat → Heap) :
    Nat → Heap × JsvStringIterator → Heap × JsvStringIterator
  | 0, st => st
  | n + 1, st => jsvStringIteratorNexts K fr n (jsvStringIteratorNextInline K fr st.1 st.2)

/-- One lock on the cursor cell `cur` (none when `cur` is the null pointer). -/
def cursorLock (cur q : Nat) : Nat := if q = cur ∧ q ≠ 0 then 1 else 0

/-- A cell an iterator may visit, `l` being its lock count without the iterator's lock:
the count is below `JSV_LOCK_MAX`, so that locking it counts, and the cell stays alive
when the iterator unlocks it (it has no reference counter, or it is referenced, or it
is locked by someone else). -/
def Visitable (K : JsvConsts) (c : JsVar) (l : Nat) : Prop :=
  l < K.JSV_LOCK_MAX ∧ (jsvHasRef K (some c) = false ∨ c.refs ≠ 0 ∨ 1 ≤ l)

/-- The pool `hc` is the pool `h` with the lock counts `l` and one more lock on the
cursor cell `cur`; nothing but lock counts differs. -/
def CursorInv (K : JsvConsts) (h : Heap) (l : Nat → Nat) (hc : Heap) (cur : Nat) : Prop :=
  (∀ q, SameButLocks K (h q) (hc q)) ∧
  (∀ q, jsvGetLocks K (hc q) = l q + cursorLock cur q)

/-- A pool for concrete evaluation with `sampleConsts`: cell 1 is an array, locked once,
with the two names 2 and 3 as children; cell 4 is a string head holding "hi", locked
twice, and cell 5 its extension holding "!". -/
def sampleHeap : Heap := fun r =>
  if r = 1 then ⟨2048 + 27, [], 0, 0, 1, 2, 3⟩
  else if r = 2 then ⟨64 + 31, [0], 3, 0, 1, 0, 0⟩
  else if r = 3 then ⟨64 + 31, [1], 0, 2, 1, 0, 0⟩
  else if r = 4 then ⟨2 * 2048 + 5, [104, 105], 0, 0, 0, 0, 5⟩
  else if r = 5 then ⟨13, [33], 0, 0, 0, 0, 0⟩
  else ⟨0, [], 0, 0, 0, 0, 0⟩

/-- The pool `sampleHeap` with the lock count of the name cell 2 at `JSV_LOCK_MAX`. -/
def saturatedHeap : Heap := fun r =>
  if r = 2 then ⟨15 * 2048 + 64 + 31, [0], 3, 0, 1, 0, 0⟩ else sampleHeap r

/-- A `jsvFreePtr` for concrete evaluation: it marks the cell unused (`flags = 0`). -/
def sampleFreePtr : Heap → Nat → Heap := fun h r => h.set r { h r with flags := 0 }

/-- The row that `graphicsFillPolyCreateVertScanLines` computes at column `x` for the edge
from `(x1, y1)` to `(x2, y2)`: `yh >> 8` after `x - xa` steps from the left end `xa`. -/
def edgeRow (x1 y1 x2 y2 x : Int) : Int :=
  let xa := if x2 < x1 then x2 else x1
  let ya := if x2 < x1 then y2 else y1
  let xb := if x2 < x1 then x1 else x2
  let yb := if x2 < x1 then y1 else y2
  let xl0 := xb - xa
  let xl := if xl0 = 0 then 1 else xl0
  (ya * 256 + (x - xa) * Int.tdiv ((yb - ya) * 256) xl) >>> (8 : Nat)

/-- The column `x` is one of the columns of the edge `e`. -/
def edgeCovers (e : (Int × Int) × (Int × Int)) (x : Int) : Prop :=
  min e.1.1 e.2.1 ≤ x ∧ x ≤ max e.1.1 e.2.1

instance (e : (Int × Int) × (Int × Int)) (x : Int) : Decidable (edgeCovers e x) := by
  unfold edgeCovers
  infer_instance

/-- The least of `init` and the rows computed at column `x` for the edges `es`. -/
def columnMin (es : List ((Int × Int) × (Int × Int))) (x : Int) (init : Int) : Int :=
  es.foldl (fun lo e =>
    if edgeCovers e x then min lo (edgeRow e.1.1 e.1.2 e.2.1 e.2.2 x) else lo) init

/-- The greatest of `init` and the rows computed at column `x` for the edges `es`. -/
def columnMax (es : List ((Int × Int) × (Int × Int))) (x : Int) (init : Int) : Int :=
  es.foldl (fun hi e =>
    if edgeCovers e x then max hi (edgeRow e.1.1 e.1.2 e.2.1 e.2.2 x) else hi) init

/-! ## Rectangles and clearing -/

/-- An installed `fillRect`: given the graphics data and the corners it yields what it
does (for a sink, the calls it makes) and the graphics data it leaves, or `none` when it
does not return. -/
abbrev FillRect (τ : Type) :=
  JsGraphicsData → Int → Int → Int → Int → Option (τ × JsGraphicsData)

/-- The software `fillRect` that `graphicsGetFromVar` installs: `graphicsFallbackFillRect`
with each `graphicsSetPixel` call carried through to the installed `setPixel` sink.  It
yields the sink calls, in order, and leaves the graphics data alone. -/
def softwareFillRect (longBits fuel : Nat) : FillRect (List Pixel) :=
  fun gfx x1 y1 x2 y2 =>
    match graphicsFallbackFillRect gfx x1 y1 x2 y2 fuel with
    | none => none
    | some reqs =>
      some (reqs.flatMap (fun p => graphicsSetPixel longBits gfx p.x p.y p.col), gfx)

/-- A `fillRect` that records its corners and does nothing else. -/
def recordFillRect : FillRect (List Rect) :=
  fun gfx x1 y1 x2 y2 => some ([⟨x1, y1, x2, y2⟩], gfx)

/-- `graphicsFillRect`: the call of the installed `fillRect`. -/
def graphicsFillRect {τ : Type} (fillRect : FillRect τ) (gfx : JsGraphicsData)
    (x1 y1 x2 y2 : Int) : Option (τ × JsGraphicsData) :=
  fillRect gfx x1 y1 x2 y2

/-- `graphicsClear`: what the installed `fillRect` does, and the graphics data after the
call. -/
def graphicsClear {τ : Type} (fillRect : FillRect τ) (gfx : JsGraphicsData) :
    Option (τ × JsGraphicsData) :=
  let c := gfx.fgColor
  let g1 := { gfx with fgColor := gfx.bgColor }
  match graphicsFillRect fillRect g1 0 0 (toShort ((g1.width : Int) - 1))
      (toShort ((g1.height : Int) - 1)) with
  | none => none
  | some (out, g2) => some (out, { g2 with fgColor := c })

/-- `graphicsDrawRect`: what the four `graphicsFillRect` calls do, in order, and the
graphics data after them. -/
def graphicsDrawRect {α : Type} (fillRect : FillRect (List α)) (gfx : JsGraphicsData)
    (x1 y1 x2 y2 : Int) : Option (List α × JsGraphicsData) :=
  match graphicsFillRect fillRect gfx x1 y1 x2 y1 with
  | none => none
  | some (o1, g1) =>
    match graphicsFillRect fillRect g1 x2 y1 x2 y2 with
    | none => none
    | some (o2, g2) =>
      match graphicsFillRect fillRect g2 x1 y2 x2 y2 with
      | none => none
      | some (o3, g3) =>
        match graphicsFillRect fillRect g3 x1 y2 x1 y1 with
        | none => none
        | some (o4, g4) => some (o1 ++ o2 ++ o3 ++ o4, g4)

/-- `jsvArrayIteratorRemoveAndGotoNext`.  `jsvRemoveChild` is declared in `jsvar.h` and
defined outside the sources at hand; it is a parameter, the pool after
`jsvRemoveChild(parent, child)`. -/
def jsvArrayIteratorRemoveAndGotoNext (K : JsvConsts) (jsvRemoveChild : Heap → Nat → Nat → Heap)
    (jsvFreePtr : Heap → Nat → Heap) (h : Heap) (it : JsvArrayIterator) (parent : Nat) :
    Heap × JsvArrayIterator :=
  if it.var ≠ 0 then
    let next := (h it.var).nextSibling
    let h1 := jsvRemoveChild h parent it.var
    let h2 := jsvUnLock K jsvFreePtr h1 it.var
    if next ≠ 0 then (jsvLock K h2 next, ⟨next⟩) else (h2, ⟨0⟩)
  else (h, it)

/-- A `jsvRemoveChild` for concrete evaluation: it takes the name out of the child list
(the links of the parent and of the neighbours), clears the sibling links of the name and
drops the reference the list held. -/
def sampleRemoveChild : Heap → Nat → Nat → Heap := fun h parent child =>
  let next := (h child).nextSibling
  let prev := (h child).prevSibling
  let h1 := if (h parent).firstChild = child
    then h.set parent { h parent with firstChild := next } else h
  let h2 := if (h1 parent).lastChild = child
    then h1.set parent { h1 parent with lastChild := prev } else h1
  let h3 := if prev ≠ 0 then h2.set prev { h2 prev with nextSibling := next } else h2
  let h4 := if next ≠ 0 then h3.set next { h3 next with prevSibling := prev } else h3
  h4.set child { h4 child with nextSibling := 0, prevSibling := 0, refs := (h4 child).refs - 1 }

/-- The pool `sampleHeap` with the lock count of the name cell 3 at `JSV_LOCK_MAX`. -/
def saturatedNextHeap : Heap := fun r =>
  if r = 3 then ⟨15 * 2048 + 64 + 31, [1], 0, 2, 1, 0, 0⟩ else sampleHeap r

/-- The pool `sampleHeap` after `jsvArrayIteratorNew` on the array 1: the iterator stands on
the name 2 and holds a lock on it. -/
def sampleIterHeap : Heap := (jsvArrayIteratorNew sampleConsts sampleHeap 1).1

/-- Modelled from the spec: `jsvLockAgain`, declared in `jsvar.h` ("Lock this pointer and
return a pointer") and defined outside the sources at hand.  It is the lock of the
specification, "increments `locks` ... Saturates at `LOCK_MAX`", on a cell given by
pointer. -/
def jsvLockAgain (K : JsvConsts) (h : Heap) (var : Nat) : Heap := jsvLock K h var

/-- `jsvStringIteratorClone`: the pool and the copy returned. -/
def jsvStringIteratorClone (K : JsvConsts) (h : Heap) (it : JsvStringIterator) :
    Heap × JsvStringIterator :=
  let i := it
  if i.var ≠ 0 then (jsvLockAgain K h i.var, i) else (h, i)

/-- `jsvArrayIteratorClone`: the pool and the copy returned. -/
def jsvArrayIteratorClone (K : JsvConsts) (h : Heap) (it : JsvArrayIterator) :
    Heap × JsvArrayIterator :=
  let i := it
  if i.var ≠ 0 then (jsvLockAgain K h i.var, i) else (h, i)

/-- `jsvObjectIteratorClone`: the pool and the copy returned. -/
def jsvObjectIteratorClone (K : JsvConsts) (h : Heap) (it : JsvObjectIterator) :
    Heap × JsvObjectIterator :=
  let i := it
  if i.var ≠ 0 then (jsvLockAgain K h i.var, i) else (h, i)

/-- `JsvArrayBufferIterator`; `type` is the `JsVarDataArrayBufferViewType` code. -/
structure JsvArrayBufferIterator where
  it : JsvStringIterator
  type : Nat
  byteLength : Nat
  byteOffset : Nat
  index : Nat
  hasAccessedElement : Bool
  deriving DecidableEq, Repr

/-- `jsvArrayBufferIteratorClone`: the pool and the copy returned. -/
def jsvArrayBufferIteratorClone (K : JsvConsts) (h : Heap) (it : JsvArrayBufferIterator) :
    Heap × JsvArrayBufferIterator :=
  let i := it
  let r := jsvStringIteratorClone K h it.it
  (r.1, { i with it := r.2 })

/-- The pool `h'` is the pool `h` after one more lock on the cell `var`: nothing changes
when `var` is the null pointer; otherwise no other cell changes, the cell `var` differs at
most in its lock count, which is one higher when it was below `JSV_LOCK_MAX` and stays
when it was at `JSV_LOCK_MAX`. -/
def LockedOnce (K : JsvConsts) (h : Heap) (var : Nat) (h' : Heap) : Prop :=
  (var = 0 → h' = h) ∧
  (var ≠ 0 →
    (∀ q, q ≠ var → h' q = h q) ∧ SameButLocks K (h var) (h' var) ∧
    (jsvGetLocks K (h var) < K.JSV_LOCK_MAX →
      jsvGetLocks K (h' var) = jsvGetLocks K (h var) + 1) ∧
    (¬ jsvGetLocks K (h var) < K.JSV_LOCK_MAX → h' = h))

/-- Write the character `c` at index `i` of the character storage of a cell.  Storage
beyond the end of the list holds zeros, as `getD i 0` reads it. -/
def strSet (s : List Nat) (i c : Nat) : List Nat :=
  (s ++ List.replicate (i + 1 - s.length) 0).set i c

/-- `jsvStringIteratorSetChar`: the pool and the iterator after the call; `none` when the
call dereferences a null `it->var`. -/
def jsvStringIteratorSetChar (h : Heap) (it : JsvStringIterator) (c : Nat) :
    Option (Heap × JsvStringIterator) :=
  if jsvStringIteratorHasChar it = true then
    if it.var = 0 then none
    else some (h.set it.var { h it.var with str := strSet (h it.var).str it.charIdx c }, it)
  else some (h, it)

/-! ## Array-buffer view types (`JsVarDataArrayBufferViewType`) -/

/-- `ARRAYBUFFERVIEW_MASK_SIZE`. -/
def ARRAYBUFFERVIEW_MASK_SIZE : Nat := 15

/-- `ARRAYBUFFERVIEW_SIGNED`. -/
def ARRAYBUFFERVIEW_SIGNED : Nat := 16

/-- `ARRAYBUFFERVIEW_FLOAT`. -/
def ARRAYBUFFERVIEW_FLOAT : Nat := 32

/-- `ARRAYBUFFERVIEW_UINT8`. -/
def ARRAYBUFFERVIEW_UINT8 : Nat := 1

/-- `ARRAYBUFFERVIEW_INT8`. -/
def ARRAYBUFFERVIEW_INT8 : Nat := 1 ||| ARRAYBUFFERVIEW_SIGNED

/-- `ARRAYBUFFERVIEW_UINT16`. -/
def ARRAYBUFFERVIEW_UINT16 : Nat := 2

/-- `ARRAYBUFFERVIEW_INT16`. -/
def ARRAYBUFFERVIEW_INT16 : Nat := 2 ||| ARRAYBUFFERVIEW_SIGNED

/-- `ARRAYBUFFERVIEW_UINT32`. -/
def ARRAYBUFFERVIEW_UINT32 : Nat := 4

/-- `ARRAYBUFFERVIEW_INT32`. -/
def ARRAYBUFFERVIEW_INT32 : Nat := 4 ||| ARRAYBUFFERVIEW_SIGNED

/-- `ARRAYBUFFERVIEW_FLOAT32`. -/
def ARRAYBUFFERVIEW_FLOAT32 : Nat := 4 ||| ARRAYBUFFERVIEW_FLOAT

/-- `ARRAYBUFFERVIEW_FLOAT64`. -/
def ARRAYBUFFERVIEW_FLOAT64 : Nat := 8 ||| ARRAYBUFFERVIEW_FLOAT

/-- The macro `JSV_ARRAYBUFFER_GET_SIZE`. -/
def JSV_ARRAYBUFFER_GET_SIZE (t : Nat) : Nat := t &&& ARRAYBUFFERVIEW_MASK_SIZE

/-- The macro `JSV_ARRAYBUFFER_IS_SIGNED`. -/
def JSV_ARRAYBUFFER_IS_SIGNED (t : Nat) : Bool := decide (t &&& ARRAYBUFFERVIEW_SIGNED ≠ 0)

/-- The macro `JSV_ARRAYBUFFER_IS_FLOAT`. -/
def JSV_ARRAYBUFFER_IS_FLOAT (t : Nat) : Bool := decide (t &&& ARRAYBUFFERVIEW_FLOAT ≠ 0)

/-- The eight view types, in the order UINT8, INT8, UINT16, INT16, UINT32, INT32, FLOAT32,
FLOAT64. -/
def arrayBufferViewTypes : List Nat :=
  [ARRAYBUFFERVIEW_UINT8, ARRAYBUFFERVIEW_INT8, ARRAYBUFFERVIEW_UINT16, ARRAYBUFFERVIEW_INT16,
   ARRAYBUFFERVIEW_UINT32, ARRAYBUFFERVIEW_INT32, ARRAYBUFFERVIEW_FLOAT32,
   ARRAYBUFFERVIEW_FLOAT64]

/-! ## Vector font -/

/-- `VectorFontChar`: the entry of a glyph in the table `vectorFonts`. -/
structure VectorFontChar where
  vertCount : Nat
  width : Nat
  deriving DecidableEq, Repr

/-- The tables and constants of `vector_font.h`, which is not among the sources at hand;
they are parameters.  `vectorFontPolys` is the byte table, by index. -/
structure VectorFont where
  vectorFontOffset : Int
  vectorFontCount : Int
  vectorFonts : Nat → VectorFontChar
  vectorFontPolys : Nat → Nat
  VECTOR_FONT_POLY_SIZE : Nat
  VECTOR_FONT_MAX_POLY_SIZE : Nat
  VECTOR_FONT_POLY_SEPARATOR : Nat

/-- The coordinate `(short)(x1+(((b&0x7F)*size+(VECTOR_FONT_POLY_SIZE/2))/VECTOR_FONT_POLY_SIZE))`
that `graphicsFillVectorChar` computes from the table byte `b`. -/
def vectorCoord (F : VectorFont) (x1 size : Int) (b : Nat) : Int :=
  toShort (x1 + Int.tdiv (((b &&& 0x7F : Nat) : Int) * size +
    ((F.VECTOR_FONT_POLY_SIZE / 2 : Nat) : Int)) (F.VECTOR_FONT_POLY_SIZE : Int))

/-- The second loop of `graphicsFillVectorChar`, over the values `i` of its counter that
are still to come: `verts` holds the `idx/2` vertices gathered so far, `polls` counts the
calls of `jspIsInterrupted` made, `acc` the `graphicsFillRect` calls made.  `none` when a
vertex is written past the end of `verts` or `graphicsFillPoly` does not return. -/
def fillVectorCharPolys (F : VectorFont) (gfx : JsGraphicsData) (interrupted : Nat → Bool)
    (x1 y1 size : Int) (vertOffset : Nat) (fuel : Nat) :
    List Nat → List (Int × Int) → Nat → List Rect → Option (List Rect)
  | [], _, _, acc => some acc
  | i :: rest, verts, polls, acc =>
    if verts.length ≥ F.VECTOR_FONT_MAX_POLY_SIZE then none
    else
      let vx := vectorCoord F x1 size (F.vectorFontPolys (vertOffset + i + 0))
      let vy := vectorCoord F y1 size (F.vectorFontPolys (vertOffset + i + 1))
      let verts1 := verts ++ [(vx, vy)]
      if F.vectorFontPolys (vertOffset + i + 1) &&& F.VECTOR_FONT_POLY_SEPARATOR ≠ 0 then
        match graphicsFillPoly gfx (fun k => interrupted (polls + k)) verts1 fuel with
        | none => none
        | some rects =>
          if interrupted (polls + rects.length) = true then some (acc ++ rects)
          else fillVectorCharPolys F gfx interrupted x1 y1 size vertOffset fuel rest []
            (polls + rects.length + 1) (acc ++ rects)
      else fillVectorCharPolys F gfx interrupted x1 y1 size vertOffset fuel rest verts1 polls acc

/-- The value `(vector.width * (unsigned int)size)/(VECTOR_FONT_POLY_SIZE*2)` that both
`graphicsFillVectorChar` and `graphicsVectorCharWidth` return for a glyph, in `unsigned int`
arithmetic. -/
def vectorAdvance (F : VectorFont) (vector : VectorFontChar) (size : Int) : Nat :=
  toUInt ((vector.width : Int) * size) / toUInt ((F.VECTOR_FONT_POLY_SIZE : Int) * 2)

/-- `graphicsFillVectorChar`: the `graphicsFillRect` calls made, in order, and the value
returned.  `interrupted k` is what the `k`-th call of `jspIsInterrupted` returns; `ch` is
the value of the `char`. -/
def graphicsFillVectorChar (F : VectorFont) (gfx : JsGraphicsData) (interrupted : Nat → Bool)
    (x1 y1 size ch : Int) (fuel : Nat) : Option (List Rect × Nat) :=
  if size < 0 then some ([], 0)
  else if ch < F.vectorFontOffset ∨ ch - F.vectorFontOffset ≥ F.vectorFontCount then
    some ([], 0)
  else
    let fontOffset := (ch - F.vectorFontOffset).toNat
    let vertOffset := ((List.range fontOffset).map (fun i => (F.vectorFonts i).vertCount)).sum
    let vector := F.vectorFonts fontOffset
    match fillVectorCharPolys F gfx interrupted x1 y1 size vertOffset fuel
        ((List.range ((vector.vertCount + 1) / 2)).map (fun k => 2 * k)) [] 0 [] with
    | none => none
    | some rects => some (rects, vectorAdvance F vector size)

/-- `graphicsVectorCharWidth`. -/
def graphicsVectorCharWidth (F : VectorFont) (size ch : Int) : Nat :=
  if size < 0 then 0
  else if ch < F.vectorFontOffset ∨ ch - F.vectorFontOffset ≥ F.vectorFontCount then 0
  else vectorAdvance F (F.vectorFonts (ch - F.vectorFontOffset).toNat) size

/-- A font for concrete evaluation: one glyph, for the character 32, of width 50, the
triangle (0,0), (10,0), (5,10) with the separator bit on its last byte; coordinates are
in units of 1/96. -/
def sampleFont : VectorFont where
  vectorFontOffset := 32
  vectorFontCount := 1
  vectorFonts := fun _ => ⟨6, 50⟩
  vectorFontPolys := fun i => [0, 0, 10, 0, 5, 10 + 128].getD i 0
  VECTOR_FONT_POLY_SIZE := 96
  VECTOR_FONT_MAX_POLY_SIZE := 64
  VECTOR_FONT_POLY_SEPARATOR := 128

/-! ## Loops watched for a bounded number of passes -/

/-- The loop `for (x = lo; x <= hi; x++) s = body(x, s);` over a `short` counter `x`,
watched for at most `n` passes: the state when the loop has ended or `n` passes have been
made, whichever comes first.  It differs from `forShort` only at `n = 0`, where it yields
the state reached instead of nothing, so it also describes a loop that does not end. -/
def forShortPrefix {σ : Type} (body : Int → σ → Option σ) : Nat → Int → Int → σ → Option σ
  | 0, _, _, s => some s
  | n + 1, x, hi, s =>
    if x ≤ hi then
      match body x s with
      | none => none
      | some s1 => forShortPrefix body n (toShort (x + 1)) hi s1
    else some s

/-- `graphicsDrawLine` watched for at most `n` passes of its loop: the calls made to
`graphicsSetPixel` up to then, in order. -/
def graphicsDrawLinePrefix (gfx : JsGraphicsData) (x1 y1 x2 y2 : Int) (n : Nat) :
    Option (List Pixel) :=
  let xl0 := x2 - x1
  let yl0 := y2 - y1
  let xl := if xl0 < 0 then -xl0 else if xl0 = 0 then 1 else xl0
  let yl := if yl0 < 0 then -yl0 else if yl0 = 0 then 1 else yl0
  if xl > yl then
    let xa := if x1 > x2 then x2 else x1
    let ya := if x1 > x2 then y2 else y1
    let xb := if x1 > x2 then x1 else x2
    let yb := if x1 > x2 then y1 else y2
    let pos := ya * 256 + 128
    let step := Int.tdiv ((yb - ya) * 256) xl
    (forShortPrefix (drawLineStep (fun x y => ⟨x, y, gfx.fgColor⟩) step) n xa xb
      (pos, [])).map Prod.snd
  else
    let xa := if y1 > y2 then x2 else x1
    let ya := if y1 > y2 then y2 else y1
    let xb := if y1 > y2 then x1 else x2
    let yb := if y1 > y2 then y1 else y2
    let pos := xa * 256 + 128
    let step := Int.tdiv ((xb - xa) * 256) yl
    (forShortPrefix (drawLineStep (fun y x => ⟨x, y, gfx.fgColor⟩) step) n ya yb
      (pos, [])).map Prod.snd

/-! ## Reading through the array and object iterators -/

/-- `jsvArrayIteratorGetElement`: the pool and the pointer returned. -/
def jsvArrayIteratorGetElement (K : JsvConsts) (h : Heap) (it : JsvArrayIterator) :
    Heap × Nat :=
  if it.var = 0 then (h, 0)
  else if (h it.var).firstChild ≠ 0 then
    (jsvLock K h (h it.var).firstChild, (h it.var).firstChild)
  else (h, 0)

/-- `jsvArrayIteratorGetIndex`: the pool and the pointer returned. -/
def jsvArrayIteratorGetIndex (K : JsvConsts) (h : Heap) (it : JsvArrayIterator) :
    Heap × Nat :=
  if it.var = 0 then (h, 0) else (jsvLockAgain K h it.var, it.var)

/-- `jsvArrayIteratorHasElement`. -/
def jsvArrayIteratorHasElement (it : JsvArrayIterator) : Bool := decide (it.var ≠ 0)

/-- `jsvObjectIteratorGetKey`: the pool and the pointer returned. -/
def jsvObjectIteratorGetKey (K : JsvConsts) (h : Heap) (it : JsvObjectIterator) :
    Heap × Nat :=
  if it.var = 0 then (h, 0) else (jsvLockAgain K h it.var, it.var)

/-- `jsvObjectIteratorGetValue`: the pool and the pointer returned. -/
def jsvObjectIteratorGetValue (K : JsvConsts) (h : Heap) (it : JsvObjectIterator) :
    Heap × Nat :=
  if it.var = 0 then (h, 0)
  else if (h it.var).firstChild ≠ 0 then
    (jsvLock K h (h it.var).firstChild, (h it.var).firstChild)
  else (h, 0)

/-- `jsvObjectIteratorHasElement`. -/
def jsvObjectIteratorHasElement (it : JsvObjectIterator) : Bool := decide (it.var ≠ 0)

/-- The pool `sampleHeap` with a value for the name 2: the integer cell 6, referenced
once. -/
def sampleValueHeap : Heap := fun r =>
  if r = 2 then ⟨64 + 31, [0], 3, 0, 1, 6, 0⟩
  else if r = 6 then ⟨31, [7], 0, 0, 1, 0, 0⟩
  else sampleHeap r

/-! ## Type predicates (`jsvIs*`) -/

/-- `jsvIsRoot`; `none` is the null pointer. -/
def jsvIsRoot (K : JsvConsts) (v : Option JsVar) : Bool :=
  match v with
  | none => false
  | some c => decide (c.flags &&& K.JSV_VARTYPEMASK = K.JSV_ROOT)

/-- `jsvIsPin`. -/
def jsvIsPin (K : JsvConsts) (v : Option JsVar) : Bool :=
  match v with
  | none => false
  | some c => decide (c.flags &&& K.JSV_VARTYPEMASK = K.JSV_PIN)

/-- `jsvIsInt`. -/
def jsvIsInt (K : JsvConsts) (v : Option JsVar) : Bool :=
  match v with
  | none => false
  | some c =>
    decide (c.flags &&& K.JSV_VARTYPEMASK = K.JSV_INTEGER) ||
    decide (c.flags &&& K.JSV_VARTYPEMASK = K.JSV_PIN)

/-- `jsvIsFloat`. -/
def jsvIsFloat (K : JsvConsts) (v : Option JsVar) : Bool :=
  match v with
  | none => false
  | some c => decide (c.flags &&& K.JSV_VARTYPEMASK = K.JSV_FLOAT)

/-- `jsvIsBoolean`. -/
def jsvIsBoolean (K : JsvConsts) (v : Option JsVar) : Bool :=
  match v with
  | none => false
  | some c => decide (c.flags &&& K.JSV_VARTYPEMASK = K.JSV_BOOLEAN)

/-- `jsvIsNumeric`. -/
def jsvIsNumeric (K : JsvConsts) (v : Option JsVar) : Bool :=
  match v with
  | none => false
  | some c =>
    decide (c.flags &&& K.JSV_VARTYPEMASK ≥ K.JSV_NUMERICSTART) &&
    decide (c.flags &&& K.JSV_VARTYPEMASK ≤ K.JSV_NUMERICEND)

/-- `jsvIsFunction`. -/
def jsvIsFunction (K : JsvConsts) (v : Option JsVar) : Bool :=
  match v with
  | none => false
  | some c => decide (c.flags &&& K.JSV_VARTYPEMASK = K.JSV_FUNCTION)

/-- `jsvIsFunctionParameter`. -/
def jsvIsFunctionParameter (K : JsvConsts) (v : Option JsVar) : Bool :=
  match v with
  | none => false
  | some c => decide (c.flags &&& K.JSV_FUNCTION_PARAMETER = K.JSV_FUNCTION_PARAMETER)

/-- `jsvIsObject`. -/
def jsvIsObject (K : JsvConsts) (v : Option JsVar) : Bool :=
  match v with
  | none => false
  | some c =>
    decide (c.flags &&& K.JSV_VARTYPEMASK = K.JSV_OBJECT) ||
    decide (c.flags &&& K.JSV_VARTYPEMASK = K.JSV_ROOT)

/-- `jsvIsArray`. -/
def jsvIsArray (K : JsvConsts) (v : Option JsVar) : Bool :=
  match v with
  | none => false
  | some c => decide (c.flags &&& K.JSV_VARTYPEMASK = K.JSV_ARRAY)

/-- `jsvIsArrayBuffer`. -/
def jsvIsArrayBuffer (K : JsvConsts) (v : Option JsVar) : Bool :=
  match v with
  | none => false
  | some c => decide (c.flags &&& K.JSV_VARTYPEMASK = K.JSV_ARRAYBUFFER)

/-- `jsvIsArrayBufferName`. -/
def jsvIsArrayBufferName (K : JsvConsts) (v : Option JsVar) : Bool :=
  match v with
  | none => false
  | some c =>
    decide (c.flags &&& (K.JSV_VARTYPEMASK ||| K.JSV_NAME) = K.JSV_ARRAYBUFFERNAME)

/-- `jsvIsNative`. -/
def jsvIsNative (K : JsvConsts) (v : Option JsVar) : Bool :=
  match v with
  | none => false
  | some c => decide (c.flags &&& K.JSV_NATIVE ≠ 0)

/-- `jsvIsUndefined`: the test `v==0`. -/
def jsvIsUndefined (v : Option JsVar) : Bool :=
  match v with
  | none => true
  | some _ => false

/-- `jsvIsNull`. -/
def jsvIsNull (K : JsvConsts) (v : Option JsVar) : Bool :=
  match v with
  | none => false
  | some c => decide (c.flags &&& K.JSV_VARTYPEMASK = K.JSV_NULL)

/-- `jsvIsBasic`. -/
def jsvIsBasic (K : JsvConsts) (v : Option JsVar) : Bool :=
  jsvIsNumeric K v || jsvIsString K v

/-- `jsvIsName`. -/
def jsvIsName (K : JsvConsts) (v : Option JsVar) : Bool :=
  match v with
  | none => false
  | some c => decide (c.flags &&& K.JSV_NAME ≠ 0)

/-- `jsvIsIntegerish`. -/
def jsvIsIntegerish (K : JsvConsts) (v : Option JsVar) : Bool :=
  jsvIsInt K v || jsvIsPin K v || jsvIsBoolean K v || jsvIsNull K v

/-- `jsvIsIterable`. -/
def jsvIsIterable (K : JsvConsts) (v : Option JsVar) : Bool :=
  jsvIsArray K v || jsvIsObject K v || jsvIsFunction K v || jsvIsString K v ||
    jsvIsArrayBuffer K v

/-- What the pointer `p` into the pool `h` points to: nothing for the null pointer 0, and
otherwise the cell read from the pool at `p`. -/
def derefPointer (h : Heap) (p : Nat) : Option JsVar := if p = 0 then none else some (h p)

/-! # Proofs -/

/-! ## Loop lemmas -/

theorem toShort_of_isShort {n : Int} (h1 : -32768 ≤ n) (h2 : n ≤ 32767) : toShort n = n := by
  unfold toShort
  omega

theorem intRange_of_lt {lo hi : Int} (h : hi < lo) : intRange lo hi = [] := by
  unfold intRange
  have : (hi + 1 - lo).toNat = 0 := by omega
  simp [this]

theorem intRange_cons {lo hi : Int} (h : lo ≤ hi) :
    intRange lo hi = lo :: intRange (lo + 1) hi := by
  unfold intRange
  have e : (hi + 1 - lo).toNat = (hi + 1 - (lo + 1)).toNat + 1 := by omega
  rw [e, List.range_succ_eq_map]
  simp only [List.map_cons, List.map_map, Nat.cast_zero, add_zero]
  congr 1
  apply List.map_congr_left
  intro i _
  simp only [Function.comp, Nat.succ_eq_add_one, Nat.cast_add, Nat.cast_one]
  ring

theorem mem_intRange {lo hi x : Int} : x ∈ intRange lo hi ↔ lo ≤ x ∧ x ≤ hi := by
  unfold intRange
  simp only [List.mem_map, List.mem_range]
  constructor
  · rintro ⟨i, hi1, rfl⟩
    omega
  · intro h
    refine ⟨(x - lo).toNat, ?_, ?_⟩ <;> omega

theorem nodup_intRange (lo hi : Int) : (intRange lo hi).Nodup := by
  unfold intRange
  apply List.Nodup.map _ (List.nodup_range _)
  intro a b h
  simpa using h

theorem length_intRange (lo hi : Int) : (intRange lo hi).length = (hi + 1 - lo).toNat := by
  simp [intRange]

/-- With enough fuel, a `short` loop whose bound is below 32767 runs its body once for each
value of the counter from `lo` to `hi`, in increasing order. -/
theorem forShort_eq_foldlM {σ : Type} (body : Int → σ → Option σ) :
    ∀ (fuel : Nat) (lo hi : Int) (s : σ), -32768 ≤ lo → hi < 32767 →
      (hi + 1 - lo).toNat < fuel →
      forShort body fuel lo hi s = (intRange lo hi).foldlM (fun s x => body x s) s := by
  intro fuel
  induction fuel with
  | zero => intro lo hi s _ _ h; omega
  | succ n ih =>
    intro lo hi s hlo hhi hf
    by_cases h : lo ≤ hi
    · rw [intRange_cons h, List.foldlM_cons]
      simp only [forShort, h, if_true]
      cases hb : body lo s with
      | none => rfl
      | some s1 =>
        rw [toShort_of_isShort (by omega) (by omega)]
        simp only [Option.bind_eq_bind, Option.some_bind]
        exact ih (lo + 1) hi s1 (by omega) hhi (by omega)
    · rw [intRange_of_lt (by omega)]
      simp [forShort, h]

/-- A loop that appends `f x` to an accumulated list yields the concatenation over the range. -/
theorem forShort_append {α : Type} (body : Int → List α → Option (List α)) (f : Int → List α)
    (hbody : ∀ x acc, body x acc = some (acc ++ f x))
    (fuel : Nat) (lo hi : Int) (acc : List α) (hlo : -32768 ≤ lo) (hhi : hi < 32767)
    (hf : (hi + 1 - lo).toNat < fuel) :
    forShort body fuel lo hi acc = some (acc ++ (intRange lo hi).flatMap f) := by
  rw [forShort_eq_foldlM body fuel lo hi acc hlo hhi hf]
  generalize intRange lo hi = l
  induction l generalizing acc with
  | nil => simp
  | cons a l ih =>
    rw [List.foldlM_cons, hbody]
    simp only [Option.bind_eq_bind, Option.some_bind]
    rw [ih, List.flatMap_cons, List.append_assoc]

/-! ## `graphicsSetPixel` -/

theorem toLong_emod (longBits : Nat) (n : Int) (h : 32 ≤ longBits) :
    toLong longBits n % 2 ^ 32 = n % 2 ^ 32 := by
  unfold toLong
  have hd : (2 : Int) ^ 32 ∣ 2 ^ longBits := pow_dvd_pow 2 h
  have hd1 : (2 : Int) ^ 32 ∣ 2 ^ (longBits - 1) + 2 ^ (longBits - 1) := by
    have : (2 : Int) ^ (longBits - 1) + 2 ^ (longBits - 1) = 2 ^ longBits := by
      rw [← two_mul, ← pow_succ']
      congr 1
      omega
    rw [this]
    exact hd
  rw [Int.sub_emod, Int.emod_emod_of_dvd _ hd, ← Int.sub_emod]
  have e : n + 2 ^ (longBits - 1) - 2 ^ (longBits - 1) = n := by ring
  rw [e]

theorem pixelMask_eq (longBits bpp : Nat) (hl : 32 ≤ longBits) (hb : bpp ≤ 32) :
    pixelMask longBits bpp = 2 ^ bpp - 1 := by
  unfold pixelMask toUInt
  rw [Int.sub_emod, toLong_emod _ _ hl, ← Int.sub_emod]
  have h1 : (1 : Int) ≤ 2 ^ bpp := one_le_pow₀ (by norm_num)
  have h2 : (2 : Int) ^ bpp ≤ 2 ^ 32 := pow_le_pow_right₀ (by norm_num) hb
  rw [Int.emod_eq_of_lt (by omega) (by omega)]
  have h3 : ((2 : Int) ^ bpp - 1) = ((2 ^ bpp - 1 : Nat) : Int) := by
    have : 1 ≤ 2 ^ bpp := Nat.one_le_two_pow
    push_cast [Nat.cast_sub this]
    rfl
  rw [h3, Int.toNat_ofNat]

/-- C7: outside the bounds (`x < 0`, `y < 0`, `x >= width` or `y >= height`)
`graphicsSetPixel` makes no call to the installed `setPixel` sink, so whatever sink is
installed its state is left as it was. -/
theorem graphicsSetPixel_out_of_bounds (longBits : Nat) (gfx : JsGraphicsData) (x y : Int)
    (col : Nat) (h : x < 0 ∨ y < 0 ∨ x ≥ gfx.width ∨ y ≥ gfx.height) :
    graphicsSetPixel longBits gfx x y col = [] ∧
    ∀ (σ : Type) (sink : σ → Pixel → σ) (s : σ),
      runSink sink s (graphicsSetPixel longBits gfx x y col) = s := by
  have e : graphicsSetPixel longBits gfx x y col = [] := by
    unfold graphicsSetPixel
    rw [if_pos h]
  refine ⟨e, ?_⟩
  intro σ sink s
  rw [e]
  rfl

theorem graphicsSetPixel_out_of_bounds_witness :
    ((16 : Int) < 0 ∨ (3 : Int) < 0 ∨
        (16 : Int) ≥ (JsGraphicsData.mk 16 16 1 1 0).width ∨
        (3 : Int) ≥ (JsGraphicsData.mk 16 16 1 1 0).height) ∧
    graphicsSetPixel 32 (JsGraphicsData.mk 16 16 1 1 0) 16 3 1 = [] :=
  ⟨by decide, (graphicsSetPixel_out_of_bounds 32 (JsGraphicsData.mk 16 16 1 1 0) 16 3 1
    (by decide)).1⟩

/-- C8: inside the bounds, for `bpp <= 32` (and a C `long` of at least 32 bits),
`graphicsSetPixel` calls the installed `setPixel` sink exactly once, at the same `x` and
`y`, with the colour `col mod 2^bpp`. -/
theorem graphicsSetPixel_in_bounds (longBits : Nat) (gfx : JsGraphicsData) (x y : Int)
    (col : Nat) (hl : 32 ≤ longBits) (hx0 : 0 ≤ x) (hx1 : x < gfx.width) (hy0 : 0 ≤ y)
    (hy1 : y < gfx.height) (hb : gfx.bpp ≤ 32) :
    graphicsSetPixel longBits gfx x y col = [⟨x, y, col % 2 ^ gfx.bpp⟩] := by
  unfold graphicsSetPixel
  rw [if_neg (by omega), pixelMask_eq _ _ hl hb, Nat.and_pow_two_sub_one_eq_mod]

theorem graphicsSetPixel_in_bounds_witness :
    graphicsSetPixel 32 (JsGraphicsData.mk 16 16 4 1 0) 3 5 0x1234 = [⟨3, 5, 4⟩] :=
  graphicsSetPixel_in_bounds 32 (JsGraphicsData.mk 16 16 4 1 0) 3 5 0x1234
    (by decide) (by decide) (by decide) (by decide) (by decide) (by decide)

/-! ## `graphicsFallbackFillRect` -/

/-- The calls of `graphicsFallbackFillRect` for ordered corners: row by row. -/
theorem forShort_fillRect (gfx : JsGraphicsData) (xa ya xb yb : Int) (fuel : Nat)
    (hxa : -32768 ≤ xa) (hxb : xb < 32767) (hya : -32768 ≤ ya) (hyb : yb < 32767)
    (hf : 65536 ≤ fuel) :
    forShort (fun y acc =>
      forShort (fun x acc => some (acc ++ [(⟨x, y, gfx.fgColor⟩ : Pixel)])) fuel xa xb acc)
      fuel ya yb [] =
    some ((intRange ya yb).flatMap (fun y =>
      (intRange xa xb).flatMap (fun x => [(⟨x, y, gfx.fgColor⟩ : Pixel)]))) := by
  rw [forShort_append _ (fun y => (intRange xa xb).flatMap
    (fun x => [(⟨x, y, gfx.fgColor⟩ : Pixel)])) _ fuel ya yb [] hya hyb (by omega)]
  · simp
  · intro y acc
    exact forShort_append _ _ (fun _ _ => rfl) fuel xa xb acc hxa hxb (by omega)

/-- C9: for corners with coordinates below 32767, `graphicsFallbackFillRect` calls
`graphicsSetPixel` with the foreground colour exactly once for each point of the
rectangle spanned by the corners and for no other point; the calls are the same
whichever two opposite corners are given, in whichever order. -/
theorem graphicsFallbackFillRect_calls (gfx : JsGraphicsData) (x1 y1 x2 y2 : Int)
    (hx1 : -32768 ≤ x1 ∧ x1 < 32767) (hy1 : -32768 ≤ y1 ∧ y1 < 32767)
    (hx2 : -32768 ≤ x2 ∧ x2 < 32767) (hy2 : -32768 ≤ y2 ∧ y2 < 32767) :
    ∃ calls : List Pixel,
      (∀ fuel, 65536 ≤ fuel → graphicsFallbackFillRect gfx x1 y1 x2 y2 fuel = some calls) ∧
      calls.Nodup ∧
      (∀ p : Pixel, p ∈ calls ↔
        (min x1 x2 ≤ p.x ∧ p.x ≤ max x1 x2 ∧ min y1 y2 ≤ p.y ∧ p.y ≤ max y1 y2 ∧
          p.col = gfx.fgColor)) ∧
      (∀ fuel,
        graphicsFallbackFillRect gfx x2 y2 x1 y1 fuel =
          graphicsFallbackFillRect gfx x1 y1 x2 y2 fuel ∧
        graphicsFallbackFillRect gfx x1 y2 x2 y1 fuel =
          graphicsFallbackFillRect gfx x1 y1 x2 y2 fuel ∧
        graphicsFallbackFillRect gfx x2 y1 x1 y2 fuel =
          graphicsFallbackFillRect gfx x1 y1 x2 y2 fuel) := by
  have exa : (if x1 > x2 then x2 else x1) = min x1 x2 := by
    split_ifs <;> omega
  have exb : (if x1 > x2 then x1 else x2) = max x1 x2 := by
    split_ifs <;> omega
  have eya : (if y1 > y2 then y2 else y1) = min y1 y2 := by
    split_ifs <;> omega
  have eyb : (if y1 > y2 then y1 else y2) = max y1 y2 := by
    split_ifs <;> omega
  have exa' : (if x2 > x1 then x1 else x2) = min x1 x2 := by
    split_ifs <;> omega
  have exb' : (if x2 > x1 then x2 else x1) = max x1 x2 := by
    split_ifs <;> omega
  have eya' : (if y2 > y1 then y1 else y2) = min y1 y2 := by
    split_ifs <;> omega
  have eyb' : (if y2 > y1 then y2 else y1) = max y1 y2 := by
    split_ifs <;> omega
  refine ⟨(intRange (min y1 y2) (max y1 y2)).flatMap (fun y =>
      (intRange (min x1 x2) (max x1 x2)).flatMap
        (fun x => [(⟨x, y, gfx.fgColor⟩ : Pixel)])), ?_, ?_, ?_, ?_⟩
  · intro fuel hf
    unfold graphicsFallbackFillRect
    simp only [exa, exb, eya, eyb]
    exact forShort_fillRect gfx _ _ _ _ fuel (by omega) (by omega) (by omega) (by omega) hf
  · rw [List.nodup_flatMap]
    constructor
    · intro y _
      rw [List.nodup_flatMap]
      constructor
      · intro x _
        exact List.nodup_singleton _
      · apply List.Nodup.pairwise_of_forall_ne (nodup_intRange _ _)
        intro a _ b _ hab
        simp only [Function.onFun, List.disjoint_singleton, List.mem_singleton, Pixel.mk.injEq,
          and_true, true_and]
        exact fun h => hab h.symm
    · apply List.Nodup.pairwise_of_forall_ne (nodup_intRange _ _)
      intro a _ b _ hab
      simp only [Function.onFun]
      intro p hp hq
      simp only [List.mem_flatMap, List.mem_singleton] at hp hq
      obtain ⟨_, _, rfl⟩ := hp
      obtain ⟨_, _, h⟩ := hq
      simp only [Pixel.mk.injEq] at h
      exact hab h.2.1
  · intro p
    simp only [List.mem_flatMap, List.mem_singleton, mem_intRange]
    constructor
    · rintro ⟨y, hy, x, hx, rfl⟩
      exact ⟨hx.1, hx.2, hy.1, hy.2, rfl⟩
    · rintro ⟨h1, h2, h3, h4, h5⟩
      refine ⟨p.y, ⟨h3, h4⟩, p.x, ⟨h1, h2⟩, ?_⟩
      cases p
      simp only at h5
      simp [h5]
  · intro fuel
    unfold graphicsFallbackFillRect
    simp only [exa, exb, eya, eyb, exa', exb', eya', eyb', and_self]

theorem graphicsFallbackFillRect_calls_witness :
    ∃ calls : List Pixel,
      (∀ fuel, 65536 ≤ fuel →
        graphicsFallbackFillRect (JsGraphicsData.mk 16 16 1 1 0) 2 1 0 0 fuel = some calls) ∧
      calls.Nodup ∧
      (∀ p : Pixel, p ∈ calls ↔
        (min 2 0 ≤ p.x ∧ p.x ≤ max 2 0 ∧ min 1 0 ≤ p.y ∧ p.y ≤ max 1 0 ∧
          p.col = (JsGraphicsData.mk 16 16 1 1 0).fgColor)) ∧
      (∀ fuel,
        graphicsFallbackFillRect (JsGraphicsData.mk 16 16 1 1 0) 0 0 2 1 fuel =
          graphicsFallbackFillRect (JsGraphicsData.mk 16 16 1 1 0) 2 1 0 0 fuel ∧
        graphicsFallbackFillRect (JsGraphicsData.mk 16 16 1 1 0) 2 0 0 1 fuel =
          graphicsFallbackFillRect (JsGraphicsData.mk 16 16 1 1 0) 2 1 0 0 fuel ∧
        graphicsFallbackFillRect (JsGraphicsData.mk 16 16 1 1 0) 0 1 2 0 fuel =
          graphicsFallbackFillRect (JsGraphicsData.mk 16 16 1 1 0) 2 1 0 0 fuel) :=
  graphicsFallbackFillRect_calls (JsGraphicsData.mk 16 16 1 1 0) 2 1 0 0
    (by decide) (by decide) (by decide) (by decide)

/-! ## Flags: type tag and character count -/

theorem testBit_andNot (f m i : Nat) :
    (andNot f m).testBit i = (f.testBit i && !m.testBit i) := by
  unfold andNot
  rw [Nat.testBit_xor, Nat.testBit_and]
  cases f.testBit i <;> cases m.testBit i <;> rfl

theorem andNot_mask (f k : Nat) : andNot f (2 ^ k - 1) = 2 ^ k * (f / 2 ^ k) := by
  apply Nat.eq_of_testBit_eq
  intro i
  rw [testBit_andNot, Nat.testBit_two_pow_sub_one, Nat.testBit_mul_pow_two,
    ← Nat.shiftRight_eq_div_pow, Nat.testBit_shiftRight]
  by_cases h : i < k
  · simp [h]
  · have : k + (i - k) = i := by omega
    simp [h, this]
    omega

theorem or_and_mask (a t k : Nat) (ht : t < 2 ^ k) :
    (2 ^ k * a ||| t) &&& (2 ^ k - 1) = t := by
  rw [← Nat.mul_add_lt_is_or ht, Nat.and_pow_two_sub_one_eq_mod, Nat.mul_add_mod,
    Nat.mod_eq_of_lt ht]

theorem sampleConsts_valid : sampleConsts.Valid where
  typeBits := ⟨6, by decide, by decide⟩
  lockBits := ⟨4, by decide⟩
  string_max := by decide
  ext_max := by decide
  string_lt_ext := by decide
  ext_le_mask := by decide

/-- The type tag after `jsvSetCharactersInVar`, for a new tag `t` that fits the mask. -/
theorem tag_after_set (K : JsvConsts) (hK : K.Valid) (f t : Nat)
    (ht : t ≤ K.JSV_VARTYPEMASK) :
    (andNot f K.JSV_VARTYPEMASK ||| t) &&& K.JSV_VARTYPEMASK = t := by
  obtain ⟨k, hk, _⟩ := hK.typeBits
  have e : K.JSV_VARTYPEMASK = 2 ^ k - 1 := by omega
  rw [e, andNot_mask]
  exact or_and_mask _ _ _ (by omega)

/-- C5: on a string head with `n <= JSVAR_DATA_STRING_LEN`, and on a string extension with
`n <= JSVAR_DATA_STRING_MAX_LEN`, `jsvGetCharactersInVar` after `jsvSetCharactersInVar(v, n)`
returns `n`, the cell is still a head (respectively an extension), and the type tag is
`JSV_STRING_0 + n` (respectively `JSV_STRING_EXT_0 + n`). -/
theorem jsvGetCharactersInVar_jsvSetCharactersInVar (K : JsvConsts) (hK : K.Valid)
    (v : JsVar) (n : Nat) :
    (jsvIsString K (some v) = true → n ≤ K.JSVAR_DATA_STRING_LEN →
      jsvGetCharactersInVar K (jsvSetCharactersInVar K v n) = n ∧
      jsvIsString K (some (jsvSetCharactersInVar K v n)) = true ∧
      (jsvSetCharactersInVar K v n).flags &&& K.JSV_VARTYPEMASK = K.JSV_STRING_0 + n) ∧
    (jsvIsStringExt K (some v) = true → n ≤ K.JSVAR_DATA_STRING_MAX_LEN →
      jsvGetCharactersInVar K (jsvSetCharactersInVar K v n) = n ∧
      jsvIsStringExt K (some (jsvSetCharactersInVar K v n)) = true ∧
      (jsvSetCharactersInVar K v n).flags &&& K.JSV_VARTYPEMASK = K.JSV_STRING_EXT_0 + n) := by
  have h1 := hK.string_max
  have h2 := hK.ext_max
  have h3 := hK.string_lt_ext
  have h4 := hK.ext_le_mask
  constructor
  · intro hs hn
    simp only [jsvIsString, Bool.and_eq_true, decide_eq_true_eq] at hs
    have hlt : v.flags &&& K.JSV_VARTYPEMASK < K.JSV_STRING_EXT_0 := by omega
    have e : (jsvSetCharactersInVar K v n).flags &&& K.JSV_VARTYPEMASK = K.JSV_STRING_0 + n := by
      simp only [jsvSetCharactersInVar, if_pos hlt]
      exact tag_after_set K hK _ _ (by omega)
    refine ⟨?_, ?_, e⟩
    · simp only [jsvGetCharactersInVar, e]
      rw [if_pos (by omega)]
      omega
    · simp only [jsvIsString, e, Bool.and_eq_true, decide_eq_true_eq]
      omega
  · intro hs hn
    simp only [jsvIsStringExt, Bool.and_eq_true, decide_eq_true_eq] at hs
    have hlt : ¬ v.flags &&& K.JSV_VARTYPEMASK < K.JSV_STRING_EXT_0 := by omega
    have e : (jsvSetCharactersInVar K v n).flags &&& K.JSV_VARTYPEMASK =
        K.JSV_STRING_EXT_0 + n := by
      simp only [jsvSetCharactersInVar, if_neg hlt]
      exact tag_after_set K hK _ _ (by omega)
    refine ⟨?_, ?_, e⟩
    · simp only [jsvGetCharactersInVar, e]
      rw [if_neg (by omega)]
      omega
    · simp only [jsvIsStringExt, e, Bool.and_eq_true, decide_eq_true_eq]
      omega

theorem jsvGetCharactersInVar_jsvSetCharactersInVar_witness :
    (jsvGetCharactersInVar sampleConsts
        (jsvSetCharactersInVar sampleConsts ⟨2048 + 64 + 3, [], 0, 0, 1, 0, 0⟩ 5) = 5 ∧
      jsvIsString sampleConsts
        (some (jsvSetCharactersInVar sampleConsts ⟨2048 + 64 + 3, [], 0, 0, 1, 0, 0⟩ 5)) = true ∧
      (jsvSetCharactersInVar sampleConsts ⟨2048 + 64 + 3, [], 0, 0, 1, 0, 0⟩ 5).flags &&&
        sampleConsts.JSV_VARTYPEMASK = sampleConsts.JSV_STRING_0 + 5) ∧
    (jsvGetCharactersInVar sampleConsts
        (jsvSetCharactersInVar sampleConsts ⟨2048 + 14, [], 0, 0, 0, 0, 0⟩ 14) = 14 ∧
      jsvIsStringExt sampleConsts
        (some (jsvSetCharactersInVar sampleConsts ⟨2048 + 14, [], 0, 0, 0, 0, 0⟩ 14)) = true ∧
      (jsvSetCharactersInVar sampleConsts ⟨2048 + 14, [], 0, 0, 0, 0, 0⟩ 14).flags &&&
        sampleConsts.JSV_VARTYPEMASK = sampleConsts.JSV_STRING_EXT_0 + 14) :=
  ⟨(jsvGetCharactersInVar_jsvSetCharactersInVar sampleConsts sampleConsts_valid
      ⟨2048 + 64 + 3, [], 0, 0, 1, 0, 0⟩ 5).1 (by decide) (by decide),
   (jsvGetCharactersInVar_jsvSetCharactersInVar sampleConsts sampleConsts_valid
      ⟨2048 + 14, [], 0, 0, 0, 0, 0⟩ 14).2 (by decide) (by decide)⟩

/-! ## Locks -/

theorem shift_and_add (f s m : Nat) (h : (f >>> s) &&& (2 ^ m - 1) < 2 ^ m - 1) :
    ((f + 2 ^ s) >>> s) &&& (2 ^ m - 1) = ((f >>> s) &&& (2 ^ m - 1)) + 1 := by
  rw [Nat.and_pow_two_sub_one_eq_mod] at h ⊢
  rw [Nat.and_pow_two_sub_one_eq_mod]
  rw [Nat.shiftRight_eq_div_pow] at h ⊢
  rw [Nat.shiftRight_eq_div_pow]
  rw [Nat.add_div_right _ (Nat.two_pow_pos s)]
  have hp : 0 < 2 ^ m := Nat.two_pow_pos m
  generalize f / 2 ^ s = q at h ⊢
  have h2 : (q + 1) % 2 ^ m = (q % 2 ^ m + 1) % 2 ^ m := by
    rw [Nat.add_mod]
    by_cases h1 : 1 < 2 ^ m
    · rw [Nat.mod_eq_of_lt h1]
    · have : 2 ^ m = 1 := by omega
      simp [this, Nat.mod_one]
  rw [h2, Nat.mod_eq_of_lt (by omega)]

theorem shift_and_sub (f s m : Nat) (h : (f >>> s) &&& (2 ^ m - 1) ≠ 0) :
    f ≥ 2 ^ s ∧
      ((f - 2 ^ s) >>> s) &&& (2 ^ m - 1) = ((f >>> s) &&& (2 ^ m - 1)) - 1 := by
  rw [Nat.and_pow_two_sub_one_eq_mod] at h ⊢
  rw [Nat.and_pow_two_sub_one_eq_mod]
  rw [Nat.shiftRight_eq_div_pow] at h ⊢
  rw [Nat.shiftRight_eq_div_pow]
  have hs : 0 < 2 ^ s := Nat.two_pow_pos s
  have hq : f / 2 ^ s ≠ 0 := by
    intro e
    rw [e] at h
    simp at h
  have hge : f ≥ 2 ^ s := by
    by_contra hlt
    exact hq (Nat.div_eq_of_lt (by omega))
  refine ⟨hge, ?_⟩
  have e : (f - 2 ^ s) / 2 ^ s = f / 2 ^ s - 1 := by
    have := Nat.sub_mul_div f (2 ^ s) 1
    simp only [Nat.mul_one] at this
    exact this hge
  rw [e]
  generalize f / 2 ^ s = q at h hq ⊢
  have hp : 0 < 2 ^ m := Nat.two_pow_pos m
  obtain ⟨q', rfl⟩ : ∃ q', q = q' + 1 := ⟨q - 1, by omega⟩
  simp only [Nat.add_sub_cancel]
  have h2 : (q' + 1) % 2 ^ m = (q' % 2 ^ m + 1) % 2 ^ m := by
    rw [Nat.add_mod]
    by_cases h1 : 1 < 2 ^ m
    · rw [Nat.mod_eq_of_lt h1]
    · have : 2 ^ m = 1 := by omega
      simp [this, Nat.mod_one]
  rw [h2] at h ⊢
  have hlt := Nat.mod_lt q' hp
  by_cases hc : q' % 2 ^ m + 1 < 2 ^ m
  · rw [Nat.mod_eq_of_lt hc]
    omega
  · have : q' % 2 ^ m + 1 = 2 ^ m := by omega
    rw [this] at h
    simp at h

theorem and_mask_add (f s k : Nat) (hk : k ≤ s) :
    (f + 2 ^ s) &&& (2 ^ k - 1) = f &&& (2 ^ k - 1) := by
  rw [Nat.and_pow_two_sub_one_eq_mod, Nat.and_pow_two_sub_one_eq_mod]
  obtain ⟨d, rfl⟩ : ∃ d, s = k + d := ⟨s - k, by omega⟩
  rw [pow_add, Nat.add_mul_mod_self_left]

theorem and_mask_sub (f s k : Nat) (hk : k ≤ s) (hf : 2 ^ s ≤ f) :
    (f - 2 ^ s) &&& (2 ^ k - 1) = f &&& (2 ^ k - 1) := by
  have := and_mask_add (f - 2 ^ s) s k hk
  rw [Nat.sub_add_cancel hf] at this
  exact this.symm

theorem SameButLocks.refl (K : JsvConsts) (c : JsVar) : SameButLocks K c c :=
  ⟨rfl, rfl, rfl, rfl, rfl, rfl, rfl⟩

theorem SameButLocks.trans {K : JsvConsts} {a b c : JsVar} (h1 : SameButLocks K a b)
    (h2 : SameButLocks K b c) : SameButLocks K a c := by
  obtain ⟨a1, a2, a3, a4, a5, a6, a7⟩ := h1
  obtain ⟨b1, b2, b3, b4, b5, b6, b7⟩ := h2
  exact ⟨b1.trans a1, b2.trans a2, b3.trans a3, b4.trans a4, b5.trans a5, b6.trans a6,
    b7.trans a7⟩

theorem SameButLocks.chars {K : JsvConsts} {a b : JsVar} (h : SameButLocks K a b) :
    jsvGetCharactersInVar K b = jsvGetCharactersInVar K a := by
  unfold jsvGetCharactersInVar
  rw [h.1]

theorem SameButLocks.hasRef {K : JsvConsts} {a b : JsVar} (h : SameButLocks K a b) :
    jsvHasRef K (some b) = jsvHasRef K (some a) := by
  unfold jsvHasRef jsvIsStringExt
  simp only [h.1]

theorem Heap.set_same (h : Heap) (r : Nat) (c : JsVar) : (h.set r c) r = c := by
  simp [Heap.set]

theorem Heap.set_other (h : Heap) (r q : Nat) (c : JsVar) (hq : q ≠ r) :
    (h.set r c) q = h q := by
  simp [Heap.set, hq]

/-- Locking a cell with the lock count incremented and nothing else touched. -/
theorem sameButLocks_add (K : JsvConsts) (hK : K.Valid) (c : JsVar) :
    SameButLocks K c { c with flags := c.flags + 2 ^ K.JSV_LOCK_SHIFT } := by
  obtain ⟨k, hk, hks⟩ := hK.typeBits
  have e : K.JSV_VARTYPEMASK = 2 ^ k - 1 := by omega
  refine ⟨?_, rfl, rfl, rfl, rfl, rfl, rfl⟩
  simp only [e]
  exact and_mask_add _ _ _ hks

theorem sameButLocks_sub (K : JsvConsts) (hK : K.Valid) (c : JsVar)
    (hge : 2 ^ K.JSV_LOCK_SHIFT ≤ c.flags) :
    SameButLocks K c { c with flags := c.flags - 2 ^ K.JSV_LOCK_SHIFT } := by
  obtain ⟨k, hk, hks⟩ := hK.typeBits
  have e : K.JSV_VARTYPEMASK = 2 ^ k - 1 := by omega
  refine ⟨?_, rfl, rfl, rfl, rfl, rfl, rfl⟩
  simp only [e]
  exact and_mask_sub _ _ _ hks hge

theorem jsvGetLocks_add (K : JsvConsts) (hK : K.Valid) (c : JsVar)
    (h : jsvGetLocks K c < K.JSV_LOCK_MAX) :
    jsvGetLocks K { c with flags := c.flags + 2 ^ K.JSV_LOCK_SHIFT } = jsvGetLocks K c + 1 := by
  obtain ⟨m, hm⟩ := hK.lockBits
  have e : K.JSV_LOCK_MAX = 2 ^ m - 1 := by omega
  unfold jsvGetLocks at h ⊢
  simp only [e] at h ⊢
  exact shift_and_add _ _ _ h

theorem jsvGetLocks_sub (K : JsvConsts) (hK : K.Valid) (c : JsVar)
    (h : jsvGetLocks K c ≠ 0) :
    2 ^ K.JSV_LOCK_SHIFT ≤ c.flags ∧
    jsvGetLocks K { c with flags := c.flags - 2 ^ K.JSV_LOCK_SHIFT } = jsvGetLocks K c - 1 := by
  obtain ⟨m, hm⟩ := hK.lockBits
  have e : K.JSV_LOCK_MAX = 2 ^ m - 1 := by omega
  unfold jsvGetLocks at h ⊢
  simp only [e] at h ⊢
  exact shift_and_sub _ _ _ h

theorem jsvLock_other (K : JsvConsts) (h : Heap) (r q : Nat) (hq : q ≠ r) :
    (jsvLock K h r) q = h q := by
  unfold jsvLock
  split_ifs
  · exact Heap.set_other _ _ _ _ hq
  · rfl

theorem jsvLock_same (K : JsvConsts) (hK : K.Valid) (h : Heap) (r q : Nat) :
    SameButLocks K (h q) ((jsvLock K h r) q) := by
  by_cases hq : q = r
  · subst hq
    unfold jsvLock
    split_ifs
    · rw [Heap.set_same]
      exact sameButLocks_add K hK _
    · exact SameButLocks.refl K _
  · rw [jsvLock_other K h r q hq]
    exact SameButLocks.refl K _

theorem jsvLock_locks (K : JsvConsts) (hK : K.Valid) (h : Heap) (r : Nat)
    (hlt : jsvGetLocks K (h r) < K.JSV_LOCK_MAX) :
    jsvGetLocks K ((jsvLock K h r) r) = jsvGetLocks K (h r) + 1 := by
  unfold jsvLock
  rw [if_pos hlt, Heap.set_same]
  exact jsvGetLocks_add K hK _ hlt

theorem jsvLock_locks_ge (K : JsvConsts) (hK : K.Valid) (h : Heap) (r : Nat) :
    jsvGetLocks K (h r) ≤ jsvGetLocks K ((jsvLock K h r) r) := by
  by_cases hlt : jsvGetLocks K (h r) < K.JSV_LOCK_MAX
  · rw [jsvLock_locks K hK h r hlt]
    omega
  · unfold jsvLock
    rw [if_neg hlt]

/-- Unlocking a cell that stays alive: the lock count goes down by one (from zero it
stays zero) and nothing else is touched; `jsvFreePtr` is not called. -/
theorem jsvUnLock_safe (K : JsvConsts) (hK : K.Valid) (fr : Heap → Nat → Heap) (h : Heap)
    (r : Nat) (hsafe : SafeUnlock K (h r)) :
    (∀ q, q ≠ r → (jsvUnLock K fr h r) q = h q) ∧
    (∀ q, SameButLocks K (h q) ((jsvUnLock K fr h r) q)) ∧
    (r ≠ 0 → jsvGetLocks K ((jsvUnLock K fr h r) r) = jsvGetLocks K (h r) - 1) := by
  by_cases hr : r = 0
  · have e : jsvUnLock K fr h r = h := by
      unfold jsvUnLock
      rw [if_pos hr]
    rw [e]
    exact ⟨fun _ _ => rfl, fun q => SameButLocks.refl K _, fun h0 => absurd hr h0⟩
  · by_cases hz : jsvGetLocks K (h r) = 0
    · have e : jsvUnLock K fr h r = h := by
        unfold jsvUnLock
        rw [if_neg hr]
        simp only [hz, if_true]
        rw [if_neg]
        rintro ⟨_, h2, h3⟩
        rcases hsafe with h4 | h4 | h4
        · rw [h4] at h2
          exact Bool.false_ne_true h2
        · exact h4 h3
        · omega
      rw [e]
      exact ⟨fun _ _ => rfl, fun q => SameButLocks.refl K _, fun _ => by omega⟩
    · obtain ⟨hge, hlk⟩ := jsvGetLocks_sub K hK (h r) hz
      have hsb := sameButLocks_sub K hK (h r) hge
      have e : jsvUnLock K fr h r =
          h.set r { h r with flags := (h r).flags - 2 ^ K.JSV_LOCK_SHIFT } := by
        unfold jsvUnLock
        rw [if_neg hr]
        simp only [hz, if_false]
        rw [if_neg]
        rintro ⟨h1, h2, h3⟩
        rw [Heap.set_same] at h1 h2 h3
        rcases hsafe with h4 | h4 | h4
        · rw [hsb.hasRef, h4] at h2
          exact Bool.false_ne_true h2
        · exact h4 h3
        · rw [hlk] at h1
          omega
      rw [e]
      refine ⟨fun q hq => Heap.set_other _ _ _ _ hq, ?_, ?_⟩
      · intro q
        by_cases hq : q = r
        · subst hq
          rw [Heap.set_same]
          exact hsb
        · rw [Heap.set_other _ _ _ _ hq]
          exact SameButLocks.refl K _
      · intro _
        rw [Heap.set_same]
        exact hlk

/-! ## String iterator -/

theorem IsChain.head_ne_zero {h : Heap} {c : Nat} {cells : List Nat}
    (hc : IsChain h (c :: cells)) : c ≠ 0 := by
  cases cells with
  | nil => exact hc.1
  | cons d rest => exact hc.1

theorem stringIteratorWalk_step (K : JsvConsts) (fr : Heap → Nat → Heap) (fuel : Nat)
    (h h2 hf : Heap) (it it2 itf : JsvStringIterator) (out : List (Nat × Nat))
    (hhas : jsvStringIteratorHasChar it = true)
    (hnext : jsvStringIteratorNextInline K fr h it = (h2, it2))
    (hw : stringIteratorWalk K fr fuel h2 it2 = some (out, hf, itf)) :
    stringIteratorWalk K fr (fuel + 1) h it =
      some ((jsvStringIteratorGetIndex it, jsvStringIteratorGetChar h it) :: out, hf, itf) := by
  rw [stringIteratorWalk, if_pos hhas, hnext]
  simp only [hw]

theorem stringIteratorWalk_stop (K : JsvConsts) (fr : Heap → Nat → Heap) (fuel : Nat)
    (h : Heap) (it : JsvStringIterator) (hhas : jsvStringIteratorHasChar it = false) :
    stringIteratorWalk K fr (fuel + 1) h it = some ([], h, it) := by
  rw [stringIteratorWalk, hhas]
  simp

theorem stringIteratorWalk_from (K : JsvConsts) (hK : K.Valid) (fr : Heap → Nat → Heap)
    (h : Heap) :
    ∀ (fuel : Nat) (cells : List Nat) (c : Nat) (h' : Heap) (v j : Nat),
      IsChain h (c :: cells) → (c :: cells).Nodup →
      (∀ q, SameButLocks K (h q) (h' q)) →
      (∀ d ∈ c :: cells, SafeUnlock K (h' d)) →
      (∀ d ∈ c :: cells, 1 ≤ jsvGetCharactersInVar K (h d)) →
      j < jsvGetCharactersInVar K (h c) →
      chainLength K h (c :: cells) - j < fuel →
      ∃ hf itf,
        stringIteratorWalk K fr fuel h' ⟨j, jsvGetCharactersInVar K (h c), v, c⟩ =
          some (walkReads K h v j (c :: cells), hf, itf) ∧
        jsvStringIteratorHasChar itf = false ∧ itf.var = 0 ∧
        (∀ q, SameButLocks K (h q) (hf q)) := by
  intro fuel
  induction fuel with
  | zero => intro cells c h' v j _ _ _ _ _ _ hf; omega
  | succ fuel ih =>
    intro cells c h' v j hchain hnd hsame hsafe hpos hj hfuel
    have hc0 : c ≠ 0 := hchain.head_ne_zero
    have hrd : jsvStringIteratorGetChar h'
        ⟨j, jsvGetCharactersInVar K (h c), v, c⟩ = (h c).str.getD j 0 := by
      simp only [jsvStringIteratorGetChar, if_neg hc0, (hsame c).2.1]
    have hidx : jsvStringIteratorGetIndex
        ⟨j, jsvGetCharactersInVar K (h c), v, c⟩ = v + j := rfl
    have hhas : jsvStringIteratorHasChar ⟨j, jsvGetCharactersInVar K (h c), v, c⟩ = true := by
      simp only [jsvStringIteratorHasChar, decide_eq_true_eq]
      exact hj
    have hreads : walkReads K h v j (c :: cells) =
        (v + j, (h c).str.getD j 0) ::
          ((List.range' (j + 1) (jsvGetCharactersInVar K (h c) - (j + 1))).map
            (fun i => (v + i, (h c).str.getD i 0)) ++
          walkReads K h (v + jsvGetCharactersInVar K (h c)) 0 cells) := by
      have e : jsvGetCharactersInVar K (h c) - j =
          (jsvGetCharactersInVar K (h c) - (j + 1)) + 1 := by omega
      simp only [walkReads]
      rw [e, List.range'_succ]
      rfl
    rw [hreads, ← hrd, ← hidx]
    by_cases hend : j + 1 ≥ jsvGetCharactersInVar K (h c)
    · have hn : j + 1 - jsvGetCharactersInVar K (h c) = 0 := by omega
      have hrange : List.range' (j + 1) (jsvGetCharactersInVar K (h c) - (j + 1)) = [] := by
        have : jsvGetCharactersInVar K (h c) - (j + 1) = 0 := by omega
        rw [this]
        rfl
      rw [hrange, List.map_nil, List.nil_append]
      cases cells with
      | nil =>
        have hlast : (h' c).lastChild = 0 := by
          rw [(hsame c).2.2.2.2.2.2]
          exact hchain.2
        obtain ⟨_, hs2, _⟩ := jsvUnLock_safe K hK fr h' c (hsafe c (List.mem_cons_self _ _))
        obtain ⟨f', rfl⟩ : ∃ f', fuel = f' + 1 := by
          refine ⟨fuel - 1, ?_⟩
          simp only [chainLength, List.map_cons, List.map_nil, List.sum_cons,
            List.sum_nil] at hfuel
          omega
        have hnext : jsvStringIteratorNextInline K fr h'
            ⟨j, jsvGetCharactersInVar K (h c), v, c⟩ =
            (jsvUnLock K fr h' c, ⟨0, 0, v + jsvGetCharactersInVar K (h c), 0⟩) := by
          simp only [jsvStringIteratorNextInline, if_pos hend, hlast, ne_eq, not_true_eq_false,
            and_false, if_false, hn]
        refine ⟨jsvUnLock K fr h' c, ⟨0, 0, v + jsvGetCharactersInVar K (h c), 0⟩, ?_, ?_, rfl,
          ?_⟩
        · exact stringIteratorWalk_step K fr _ _ _ _ _ _ _ _ hhas hnext
            (stringIteratorWalk_stop K fr _ _ _ (by simp [jsvStringIteratorHasChar]))
        · simp [jsvStringIteratorHasChar]
        · intro q
          exact (hsame q).trans (hs2 q)
      | cons d rest =>
        have hlink : (h' c).lastChild = d := by
          rw [(hsame c).2.2.2.2.2.2]
          exact hchain.2.1
        have hd0 : d ≠ 0 := hchain.2.2.head_ne_zero
        have hcd : c ≠ d := by
          intro e
          rw [e] at hnd
          simp at hnd
        have hsafe1 : SafeUnlock K ((jsvLock K h' d) c) := by
          rw [jsvLock_other K h' d c hcd]
          exact hsafe c (List.mem_cons_self _ _)
        obtain ⟨hs1, hs2, _⟩ := jsvUnLock_safe K hK fr (jsvLock K h' d) c hsafe1
        have hsame2 : ∀ q, SameButLocks K (h q)
            ((jsvUnLock K fr (jsvLock K h' d) c) q) := by
          intro q
          exact ((hsame q).trans (jsvLock_same K hK h' d q)).trans (hs2 q)
        have hsafe2 : ∀ e ∈ d :: rest,
            SafeUnlock K ((jsvUnLock K fr (jsvLock K h' d) c) e) := by
          intro e he
          have hec : e ≠ c := by
            intro hh
            rw [hh] at he
            exact (List.nodup_cons.mp hnd).1 he
          rw [hs1 e hec]
          have hold := hsafe e (List.mem_cons_of_mem _ he)
          by_cases hed : e = d
          · rw [hed] at hold ⊢
            rcases hold with h1 | h1 | h1
            · left
              rw [(jsvLock_same K hK h' d d).hasRef]
              exact h1
            · right
              left
              rw [(jsvLock_same K hK h' d d).2.2.2.2.1]
              exact h1
            · right
              right
              exact le_trans h1 (jsvLock_locks_ge K hK h' d)
          · rw [jsvLock_other K h' d e hed]
            exact hold
        have hlen : chainLength K h (d :: rest) - 0 < fuel := by
          simp only [chainLength, List.map_cons, List.sum_cons] at hfuel ⊢
          omega
        obtain ⟨hf, itf, hw, hh, hv, hq⟩ := ih rest d _ (v + jsvGetCharactersInVar K (h c)) 0
          hchain.2.2 (List.nodup_cons.mp hnd).2 hsame2 hsafe2
          (fun e he => hpos e (List.mem_cons_of_mem _ he))
          (hpos d (List.mem_cons_of_mem _ (List.mem_cons_self _ _))) hlen
        refine ⟨hf, itf, ?_, hh, hv, hq⟩
        have hnext : jsvStringIteratorNextInline K fr h'
            ⟨j, jsvGetCharactersInVar K (h c), v, c⟩ =
            (jsvUnLock K fr (jsvLock K h' d) c,
              ⟨0, jsvGetCharactersInVar K (h d), v + jsvGetCharactersInVar K (h c), d⟩) := by
          simp only [jsvStringIteratorNextInline, if_pos hend, hlink, ne_eq, hc0,
            not_false_eq_true, hd0, and_self, if_true, (hsame2 d).chars, hn]
        exact stringIteratorWalk_step K fr _ _ _ _ _ _ _ _ hhas hnext hw
    · have hnext : jsvStringIteratorNextInline K fr h'
          ⟨j, jsvGetCharactersInVar K (h c), v, c⟩ =
          (h', ⟨j + 1, jsvGetCharactersInVar K (h c), v, c⟩) := by
        simp only [jsvStringIteratorNextInline, if_neg hend]
      have hlen : chainLength K h (c :: cells) - (j + 1) < fuel := by
        simp only [chainLength, List.map_cons, List.sum_cons] at hfuel ⊢
        omega
      obtain ⟨hf, itf, hw, hh, hv, hq⟩ := ih cells c h' v (j + 1) hchain hnd hsame hsafe hpos
        (by omega) hlen
      refine ⟨hf, itf, ?_, hh, hv, hq⟩
      have hw2 : stringIteratorWalk K fr fuel h'
          ⟨j + 1, jsvGetCharactersInVar K (h c), v, c⟩ =
          some ((List.range' (j + 1) (jsvGetCharactersInVar K (h c) - (j + 1))).map
            (fun i => (v + i, (h c).str.getD i 0)) ++
          walkReads K h (v + jsvGetCharactersInVar K (h c)) 0 cells, hf, itf) := by
        rw [hw]
        rfl
      exact stringIteratorWalk_step K fr _ _ _ _ _ _ _ _ hhas hnext hw2

/-! ## Iterators and locks -/

theorem cursorLock_self {c : Nat} (hc : c ≠ 0) : cursorLock c c = 1 := by
  simp [cursorLock, hc]

theorem cursorLock_zero (q : Nat) : cursorLock 0 q = 0 := by
  unfold cursorLock
  rw [if_neg]
  rintro ⟨h1, h2⟩
  exact h2 h1

theorem cursorLock_ne {c q : Nat} (h : q ≠ c) : cursorLock c q = 0 := by
  simp [cursorLock, h]

/-- Releasing the lock on the cursor: the lock counts are back to `l`. -/
theorem CursorInv.unlock {K : JsvConsts} (hK : K.Valid) (fr : Heap → Nat → Heap) {h : Heap}
    {l : Nat → Nat} {hc : Heap} {c : Nat} (inv : CursorInv K h l hc c)
    (hv : c ≠ 0 → Visitable K (h c) (l c)) :
    CursorInv K h l (jsvUnLock K fr hc c) 0 := by
  by_cases hc0 : c = 0
  · have e : jsvUnLock K fr hc c = hc := by
      unfold jsvUnLock
      rw [if_pos hc0]
    rw [e]
    subst hc0
    exact inv
  · have hsafe : SafeUnlock K (hc c) := by
      rcases (hv hc0).2 with h1 | h1 | h1
      · left
        rw [(inv.1 c).hasRef]
        exact h1
      · right
        left
        rw [(inv.1 c).2.2.2.2.1]
        exact h1
      · right
        right
        rw [inv.2 c, cursorLock_self hc0]
        omega
    obtain ⟨h1, h2, h3⟩ := jsvUnLock_safe K hK fr hc c hsafe
    refine ⟨fun q => (inv.1 q).trans (h2 q), ?_⟩
    intro q
    rw [cursorLock_zero]
    by_cases hq : q = c
    · subst hq
      rw [h3 hc0, inv.2 q, cursorLock_self hc0]
      omega
    · rw [h1 q hq, inv.2 q, cursorLock_ne hq]

/-- Taking the cursor lock on a cell, from a pool without a cursor lock. -/
theorem CursorInv.lock {K : JsvConsts} (hK : K.Valid) {h : Heap} {l : Nat → Nat} {hc : Heap}
    {d : Nat} (inv : CursorInv K h l hc 0) (hd : d ≠ 0) (hv : Visitable K (h d) (l d)) :
    CursorInv K h l (jsvLock K hc d) d := by
  refine ⟨fun q => (inv.1 q).trans (jsvLock_same K hK hc d q), ?_⟩
  intro q
  by_cases hq : q = d
  · subst hq
    have hl : jsvGetLocks K (hc q) < K.JSV_LOCK_MAX := by
      rw [inv.2 q, cursorLock_zero]
      exact hv.1
    rw [jsvLock_locks K hK hc q hl, inv.2 q, cursorLock_zero, cursorLock_self hd]
  · rw [jsvLock_other K hc d q hq, inv.2 q, cursorLock_zero, cursorLock_ne hq]

/-- The hop of the string iterator: lock the next cell, then unlock the current one. -/
theorem CursorInv.lock_unlock {K : JsvConsts} (hK : K.Valid) (fr : Heap → Nat → Heap)
    {h : Heap} {l : Nat → Nat} {hc : Heap} {c d : Nat} (inv : CursorInv K h l hc c)
    (hc0 : c ≠ 0) (hd0 : d ≠ 0) (hcd : d ≠ c) (hvc : Visitable K (h c) (l c))
    (hvd : Visitable K (h d) (l d)) :
    CursorInv K h l (jsvUnLock K fr (jsvLock K hc d) c) d := by
  have hl : jsvGetLocks K (hc d) < K.JSV_LOCK_MAX := by
    rw [inv.2 d, cursorLock_ne hcd]
    exact hvd.1
  have hsafe : SafeUnlock K ((jsvLock K hc d) c) := by
    rw [jsvLock_other K hc d c (Ne.symm hcd)]
    rcases hvc.2 with h1 | h1 | h1
    · left
      rw [(inv.1 c).hasRef]
      exact h1
    · right
      left
      rw [(inv.1 c).2.2.2.2.1]
      exact h1
    · right
      right
      rw [inv.2 c, cursorLock_self hc0]
      omega
  obtain ⟨h1, h2, h3⟩ := jsvUnLock_safe K hK fr (jsvLock K hc d) c hsafe
  refine ⟨fun q => ((inv.1 q).trans (jsvLock_same K hK hc d q)).trans (h2 q), ?_⟩
  intro q
  by_cases hq : q = c
  · subst hq
    rw [h3 hc0, jsvLock_other K hc d q (Ne.symm hcd), inv.2 q, cursorLock_self hc0,
      cursorLock_ne (Ne.symm hcd)]
    omega
  · rw [h1 q hq]
    by_cases hqd : q = d
    · subst hqd
      rw [jsvLock_locks K hK hc q hl, inv.2 q, cursorLock_ne hq, cursorLock_self hd0]
    · rw [jsvLock_other K hc d q hqd, inv.2 q, cursorLock_ne hq, cursorLock_ne hqd]

theorem CursorInv.init (K : JsvConsts) (h : Heap) :
    CursorInv K h (fun q => jsvGetLocks K (h q)) h 0 :=
  ⟨fun q => SameButLocks.refl K _, fun q => by rw [cursorLock_zero]; rfl⟩

theorem jsvArrayIteratorNew_inv (K : JsvConsts) (hK : K.Valid) (h : Heap) (arr : Nat)
    (S : Nat → Prop) (hfirst : (h arr).firstChild ≠ 0 → S (h arr).firstChild)
    (hvis : ∀ c, S c → Visitable K (h c) (jsvGetLocks K (h c))) :
    CursorInv K h (fun q => jsvGetLocks K (h q)) (jsvArrayIteratorNew K h arr).1
      (jsvArrayIteratorNew K h arr).2.var ∧
    ((jsvArrayIteratorNew K h arr).2.var ≠ 0 → S (jsvArrayIteratorNew K h arr).2.var) := by
  unfold jsvArrayIteratorNew
  by_cases hf : (h arr).firstChild ≠ 0
  · rw [if_pos hf]
    exact ⟨(CursorInv.init K h).lock hK hf (hvis _ (hfirst hf)), fun _ => hfirst hf⟩
  · rw [if_neg hf]
    exact ⟨CursorInv.init K h, fun h0 => absurd rfl h0⟩

theorem jsvArrayIteratorNext_inv (K : JsvConsts) (hK : K.Valid) (fr : Heap → Nat → Heap)
    (h : Heap) (S : Nat → Prop)
    (hnext : ∀ c, S c → (h c).nextSibling ≠ 0 → S (h c).nextSibling)
    (hvis : ∀ c, S c → Visitable K (h c) (jsvGetLocks K (h c)))
    (st : Heap × JsvArrayIterator)
    (inv : CursorInv K h (fun q => jsvGetLocks K (h q)) st.1 st.2.var)
    (hS : st.2.var ≠ 0 → S st.2.var) :
    CursorInv K h (fun q => jsvGetLocks K (h q)) (jsvArrayIteratorNext K fr st.1 st.2).1
      (jsvArrayIteratorNext K fr st.1 st.2).2.var ∧
    ((jsvArrayIteratorNext K fr st.1 st.2).2.var ≠ 0 →
      S (jsvArrayIteratorNext K fr st.1 st.2).2.var) := by
  unfold jsvArrayIteratorNext
  by_cases hv : st.2.var ≠ 0
  · rw [if_pos hv]
    have hu := inv.unlock hK fr (fun _ => hvis _ (hS hv))
    have hsib : (st.1 st.2.var).nextSibling = (h st.2.var).nextSibling := (inv.1 _).2.2.1
    by_cases hn : (st.1 st.2.var).nextSibling ≠ 0
    · simp only [if_pos hn]
      have hSn : S (st.1 st.2.var).nextSibling := by
        rw [hsib]
        exact hnext _ (hS hv) (by rw [← hsib]; exact hn)
      exact ⟨hu.lock hK hn (hvis _ hSn), fun _ => hSn⟩
    · simp only [if_neg hn]
      exact ⟨hu, fun h0 => absurd rfl h0⟩
  · rw [if_neg hv]
    exact ⟨inv, hS⟩

theorem jsvArrayIteratorNexts_inv (K : JsvConsts) (hK : K.Valid) (fr : Heap → Nat → Heap)
    (h : Heap) (S : Nat → Prop)
    (hnext : ∀ c, S c → (h c).nextSibling ≠ 0 → S (h c).nextSibling)
    (hvis : ∀ c, S c → Visitable K (h c) (jsvGetLocks K (h c))) :
    ∀ (n : Nat) (st : Heap × JsvArrayIterator),
      CursorInv K h (fun q => jsvGetLocks K (h q)) st.1 st.2.var →
      (st.2.var ≠ 0 → S st.2.var) →
      CursorInv K h (fun q => jsvGetLocks K (h q)) (jsvArrayIteratorNexts K fr n st).1
        (jsvArrayIteratorNexts K fr n st).2.var ∧
      ((jsvArrayIteratorNexts K fr n st).2.var ≠ 0 →
        S (jsvArrayIteratorNexts K fr n st).2.var) := by
  intro n
  induction n with
  | zero => intro st inv hS; exact ⟨inv, hS⟩
  | succ n ih =>
    intro st inv hS
    obtain ⟨i1, i2⟩ := jsvArrayIteratorNext_inv K hK fr h S hnext hvis st inv hS
    exact ih _ i1 i2

/-- The object iterator runs the code of the array iterator. -/
theorem jsvObjectIteratorNexts_eq (K : JsvConsts) (fr : Heap → Nat → Heap) :
    ∀ (n : Nat) (hc : Heap) (v : Nat),
      (jsvObjectIteratorNexts K fr n (hc, ⟨v⟩)).1 =
        (jsvArrayIteratorNexts K fr n (hc, ⟨v⟩)).1 ∧
      (jsvObjectIteratorNexts K fr n (hc, ⟨v⟩)).2.var =
        (jsvArrayIteratorNexts K fr n (hc, ⟨v⟩)).2.var := by
  intro n
  induction n with
  | zero => intro hc v; exact ⟨rfl, rfl⟩
  | succ n ih =>
    intro hc v
    simp only [jsvObjectIteratorNexts, jsvArrayIteratorNexts, jsvObjectIteratorNext,
      jsvArrayIteratorNext]
    by_cases hv : v ≠ 0
    · simp only [if_pos hv]
      by_cases hn : (hc v).nextSibling ≠ 0
      · simp only [if_pos hn]
        exact ih _ _
      · simp only [if_neg hn]
        exact ih _ _
    · simp only [if_neg hv]
      exact ih _ _

theorem jsvObjectIteratorNew_eq (K : JsvConsts) (h : Heap) (obj : Nat) :
    jsvObjectIteratorNew K h obj =
      ((jsvArrayIteratorNew K h obj).1, ⟨(jsvArrayIteratorNew K h obj).2.var⟩) := by
  unfold jsvObjectIteratorNew jsvArrayIteratorNew
  split_ifs <;> rfl

theorem jsvStringIteratorNext_inv (K : JsvConsts) (hK : K.Valid) (fr : Heap → Nat → Heap)
    (h : Heap) (l : Nat → Nat) (S : Nat → Prop)
    (hnext : ∀ c, S c → (h c).lastChild ≠ 0 → S (h c).lastChild ∧ (h c).lastChild ≠ c)
    (hvis : ∀ c, S c → Visitable K (h c) (l c))
    (st : Heap × JsvStringIterator)
    (inv : CursorInv K h l st.1 st.2.var) (hS : st.2.var ≠ 0 → S st.2.var) :
    CursorInv K h l (jsvStringIteratorNextInline K fr st.1 st.2).1
      (jsvStringIteratorNextInline K fr st.1 st.2).2.var ∧
    ((jsvStringIteratorNextInline K fr st.1 st.2).2.var ≠ 0 →
      S (jsvStringIteratorNextInline K fr st.1 st.2).2.var) := by
  unfold jsvStringIteratorNextInline
  by_cases hend : st.2.charIdx + 1 ≥ st.2.charsInVar
  · simp only [if_pos hend]
    have hlc : (st.1 st.2.var).lastChild = (h st.2.var).lastChild := (inv.1 _).2.2.2.2.2.2
    by_cases hhop : st.2.var ≠ 0 ∧ (st.1 st.2.var).lastChild ≠ 0
    · simp only [if_pos hhop]
      have hSc := hS hhop.1
      obtain ⟨hSn, hne⟩ := hnext _ hSc (by rw [← hlc]; exact hhop.2)
      rw [← hlc] at hSn hne
      exact ⟨inv.lock_unlock hK fr hhop.1 hhop.2 hne (hvis _ hSc) (hvis _ hSn), fun _ => hSn⟩
    · simp only [if_neg hhop]
      exact ⟨inv.unlock hK fr (fun h0 => hvis _ (hS h0)), fun h0 => absurd rfl h0⟩
  · simp only [if_neg hend]
    exact ⟨inv, hS⟩

theorem jsvStringIteratorNexts_inv (K : JsvConsts) (hK : K.Valid) (fr : Heap → Nat → Heap)
    (h : Heap) (l : Nat → Nat) (S : Nat → Prop)
    (hnext : ∀ c, S c → (h c).lastChild ≠ 0 → S (h c).lastChild ∧ (h c).lastChild ≠ c)
    (hvis : ∀ c, S c → Visitable K (h c) (l c)) :
    ∀ (n : Nat) (st : Heap × JsvStringIterator),
      CursorInv K h l st.1 st.2.var → (st.2.var ≠ 0 → S st.2.var) →
      CursorInv K h l (jsvStringIteratorNexts K fr n st).1
        (jsvStringIteratorNexts K fr n st).2.var ∧
      ((jsvStringIteratorNexts K fr n st).2.var ≠ 0 →
        S (jsvStringIteratorNexts K fr n st).2.var) := by
  intro n
  induction n with
  | zero => intro st inv hS; exact ⟨inv, hS⟩
  | succ n ih =>
    intro st inv hS
    obtain ⟨i1, i2⟩ := jsvStringIteratorNext_inv K hK fr h l S hnext hvis st inv hS
    exact ih _ i1 i2

/-! ## Chains are acyclic -/

theorem IsChain.tail {h : Heap} {c d : Nat} {rest : List Nat}
    (hc : IsChain h (c :: d :: rest)) : IsChain h (d :: rest) := hc.2.2

theorem IsChain.unique {h : Heap} :
    ∀ (l1 l2 : List Nat) (c : Nat), IsChain h (c :: l1) → IsChain h (c :: l2) → l1 = l2 := by
  intro l1
  induction l1 with
  | nil =>
    intro l2 c h1 h2
    cases l2 with
    | nil => rfl
    | cons d r =>
      exfalso
      have e1 : (h c).lastChild = 0 := h1.2
      have e2 : (h c).lastChild = d := h2.2.1
      exact h2.2.2.head_ne_zero (e2.symm.trans e1)
  | cons d r ih =>
    intro l2 c h1 h2
    cases l2 with
    | nil =>
      exfalso
      have e1 : (h c).lastChild = 0 := h2.2
      have e2 : (h c).lastChild = d := h1.2.1
      exact h1.2.2.head_ne_zero (e2.symm.trans e1)
    | cons d' r' =>
      have e1 : (h c).lastChild = d := h1.2.1
      have e2 : (h c).lastChild = d' := h2.2.1
      have e : d' = d := e2.symm.trans e1
      subst e
      rw [ih r' d' h1.2.2 h2.2.2]

theorem IsChain.suffix {h : Heap} :
    ∀ (a : List Nat) (c : Nat) (b : List Nat), IsChain h (a ++ c :: b) → IsChain h (c :: b) := by
  intro a
  induction a with
  | nil => intro c b hc; exact hc
  | cons x a ih =>
    intro c b hc
    cases a with
    | nil => exact hc.tail
    | cons y ys => exact ih c b hc.tail

theorem IsChain.head_not_mem {h : Heap} {c : Nat} {cells : List Nat}
    (hc : IsChain h (c :: cells)) : c ∉ cells := by
  intro hmem
  obtain ⟨a, b, e⟩ := List.append_of_mem hmem
  have h1 : IsChain h (c :: b) := by
    apply IsChain.suffix (c :: a) c b
    rw [List.cons_append, ← e]
    exact hc
  have h2 := IsChain.unique cells b c hc h1
  have h3 := congrArg List.length e
  rw [h2] at h3
  simp at h3
  omega

theorem IsChain.nodup {h : Heap} : ∀ (cells : List Nat), IsChain h cells → cells.Nodup := by
  intro cells
  induction cells with
  | nil => intro _; exact List.nodup_nil
  | cons c rest ih =>
    intro hc
    refine List.nodup_cons.mpr ⟨hc.head_not_mem, ?_⟩
    cases rest with
    | nil => exact List.nodup_nil
    | cons d r => exact ih hc.tail

/-! ## The walk over a chain -/

theorem walkReads_snd (K : JsvConsts) (h : Heap) :
    ∀ (cells : List Nat) (v : Nat),
      (walkReads K h v 0 cells).map Prod.snd = chainBytes K h cells := by
  intro cells
  induction cells with
  | nil => intro v; rfl
  | cons c rest ih =>
    intro v
    simp only [walkReads, List.map_append, List.map_map, ih, chainBytes, List.flatMap_cons,
      cellBytes, Nat.sub_zero]
    congr 1
    rw [List.range_eq_range']
    apply List.map_congr_left
    intro i _
    rfl

theorem walkReads_fst (K : JsvConsts) (h : Heap) :
    ∀ (cells : List Nat) (v : Nat),
      (walkReads K h v 0 cells).map Prod.fst = List.range' v (chainLength K h cells) := by
  intro cells
  induction cells with
  | nil => intro v; rfl
  | cons c rest ih =>
    intro v
    have e : (Prod.fst ∘ fun i => (v + i, (h c).str.getD i 0)) = fun i => v + i := rfl
    have e2 : (List.range' 0 (jsvGetCharactersInVar K (h c))).map (fun i => v + i) =
        List.range' v (jsvGetCharactersInVar K (h c)) := by
      rw [← List.range_eq_range', List.range'_eq_map_range]
    simp only [walkReads, List.map_append, List.map_map, ih, chainLength, List.map_cons,
      List.sum_cons, Nat.sub_zero]
    rw [e, e2, List.range'_append_1, Nat.add_comm]

/-- C4: from a string iterator on the first byte of a chain head (`charIdx` 0, `varIndex`
0, `charsInVar` the count of the head), every cell of the chain holding at least one
byte, the loop that reads `jsvStringIteratorGetIndex` and `jsvStringIteratorGetChar` and
calls `jsvStringIteratorNextInline` while `jsvStringIteratorHasChar` holds ends, and
reads exactly the bytes of the cells in chain order (the successor taken through
`lastChild`), as many as the sum of the character counts, the `k`-th read at index
`k`.  The chain is kept alive meanwhile (`SafeUnlock`), as `jsvar.h` asks of the caller
of the string iterator. -/
theorem stringIteratorWalk_chain (K : JsvConsts) (hK : K.Valid) (fr : Heap → Nat → Heap)
    (h : Heap) (c : Nat) (cells : List Nat) (hchain : IsChain h (c :: cells))
    (hpos : ∀ d ∈ c :: cells, 1 ≤ jsvGetCharactersInVar K (h d))
    (hsafe : ∀ d ∈ c :: cells, SafeUnlock K (h d))
    (fuel : Nat) (hfuel : chainLength K h (c :: cells) < fuel) :
    ∃ out hf itf,
      stringIteratorWalk K fr fuel h ⟨0, jsvGetCharactersInVar K (h c), 0, c⟩ =
        some (out, hf, itf) ∧
      out.map Prod.snd = chainBytes K h (c :: cells) ∧
      out.map Prod.fst = List.range (chainLength K h (c :: cells)) ∧
      out.length = chainLength K h (c :: cells) ∧
      jsvStringIteratorHasChar itf = false := by
  obtain ⟨hf, itf, hw, hh, _, _⟩ := stringIteratorWalk_from K hK fr h fuel cells c h 0 0
    hchain (IsChain.nodup _ hchain) (fun q => SameButLocks.refl K _) hsafe hpos
    (hpos c (List.mem_cons_self _ _)) (by omega)
  refine ⟨_, hf, itf, hw, walkReads_snd K h _ 0, ?_, ?_, hh⟩
  · rw [walkReads_fst, List.range_eq_range']
  · have := congrArg List.length (walkReads_fst K h (c :: cells) 0)
    simpa using this

theorem sampleHeap_chain : IsChain sampleHeap [4, 5] :=
  ⟨by decide, rfl, by decide, rfl⟩

theorem stringIteratorWalk_chain_witness :
    ∃ out hf itf,
      stringIteratorWalk sampleConsts sampleFreePtr 4 sampleHeap
        ⟨0, jsvGetCharactersInVar sampleConsts (sampleHeap 4), 0, 4⟩ = some (out, hf, itf) ∧
      out.map Prod.snd = chainBytes sampleConsts sampleHeap [4, 5] ∧
      out.map Prod.fst = List.range (chainLength sampleConsts sampleHeap [4, 5]) ∧
      out.length = chainLength sampleConsts sampleHeap [4, 5] ∧
      jsvStringIteratorHasChar itf = false :=
  stringIteratorWalk_chain sampleConsts sampleConsts_valid sampleFreePtr sampleHeap 4 [5]
    sampleHeap_chain (by decide)
    (by
      intro d hd
      simp only [List.mem_cons, List.mem_singleton, List.not_mem_nil, or_false] at hd
      rcases hd with rfl | rfl
      · exact Or.inr (Or.inr (by decide))
      · exact Or.inl (by decide))
    4 (by decide)

/-! ## Iterators: one lock on the cursor -/

/-- C6 as stated fails when a lock count is at `JSV_LOCK_MAX`: the name cell 2 of
`saturatedHeap` holds 15 locks, `jsvArrayIteratorNew` cannot add one, and
`jsvArrayIteratorFree` leaves it with 14. -/
theorem iterator_free_saturated_lock :
    jsvGetLocks sampleConsts (saturatedHeap 2) = 15 ∧
    jsvGetLocks sampleConsts
      ((jsvArrayIteratorNew sampleConsts saturatedHeap 1).1 2) = 15 ∧
    jsvGetLocks sampleConsts
      ((jsvArrayIteratorFree sampleConsts sampleFreePtr
        (jsvArrayIteratorNew sampleConsts saturatedHeap 1).1
        (jsvArrayIteratorNew sampleConsts saturatedHeap 1).2) 2) = 14 := by
  decide

/-- C6, amended: when every cell an iterator visits is `Visitable` (its lock count is
below `JSV_LOCK_MAX` before the iterator locks it, and it stays alive when the iterator
unlocks it) and no string cell is its own successor, then after `New` and any number of
`Next` calls the array and the object iterator hold exactly one lock on the cursor cell
and none on any other cell, and `Free` leaves every lock count as it was before `New`;
the string iterator, entered holding one lock on its cell, has after any number of
`jsvStringIteratorNextInline` calls moved that one lock to its cursor cell, and
`jsvStringIteratorFree` releases it. -/
theorem iterators_hold_one_lock (K : JsvConsts) (hK : K.Valid) (fr : Heap → Nat → Heap)
    (h : Heap) :
    (∀ (arr : Nat) (S : Nat → Prop),
      ((h arr).firstChild ≠ 0 → S (h arr).firstChild) →
      (∀ c, S c → (h c).nextSibling ≠ 0 → S (h c).nextSibling) →
      (∀ c, S c → Visitable K (h c) (jsvGetLocks K (h c))) →
      ∀ (n r : Nat),
        jsvGetLocks K ((jsvArrayIteratorNexts K fr n (jsvArrayIteratorNew K h arr)).1 r) =
          jsvGetLocks K (h r) +
            (if r = (jsvArrayIteratorNexts K fr n (jsvArrayIteratorNew K h arr)).2.var ∧ r ≠ 0
              then 1 else 0) ∧
        jsvGetLocks K ((jsvArrayIteratorFree K fr
            (jsvArrayIteratorNexts K fr n (jsvArrayIteratorNew K h arr)).1
            (jsvArrayIteratorNexts K fr n (jsvArrayIteratorNew K h arr)).2) r) =
          jsvGetLocks K (h r)) ∧
    (∀ (obj : Nat) (S : Nat → Prop),
      ((h obj).firstChild ≠ 0 → S (h obj).firstChild) →
      (∀ c, S c → (h c).nextSibling ≠ 0 → S (h c).nextSibling) →
      (∀ c, S c → Visitable K (h c) (jsvGetLocks K (h c))) →
      ∀ (n r : Nat),
        jsvGetLocks K ((jsvObjectIteratorNexts K fr n (jsvObjectIteratorNew K h obj)).1 r) =
          jsvGetLocks K (h r) +
            (if r = (jsvObjectIteratorNexts K fr n (jsvObjectIteratorNew K h obj)).2.var ∧ r ≠ 0
              then 1 else 0) ∧
        jsvGetLocks K ((jsvObjectIteratorFree K fr
            (jsvObjectIteratorNexts K fr n (jsvObjectIteratorNew K h obj)).1
            (jsvObjectIteratorNexts K fr n (jsvObjectIteratorNew K h obj)).2) r) =
          jsvGetLocks K (h r)) ∧
    (∀ (it : JsvStringIterator) (S : Nat → Prop),
      (it.var ≠ 0 → S it.var ∧ 1 ≤ jsvGetLocks K (h it.var)) →
      (∀ c, S c → (h c).lastChild ≠ 0 → S (h c).lastChild ∧ (h c).lastChild ≠ c) →
      (∀ c, S c → Visitable K (h c) (jsvGetLocks K (h c) - cursorLock it.var c)) →
      ∀ (n r : Nat),
        jsvGetLocks K ((jsvStringIteratorNexts K fr n (h, it)).1 r) + cursorLock it.var r =
          jsvGetLocks K (h r) + cursorLock (jsvStringIteratorNexts K fr n (h, it)).2.var r ∧
        jsvGetLocks K ((jsvStringIteratorFree K fr
            (jsvStringIteratorNexts K fr n (h, it)).1
            (jsvStringIteratorNexts K fr n (h, it)).2) r) + cursorLock it.var r =
          jsvGetLocks K (h r)) := by
  have harr : ∀ (arr : Nat) (S : Nat → Prop),
      ((h arr).firstChild ≠ 0 → S (h arr).firstChild) →
      (∀ c, S c → (h c).nextSibling ≠ 0 → S (h c).nextSibling) →
      (∀ c, S c → Visitable K (h c) (jsvGetLocks K (h c))) →
      ∀ (n r : Nat),
        jsvGetLocks K ((jsvArrayIteratorNexts K fr n (jsvArrayIteratorNew K h arr)).1 r) =
          jsvGetLocks K (h r) +
            (if r = (jsvArrayIteratorNexts K fr n (jsvArrayIteratorNew K h arr)).2.var ∧ r ≠ 0
              then 1 else 0) ∧
        jsvGetLocks K ((jsvUnLock K fr
            (jsvArrayIteratorNexts K fr n (jsvArrayIteratorNew K h arr)).1
            (jsvArrayIteratorNexts K fr n (jsvArrayIteratorNew K h arr)).2.var) r) =
          jsvGetLocks K (h r) := by
    intro arr S hfirst hnext hvis n r
    obtain ⟨i1, i2⟩ := jsvArrayIteratorNew_inv K hK h arr S hfirst hvis
    obtain ⟨j1, j2⟩ := jsvArrayIteratorNexts_inv K hK fr h S hnext hvis n _ i1 i2
    refine ⟨j1.2 r, ?_⟩
    have hu := j1.unlock hK fr (fun h0 => hvis _ (j2 h0))
    have := hu.2 r
    rw [cursorLock_zero] at this
    exact this
  refine ⟨harr, ?_, ?_⟩
  · intro obj S hfirst hnext hvis n r
    have key := harr obj S hfirst hnext hvis n r
    rw [jsvObjectIteratorNew_eq]
    obtain ⟨e1, e2⟩ := jsvObjectIteratorNexts_eq K fr n (jsvArrayIteratorNew K h obj).1
      (jsvArrayIteratorNew K h obj).2.var
    unfold jsvObjectIteratorFree
    rw [e1, e2]
    exact key
  · intro it S hstart hnext hvis n r
    have hinit : CursorInv K h (fun q => jsvGetLocks K (h q) - cursorLock it.var q) h
        it.var := by
      refine ⟨fun q => SameButLocks.refl K _, ?_⟩
      intro q
      by_cases hq : q = it.var ∧ q ≠ 0
      · have h1 : 1 ≤ jsvGetLocks K (h q) := by
          rw [hq.1]
          exact (hstart (hq.1 ▸ hq.2)).2
        simp only [cursorLock, if_pos hq]
        omega
      · simp only [cursorLock, if_neg hq]
        omega
    have hle : cursorLock it.var r ≤ jsvGetLocks K (h r) := by
      have := hinit.2 r
      omega
    obtain ⟨j1, j2⟩ := jsvStringIteratorNexts_inv K hK fr h _ S hnext hvis n (h, it) hinit
      (fun h0 => (hstart h0).1)
    constructor
    · have := j1.2 r
      simp only at this
      omega
    · have hu := j1.unlock hK fr (fun h0 => hvis _ (j2 h0))
      have := hu.2 r
      rw [cursorLock_zero] at this
      unfold jsvStringIteratorFree
      simp only at this
      omega

theorem sampleHeap_names_visitable :
    ∀ c, (c = 2 ∨ c = 3) →
      Visitable sampleConsts (sampleHeap c) (jsvGetLocks sampleConsts (sampleHeap c)) := by
  rintro c (rfl | rfl)
  · exact ⟨by decide, Or.inr (Or.inl (by decide))⟩
  · exact ⟨by decide, Or.inr (Or.inl (by decide))⟩

theorem sampleHeap_names_closed :
    ∀ c, (c = 2 ∨ c = 3) → (sampleHeap c).nextSibling ≠ 0 →
      ((sampleHeap c).nextSibling = 2 ∨ (sampleHeap c).nextSibling = 3) := by
  rintro c (rfl | rfl) h0
  · decide
  · exact absurd rfl h0

theorem sampleHeap_string_visitable :
    ∀ c, (c = 4 ∨ c = 5) →
      Visitable sampleConsts (sampleHeap c)
        (jsvGetLocks sampleConsts (sampleHeap c) - cursorLock 4 c) := by
  rintro c (rfl | rfl)
  · exact ⟨by decide, Or.inr (Or.inr (by decide))⟩
  · exact ⟨by decide, Or.inl (by decide)⟩

theorem sampleHeap_string_closed :
    ∀ c, (c = 4 ∨ c = 5) → (sampleHeap c).lastChild ≠ 0 →
      ((sampleHeap c).lastChild = 4 ∨ (sampleHeap c).lastChild = 5) ∧
        (sampleHeap c).lastChild ≠ c := by
  rintro c (rfl | rfl) h0
  · decide
  · exact absurd rfl h0

theorem iterators_hold_one_lock_witness :
    (jsvGetLocks sampleConsts ((jsvArrayIteratorNexts sampleConsts sampleFreePtr 1
          (jsvArrayIteratorNew sampleConsts sampleHeap 1)).1 3) =
        jsvGetLocks sampleConsts (sampleHeap 3) +
          (if 3 = (jsvArrayIteratorNexts sampleConsts sampleFreePtr 1
              (jsvArrayIteratorNew sampleConsts sampleHeap 1)).2.var ∧ 3 ≠ 0 then 1 else 0) ∧
      jsvGetLocks sampleConsts ((jsvArrayIteratorFree sampleConsts sampleFreePtr
          (jsvArrayIteratorNexts sampleConsts sampleFreePtr 1
            (jsvArrayIteratorNew sampleConsts sampleHeap 1)).1
          (jsvArrayIteratorNexts sampleConsts sampleFreePtr 1
            (jsvArrayIteratorNew sampleConsts sampleHeap 1)).2) 3) =
        jsvGetLocks sampleConsts (sampleHeap 3)) ∧
    (jsvGetLocks sampleConsts ((jsvObjectIteratorNexts sampleConsts sampleFreePtr 0
          (jsvObjectIteratorNew sampleConsts sampleHeap 1)).1 2) =
        jsvGetLocks sampleConsts (sampleHeap 2) +
          (if 2 = (jsvObjectIteratorNexts sampleConsts sampleFreePtr 0
              (jsvObjectIteratorNew sampleConsts sampleHeap 1)).2.var ∧ 2 ≠ 0 then 1 else 0) ∧
      jsvGetLocks sampleConsts ((jsvObjectIteratorFree sampleConsts sampleFreePtr
          (jsvObjectIteratorNexts sampleConsts sampleFreePtr 0
            (jsvObjectIteratorNew sampleConsts sampleHeap 1)).1
          (jsvObjectIteratorNexts sampleConsts sampleFreePtr 0
            (jsvObjectIteratorNew sampleConsts sampleHeap 1)).2) 2) =
        jsvGetLocks sampleConsts (sampleHeap 2)) ∧
    (jsvGetLocks sampleConsts
          ((jsvStringIteratorNexts sampleConsts sampleFreePtr 2 (sampleHeap, ⟨0, 2, 0, 4⟩)).1 5) +
          cursorLock 4 5 =
        jsvGetLocks sampleConsts (sampleHeap 5) +
          cursorLock
            (jsvStringIteratorNexts sampleConsts sampleFreePtr 2 (sampleHeap, ⟨0, 2, 0, 4⟩)).2.var
            5 ∧
      jsvGetLocks sampleConsts ((jsvStringIteratorFree sampleConsts sampleFreePtr
          (jsvStringIteratorNexts sampleConsts sampleFreePtr 2 (sampleHeap, ⟨0, 2, 0, 4⟩)).1
          (jsvStringIteratorNexts sampleConsts sampleFreePtr 2 (sampleHeap, ⟨0, 2, 0, 4⟩)).2) 5) +
          cursorLock 4 5 =
        jsvGetLocks sampleConsts (sampleHeap 5)) :=
  ⟨(iterators_hold_one_lock sampleConsts sampleConsts_valid sampleFreePtr sampleHeap).1 1
      (fun c => c = 2 ∨ c = 3) (fun _ => Or.inl rfl) sampleHeap_names_closed
      sampleHeap_names_visitable 1 3,
   (iterators_hold_one_lock sampleConsts sampleConsts_valid sampleFreePtr sampleHeap).2.1 1
      (fun c => c = 2 ∨ c = 3) (fun _ => Or.inl rfl) sampleHeap_names_closed
      sampleHeap_names_visitable 0 2,
   (iterators_hold_one_lock sampleConsts sampleConsts_valid sampleFreePtr sampleHeap).2.2
      ⟨0, 2, 0, 4⟩ (fun c => c = 4 ∨ c = 5) (fun _ => ⟨Or.inl rfl, by decide⟩)
      sampleHeap_string_closed sampleHeap_string_visitable 2 5⟩

/-! ## `graphicsDrawLine` and `graphicsFallbackBitmap1bit` at concrete inputs -/

/-- C3: the line from (0,0) to (1,0) is longer in X than in Y, yet `graphicsDrawLine`
calls `graphicsSetPixel` for column 0 only: the guard `yl = 1` for a zero delta makes
`xl > yl` false, the line is scanned in Y, and column 1 is never set. -/
theorem graphicsDrawLine_unit_horizontal (gfx : JsGraphicsData) (fuel : Nat) :
    graphicsDrawLine gfx 0 0 1 0 (fuel + 2) = some [⟨0, 0, gfx.fgColor⟩] := by
  rfl

/-- C10: a 1-by-1 bitmap whose bit 0 is set, drawn at (1, 0): `graphicsFallbackBitmap1bit`
calls `graphicsSetPixel` at (0, 0), not at (1, 0), and with the background colour, since
it adds the position to the bit offset instead of to the pixel coordinates. -/
theorem graphicsFallbackBitmap1bit_at_1_0 :
    graphicsFallbackBitmap1bit (JsGraphicsData.mk 16 16 1 1 0) 1 0 1 1
      (fun i => if i = 0 then 1 else 0) = [⟨0, 0, 0⟩] := by
  decide

/-! ## `graphicsFillPoly` at concrete polygons -/

/-- C1 as stated fails: the triangle (0,0), (22,3), (22,0) on a 32-by-8 framebuffer is a
simple closed polygon and the pixel (15,2) lies strictly inside it (the lower edge
passes column 15 at row 45/22 > 2), yet the sink is never called at (15,2): the 8.8
step 768/22 is truncated to 34 and the crossing recorded for column 15 is row 1. -/
theorem graphicsFillPoly_misses_inside_pixel :
    isSimplePolygon [(0, 0), (22, 3), (22, 0)] = true ∧
    strictlyInside [(0, 0), (22, 3), (22, 0)] (15, 2) = true ∧
    ∃ calls, graphicsFillPolyPixels 32 (JsGraphicsData.mk 32 8 1 1 0) (fun _ => false)
        [(0, 0), (22, 3), (22, 0)] 40 = some calls ∧
      ∀ q ∈ calls, ¬ (q.x = 15 ∧ q.y = 2) := by
  refine ⟨by decide, by decide, _, rfl, ?_⟩
  decide

/-- C2 as stated fails: the polygon (0,0), (8,0), (4,4), (8,8), (0,8) on a 16-by-16
framebuffer is a simple closed polygon with a notch cut in from the right, the pixel
(6,4) lies in the notch, strictly outside the polygon, and the sink is called at (6,4)
with the foreground colour: the fill spans each column from its topmost to its
bottommost crossing. -/
theorem graphicsFillPoly_paints_outside_pixel :
    isSimplePolygon [(0, 0), (8, 0), (4, 4), (8, 8), (0, 8)] = true ∧
    strictlyOutside [(0, 0), (8, 0), (4, 4), (8, 8), (0, 8)] (6, 4) = true ∧
    ∃ calls, graphicsFillPolyPixels 32 (JsGraphicsData.mk 16 16 1 1 0) (fun _ => false)
        [(0, 0), (8, 0), (4, 4), (8, 8), (0, 8)] 20 = some calls ∧
      (⟨6, 4, 1⟩ : Pixel) ∈ calls := by
  refine ⟨by decide, by decide, _, rfl, ?_⟩
  decide

/-! ## `graphicsFillPolyCreateVertScanLines` -/

theorem scanLineStep_spec (gfx : JsGraphicsData) (stepy x yh : Int) (miny maxy : ShortArray)
    (hrow : -32768 ≤ yh >>> (8 : Nat) ∧ yh >>> (8 : Nat) ≤ 32767)
    (hinit : 0 ≤ x → x < gfx.width → (miny x).isSome ∧ (maxy x).isSome) :
    ∃ miny' maxy', scanLineStep gfx stepy x (yh, miny, maxy) = some (yh + stepy, miny', maxy') ∧
      (∀ t, miny' t = if t = x ∧ 0 ≤ x ∧ x < gfx.width
        then (miny t).map (fun lo => min lo (yh >>> (8 : Nat))) else miny t) ∧
      (∀ t, maxy' t = if t = x ∧ 0 ≤ x ∧ x < gfx.width
        then (maxy t).map (fun hi => max hi (yh >>> (8 : Nat))) else maxy t) := by
  have hc1 : ¬ (yh >>> (8 : Nat) < -32768) := by omega
  have hc2 : ¬ (yh >>> (8 : Nat) > 32767) := by omega
  have hts : toShort (yh >>> (8 : Nat)) = yh >>> (8 : Nat) := toShort_of_isShort hrow.1 hrow.2
  unfold scanLineStep
  simp only [if_neg hc1, if_neg hc2, hts]
  by_cases hr : x ≥ 0 ∧ x < gfx.width
  · have hr' : 0 ≤ x ∧ x < (gfx.width : Int) := ⟨hr.1, hr.2⟩
    obtain ⟨h1, h2⟩ := hinit hr.1 hr.2
    obtain ⟨lo, hlo⟩ := Option.isSome_iff_exists.mp h1
    obtain ⟨hi, hhi⟩ := Option.isSome_iff_exists.mp h2
    simp only [if_pos hr, ShortArray.get, ShortArray.set, if_pos hr', hlo, hhi]
    by_cases ha : yh >>> (8 : Nat) < lo
    · by_cases hb : yh >>> (8 : Nat) > hi
      · simp only [if_pos ha, if_pos hb]
        refine ⟨_, _, rfl, ?_, ?_⟩
        · intro t
          by_cases ht : t = x
          · subst ht
            simp only [Function.update_same, true_and, if_pos hr', hlo, Option.map_some']
            rw [min_eq_right (le_of_lt ha)]
          · simp only [Function.update_noteq ht, ht, false_and, if_false]
        · intro t
          by_cases ht : t = x
          · subst ht
            simp only [Function.update_same, true_and, if_pos hr', hhi, Option.map_some']
            rw [max_eq_right (le_of_lt hb)]
          · simp only [Function.update_noteq ht, ht, false_and, if_false]
      · simp only [if_pos ha, if_neg hb]
        refine ⟨_, _, rfl, ?_, ?_⟩
        · intro t
          by_cases ht : t = x
          · subst ht
            simp only [Function.update_same, true_and, if_pos hr', hlo, Option.map_some']
            rw [min_eq_right (le_of_lt ha)]
          · simp only [Function.update_noteq ht, ht, false_and, if_false]
        · intro t
          by_cases ht : t = x
          · subst ht
            simp only [true_and, if_pos hr', hhi, Option.map_some']
            rw [max_eq_left (by omega)]
          · simp only [ht, false_and, if_false]
    · by_cases hb : yh >>> (8 : Nat) > hi
      · simp only [if_neg ha, if_pos hb]
        refine ⟨_, _, rfl, ?_, ?_⟩
        · intro t
          by_cases ht : t = x
          · subst ht
            simp only [true_and, if_pos hr', hlo, Option.map_some']
            rw [min_eq_left (by omega)]
          · simp only [ht, false_and, if_false]
        · intro t
          by_cases ht : t = x
          · subst ht
            simp only [Function.update_same, true_and, if_pos hr', hhi, Option.map_some']
            rw [max_eq_right (le_of_lt hb)]
          · simp only [Function.update_noteq ht, ht, false_and, if_false]
      · simp only [if_neg ha, if_neg hb]
        refine ⟨_, _, rfl, ?_, ?_⟩
        · intro t
          by_cases ht : t = x
          · subst ht
            simp only [true_and, if_pos hr', hlo, Option.map_some']
            rw [min_eq_left (by omega)]
          · simp only [ht, false_and, if_false]
        · intro t
          by_cases ht : t = x
          · subst ht
            simp only [true_and, if_pos hr', hhi, Option.map_some']
            rw [max_eq_left (by omega)]
          · simp only [ht, false_and, if_false]
  · have hr' : ¬ (0 ≤ x ∧ x < (gfx.width : Int)) := fun h => hr ⟨h.1, h.2⟩
    simp only [if_neg hr]
    refine ⟨_, _, rfl, ?_, ?_⟩
    · intro t
      rw [if_neg]
      exact fun h => hr' h.2
    · intro t
      rw [if_neg]
      exact fun h => hr' h.2

theorem shiftRight_8 (m : Int) : m >>> (8 : Nat) = m / 256 := by
  rw [Int.shiftRight_eq_div_pow]
  norm_num

theorem step_mul_bounds (d xl k : Int) (hxl : 1 ≤ xl) (hk0 : 0 ≤ k) (hk : k ≤ xl) :
    (0 ≤ d → 0 ≤ k * Int.tdiv (d * 256) xl ∧ k * Int.tdiv (d * 256) xl ≤ d * 256) ∧
    (d ≤ 0 → d * 256 ≤ k * Int.tdiv (d * 256) xl ∧ k * Int.tdiv (d * 256) xl ≤ 0) := by
  have key : ∀ a : Int, 0 ≤ a → 0 ≤ k * (a / xl) ∧ k * (a / xl) ≤ a := by
    intro a ha
    have h1 : 0 ≤ a / xl := Int.ediv_nonneg ha (by omega)
    have h2 : a / xl * xl ≤ a := Int.ediv_mul_le a (by omega)
    constructor
    · exact mul_nonneg hk0 h1
    · calc k * (a / xl) ≤ xl * (a / xl) := mul_le_mul_of_nonneg_right hk h1
        _ = a / xl * xl := mul_comm _ _
        _ ≤ a := h2
  constructor
  · intro hd
    rw [Int.tdiv_eq_ediv (by omega) (by omega)]
    exact key _ (by omega)
  · intro hd
    have e : d * 256 = -(-d * 256) := by ring
    rw [e, Int.neg_tdiv, Int.tdiv_eq_ediv (by omega) (by omega)]
    obtain ⟨h1, h2⟩ := key (-d * 256) (by omega)
    constructor
    · have : k * -(-d * 256 / xl) = -(k * (-d * 256 / xl)) := by ring
      rw [this]
      omega
    · have : k * -(-d * 256 / xl) = -(k * (-d * 256 / xl)) := by ring
      rw [this]
      omega

/-- The row computed for a column of an edge lies between the rows of its end points. -/
theorem edgeRow_bounds (x1 y1 x2 y2 x : Int) (h1 : min x1 x2 ≤ x) (h2 : x ≤ max x1 x2) :
    min y1 y2 ≤ edgeRow x1 y1 x2 y2 x ∧ edgeRow x1 y1 x2 y2 x ≤ max y1 y2 := by
  unfold edgeRow
  rw [shiftRight_8]
  by_cases hs : x2 < x1
  · simp only [if_pos hs]
    have hx1 : x2 ≤ x := by
      rw [min_eq_right (le_of_lt hs)] at h1
      exact h1
    have hx2 : x ≤ x1 := by
      rw [max_eq_left (le_of_lt hs)] at h2
      exact h2
    have hne : ¬ (x1 - x2 = 0) := by omega
    rw [if_neg hne]
    obtain ⟨b1, b2⟩ := step_mul_bounds (y1 - y2) (x1 - x2) (x - x2) (by omega) (by omega)
      (by omega)
    rcases le_total 0 (y1 - y2) with hd | hd
    · obtain ⟨c1, c2⟩ := b1 hd
      have m1 : min y1 y2 = y2 := min_eq_right (by omega)
      have m2 : max y1 y2 = y1 := max_eq_left (by omega)
      rw [m1, m2]
      omega
    · obtain ⟨c1, c2⟩ := b2 hd
      have m1 : min y1 y2 = y1 := min_eq_left (by omega)
      have m2 : max y1 y2 = y2 := max_eq_right (by omega)
      rw [m1, m2]
      omega
  · simp only [if_neg hs]
    have hx1 : x1 ≤ x := by
      rw [min_eq_left (by omega)] at h1
      exact h1
    have hx2 : x ≤ x2 := by
      rw [max_eq_right (by omega)] at h2
      exact h2
    by_cases hz : x2 - x1 = 0
    · rw [if_pos hz]
      have hk : x - x1 = 0 := by omega
      rw [hk, Int.tdiv_one, zero_mul, add_zero]
      have m1 : min y1 y2 ≤ y1 := min_le_left _ _
      have m2 : y1 ≤ max y1 y2 := le_max_left _ _
      omega
    · rw [if_neg hz]
      obtain ⟨b1, b2⟩ := step_mul_bounds (y2 - y1) (x2 - x1) (x - x1) (by omega) (by omega)
        (by omega)
      rcases le_total 0 (y2 - y1) with hd | hd
      · obtain ⟨c1, c2⟩ := b1 hd
        have m1 : min y1 y2 = y1 := min_eq_left (by omega)
        have m2 : max y1 y2 = y2 := max_eq_right (by omega)
        rw [m1, m2]
        omega
      · obtain ⟨c1, c2⟩ := b2 hd
        have m1 : min y1 y2 = y2 := min_eq_right (by omega)
        have m2 : max y1 y2 = y1 := max_eq_left (by omega)
        rw [m1, m2]
        omega

theorem scan_fold (gfx : JsGraphicsData) (stepy ya xa xb : Int)
    (hrows : ∀ x, xa ≤ x → x ≤ xb →
      -32768 ≤ (ya * 256 + (x - xa) * stepy) >>> (8 : Nat) ∧
        (ya * 256 + (x - xa) * stepy) >>> (8 : Nat) ≤ 32767) :
    ∀ (n : Nat) (t : Int) (miny maxy : ShortArray), (xb + 1 - t).toNat = n → xa ≤ t →
      (∀ x, t ≤ x → x ≤ xb → 0 ≤ x → x < gfx.width → (miny x).isSome ∧ (maxy x).isSome) →
      ∃ yh' miny' maxy',
        (intRange t xb).foldlM (fun s x => scanLineStep gfx stepy x s)
          (ya * 256 + (t - xa) * stepy, miny, maxy) = some (yh', miny', maxy') ∧
        (∀ x, miny' x = if t ≤ x ∧ x ≤ xb ∧ 0 ≤ x ∧ x < gfx.width
          then (miny x).map (fun lo => min lo ((ya * 256 + (x - xa) * stepy) >>> (8 : Nat)))
          else miny x) ∧
        (∀ x, maxy' x = if t ≤ x ∧ x ≤ xb ∧ 0 ≤ x ∧ x < gfx.width
          then (maxy x).map (fun hi => max hi ((ya * 256 + (x - xa) * stepy) >>> (8 : Nat)))
          else maxy x) := by
  intro n
  induction n with
  | zero =>
    intro t miny maxy hn _ _
    rw [intRange_of_lt (by omega)]
    refine ⟨_, miny, maxy, rfl, ?_, ?_⟩
    · intro x
      rw [if_neg]
      intro h
      omega
    · intro x
      rw [if_neg]
      intro h
      omega
  | succ n ih =>
    intro t miny maxy hn hat hinit
    have htb : t ≤ xb := by omega
    rw [intRange_cons htb, List.foldlM_cons]
    obtain ⟨m1, M1, e1, hm1, hM1⟩ := scanLineStep_spec gfx stepy t
      (ya * 256 + (t - xa) * stepy) miny maxy (hrows t hat htb)
      (fun h0 h1 => hinit t (le_refl _) htb h0 h1)
    rw [e1]
    simp only [Option.bind_eq_bind, Option.some_bind]
    have eyh : ya * 256 + (t - xa) * stepy + stepy = ya * 256 + (t + 1 - xa) * stepy := by ring
    rw [eyh]
    obtain ⟨yh', m2, M2, e2, hm2, hM2⟩ := ih (t + 1) m1 M1 (by omega) (by omega) (by
      intro x hx1 hx2 hx3 hx4
      have hne : ¬ (x = t ∧ 0 ≤ t ∧ t < (gfx.width : Int)) := by
        intro h
        omega
      rw [hm1 x, hM1 x, if_neg hne, if_neg hne]
      exact hinit x (by omega) hx2 hx3 hx4)
    refine ⟨yh', m2, M2, e2, ?_, ?_⟩
    · intro x
      rw [hm2 x, hm1 x]
      by_cases hxt : x = t
      · subst hxt
        have hn1 : ¬ (x + 1 ≤ x ∧ x ≤ xb ∧ 0 ≤ x ∧ x < (gfx.width : Int)) := by
          intro h
          omega
        rw [if_neg hn1]
        by_cases hr : 0 ≤ x ∧ x < (gfx.width : Int)
        · rw [if_pos ⟨rfl, hr⟩, if_pos ⟨le_refl _, htb, hr⟩]
        · rw [if_neg (fun h => hr h.2), if_neg (fun h => hr h.2.2)]
      · have hn1 : ¬ (x = t ∧ 0 ≤ t ∧ t < (gfx.width : Int)) := fun h => hxt h.1
        rw [if_neg hn1]
        by_cases hc : x + 0 ≥ t + 1 ∧ x ≤ xb ∧ 0 ≤ x ∧ x < (gfx.width : Int)
        · rw [if_pos ⟨by omega, hc.2⟩, if_pos ⟨by omega, hc.2⟩]
        · rw [if_neg (fun h => hc ⟨by omega, h.2⟩), if_neg (fun h => hc ⟨by omega, h.2⟩)]
    · intro x
      rw [hM2 x, hM1 x]
      by_cases hxt : x = t
      · subst hxt
        have hn1 : ¬ (x + 1 ≤ x ∧ x ≤ xb ∧ 0 ≤ x ∧ x < (gfx.width : Int)) := by
          intro h
          omega
        rw [if_neg hn1]
        by_cases hr : 0 ≤ x ∧ x < (gfx.width : Int)
        · rw [if_pos ⟨rfl, hr⟩, if_pos ⟨le_refl _, htb, hr⟩]
        · rw [if_neg (fun h => hr h.2), if_neg (fun h => hr h.2.2)]
      · have hn1 : ¬ (x = t ∧ 0 ≤ t ∧ t < (gfx.width : Int)) := fun h => hxt h.1
        rw [if_neg hn1]
        by_cases hc : x + 0 ≥ t + 1 ∧ x ≤ xb ∧ 0 ≤ x ∧ x < (gfx.width : Int)
        · rw [if_pos ⟨by omega, hc.2⟩, if_pos ⟨by omega, hc.2⟩]
        · rw [if_neg (fun h => hc ⟨by omega, h.2⟩), if_neg (fun h => hc ⟨by omega, h.2⟩)]

/-- What `graphicsFillPolyCreateVertScanLines` does to the arrays: at each column of the
edge that lies in the framebuffer, `miny` takes the least and `maxy` the greatest of its
old value and the row computed for the column; no other element changes.  With
`x`-coordinates below 32767 the loop ends. -/
theorem graphicsFillPolyCreateVertScanLines_spec (gfx : JsGraphicsData)
    (miny maxy : ShortArray) (x1 y1 x2 y2 : Int) (fuel : Nat)
    (hx1 : -32768 ≤ x1 ∧ x1 < 32767) (hx2 : -32768 ≤ x2 ∧ x2 < 32767)
    (hy1 : IsShort y1) (hy2 : IsShort y2) (hf : 65536 ≤ fuel)
    (hinit : ∀ x, min x1 x2 ≤ x → x ≤ max x1 x2 → 0 ≤ x → x < gfx.width →
      (miny x).isSome ∧ (maxy x).isSome) :
    ∃ miny' maxy',
      graphicsFillPolyCreateVertScanLines gfx miny maxy x1 y1 x2 y2 fuel =
        some (miny', maxy') ∧
      (∀ x, miny' x = if edgeCovers ((x1, y1), (x2, y2)) x ∧ 0 ≤ x ∧ x < gfx.width
        then (miny x).map (fun lo => min lo (edgeRow x1 y1 x2 y2 x)) else miny x) ∧
      (∀ x, maxy' x = if edgeCovers ((x1, y1), (x2, y2)) x ∧ 0 ≤ x ∧ x < gfx.width
        then (maxy x).map (fun hi => max hi (edgeRow x1 y1 x2 y2 x)) else maxy x) := by
  have hsh1 := hy1
  have hsh2 := hy2
  unfold IsShort at hsh1 hsh2
  have hrowsE : ∀ x, min x1 x2 ≤ x → x ≤ max x1 x2 →
      -32768 ≤ edgeRow x1 y1 x2 y2 x ∧ edgeRow x1 y1 x2 y2 x ≤ 32767 := by
    intro x h1 h2
    obtain ⟨b1, b2⟩ := edgeRow_bounds x1 y1 x2 y2 x h1 h2
    have m1 : -32768 ≤ min y1 y2 := le_min hsh1.1 hsh2.1
    have m2 : max y1 y2 ≤ 32767 := max_le hsh1.2 hsh2.2
    omega
  unfold graphicsFillPolyCreateVertScanLines
  unfold edgeRow at hrowsE
  unfold edgeCovers edgeRow
  by_cases hs : x2 < x1
  · simp only [if_pos hs] at hrowsE ⊢
    have emin : min x1 x2 = x2 := min_eq_right (le_of_lt hs)
    have emax : max x1 x2 = x1 := max_eq_left (le_of_lt hs)
    rw [emin, emax] at hrowsE hinit
    simp only [emin, emax]
    rw [forShort_eq_foldlM _ fuel x2 x1 _ hx2.1 hx1.2 (by omega)]
    obtain ⟨yh', m, M, e, hm, hM⟩ := scan_fold gfx _ y2 x2 x1 hrowsE _ x2 miny maxy rfl
      (le_refl _) hinit
    simp only [sub_self, zero_mul, add_zero] at e
    rw [e]
    refine ⟨m, M, rfl, ?_, ?_⟩
    · intro x
      rw [hm x]
      simp only [and_assoc]
    · intro x
      rw [hM x]
      simp only [and_assoc]
  · simp only [if_neg hs] at hrowsE ⊢
    have emin : min x1 x2 = x1 := min_eq_left (by omega)
    have emax : max x1 x2 = x2 := max_eq_right (by omega)
    rw [emin, emax] at hrowsE hinit
    simp only [emin, emax]
    rw [forShort_eq_foldlM _ fuel x1 x2 _ hx1.1 hx2.2 (by omega)]
    obtain ⟨yh', m, M, e, hm, hM⟩ := scan_fold gfx _ y1 x1 x2 hrowsE _ x1 miny maxy rfl
      (le_refl _) hinit
    simp only [sub_self, zero_mul, add_zero] at e
    rw [e]
    refine ⟨m, M, rfl, ?_, ?_⟩
    · intro x
      rw [hm x]
      simp only [and_assoc]
    · intro x
      rw [hM x]
      simp only [and_assoc]

/-! ## `graphicsFillPoly`: column range, initialisation, edges -/

theorem foldl_range_spec (vs : List (Int × Int)) :
    ∀ (a b : Int),
      let r := vs.foldl
        (fun (m : Int × Int) (v : Int × Int) =>
          (if v.1 < m.1 then v.1 else m.1, if v.1 > m.2 then v.1 else m.2)) (a, b)
      (∀ v ∈ vs, r.1 ≤ v.1 ∧ v.1 ≤ r.2) ∧ r.1 ≤ a ∧ b ≤ r.2 ∧
      (r.1 = a ∨ ∃ v ∈ vs, r.1 = v.1) ∧ (r.2 = b ∨ ∃ v ∈ vs, r.2 = v.1) := by
  induction vs with
  | nil =>
    intro a b
    simp
  | cons w vs ih =>
    intro a b
    simp only [List.foldl_cons]
    obtain ⟨h1, h2, h3, h4, h5⟩ := ih (if w.1 < a then w.1 else a) (if w.1 > b then w.1 else b)
    have ha : (if w.1 < a then w.1 else a) ≤ a ∧ (if w.1 < a then w.1 else a) ≤ w.1 := by
      split_ifs <;> omega
    have hb : b ≤ (if w.1 > b then w.1 else b) ∧ w.1 ≤ (if w.1 > b then w.1 else b) := by
      split_ifs <;> omega
    refine ⟨?_, by omega, by omega, ?_, ?_⟩
    · intro v hv
      rcases List.mem_cons.mp hv with rfl | hv
      · constructor <;> omega
      · exact h1 v hv
    · rcases h4 with h4 | ⟨v, hv, h4⟩
      · by_cases hc : w.1 < a
        · right
          exact ⟨w, List.mem_cons_self _ _, by rw [h4, if_pos hc]⟩
        · left
          rw [h4, if_neg hc]
      · right
        exact ⟨v, List.mem_cons_of_mem _ hv, h4⟩
    · rcases h5 with h5 | ⟨v, hv, h5⟩
      · by_cases hc : w.1 > b
        · right
          exact ⟨w, List.mem_cons_self _ _, by rw [h5, if_pos hc]⟩
        · left
          rw [h5, if_neg hc]
      · right
        exact ⟨v, List.mem_cons_of_mem _ hv, h5⟩

theorem init_fold (gfx : JsGraphicsData) (maxx : Int) (hmax : maxx < gfx.width) (v w : Int) :
    ∀ (n : Nat) (t : Int) (a b : ShortArray), (maxx + 1 - t).toNat = n → 0 ≤ t →
      ∃ a' b',
        (intRange t maxx).foldlM (fun (st : ShortArray × ShortArray) x =>
          match st.1.set gfx.width x v with
          | none => none
          | some miny =>
            match st.2.set gfx.width x w with
            | none => none
            | some maxy => some (miny, maxy)) (a, b) = some (a', b') ∧
        (∀ x, a' x = if t ≤ x ∧ x ≤ maxx then some v else a x) ∧
        (∀ x, b' x = if t ≤ x ∧ x ≤ maxx then some w else b x) := by
  intro n
  induction n with
  | zero =>
    intro t a b hn _
    rw [intRange_of_lt (by omega)]
    refine ⟨a, b, rfl, ?_, ?_⟩
    · intro x
      rw [if_neg]
      intro h
      omega
    · intro x
      rw [if_neg]
      intro h
      omega
  | succ n ih =>
    intro t a b hn ht
    have htb : t ≤ maxx := by omega
    have hr : 0 ≤ t ∧ t < (gfx.width : Int) := ⟨ht, by omega⟩
    rw [intRange_cons htb, List.foldlM_cons]
    simp only [ShortArray.set, if_pos hr, Option.bind_eq_bind, Option.some_bind]
    obtain ⟨a', b', e, ha, hb⟩ := ih (t + 1) (Function.update a t (some v))
      (Function.update b t (some w)) (by omega) (by omega)
    simp only [ShortArray.set] at e
    refine ⟨a', b', e, ?_, ?_⟩
    · intro x
      rw [ha x]
      by_cases hxt : x = t
      · subst hxt
        rw [if_neg (by omega), if_pos ⟨le_refl _, htb⟩, Function.update_same]
      · rw [Function.update_noteq hxt]
        by_cases hc : t + 1 ≤ x ∧ x ≤ maxx
        · rw [if_pos hc, if_pos ⟨by omega, hc.2⟩]
        · rw [if_neg hc, if_neg (fun h => hc ⟨by omega, h.2⟩)]
    · intro x
      rw [hb x]
      by_cases hxt : x = t
      · subst hxt
        rw [if_neg (by omega), if_pos ⟨le_refl _, htb⟩, Function.update_same]
      · rw [Function.update_noteq hxt]
        by_cases hc : t + 1 ≤ x ∧ x ≤ maxx
        · rw [if_pos hc, if_pos ⟨by omega, hc.2⟩]
        · rw [if_neg hc, if_neg (fun h => hc ⟨by omega, h.2⟩)]

theorem columnMin_cons (e : (Int × Int) × (Int × Int)) (es : List ((Int × Int) × (Int × Int)))
    (x init : Int) :
    columnMin (e :: es) x init =
      columnMin es x
        (if edgeCovers e x then min init (edgeRow e.1.1 e.1.2 e.2.1 e.2.2 x) else init) := rfl

theorem columnMax_cons (e : (Int × Int) × (Int × Int)) (es : List ((Int × Int) × (Int × Int)))
    (x init : Int) :
    columnMax (e :: es) x init =
      columnMax es x
        (if edgeCovers e x then max init (edgeRow e.1.1 e.1.2 e.2.1 e.2.2 x) else init) := rfl

/-- The arrays after all edges have been walked: on the columns `minx..maxx` they hold
`columnMin` and `columnMax`. -/
theorem edges_fold (gfx : JsGraphicsData) (fuel : Nat) (hf : 65536 ≤ fuel) (minx maxx : Int)
    (hmin : 0 ≤ minx) (hmax : maxx < gfx.width) :
    ∀ (es : List ((Int × Int) × (Int × Int))) (miny maxy : ShortArray) (lo hi : Int → Int),
      (∀ e ∈ es, (-32768 ≤ e.1.1 ∧ e.1.1 < 32767) ∧ (-32768 ≤ e.2.1 ∧ e.2.1 < 32767) ∧
        IsShort e.1.2 ∧ IsShort e.2.2 ∧
        ∀ x, edgeCovers e x → 0 ≤ x → x < gfx.width → minx ≤ x ∧ x ≤ maxx) →
      (∀ x, miny x = if minx ≤ x ∧ x ≤ maxx then some (lo x) else none) →
      (∀ x, maxy x = if minx ≤ x ∧ x ≤ maxx then some (hi x) else none) →
      ∃ miny' maxy',
        es.foldlM (fun (st : ShortArray × ShortArray) e =>
          graphicsFillPolyCreateVertScanLines gfx st.1 st.2 e.1.1 e.1.2 e.2.1 e.2.2 fuel)
          (miny, maxy) = some (miny', maxy') ∧
        (∀ x, miny' x = if minx ≤ x ∧ x ≤ maxx then some (columnMin es x (lo x)) else none) ∧
        (∀ x, maxy' x = if minx ≤ x ∧ x ≤ maxx then some (columnMax es x (hi x)) else none) := by
  intro es
  induction es with
  | nil =>
    intro miny maxy lo hi _ h1 h2
    exact ⟨miny, maxy, rfl, h1, h2⟩
  | cons e es ih =>
    intro miny maxy lo hi hes h1 h2
    obtain ⟨hx1, hx2, hy1, hy2, hcov⟩ := hes e (List.mem_cons_self _ _)
    obtain ⟨m, M, em, hm, hM⟩ := graphicsFillPolyCreateVertScanLines_spec gfx miny maxy
      e.1.1 e.1.2 e.2.1 e.2.2 fuel hx1 hx2 hy1 hy2 hf (by
        intro x c1 c2 c3 c4
        have hD := hcov x ⟨c1, c2⟩ c3 c4
        rw [h1 x, h2 x, if_pos hD, if_pos hD]
        exact ⟨rfl, rfl⟩)
    rw [List.foldlM_cons, em]
    simp only [Option.bind_eq_bind, Option.some_bind]
    have hm0 : ∀ x, m x = if edgeCovers e x ∧ 0 ≤ x ∧ x < (gfx.width : Int)
        then (miny x).map (fun lo => min lo (edgeRow e.1.1 e.1.2 e.2.1 e.2.2 x)) else miny x := hm
    have hM0 : ∀ x, M x = if edgeCovers e x ∧ 0 ≤ x ∧ x < (gfx.width : Int)
        then (maxy x).map (fun hi => max hi (edgeRow e.1.1 e.1.2 e.2.1 e.2.2 x)) else maxy x := hM
    obtain ⟨m', M', e', hm', hM'⟩ := ih m M
      (fun x => if edgeCovers e x then min (lo x) (edgeRow e.1.1 e.1.2 e.2.1 e.2.2 x) else lo x)
      (fun x => if edgeCovers e x then max (hi x) (edgeRow e.1.1 e.1.2 e.2.1 e.2.2 x) else hi x)
      (fun e' he' => hes e' (List.mem_cons_of_mem _ he'))
      (by
        intro x
        rw [hm0 x, h1 x]
        by_cases hD : minx ≤ x ∧ x ≤ maxx
        · have hr : 0 ≤ x ∧ x < (gfx.width : Int) := ⟨by omega, by omega⟩
          by_cases hcv : edgeCovers e x
          · simp only [hcv, hr, hD, and_self, if_true, Option.map_some']
          · simp only [hcv, hD, false_and, and_self, if_true, if_false]
        · simp only [hD, if_false, Option.map_none', ite_self])
      (by
        intro x
        rw [hM0 x, h2 x]
        by_cases hD : minx ≤ x ∧ x ≤ maxx
        · have hr : 0 ≤ x ∧ x < (gfx.width : Int) := ⟨by omega, by omega⟩
          by_cases hcv : edgeCovers e x
          · simp only [hcv, hr, hD, and_self, if_true, Option.map_some']
          · simp only [hcv, hD, false_and, and_self, if_true, if_false]
        · simp only [hD, if_false, Option.map_none', ite_self])
    exact ⟨m', M', e', hm', hM'⟩

/-! ## `graphicsFillPoly`: the spans -/

theorem ShortArray.get_of_mem (a : ShortArray) (size : Nat) (i : Int) (h0 : 0 ≤ i)
    (h1 : i < size) : a.get size i = a i := by
  unfold ShortArray.get
  rw [if_pos ⟨h0, h1⟩]

theorem fillPolyCoalesce_spec (gfx : JsGraphicsData) (miny maxy : ShortArray)
    (oldx maxx : Int) (a b : Int) (lo hi : Int → Int) (h0 : 0 ≤ oldx)
    (hmax : maxx < gfx.width) (hm32 : maxx < 32767)
    (hold : miny oldx = some a ∧ maxy oldx = some b)
    (harr : ∀ t, oldx < t → t ≤ maxx → miny t = some (lo t) ∧ maxy t = some (hi t)) :
    ∀ (fuel : Nat) (x : Int), oldx ≤ x → x ≤ maxx → (maxx - x).toNat < fuel →
      (∀ t, oldx < t → t ≤ x → lo t = a ∧ hi t = b) →
      ∃ xe, fillPolyCoalesce gfx miny maxy oldx maxx fuel x = some xe ∧ x ≤ xe ∧ xe ≤ maxx ∧
        (∀ t, oldx < t → t ≤ xe → lo t = a ∧ hi t = b) := by
  intro fuel
  induction fuel with
  | zero => intro x _ _ hf _; omega
  | succ fuel ih =>
    intro x hox hxm hf hinv
    unfold fillPolyCoalesce
    by_cases hlt : x < maxx
    · rw [if_pos hlt]
      have g1 : miny.get gfx.width (x + 1) = some (lo (x + 1)) := by
        rw [ShortArray.get_of_mem _ _ _ (by omega) (by omega)]
        exact (harr (x + 1) (by omega) (by omega)).1
      have g2 : miny.get gfx.width oldx = some a := by
        rw [ShortArray.get_of_mem _ _ _ h0 (by omega)]
        exact hold.1
      have g3 : maxy.get gfx.width (x + 1) = some (hi (x + 1)) := by
        rw [ShortArray.get_of_mem _ _ _ (by omega) (by omega)]
        exact (harr (x + 1) (by omega) (by omega)).2
      have g4 : maxy.get gfx.width oldx = some b := by
        rw [ShortArray.get_of_mem _ _ _ h0 (by omega)]
        exact hold.2
      simp only [g1, g2, g3, g4]
      by_cases e1 : lo (x + 1) = a
      · rw [if_pos e1]
        by_cases e2 : hi (x + 1) = b
        · rw [if_pos e2, toShort_of_isShort (by omega) (by omega)]
          obtain ⟨xe, he, h1, h2, h3⟩ := ih (x + 1) (by omega) (by omega) (by omega) (by
            intro t ht1 ht2
            by_cases htx : t ≤ x
            · exact hinv t ht1 htx
            · have : t = x + 1 := by omega
              rw [this]
              exact ⟨e1, e2⟩)
          exact ⟨xe, he, by omega, h2, h3⟩
        · rw [if_neg e2]
          exact ⟨x, rfl, le_refl _, hxm, hinv⟩
      · rw [if_neg e1]
        exact ⟨x, rfl, le_refl _, hxm, hinv⟩
    · rw [if_neg hlt]
      exact ⟨x, rfl, le_refl _, hxm, hinv⟩

/-- The last loop of `graphicsFillPoly`, not interrupted, on arrays that hold `lo` and
`hi` on the columns from `x` to `maxx`: the loop ends, every rectangle passed to
`graphicsFillRect` lies inside the framebuffer with its corners in order, and the
rectangles cover exactly, for each column with `lo <= hi`, the rows from `lo` to `hi`
clipped to the framebuffer. -/
theorem fillPolySpans_spec (gfx : JsGraphicsData) (maxx : Int) (lo hi : Int → Int)
    (hh : 1 ≤ gfx.height ∧ gfx.height ≤ 32767) (hmax : maxx < gfx.width)
    (hm32 : maxx < 32767) (hlo : ∀ t, lo t ≤ (gfx.height : Int) - 1) (hhi : ∀ t, 0 ≤ hi t) :
    ∀ (fuel : Nat) (x : Int) (miny maxy : ShortArray) (polls : Nat) (acc : List Rect),
      0 ≤ x → (maxx + 1 - x).toNat < fuel →
      (∀ t, x ≤ t → t ≤ maxx → miny t = some (lo t) ∧ maxy t = some (hi t)) →
      ∃ rects,
        fillPolySpans gfx (fun _ => false) maxx fuel x miny maxy polls acc =
          some (acc ++ rects) ∧
        (∀ r ∈ rects, x ≤ r.x1 ∧ r.x1 ≤ r.x2 ∧ r.x2 ≤ maxx ∧
          0 ≤ r.y1 ∧ r.y1 ≤ r.y2 ∧ r.y2 < gfx.height) ∧
        (∀ px py, (∃ r ∈ rects, r.x1 ≤ px ∧ px ≤ r.x2 ∧ r.y1 ≤ py ∧ py ≤ r.y2) ↔
          (x ≤ px ∧ px ≤ maxx ∧ lo px ≤ hi px ∧
            max (lo px) 0 ≤ py ∧ py ≤ min (hi px) ((gfx.height : Int) - 1))) := by
  intro fuel
  induction fuel with
  | zero => intro x _ _ _ _ _ hf _; omega
  | succ fuel ih =>
    intro x miny maxy polls acc hx0 hf harr
    unfold fillPolySpans
    by_cases hxm : x ≤ maxx
    · rw [if_pos hxm]
      have hxw : x < (gfx.width : Int) := by omega
      have g1 : maxy.get gfx.width x = some (hi x) := by
        rw [ShortArray.get_of_mem _ _ _ hx0 hxw]
        exact (harr x (le_refl _) hxm).2
      have g2 : miny.get gfx.width x = some (lo x) := by
        rw [ShortArray.get_of_mem _ _ _ hx0 hxw]
        exact (harr x (le_refl _) hxm).1
      simp only [g1, g2]
      by_cases hspan : hi x ≥ lo x
      · rw [if_pos hspan]
        have hts : toShort ((gfx.height : Int) - 1) = (gfx.height : Int) - 1 :=
          toShort_of_isShort (by omega) (by omega)
        obtain ⟨m1, em1, hm1x, hm1t⟩ : ∃ m1 : ShortArray,
            (if lo x < 0 then miny.set gfx.width x 0 else some miny) = some m1 ∧
            m1 x = some (max (lo x) 0) ∧ ∀ t, t ≠ x → m1 t = miny t := by
          by_cases hc : lo x < 0
          · refine ⟨Function.update miny x (some 0), ?_, ?_, ?_⟩
            · rw [if_pos hc]
              unfold ShortArray.set
              rw [if_pos ⟨hx0, hxw⟩]
            · rw [Function.update_same, max_eq_right (by omega)]
            · intro t ht
              exact Function.update_noteq ht _ _
          · refine ⟨miny, by rw [if_neg hc], ?_, fun _ _ => rfl⟩
            rw [(harr x (le_refl _) hxm).1, max_eq_left (by omega)]
        obtain ⟨M1, eM1, hM1x, hM1t⟩ : ∃ M1 : ShortArray,
            (if hi x ≥ gfx.height then maxy.set gfx.width x (toShort ((gfx.height : Int) - 1))
              else some maxy) = some M1 ∧
            M1 x = some (min (hi x) ((gfx.height : Int) - 1)) ∧ ∀ t, t ≠ x → M1 t = maxy t := by
          by_cases hc : hi x ≥ gfx.height
          · refine ⟨Function.update maxy x (some ((gfx.height : Int) - 1)), ?_, ?_, ?_⟩
            · rw [if_pos hc, hts]
              unfold ShortArray.set
              rw [if_pos ⟨hx0, hxw⟩]
            · rw [Function.update_same, min_eq_right (by omega)]
            · intro t ht
              exact Function.update_noteq ht _ _
          · refine ⟨maxy, by rw [if_neg hc], ?_, fun _ _ => rfl⟩
            rw [(harr x (le_refl _) hxm).2, min_eq_left (by omega)]
        rw [em1, eM1]
        simp only
        have harr1 : ∀ t, x < t → t ≤ maxx → m1 t = some (lo t) ∧ M1 t = some (hi t) := by
          intro t ht1 ht2
          rw [hm1t t (by omega), hM1t t (by omega)]
          exact harr t (by omega) ht2
        obtain ⟨xe, hxe, hxe1, hxe2, hxe3⟩ := fillPolyCoalesce_spec gfx m1 M1 x maxx
          (max (lo x) 0) (min (hi x) ((gfx.height : Int) - 1)) lo hi hx0 hmax hm32
          ⟨hm1x, hM1x⟩ harr1 fuel x (le_refl _) hxm (by omega)
          (by intro t h1 h2; omega)
        rw [hxe]
        simp only
        have g3 : m1.get gfx.width xe = some (max (lo x) 0) := by
          rw [ShortArray.get_of_mem _ _ _ (by omega) (by omega)]
          by_cases hxx : xe = x
          · rw [hxx]
            exact hm1x
          · rw [(harr1 xe (by omega) hxe2).1, (hxe3 xe (by omega) (le_refl _)).1]
        have g4 : M1.get gfx.width xe = some (min (hi x) ((gfx.height : Int) - 1)) := by
          rw [ShortArray.get_of_mem _ _ _ (by omega) (by omega)]
          by_cases hxx : xe = x
          · rw [hxx]
            exact hM1x
          · rw [(harr1 xe (by omega) hxe2).2, (hxe3 xe (by omega) (le_refl _)).2]
        rw [g3, g4]
        simp only [Bool.false_eq_true, if_false]
        rw [toShort_of_isShort (by omega) (by omega)]
        obtain ⟨rects, er, hr1, hr2⟩ := ih (xe + 1) m1 M1 (polls + 1)
          (acc ++ [⟨x, max (lo x) 0, xe, min (hi x) ((gfx.height : Int) - 1)⟩])
          (by omega) (by omega) (by
            intro t ht1 ht2
            exact harr1 t (by omega) ht2)
        have hlox := hlo x
        have hhix := hhi x
        have hc1 : 0 ≤ max (lo x) 0 := le_max_right _ _
        have hc2 : max (lo x) 0 ≤ min (hi x) ((gfx.height : Int) - 1) := by
          apply le_min
          · exact max_le hspan hhix
          · exact max_le hlox (by omega)
        have hc3 : min (hi x) ((gfx.height : Int) - 1) < gfx.height := by
          have := min_le_right (hi x) ((gfx.height : Int) - 1)
          omega
        refine ⟨⟨x, max (lo x) 0, xe, min (hi x) ((gfx.height : Int) - 1)⟩ :: rects, ?_, ?_, ?_⟩
        · rw [er, List.append_assoc]
          rfl
        · intro r hr
          rcases List.mem_cons.mp hr with rfl | hr
          · exact ⟨le_refl _, hxe1, hxe2, hc1, hc2, hc3⟩
          · obtain ⟨a1, a2, a3, a4, a5, a6⟩ := hr1 r hr
            exact ⟨by omega, a2, a3, a4, a5, a6⟩
        · intro px py
          constructor
          · rintro ⟨r, hr, b1, b2, b3, b4⟩
            rcases List.mem_cons.mp hr with rfl | hr
            · simp only at b1 b2 b3 b4
              by_cases hpx : px = x
              · subst hpx
                exact ⟨le_refl _, hxm, hspan, b3, b4⟩
              · obtain ⟨e1, e2⟩ := hxe3 px (by omega) b2
                refine ⟨b1, by omega, ?_, ?_, ?_⟩
                · rw [e1, e2]
                  exact hc2
                · rw [e1, max_eq_left hc1]
                  exact b3
                · rw [e2, min_eq_left (by omega)]
                  exact b4
            · obtain ⟨c1, c2, c3, c4, c5⟩ := (hr2 px py).mp ⟨r, hr, b1, b2, b3, b4⟩
              exact ⟨by omega, c2, c3, c4, c5⟩
          · rintro ⟨c1, c2, c3, c4, c5⟩
            by_cases hle : px ≤ xe
            · refine ⟨_, List.mem_cons_self _ _, c1, hle, ?_, ?_⟩
              · by_cases hpx : px = x
                · subst hpx
                  exact c4
                · obtain ⟨e1, e2⟩ := hxe3 px (by omega) hle
                  rw [e1, max_eq_left hc1] at c4
                  exact c4
              · by_cases hpx : px = x
                · subst hpx
                  exact c5
                · obtain ⟨e1, e2⟩ := hxe3 px (by omega) hle
                  rw [e2, min_eq_left (by omega)] at c5
                  exact c5
            · obtain ⟨r, hr, d⟩ := (hr2 px py).mpr ⟨by omega, c2, c3, c4, c5⟩
              exact ⟨r, List.mem_cons_of_mem _ hr, d⟩
      · rw [if_neg hspan, toShort_of_isShort (by omega) (by omega)]
        obtain ⟨rects, er, hr1, hr2⟩ := ih (x + 1) miny maxy polls acc (by omega) (by omega)
          (by
            intro t ht1 ht2
            exact harr t (by omega) ht2)
        refine ⟨rects, er, ?_, ?_⟩
        · intro r hr
          obtain ⟨a1, a2, a3, a4, a5, a6⟩ := hr1 r hr
          exact ⟨by omega, a2, a3, a4, a5, a6⟩
        · intro px py
          rw [hr2 px py]
          constructor
          · rintro ⟨c1, c2, c3, c4, c5⟩
            exact ⟨by omega, c2, c3, c4, c5⟩
          · rintro ⟨c1, c2, c3, c4, c5⟩
            refine ⟨?_, c2, c3, c4, c5⟩
            by_contra hne
            have : px = x := by omega
            rw [this] at c3
            omega
    · rw [if_neg hxm]
      refine ⟨[], by rw [List.append_nil], ?_, ?_⟩
      · intro r hr
        exact absurd hr (List.not_mem_nil _)
      · intro px py
        constructor
        · rintro ⟨r, hr, _⟩
          exact absurd hr (List.not_mem_nil _)
        · rintro ⟨c1, c2, _⟩
          omega

/-! ## `graphicsFillPoly`: the whole fill -/

theorem columnMin_le (es : List ((Int × Int) × (Int × Int))) (x : Int) :
    ∀ init, columnMin es x init ≤ init := by
  induction es with
  | nil => intro init; exact le_refl _
  | cons e es ih =>
    intro init
    rw [columnMin_cons]
    refine le_trans (ih _) ?_
    split_ifs
    · exact min_le_left _ _
    · exact le_refl _

theorem le_columnMax (es : List ((Int × Int) × (Int × Int))) (x : Int) :
    ∀ init, init ≤ columnMax es x init := by
  induction es with
  | nil => intro init; exact le_refl _
  | cons e es ih =>
    intro init
    rw [columnMax_cons]
    refine le_trans ?_ (ih _)
    split_ifs
    · exact le_max_left _ _
    · exact le_refl _

theorem polyEdges_mem {vs : List (Int × Int)} {e : (Int × Int) × (Int × Int)}
    (he : e ∈ polyEdges vs) : e.1 ∈ vs ∧ e.2 ∈ vs := by
  unfold polyEdges at he
  cases hl : vs.getLast? with
  | none =>
    rw [hl] at he
    exact absurd he (List.not_mem_nil _)
  | some l =>
    rw [hl] at he
    have hlm : l ∈ vs := List.mem_of_getLast?_eq_some hl
    obtain ⟨a, b⟩ := e
    have h := List.of_mem_zip he
    refine ⟨?_, h.2⟩
    rcases List.mem_cons.mp h.1 with h1 | h1
    · simp only
      rw [h1]
      exact hlm
    · exact h1

/-- The column range of `graphicsFillPoly` after clipping, and the least and greatest row
recorded for a column. -/
theorem graphicsFillPoly_spec (gfx : JsGraphicsData) (vs : List (Int × Int)) (fuel : Nat)
    (hw : 1 ≤ gfx.width ∧ gfx.width ≤ 32767) (hh : 1 ≤ gfx.height ∧ gfx.height ≤ 32767)
    (hv : ∀ v ∈ vs, (-32768 ≤ v.1 ∧ v.1 < 32767) ∧ IsShort v.2) (hf : 65536 ≤ fuel) :
    ∃ rects, graphicsFillPoly gfx (fun _ => false) vs fuel = some rects ∧
      (∀ r ∈ rects, 0 ≤ r.x1 ∧ r.x1 ≤ r.x2 ∧ r.x2 < gfx.width ∧
        0 ≤ r.y1 ∧ r.y1 ≤ r.y2 ∧ r.y2 < gfx.height) ∧
      (∀ px py, (∃ r ∈ rects, r.x1 ≤ px ∧ px ≤ r.x2 ∧ r.y1 ≤ py ∧ py ≤ r.y2) ↔
        ((if (fillPolyRange gfx vs).1 < 0 then 0 else (fillPolyRange gfx vs).1) ≤ px ∧
          px ≤ (if (fillPolyRange gfx vs).2 ≥ gfx.width then (gfx.width : Int) - 1
            else (fillPolyRange gfx vs).2) ∧
          columnMin (polyEdges vs) px ((gfx.height : Int) - 1) ≤
            columnMax (polyEdges vs) px 0 ∧
          max (columnMin (polyEdges vs) px ((gfx.height : Int) - 1)) 0 ≤ py ∧
          py ≤ min (columnMax (polyEdges vs) px 0) ((gfx.height : Int) - 1))) := by
  have htw : toShort ((gfx.width : Int) - 1) = (gfx.width : Int) - 1 :=
    toShort_of_isShort (by omega) (by omega)
  have hth : toShort ((gfx.height : Int) - 1) = (gfx.height : Int) - 1 :=
    toShort_of_isShort (by omega) (by omega)
  obtain ⟨r1, r2, r3, r4, r5⟩ := foldl_range_spec vs (toShort ((gfx.width : Int) - 1)) 0
  have hR : fillPolyRange gfx vs = vs.foldl
      (fun (m : Int × Int) (v : Int × Int) =>
        (if v.1 < m.1 then v.1 else m.1, if v.1 > m.2 then v.1 else m.2))
      (toShort ((gfx.width : Int) - 1), 0) := rfl
  rw [← hR] at r1 r2 r3 r4 r5
  rw [htw] at r2 r4
  generalize hRdef : fillPolyRange gfx vs = R at r1 r2 r3 r4 r5 ⊢
  have hR2 : R.2 < 32767 := by
    rcases r5 with h | ⟨v, hv1, h⟩
    · omega
    · rw [h]
      exact (hv v hv1).1.2
  have hR1 : -32768 ≤ R.1 := by
    rcases r4 with h | ⟨v, hv1, h⟩
    · omega
    · rw [h]
      exact (hv v hv1).1.1
  unfold graphicsFillPoly
  simp only [hRdef, htw, hth]
  generalize hminx : (if R.1 < 0 then 0 else R.1) = minx
  generalize hmaxx : (if R.2 ≥ gfx.width then (gfx.width : Int) - 1 else R.2) = maxx
  have hminx0 : 0 ≤ minx := by
    rw [← hminx]
    split_ifs <;> omega
  have hminx1 : ∀ x, 0 ≤ x → R.1 ≤ x → minx ≤ x := by
    intro x h0 h1
    rw [← hminx]
    split_ifs <;> omega
  have hmaxxw : maxx < gfx.width := by
    rw [← hmaxx]
    split_ifs <;> omega
  have hmaxx1 : ∀ x : Int, x < gfx.width → x ≤ R.2 → x ≤ maxx := by
    intro x h0 h1
    rw [← hmaxx]
    split_ifs <;> omega
  rw [forShort_eq_foldlM _ fuel minx maxx _ (by omega) (by omega) (by omega)]
  obtain ⟨a0, b0, e0, ha0, hb0⟩ := init_fold gfx maxx hmaxxw ((gfx.height : Int) - 1) 0 _ minx
    (fun _ => none) (fun _ => none) rfl hminx0
  rw [e0]
  simp only
  obtain ⟨m, M, em, hm, hM⟩ := edges_fold gfx fuel hf minx maxx hminx0 hmaxxw (polyEdges vs)
    a0 b0 (fun _ => (gfx.height : Int) - 1) (fun _ => 0)
    (by
      intro e he
      obtain ⟨m1, m2⟩ := polyEdges_mem he
      refine ⟨(hv _ m1).1, (hv _ m2).1, (hv _ m1).2, (hv _ m2).2, ?_⟩
      intro x hc h0 h1
      have b1 := r1 _ m1
      have b2 := r1 _ m2
      have c1 : R.1 ≤ x := by
        have : R.1 ≤ min e.1.1 e.2.1 := le_min b1.1 b2.1
        exact le_trans this hc.1
      have c2 : x ≤ R.2 := by
        have : max e.1.1 e.2.1 ≤ R.2 := max_le b1.2 b2.2
        exact le_trans hc.2 this
      exact ⟨hminx1 x h0 c1, hmaxx1 x h1 c2⟩)
    ha0 hb0
  rw [em]
  simp only
  obtain ⟨rects, er, hr1, hr2⟩ := fillPolySpans_spec gfx maxx
    (fun x => columnMin (polyEdges vs) x ((gfx.height : Int) - 1))
    (fun x => columnMax (polyEdges vs) x 0) hh hmaxxw (by omega)
    (fun t => columnMin_le _ _ _) (fun t => le_columnMax _ _ _)
    fuel minx m M 0 [] hminx0 (by omega)
    (by
      intro t ht1 ht2
      rw [hm t, hM t, if_pos ⟨ht1, ht2⟩, if_pos ⟨ht1, ht2⟩]
      exact ⟨rfl, rfl⟩)
  rw [List.nil_append] at er
  refine ⟨rects, er, ?_, hr2⟩
  intro r hr
  obtain ⟨a1, a2, a3, a4, a5, a6⟩ := hr1 r hr
  exact ⟨by omega, a2, by omega, a4, a5, a6⟩

/-! ## The pixels of a fill -/

theorem graphicsFallbackFillRect_ordered (gfx : JsGraphicsData) (x1 y1 x2 y2 : Int)
    (fuel : Nat) (hx : x1 ≤ x2) (hy : y1 ≤ y2) (hx1 : -32768 ≤ x1) (hx2 : x2 < 32767)
    (hy1 : -32768 ≤ y1) (hy2 : y2 < 32767) (hf : 65536 ≤ fuel) :
    graphicsFallbackFillRect gfx x1 y1 x2 y2 fuel =
      some ((intRange y1 y2).flatMap (fun y =>
        (intRange x1 x2).flatMap (fun x => [(⟨x, y, gfx.fgColor⟩ : Pixel)]))) := by
  unfold graphicsFallbackFillRect
  have e1 : ¬ x1 > x2 := by omega
  have e2 : ¬ y1 > y2 := by omega
  simp only [if_neg e1, if_neg e2]
  exact forShort_fillRect gfx x1 y1 x2 y2 fuel hx1 hx2 hy1 hy2 hf

theorem graphicsSetPixel_mem (longBits : Nat) (gfx : JsGraphicsData) (x y : Int) (col : Nat)
    (q : Pixel) :
    q ∈ graphicsSetPixel longBits gfx x y col ↔
      (0 ≤ x ∧ x < gfx.width ∧ 0 ≤ y ∧ y < gfx.height ∧
        q = ⟨x, y, col &&& pixelMask longBits gfx.bpp⟩) := by
  unfold graphicsSetPixel
  by_cases h : x < 0 ∨ y < 0 ∨ x ≥ gfx.width ∨ y ≥ gfx.height
  · rw [if_pos h]
    constructor
    · intro hq
      exact absurd hq (List.not_mem_nil _)
    · rintro ⟨a, b, c, d, _⟩
      omega
  · rw [if_neg h, List.mem_singleton]
    constructor
    · intro hq
      exact ⟨by omega, by omega, by omega, by omega, hq⟩
    · rintro ⟨_, _, _, _, hq⟩
      exact hq

/-- The sink calls of a sequence of `graphicsFillRect` calls, the software `fillRect`
installed, for rectangles that lie inside the framebuffer with their corners in order:
the points of the rectangles, in the foreground colour masked to `bpp` bits. -/
theorem fillRectsPixels_spec (longBits : Nat) (gfx : JsGraphicsData) (fuel : Nat)
    (hw : gfx.width ≤ 32767) (hh : gfx.height ≤ 32767) (hf : 65536 ≤ fuel) :
    ∀ (rects : List Rect),
      (∀ r ∈ rects, 0 ≤ r.x1 ∧ r.x1 ≤ r.x2 ∧ r.x2 < gfx.width ∧
        0 ≤ r.y1 ∧ r.y1 ≤ r.y2 ∧ r.y2 < gfx.height) →
      ∃ calls, fillRectsPixels longBits gfx fuel rects = some calls ∧
        ∀ q : Pixel, q ∈ calls ↔
          ((∃ r ∈ rects, r.x1 ≤ q.x ∧ q.x ≤ r.x2 ∧ r.y1 ≤ q.y ∧ q.y ≤ r.y2) ∧
            q.col = gfx.fgColor &&& pixelMask longBits gfx.bpp) := by
  intro rects
  induction rects with
  | nil =>
    intro _
    refine ⟨[], rfl, ?_⟩
    intro q
    constructor
    · intro hq
      exact absurd hq (List.not_mem_nil _)
    · rintro ⟨⟨r, hr, _⟩, _⟩
      exact absurd hr (List.not_mem_nil _)
  | cons r rs ih =>
    intro hall
    obtain ⟨a1, a2, a3, a4, a5, a6⟩ := hall r (List.mem_cons_self _ _)
    obtain ⟨rest, er, hrest⟩ := ih (fun r' hr' => hall r' (List.mem_cons_of_mem _ hr'))
    have efr := graphicsFallbackFillRect_ordered gfx r.x1 r.y1 r.x2 r.y2 fuel a2 a5
      (by omega) (by omega) (by omega) (by omega) hf
    unfold fillRectsPixels
    rw [efr, er]
    refine ⟨_, rfl, ?_⟩
    intro q
    rw [List.mem_append, hrest q]
    simp only [List.mem_flatMap, List.mem_singleton, mem_intRange]
    constructor
    · rintro (⟨p, ⟨y, hy, x, hx, rfl⟩, hq⟩ | ⟨⟨r', hr', hc⟩, hcol⟩)
      · rw [graphicsSetPixel_mem] at hq
        obtain ⟨_, _, _, _, rfl⟩ := hq
        exact ⟨⟨r, List.mem_cons_self _ _, hx.1, hx.2, hy.1, hy.2⟩, rfl⟩
      · exact ⟨⟨r', List.mem_cons_of_mem _ hr', hc⟩, hcol⟩
    · rintro ⟨⟨r', hr', c1, c2, c3, c4⟩, hcol⟩
      rcases List.mem_cons.mp hr' with rfl | hr'
      · left
        refine ⟨⟨q.x, q.y, gfx.fgColor⟩, ⟨q.y, ⟨c3, c4⟩, q.x, ⟨c1, c2⟩, rfl⟩, ?_⟩
        rw [graphicsSetPixel_mem]
        simp only
        refine ⟨by omega, by omega, by omega, by omega, ?_⟩
        cases q
        simp only at hcol
        simp only [hcol]
      · right
        exact ⟨⟨r', hr', c1, c2, c3, c4⟩, hcol⟩

/-- The pixels of an uninterrupted `graphicsFillPoly` with the software `fillRect`: with
`x`-coordinates below 32767 the fill ends, and the sink is called, in the foreground
colour masked to `bpp` bits, exactly at the pixels of the columns `minx..maxx` whose
row lies between the least and the greatest row recorded for the column, clipped to
the framebuffer. -/
theorem graphicsFillPolyPixels_spec (longBits : Nat) (gfx : JsGraphicsData)
    (vs : List (Int × Int)) (fuel : Nat)
    (hw : 1 ≤ gfx.width ∧ gfx.width ≤ 32767) (hh : 1 ≤ gfx.height ∧ gfx.height ≤ 32767)
    (hv : ∀ v ∈ vs, (-32768 ≤ v.1 ∧ v.1 < 32767) ∧ IsShort v.2) (hf : 65536 ≤ fuel) :
    ∃ calls, graphicsFillPolyPixels longBits gfx (fun _ => false) vs fuel = some calls ∧
      ∀ q : Pixel, q ∈ calls ↔
        ((if (fillPolyRange gfx vs).1 < 0 then 0 else (fillPolyRange gfx vs).1) ≤ q.x ∧
          q.x ≤ (if (fillPolyRange gfx vs).2 ≥ gfx.width then (gfx.width : Int) - 1
            else (fillPolyRange gfx vs).2) ∧
          columnMin (polyEdges vs) q.x ((gfx.height : Int) - 1) ≤
            columnMax (polyEdges vs) q.x 0 ∧
          max (columnMin (polyEdges vs) q.x ((gfx.height : Int) - 1)) 0 ≤ q.y ∧
          q.y ≤ min (columnMax (polyEdges vs) q.x 0) ((gfx.height : Int) - 1)) ∧
        q.col = gfx.fgColor &&& pixelMask longBits gfx.bpp := by
  obtain ⟨rects, er, hr1, hr2⟩ := graphicsFillPoly_spec gfx vs fuel hw hh hv hf
  obtain ⟨calls, ec, hc⟩ := fillRectsPixels_spec longBits gfx fuel hw.2 hh.2 hf rects hr1
  unfold graphicsFillPolyPixels
  rw [er]
  refine ⟨calls, ec, ?_⟩
  intro q
  rw [hc q, hr2 q.x q.y]

/-! ## Polygons: crossings of a column -/

theorem zip_parity {α : Type} (f : α → Bool) :
    ∀ (l : List α) (a z : α), (a :: l).getLast? = some z →
      ((a :: l).zip l).countP (fun e => f e.1 != f e.2) % 2 =
        if (f a != f z) = true then 1 else 0 := by
  intro l
  induction l with
  | nil =>
    intro a z hz
    simp only [List.getLast?_singleton, Option.some.injEq] at hz
    subst hz
    simp
  | cons b l ih =>
    intro a z hz
    rw [List.getLast?_cons_cons] at hz
    have h := ih b z hz
    rw [List.zip_cons_cons, List.countP_cons]
    simp only
    cases hfa : f a <;> cases hfb : f b <;> cases hfz : f z <;>
      simp only [hfa, hfb, hfz, bne_self_eq_false, Bool.false_eq_true, if_false, bne_iff_ne,
        ne_eq, not_true_eq_false, not_false_eq_true, if_true, Bool.true_eq_false,
        Bool.false_bne, Bool.true_bne, Bool.not_true, Bool.not_false, Bool.bne_true,
        Bool.bne_false] at h ⊢ <;> omega

/-- A closed polygon crosses the vertical line through a column an even number of
times. -/
theorem straddles_even (vs : List (Int × Int)) (x : Int) :
    (polyEdges vs).countP (fun e => straddles e.1 e.2 x) % 2 = 0 := by
  unfold polyEdges
  cases hl : vs.getLast? with
  | none => rfl
  | some l =>
    simp only
    have hz : (l :: vs).getLast? = some l := by
      rw [List.getLast?_cons, hl]
      rfl
    have h := zip_parity (fun v : Int × Int => decide (v.1 ≤ x)) vs l l hz
    simp only [bne_self_eq_false, Bool.false_eq_true, if_false] at h
    exact h

theorem countP_split3 {α : Type} (p : α → Bool) (s : α → Int) :
    ∀ l : List α, l.countP p =
      l.countP (fun e => p e && decide (0 < s e)) +
      l.countP (fun e => p e && decide (s e < 0)) +
      l.countP (fun e => p e && decide (s e = 0)) := by
  intro l
  induction l with
  | nil => rfl
  | cons a l ih =>
    simp only [List.countP_cons, ih]
    cases hp : p a
    · simp
    · rcases lt_trichotomy (s a) 0 with h | h | h
      · have h1 : ¬ 0 < s a := by omega
        have h2 : ¬ s a = 0 := by omega
        simp [h, h1, h2]
        omega
      · simp [h]
        omega
      · have h1 : ¬ s a < 0 := by omega
        have h2 : ¬ s a = 0 := by omega
        simp [h, h1, h2]
        omega

theorem straddles_iff (a b : Int × Int) (x : Int) :
    straddles a b x = true ↔ (a.1 ≤ x ∧ x < b.1) ∨ (b.1 ≤ x ∧ x < a.1) := by
  unfold straddles
  by_cases h1 : a.1 ≤ x <;> by_cases h2 : b.1 ≤ x <;> simp [h1, h2] <;> omega

theorem cross_swap (a b p : Int × Int) : cross b a p = -cross a b p := by
  unfold cross
  ring

/-- A point on the line of an edge, in a column of the edge, lies on the edge. -/
theorem onSegment_of_cross_eq_zero (a b p : Int × Int) (hc : cross a b p = 0)
    (hx : (a.1 ≤ p.1 ∧ p.1 < b.1) ∨ (b.1 ≤ p.1 ∧ p.1 < a.1)) :
    onSegment a b p = true := by
  unfold cross at hc
  unfold onSegment cross
  have hx1 : min a.1 b.1 ≤ p.1 := by
    rcases hx with h | h
    · exact le_trans (min_le_left _ _) h.1
    · exact le_trans (min_le_right _ _) h.1
  have hx2 : p.1 ≤ max a.1 b.1 := by
    rcases hx with h | h
    · exact le_trans (le_of_lt h.2) (le_max_right _ _)
    · exact le_trans (le_of_lt h.2) (le_max_left _ _)
  have hy : min a.2 b.2 ≤ p.2 ∧ p.2 ≤ max a.2 b.2 := by
    rcases le_total a.2 b.2 with hab | hab
    · rw [min_eq_left hab, max_eq_right hab]
      rcases hx with h | h
      · constructor
        · by_contra hn
          push_neg at hn
          nlinarith [mul_nonneg (sub_nonneg.mpr hab) (sub_nonneg.mpr h.1),
            mul_pos (sub_pos.mpr (lt_of_le_of_lt h.1 h.2)) (sub_pos.mpr hn)]
        · by_contra hn
          push_neg at hn
          nlinarith [mul_nonneg (sub_nonneg.mpr hab) (sub_nonneg.mpr (le_of_lt h.2)),
            mul_pos (sub_pos.mpr (lt_of_le_of_lt h.1 h.2)) (sub_pos.mpr hn)]
      · constructor
        · by_contra hn
          push_neg at hn
          nlinarith [mul_nonneg (sub_nonneg.mpr hab) (sub_nonneg.mpr (le_of_lt h.2)),
            mul_pos (sub_pos.mpr (lt_of_le_of_lt h.1 h.2)) (sub_pos.mpr hn)]
        · by_contra hn
          push_neg at hn
          nlinarith [mul_nonneg (sub_nonneg.mpr hab) (sub_nonneg.mpr h.1),
            mul_pos (sub_pos.mpr (lt_of_le_of_lt h.1 h.2)) (sub_pos.mpr hn)]
    · rw [min_eq_right hab, max_eq_left hab]
      rcases hx with h | h
      · constructor
        · by_contra hn
          push_neg at hn
          nlinarith [mul_nonneg (sub_nonneg.mpr hab) (sub_nonneg.mpr (le_of_lt h.2)),
            mul_pos (sub_pos.mpr (lt_of_le_of_lt h.1 h.2)) (sub_pos.mpr hn)]
        · by_contra hn
          push_neg at hn
          nlinarith [mul_nonneg (sub_nonneg.mpr hab) (sub_nonneg.mpr h.1),
            mul_pos (sub_pos.mpr (lt_of_le_of_lt h.1 h.2)) (sub_pos.mpr hn)]
      · constructor
        · by_contra hn
          push_neg at hn
          nlinarith [mul_nonneg (sub_nonneg.mpr hab) (sub_nonneg.mpr h.1),
            mul_pos (sub_pos.mpr (lt_of_le_of_lt h.1 h.2)) (sub_pos.mpr hn)]
        · by_contra hn
          push_neg at hn
          nlinarith [mul_nonneg (sub_nonneg.mpr hab) (sub_nonneg.mpr (le_of_lt h.2)),
            mul_pos (sub_pos.mpr (lt_of_le_of_lt h.1 h.2)) (sub_pos.mpr hn)]
  simp only [hc, hx1, hx2, hy.1, hy.2, decide_True, Bool.and_self]

/-- With an exact 8.8 step, the row recorded at a column of the edge is the exact crossing
rounded down: it is above a point that the edge passes above, and not above a point
that the edge passes below. -/
theorem edgeRow_exact (xa ya xb yb px py : Int) (hlt : xa < xb)
    (hex : (xb - xa) ∣ (yb - ya) * 256) :
    (0 < (xb - xa) * (py - ya) - (yb - ya) * (px - xa) →
      (ya * 256 + (px - xa) * Int.tdiv ((yb - ya) * 256) (xb - xa)) >>> (8 : Nat) < py) ∧
    ((xb - xa) * (py - ya) - (yb - ya) * (px - xa) < 0 →
      py ≤ (ya * 256 + (px - xa) * Int.tdiv ((yb - ya) * 256) (xb - xa)) >>> (8 : Nat)) := by
  have hstep : Int.tdiv ((yb - ya) * 256) (xb - xa) * (xb - xa) = (yb - ya) * 256 :=
    Int.tdiv_mul_cancel hex
  have hxl : 0 < xb - xa := by omega
  generalize Int.tdiv ((yb - ya) * 256) (xb - xa) = st at hstep ⊢
  have key : (xb - xa) * (256 * py - (ya * 256 + (px - xa) * st)) =
      256 * ((xb - xa) * (py - ya) - (yb - ya) * (px - xa)) := by
    linear_combination (-(px - xa)) * hstep
  rw [shiftRight_8]
  generalize ya * 256 + (px - xa) * st = yh at key
  constructor
  · intro hpos
    have h2 : 0 < (xb - xa) * (256 * py - yh) := by
      rw [key]
      omega
    have h3 : 0 < 256 * py - yh := (mul_pos_iff_of_pos_left hxl).mp h2
    omega
  · intro hneg
    have h2 : (xb - xa) * (256 * py - yh) < 0 := by
      rw [key]
      omega
    have h3 : 256 * py - yh < 0 := by
      by_contra hn
      push_neg at hn
      have := mul_nonneg (le_of_lt hxl) hn
      omega
    omega

/-- The row recorded for an edge that crosses the column of `p`, the 8.8 step of the edge
being exact, against the side of the edge on which `p` lies. -/
theorem edgeRow_of_side (a b p : Int × Int) (hs : straddles a b p.1 = true)
    (hex : (b.1 - a.1) ∣ 256 * (b.2 - a.2)) :
    edgeCovers (a, b) p.1 ∧
    (0 < sideOf a b p → edgeRow a.1 a.2 b.1 b.2 p.1 < p.2) ∧
    (sideOf a b p < 0 → p.2 ≤ edgeRow a.1 a.2 b.1 b.2 p.1) := by
  rw [straddles_iff] at hs
  unfold edgeCovers edgeRow sideOf cross
  rcases hs with h | h
  · have hle : a.1 ≤ b.1 := by omega
    have hns : ¬ b.1 < a.1 := by omega
    have hz : ¬ (b.1 - a.1 = 0) := by omega
    simp only [if_pos hle, if_neg hns, if_neg hz]
    have hex' : (b.1 - a.1) ∣ (b.2 - a.2) * 256 := by
      rw [mul_comm]
      exact hex
    obtain ⟨k1, k2⟩ := edgeRow_exact a.1 a.2 b.1 b.2 p.1 p.2 (by omega) hex'
    refine ⟨⟨?_, ?_⟩, k1, k2⟩
    · simp only [min_eq_left hle]
      exact h.1
    · simp only [max_eq_right hle]
      exact le_of_lt h.2
  · have hle : ¬ a.1 ≤ b.1 := by omega
    have hns : b.1 < a.1 := by omega
    have hz : ¬ (a.1 - b.1 = 0) := by omega
    simp only [if_neg hle, if_pos hns, if_neg hz]
    have hex' : (a.1 - b.1) ∣ (a.2 - b.2) * 256 := by
      have e1 : a.1 - b.1 = -(b.1 - a.1) := by ring
      have e2 : (a.2 - b.2) * 256 = -(256 * (b.2 - a.2)) := by ring
      rw [e1, e2]
      exact (neg_dvd.mpr (dvd_neg.mpr hex))
    obtain ⟨k1, k2⟩ := edgeRow_exact b.1 b.2 a.1 a.2 p.1 p.2 hns hex'
    refine ⟨⟨?_, ?_⟩, k1, k2⟩
    · simp only [min_eq_right (le_of_lt hns)]
      exact h.1
    · simp only [max_eq_left (le_of_lt hns)]
      exact le_of_lt h.2

theorem columnMin_le_row (x : Int) (e : (Int × Int) × (Int × Int)) (hc : edgeCovers e x) :
    ∀ (es : List ((Int × Int) × (Int × Int))), e ∈ es →
      ∀ init, columnMin es x init ≤ edgeRow e.1.1 e.1.2 e.2.1 e.2.2 x := by
  intro es
  induction es with
  | nil => intro he; exact absurd he (List.not_mem_nil _)
  | cons e' es ih =>
    intro he init
    rw [columnMin_cons]
    rcases List.mem_cons.mp he with rfl | he
    · rw [if_pos hc]
      exact le_trans (columnMin_le _ _ _) (min_le_right _ _)
    · exact ih he _

theorem row_le_columnMax (x : Int) (e : (Int × Int) × (Int × Int)) (hc : edgeCovers e x) :
    ∀ (es : List ((Int × Int) × (Int × Int))), e ∈ es →
      ∀ init, edgeRow e.1.1 e.1.2 e.2.1 e.2.2 x ≤ columnMax es x init := by
  intro es
  induction es with
  | nil => intro he; exact absurd he (List.not_mem_nil _)
  | cons e' es ih =>
    intro he init
    rw [columnMax_cons]
    rcases List.mem_cons.mp he with rfl | he
    · rw [if_pos hc]
      exact le_trans (le_max_right _ _) (le_columnMax _ _ _)
    · exact ih he _

theorem columnMin_cases (x : Int) :
    ∀ (es : List ((Int × Int) × (Int × Int))) (init : Int),
      columnMin es x init = init ∨
      ∃ e ∈ es, edgeCovers e x ∧ columnMin es x init = edgeRow e.1.1 e.1.2 e.2.1 e.2.2 x := by
  intro es
  induction es with
  | nil => intro init; left; rfl
  | cons e' es ih =>
    intro init
    rw [columnMin_cons]
    rcases ih (if edgeCovers e' x then min init (edgeRow e'.1.1 e'.1.2 e'.2.1 e'.2.2 x)
      else init) with h | ⟨e, he, hc, h⟩
    · by_cases hc : edgeCovers e' x
      · rw [if_pos hc] at h ⊢
        rcases min_choice init (edgeRow e'.1.1 e'.1.2 e'.2.1 e'.2.2 x) with hm | hm
        · left
          rw [h, hm]
        · right
          exact ⟨e', List.mem_cons_self _ _, hc, by rw [h, hm]⟩
      · rw [if_neg hc] at h ⊢
        left
        exact h
    · right
      exact ⟨e, List.mem_cons_of_mem _ he, hc, h⟩

theorem columnMax_cases (x : Int) :
    ∀ (es : List ((Int × Int) × (Int × Int))) (init : Int),
      columnMax es x init = init ∨
      ∃ e ∈ es, edgeCovers e x ∧ columnMax es x init = edgeRow e.1.1 e.1.2 e.2.1 e.2.2 x := by
  intro es
  induction es with
  | nil => intro init; left; rfl
  | cons e' es ih =>
    intro init
    rw [columnMax_cons]
    rcases ih (if edgeCovers e' x then max init (edgeRow e'.1.1 e'.1.2 e'.2.1 e'.2.2 x)
      else init) with h | ⟨e, he, hc, h⟩
    · by_cases hc : edgeCovers e' x
      · rw [if_pos hc] at h ⊢
        rcases max_choice init (edgeRow e'.1.1 e'.1.2 e'.2.1 e'.2.2 x) with hm | hm
        · left
          rw [h, hm]
        · right
          exact ⟨e', List.mem_cons_self _ _, hc, by rw [h, hm]⟩
      · rw [if_neg hc] at h ⊢
        left
        exact h
    · right
      exact ⟨e, List.mem_cons_of_mem _ he, hc, h⟩

theorem fillPolyRange_spec (gfx : JsGraphicsData) (vs : List (Int × Int)) :
    (∀ v ∈ vs, (fillPolyRange gfx vs).1 ≤ v.1 ∧ v.1 ≤ (fillPolyRange gfx vs).2) ∧
    (fillPolyRange gfx vs).1 ≤ toShort ((gfx.width : Int) - 1) ∧
    0 ≤ (fillPolyRange gfx vs).2 ∧
    ((fillPolyRange gfx vs).1 = toShort ((gfx.width : Int) - 1) ∨
      ∃ v ∈ vs, (fillPolyRange gfx vs).1 = v.1) ∧
    ((fillPolyRange gfx vs).2 = 0 ∨ ∃ v ∈ vs, (fillPolyRange gfx vs).2 = v.1) :=
  foldl_range_spec vs (toShort ((gfx.width : Int) - 1)) 0

/-- A column of an edge of the polygon is one of the columns `minx..maxx` when it lies in
the framebuffer. -/
theorem column_in_range (gfx : JsGraphicsData) (vs : List (Int × Int))
    (e : (Int × Int) × (Int × Int)) (he : e ∈ polyEdges vs) (x : Int)
    (hc : edgeCovers e x) (h0 : 0 ≤ x) (h1 : x < gfx.width) :
    (if (fillPolyRange gfx vs).1 < 0 then 0 else (fillPolyRange gfx vs).1) ≤ x ∧
    x ≤ (if (fillPolyRange gfx vs).2 ≥ gfx.width then (gfx.width : Int) - 1
      else (fillPolyRange gfx vs).2) := by
  obtain ⟨r1, _, _, _, _⟩ := fillPolyRange_spec gfx vs
  obtain ⟨m1, m2⟩ := polyEdges_mem he
  have b1 := r1 _ m1
  have b2 := r1 _ m2
  have c1 : (fillPolyRange gfx vs).1 ≤ x :=
    le_trans (le_min b1.1 b2.1) hc.1
  have c2 : x ≤ (fillPolyRange gfx vs).2 :=
    le_trans hc.2 (max_le b1.2 b2.2)
  constructor
  · split_ifs <;> omega
  · split_ifs <;> omega

/-- An edge above and an edge below a point strictly inside the polygon, both crossing
its column. -/
theorem strictlyInside_edges (vs : List (Int × Int)) (p : Int × Int)
    (hin : strictlyInside vs p = true) :
    (∃ e ∈ polyEdges vs, straddles e.1 e.2 p.1 = true ∧ 0 < sideOf e.1 e.2 p) ∧
    (∃ e ∈ polyEdges vs, straddles e.1 e.2 p.1 = true ∧ sideOf e.1 e.2 p < 0) := by
  unfold strictlyInside at hin
  simp only [Bool.and_eq_true, Bool.not_eq_true', decide_eq_true_eq] at hin
  obtain ⟨hnb, hodd⟩ := hin
  have hsplit := countP_split3 (fun e : (Int × Int) × (Int × Int) => straddles e.1 e.2 p.1)
    (fun e => sideOf e.1 e.2 p) (polyEdges vs)
  have heven := straddles_even vs p.1
  have hon : (polyEdges vs).countP
      (fun e => straddles e.1 e.2 p.1 && decide (sideOf e.1 e.2 p = 0)) = 0 := by
    rw [List.countP_eq_zero]
    intro e he hb
    simp only [Bool.and_eq_true, decide_eq_true_eq] at hb
    have hcz : cross e.1 e.2 p = 0 := by
      have h := hb.2
      unfold sideOf at h
      split_ifs at h
      · exact h
      · rw [cross_swap] at h
        omega
    have hseg := onSegment_of_cross_eq_zero e.1 e.2 p hcz ((straddles_iff _ _ _).mp hb.1)
    have : onBoundary vs p = true := by
      unfold onBoundary
      rw [List.any_eq_true]
      exact ⟨e, he, hseg⟩
    rw [hnb] at this
    exact Bool.false_ne_true this
  unfold crossingsAbove at hodd
  simp only at hsplit
  constructor
  · have hpos : 0 < (polyEdges vs).countP
        (fun e => straddles e.1 e.2 p.1 && decide (0 < sideOf e.1 e.2 p)) := by omega
    obtain ⟨e, he, hb⟩ := List.countP_pos_iff.mp hpos
    simp only [Bool.and_eq_true, decide_eq_true_eq] at hb
    exact ⟨e, he, hb.1, hb.2⟩
  · have hpos : 0 < (polyEdges vs).countP
        (fun e => straddles e.1 e.2 p.1 && decide (sideOf e.1 e.2 p < 0)) := by omega
    obtain ⟨e, he, hb⟩ := List.countP_pos_iff.mp hpos
    simp only [Bool.and_eq_true, decide_eq_true_eq] at hb
    exact ⟨e, he, hb.1, hb.2⟩

/-- C1, amended: for every closed polygon whose edges have an exact 8.8 step (256 times
the row difference of an edge is a multiple of its column difference), passed to
`graphicsFillPoly` with the software `fillRect` installed and no interrupt, the fill
ends and every framebuffer pixel that lies strictly inside the polygon is set to the
foreground colour (masked to `bpp` bits), and no pixel is set to another colour. -/
theorem graphicsFillPoly_paints_inside (longBits : Nat) (gfx : JsGraphicsData)
    (vs : List (Int × Int)) (fuel : Nat)
    (hw : 1 ≤ gfx.width ∧ gfx.width ≤ 32767) (hh : 1 ≤ gfx.height ∧ gfx.height ≤ 32767)
    (hv : ∀ v ∈ vs, (-32768 ≤ v.1 ∧ v.1 < 32767) ∧ IsShort v.2) (hf : 65536 ≤ fuel)
    (hexact : ∀ e ∈ polyEdges vs, e.1.1 ≠ e.2.1 → (e.2.1 - e.1.1) ∣ 256 * (e.2.2 - e.1.2))
    (p : Int × Int) (hp : 0 ≤ p.1 ∧ p.1 < gfx.width ∧ 0 ≤ p.2 ∧ p.2 < gfx.height)
    (hin : strictlyInside vs p = true) :
    ∃ calls, graphicsFillPolyPixels longBits gfx (fun _ => false) vs fuel = some calls ∧
      (⟨p.1, p.2, gfx.fgColor &&& pixelMask longBits gfx.bpp⟩ : Pixel) ∈ calls ∧
      ∀ q ∈ calls, q.col = gfx.fgColor &&& pixelMask longBits gfx.bpp := by
  obtain ⟨calls, ec, hc⟩ := graphicsFillPolyPixels_spec longBits gfx vs fuel hw hh hv hf
  refine ⟨calls, ec, ?_, fun q hq => ((hc q).mp hq).2⟩
  obtain ⟨⟨eu, heu, hsu, hside_u⟩, ⟨ed, hed, hsd, hside_d⟩⟩ := strictlyInside_edges vs p hin
  have hne_u : eu.1.1 ≠ eu.2.1 := by
    have := (straddles_iff _ _ _).mp hsu
    omega
  have hne_d : ed.1.1 ≠ ed.2.1 := by
    have := (straddles_iff _ _ _).mp hsd
    omega
  obtain ⟨cu, ru, _⟩ := edgeRow_of_side eu.1 eu.2 p hsu (hexact eu heu hne_u)
  obtain ⟨cd, _, rd⟩ := edgeRow_of_side ed.1 ed.2 p hsd (hexact ed hed hne_d)
  have hcu : edgeCovers eu p.1 := cu
  have hcd : edgeCovers ed p.1 := cd
  have hlo := columnMin_le_row p.1 eu hcu (polyEdges vs) heu ((gfx.height : Int) - 1)
  have hhi := row_le_columnMax p.1 ed hcd (polyEdges vs) hed 0
  have hru := ru hside_u
  have hrd := rd hside_d
  obtain ⟨hx1, hx2⟩ := column_in_range gfx vs eu heu p.1 hcu hp.1 hp.2.1
  rw [hc]
  simp only
  refine ⟨⟨hx1, hx2, by omega, ?_, ?_⟩, trivial⟩
  · exact max_le (by omega) hp.2.2.1
  · exact le_min (by omega) (by omega)

theorem graphicsFillPoly_paints_inside_witness :
    ∃ calls, graphicsFillPolyPixels 32 (JsGraphicsData.mk 16 16 1 1 0) (fun _ => false)
        [(0, 0), (10, 0), (5, 10)] 65536 = some calls ∧
      (⟨5, 5, 1 &&& pixelMask 32 1⟩ : Pixel) ∈ calls ∧
      ∀ q ∈ calls, q.col = 1 &&& pixelMask 32 1 :=
  graphicsFillPoly_paints_inside 32 (JsGraphicsData.mk 16 16 1 1 0)
    [(0, 0), (10, 0), (5, 10)] 65536 (by decide) (by decide) (by decide) (by decide)
    (by decide) (5, 5) (by decide) (by decide)

/-! ## Polygons: every column between two vertices is crossed -/

theorem exists_adjacent_change {α : Type} (g : α → Bool) :
    ∀ (l : List α) (a : α), (∃ u ∈ a :: l, g u = true) → (∃ w ∈ a :: l, g w = false) →
      ∃ e ∈ (a :: l).zip l, g e.1 ≠ g e.2 := by
  intro l
  induction l with
  | nil =>
    rintro a ⟨u, hu, hgu⟩ ⟨w, hw, hgw⟩
    rw [List.mem_singleton] at hu hw
    rw [hu] at hgu
    rw [hw, hgu] at hgw
    exact Bool.noConfusion hgw
  | cons b l ih =>
    rintro a ⟨u, hu, hgu⟩ ⟨w, hw, hgw⟩
    rw [List.zip_cons_cons]
    by_cases hab : g a = g b
    · have h1 : ∃ u ∈ b :: l, g u = true := by
        rcases List.mem_cons.mp hu with h | h
        · exact ⟨b, List.mem_cons_self _ _, by rw [← hab, ← h, hgu]⟩
        · exact ⟨u, h, hgu⟩
      have h2 : ∃ w ∈ b :: l, g w = false := by
        rcases List.mem_cons.mp hw with h | h
        · exact ⟨b, List.mem_cons_self _ _, by rw [← hab, ← h, hgw]⟩
        · exact ⟨w, h, hgw⟩
      obtain ⟨e, he, hne⟩ := ih b h1 h2
      exact ⟨e, List.mem_cons_of_mem _ he, hne⟩
    · exact ⟨(a, b), List.mem_cons_self _ _, hab⟩

theorem exists_edge_to {α : Type} :
    ∀ (l : List α) (a v : α), v ∈ l → ∃ u, (u, v) ∈ (a :: l).zip l := by
  intro l
  induction l with
  | nil => intro a v hv; exact absurd hv (List.not_mem_nil _)
  | cons b l ih =>
    intro a v hv
    rw [List.zip_cons_cons]
    rcases List.mem_cons.mp hv with h | h
    · exact ⟨a, by rw [h]; exact List.mem_cons_self _ _⟩
    · obtain ⟨u, hu⟩ := ih b v h
      exact ⟨u, List.mem_cons_of_mem _ hu⟩

/-- Every column between the columns of two vertices is a column of some edge. -/
theorem exists_covering_edge (vs : List (Int × Int)) (x : Int) (a b : Int × Int)
    (ha : a ∈ vs) (hb : b ∈ vs) (hax : a.1 ≤ x) (hbx : x ≤ b.1) :
    ∃ e ∈ polyEdges vs, edgeCovers e x := by
  unfold polyEdges
  cases hl : vs.getLast? with
  | none =>
    rw [List.getLast?_eq_none_iff] at hl
    rw [hl] at ha
    exact absurd ha (List.not_mem_nil _)
  | some l =>
    simp only
    by_cases hgb : b.1 ≤ x
    · obtain ⟨u, hu⟩ := exists_edge_to vs l b hb
      refine ⟨(u, b), hu, ?_, ?_⟩
      · exact le_trans (min_le_right _ _) hgb
      · exact le_trans hbx (le_max_right _ _)
    · obtain ⟨e, he, hne⟩ := exists_adjacent_change (fun v : Int × Int => decide (v.1 ≤ x))
        vs l ⟨a, List.mem_cons_of_mem _ ha, by simpa using hax⟩
        ⟨b, List.mem_cons_of_mem _ hb, by simpa using hgb⟩
      refine ⟨e, he, ?_⟩
      simp only [ne_eq, decide_eq_decide] at hne
      unfold edgeCovers
      by_cases h1 : e.1.1 ≤ x
      · have h2 : ¬ e.2.1 ≤ x := fun h => hne ⟨fun _ => h, fun _ => h1⟩
        constructor
        · exact le_trans (min_le_left _ _) h1
        · exact le_trans (by omega) (le_max_right _ _)
      · have h2 : e.2.1 ≤ x := by
          by_contra h
          exact hne ⟨fun h' => absurd h' h1, fun h' => absurd h' h⟩
        constructor
        · exact le_trans (min_le_right _ _) h2
        · exact le_trans (by omega) (le_max_left _ _)

/-- C2, amended: for every closed polygon with at least one vertex whose vertices all lie
inside the framebuffer, `graphicsFillPoly` with the software `fillRect` installed ends
and modifies no framebuffer pixel outside the bounding box of the vertices: every pixel
it sets is set to the foreground colour (masked to `bpp` bits), lies in a column between
the columns of two vertices and in a row between the rows of two vertices, and within
its column lies between the rows recorded for two edges of the polygon. -/
theorem graphicsFillPoly_paints_within_bounds (longBits : Nat) (gfx : JsGraphicsData)
    (vs : List (Int × Int)) (fuel : Nat)
    (hw : gfx.width ≤ 32767) (hh : gfx.height ≤ 32767) (hne : vs ≠ [])
    (hv : ∀ v ∈ vs, 0 ≤ v.1 ∧ v.1 < gfx.width ∧ 0 ≤ v.2 ∧ v.2 < gfx.height)
    (hf : 65536 ≤ fuel) :
    ∃ calls, graphicsFillPolyPixels longBits gfx (fun _ => false) vs fuel = some calls ∧
      ∀ q ∈ calls,
        q.col = gfx.fgColor &&& pixelMask longBits gfx.bpp ∧
        (∃ a ∈ vs, ∃ b ∈ vs, a.1 ≤ q.x ∧ q.x ≤ b.1) ∧
        (∃ c ∈ vs, ∃ d ∈ vs, c.2 ≤ q.y ∧ q.y ≤ d.2) ∧
        (∃ e1 ∈ polyEdges vs, ∃ e2 ∈ polyEdges vs, edgeCovers e1 q.x ∧ edgeCovers e2 q.x ∧
          edgeRow e1.1.1 e1.1.2 e1.2.1 e1.2.2 q.x ≤ q.y ∧
          q.y ≤ edgeRow e2.1.1 e2.1.2 e2.2.1 e2.2.2 q.x) := by
  obtain ⟨v0, hv0⟩ := List.exists_mem_of_ne_nil vs hne
  have hv0b := hv v0 hv0
  have hw1 : 1 ≤ gfx.width ∧ gfx.width ≤ 32767 := ⟨by omega, hw⟩
  have hh1 : 1 ≤ gfx.height ∧ gfx.height ≤ 32767 := ⟨by omega, hh⟩
  have hvs : ∀ v ∈ vs, (-32768 ≤ v.1 ∧ v.1 < 32767) ∧ IsShort v.2 := by
    intro v hvm
    have := hv v hvm
    unfold IsShort
    omega
  obtain ⟨calls, ec, hc⟩ := graphicsFillPolyPixels_spec longBits gfx vs fuel hw1 hh1 hvs hf
  refine ⟨calls, ec, ?_⟩
  intro q hq
  obtain ⟨⟨hx1, hx2, hLH, hlo, hhi⟩, hcol⟩ := (hc q).mp hq
  obtain ⟨_, _, _, r4, r5⟩ := fillPolyRange_spec gfx vs
  rw [toShort_of_isShort (by omega) (by omega)] at r4
  have hqx0 : 0 ≤ q.x := by
    split_ifs at hx1 <;> omega
  have hqxw : q.x < gfx.width := by
    split_ifs at hx2 <;> omega
  obtain ⟨a, ha, hax⟩ : ∃ a ∈ vs, a.1 ≤ q.x := by
    rcases r4 with h | ⟨v, hvm, h⟩
    · refine ⟨v0, hv0, ?_⟩
      rw [h] at hx1
      split_ifs at hx1 <;> omega
    · refine ⟨v, hvm, ?_⟩
      rw [← h]
      split_ifs at hx1 <;> omega
  obtain ⟨b, hb, hbx⟩ : ∃ b ∈ vs, q.x ≤ b.1 := by
    rcases r5 with h | ⟨v, hvm, h⟩
    · refine ⟨v0, hv0, ?_⟩
      rw [h] at hx2
      split_ifs at hx2 <;> omega
    · refine ⟨v, hvm, ?_⟩
      rw [← h]
      split_ifs at hx2 <;> omega
  obtain ⟨e0, he0, hc0⟩ := exists_covering_edge vs q.x a b ha hb hax hbx
  have hrow : ∀ e ∈ polyEdges vs, edgeCovers e q.x →
      0 ≤ edgeRow e.1.1 e.1.2 e.2.1 e.2.2 q.x ∧
      edgeRow e.1.1 e.1.2 e.2.1 e.2.2 q.x ≤ (gfx.height : Int) - 1 ∧
      (∃ c ∈ vs, c.2 ≤ edgeRow e.1.1 e.1.2 e.2.1 e.2.2 q.x) ∧
      (∃ d ∈ vs, edgeRow e.1.1 e.1.2 e.2.1 e.2.2 q.x ≤ d.2) := by
    intro e he hce
    obtain ⟨m1, m2⟩ := polyEdges_mem he
    obtain ⟨b1, b2⟩ := edgeRow_bounds e.1.1 e.1.2 e.2.1 e.2.2 q.x hce.1 hce.2
    have k1 := hv _ m1
    have k2 := hv _ m2
    refine ⟨?_, ?_, ?_, ?_⟩
    · exact le_trans (le_min k1.2.2.1 k2.2.2.1) b1
    · refine le_trans b2 (max_le ?_ ?_) <;> omega
    · rcases min_choice e.1.2 e.2.2 with h | h
      · exact ⟨e.1, m1, le_trans (le_of_eq h.symm) b1⟩
      · exact ⟨e.2, m2, le_trans (le_of_eq h.symm) b1⟩
    · rcases max_choice e.1.2 e.2.2 with h | h
      · exact ⟨e.1, m1, le_trans b2 (le_of_eq h)⟩
      · exact ⟨e.2, m2, le_trans b2 (le_of_eq h)⟩
  have hlo' : columnMin (polyEdges vs) q.x ((gfx.height : Int) - 1) ≤ q.y :=
    le_trans (le_max_left _ _) hlo
  have hhi' : q.y ≤ columnMax (polyEdges vs) q.x 0 :=
    le_trans hhi (min_le_left _ _)
  have hqy0 : 0 ≤ q.y := le_trans (le_max_right _ _) hlo
  have hqyh : q.y ≤ (gfx.height : Int) - 1 := le_trans hhi (min_le_right _ _)
  obtain ⟨e1, he1, hc1, hr1⟩ : ∃ e1 ∈ polyEdges vs, edgeCovers e1 q.x ∧
      edgeRow e1.1.1 e1.1.2 e1.2.1 e1.2.2 q.x ≤ q.y := by
    rcases columnMin_cases q.x (polyEdges vs) ((gfx.height : Int) - 1) with h | ⟨e, he, hce, h⟩
    · refine ⟨e0, he0, hc0, ?_⟩
      have := (hrow e0 he0 hc0).2.1
      omega
    · exact ⟨e, he, hce, by rw [← h]; exact hlo'⟩
  obtain ⟨e2, he2, hc2, hr2⟩ : ∃ e2 ∈ polyEdges vs, edgeCovers e2 q.x ∧
      q.y ≤ edgeRow e2.1.1 e2.1.2 e2.2.1 e2.2.2 q.x := by
    rcases columnMax_cases q.x (polyEdges vs) 0 with h | ⟨e, he, hce, h⟩
    · refine ⟨e0, he0, hc0, ?_⟩
      have := (hrow e0 he0 hc0).1
      omega
    · exact ⟨e, he, hce, by rw [← h]; exact hhi'⟩
  obtain ⟨c, hcm, hcy⟩ := (hrow e1 he1 hc1).2.2.1
  obtain ⟨d, hdm, hdy⟩ := (hrow e2 he2 hc2).2.2.2
  exact ⟨hcol, ⟨a, ha, b, hb, hax, hbx⟩, ⟨c, hcm, d, hdm, by omega, by omega⟩,
    ⟨e1, he1, e2, he2, hc1, hc2, hr1, hr2⟩⟩

theorem graphicsFillPoly_paints_within_bounds_witness :
    ∃ calls, graphicsFillPolyPixels 32 (JsGraphicsData.mk 16 16 1 1 0) (fun _ => false)
        [(0, 0), (8, 0), (4, 4), (8, 8), (0, 8)] 65536 = some calls ∧
      ∀ q ∈ calls,
        q.col = 1 &&& pixelMask 32 1 ∧
        (∃ a ∈ [((0 : Int), (0 : Int)), (8, 0), (4, 4), (8, 8), (0, 8)],
          ∃ b ∈ [((0 : Int), (0 : Int)), (8, 0), (4, 4), (8, 8), (0, 8)],
            a.1 ≤ q.x ∧ q.x ≤ b.1) ∧
        (∃ c ∈ [((0 : Int), (0 : Int)), (8, 0), (4, 4), (8, 8), (0, 8)],
          ∃ d ∈ [((0 : Int), (0 : Int)), (8, 0), (4, 4), (8, 8), (0, 8)],
            c.2 ≤ q.y ∧ q.y ≤ d.2) ∧
        (∃ e1 ∈ polyEdges [(0, 0), (8, 0), (4, 4), (8, 8), (0, 8)],
          ∃ e2 ∈ polyEdges [(0, 0), (8, 0), (4, 4), (8, 8), (0, 8)],
            edgeCovers e1 q.x ∧ edgeCovers e2 q.x ∧
            edgeRow e1.1.1 e1.1.2 e1.2.1 e1.2.2 q.x ≤ q.y ∧
            q.y ≤ edgeRow e2.1.1 e2.1.2 e2.2.1 e2.2.2 q.x) :=
  graphicsFillPoly_paints_within_bounds 32 (JsGraphicsData.mk 16 16 1 1 0)
    [(0, 0), (8, 0), (4, 4), (8, 8), (0, 8)] 65536 (by decide) (by decide) (by decide)
    (by decide) (by decide)

/-! ## `graphicsDrawLine` scanning in X -/

/-- The scan loop of `graphicsDrawLine` from counter `t`: one pixel per value of the
counter, the position advanced by `step` each time. -/
theorem drawLine_fold (mk : Int → Int → Pixel) (step hi : Int) :
    ∀ (n : Nat) (t pos : Int) (acc : List Pixel), (hi + 1 - t).toNat = n →
      ∃ p, (intRange t hi).foldlM (fun s x => drawLineStep mk step x s) (pos, acc) =
        some (p, acc ++ (intRange t hi).map
          (fun x => mk x (toShort ((pos + (x - t) * step) >>> (8 : Nat))))) := by
  intro n
  induction n with
  | zero =>
    intro t pos acc hn
    rw [intRange_of_lt (by omega)]
    exact ⟨pos, by simp⟩
  | succ n ih =>
    intro t pos acc hn
    have htb : t ≤ hi := by omega
    have e1 : drawLineStep mk step t (pos, acc) =
        some (pos + step, acc ++ [mk t (toShort (pos >>> (8 : Nat)))]) := rfl
    rw [intRange_cons htb, List.foldlM_cons, e1]
    simp only [Option.bind_eq_bind, Option.some_bind, List.map_cons]
    obtain ⟨p, hp⟩ := ih (t + 1) (pos + step)
      (acc ++ [mk t (toShort (pos >>> (8 : Nat)))]) (by omega)
    refine ⟨p, ?_⟩
    rw [hp]
    have e : ∀ x : Int, pos + step + (x - (t + 1)) * step = pos + (x - t) * step := by
      intro x
      ring
    simp only [e, sub_self, zero_mul, add_zero, List.append_assoc, List.singleton_append]

/-- A line that spans at least three columns and is longer in X than in Y: whichever end
point comes first, `graphicsDrawLine` calls `graphicsSetPixel` once for each column from
the left end `(x1, y1)` to the right end `(x2, y2)`, in increasing order, at row
`floor ((256 * y1 + 128 + (x - x1) * s) / 256)` with `s` the truncated quotient of
`256 * (y2 - y1)` by `x2 - x1`. -/
theorem graphicsDrawLine_scan_x (gfx : JsGraphicsData) (x1 y1 x2 y2 : Int) (fuel : Nat)
    (hx1 : -32768 ≤ x1) (hx2 : x2 < 32767) (hy1 : IsShort y1) (hy2 : IsShort y2)
    (hx : x1 + 1 < x2) (hlong : |y2 - y1| < x2 - x1) (hf : 65536 ≤ fuel) :
    graphicsDrawLine gfx x1 y1 x2 y2 fuel =
        some ((intRange x1 x2).map (fun x => (⟨x,
          (256 * y1 + 128 + (x - x1) * Int.tdiv (256 * (y2 - y1)) (x2 - x1)) / 256,
          gfx.fgColor⟩ : Pixel))) ∧
      graphicsDrawLine gfx x2 y2 x1 y1 fuel = graphicsDrawLine gfx x1 y1 x2 y2 fuel := by
  unfold IsShort at hy1 hy2
  have habs := abs_lt.mp hlong
  have hyl : (if y2 - y1 < 0 then -(y2 - y1) else if y2 - y1 = 0 then 1 else y2 - y1) <
      x2 - x1 := by
    split_ifs <;> omega
  have hyl2 : (if y1 - y2 < 0 then -(y1 - y2) else if y1 - y2 = 0 then 1 else y1 - y2) <
      x2 - x1 := by
    split_ifs <;> omega
  have hfwd : graphicsDrawLine gfx x1 y1 x2 y2 fuel =
      (forShort (drawLineStep (fun x y => ⟨x, y, gfx.fgColor⟩)
        (Int.tdiv ((y2 - y1) * 256) (x2 - x1))) fuel x1 x2 (y1 * 256 + 128, [])).map
        Prod.snd := by
    have c1 : ¬ (x2 - x1 < 0) := by omega
    have c2 : ¬ (x2 - x1 = 0) := by omega
    have c3 : ¬ (x1 > x2) := by omega
    simp only [graphicsDrawLine, c1, c2, c3, if_false]
    rw [if_pos (by simpa using hyl)]
  have hbwd : graphicsDrawLine gfx x2 y2 x1 y1 fuel =
      (forShort (drawLineStep (fun x y => ⟨x, y, gfx.fgColor⟩)
        (Int.tdiv ((y2 - y1) * 256) (x2 - x1))) fuel x1 x2 (y1 * 256 + 128, [])).map
        Prod.snd := by
    have c1 : x1 - x2 < 0 := by omega
    have c3 : x2 > x1 := by omega
    have e : -(x1 - x2) = x2 - x1 := by ring
    simp only [graphicsDrawLine, c1, c3, if_true, e]
    rw [if_pos (by simpa using hyl2)]
  refine ⟨?_, by rw [hfwd, hbwd]⟩
  rw [hfwd, forShort_eq_foldlM _ fuel x1 x2 _ hx1 hx2 (by omega)]
  obtain ⟨p, hp⟩ := drawLine_fold (fun x y => ⟨x, y, gfx.fgColor⟩)
    (Int.tdiv ((y2 - y1) * 256) (x2 - x1)) x2 _ x1 (y1 * 256 + 128) [] rfl
  rw [hp]
  simp only [Option.map_some', List.nil_append, Option.some.injEq]
  apply List.map_congr_left
  intro x hxm
  rw [mem_intRange] at hxm
  have hb := step_mul_bounds (y2 - y1) (x2 - x1) (x - x1) (by omega) (by omega) (by omega)
  have e256 : 256 * (y2 - y1) = (y2 - y1) * 256 := by ring
  have e0 : 256 * y1 = y1 * 256 := by ring
  rw [shiftRight_8, e256, e0]
  generalize (x - x1) * Int.tdiv ((y2 - y1) * 256) (x2 - x1) = m at hb ⊢
  rw [toShort_of_isShort]
  · rcases le_total 0 (y2 - y1) with hd | hd
    · have := hb.1 hd
      omega
    · have := hb.2 hd
      omega
  · rcases le_total 0 (y2 - y1) with hd | hd
    · have := hb.1 hd
      omega
    · have := hb.2 hd
      omega

/-- The line from (0,0) to (9,3): exactly the ten pixels of the specification's example,
one per column. -/
theorem graphicsDrawLine_0_0_9_3 (gfx : JsGraphicsData) (fuel : Nat) :
    graphicsDrawLine gfx 0 0 9 3 (fuel + 11) =
      some [⟨0, 0, gfx.fgColor⟩, ⟨1, 0, gfx.fgColor⟩, ⟨2, 1, gfx.fgColor⟩,
        ⟨3, 1, gfx.fgColor⟩, ⟨4, 1, gfx.fgColor⟩, ⟨5, 2, gfx.fgColor⟩,
        ⟨6, 2, gfx.fgColor⟩, ⟨7, 2, gfx.fgColor⟩, ⟨8, 3, gfx.fgColor⟩,
        ⟨9, 3, gfx.fgColor⟩] := by
  rfl

/-! ## `graphicsClear` and `graphicsDrawRect` -/

/-- A `short` loop whose bound is 32767 never ends: the counter wraps before it can
exceed the bound, so no amount of fuel suffices. -/
theorem forShort_never_ends {σ : Type} (body : Int → σ → Option σ) :
    ∀ (fuel : Nat) (x : Int) (s : σ), x ≤ 32767 → forShort body fuel x 32767 s = none := by
  intro fuel
  induction fuel with
  | zero =>
    intro x s _
    rfl
  | succ n ih =>
    intro x s hx
    simp only [forShort, hx, if_true]
    cases body x s with
    | none => rfl
    | some s1 =>
      have hle : toShort (x + 1) ≤ 32767 := by
        unfold toShort
        omega
      exact ih (toShort (x + 1)) s1 hle

/-- The software `fillRect` for corners in any order with coordinates below 32767: the
sink is called exactly at the points of the rectangle that lie in the framebuffer, in the
foreground colour masked to `bpp` bits. -/
theorem softwareFillRect_mem (longBits fuel : Nat) (gfx : JsGraphicsData) (x1 y1 x2 y2 : Int)
    (hx1 : -32768 ≤ x1 ∧ x1 < 32767) (hy1 : -32768 ≤ y1 ∧ y1 < 32767)
    (hx2 : -32768 ≤ x2 ∧ x2 < 32767) (hy2 : -32768 ≤ y2 ∧ y2 < 32767) (hf : 65536 ≤ fuel) :
    ∃ calls, softwareFillRect longBits fuel gfx x1 y1 x2 y2 = some (calls, gfx) ∧
      ∀ q : Pixel, q ∈ calls ↔
        (min x1 x2 ≤ q.x ∧ q.x ≤ max x1 x2 ∧ min y1 y2 ≤ q.y ∧ q.y ≤ max y1 y2 ∧
          0 ≤ q.x ∧ q.x < gfx.width ∧ 0 ≤ q.y ∧ q.y < gfx.height ∧
          q.col = gfx.fgColor &&& pixelMask longBits gfx.bpp) := by
  have e : graphicsFallbackFillRect gfx x1 y1 x2 y2 fuel =
      some ((intRange (min y1 y2) (max y1 y2)).flatMap (fun y =>
        (intRange (min x1 x2) (max x1 x2)).flatMap
          (fun x => [(⟨x, y, gfx.fgColor⟩ : Pixel)]))) := by
    unfold graphicsFallbackFillRect
    have a1 : (if x1 > x2 then x2 else x1) = min x1 x2 := by
      split_ifs with h
      · exact (min_eq_right (by omega)).symm
      · exact (min_eq_left (by omega)).symm
    have a2 : (if x1 > x2 then x1 else x2) = max x1 x2 := by
      split_ifs with h
      · exact (max_eq_left (by omega)).symm
      · exact (max_eq_right (by omega)).symm
    have a3 : (if y1 > y2 then y2 else y1) = min y1 y2 := by
      split_ifs with h
      · exact (min_eq_right (by omega)).symm
      · exact (min_eq_left (by omega)).symm
    have a4 : (if y1 > y2 then y1 else y2) = max y1 y2 := by
      split_ifs with h
      · exact (max_eq_left (by omega)).symm
      · exact (max_eq_right (by omega)).symm
    simp only [a1, a2, a3, a4]
    exact forShort_fillRect gfx (min x1 x2) (min y1 y2) (max x1 x2) (max y1 y2) fuel
      (le_min hx1.1 hx2.1) (max_lt hx1.2 hx2.2) (le_min hy1.1 hy2.1) (max_lt hy1.2 hy2.2) hf
  unfold softwareFillRect
  simp only [e]
  refine ⟨_, rfl, ?_⟩
  intro q
  simp only [List.mem_flatMap, List.mem_singleton, mem_intRange]
  constructor
  · rintro ⟨p, ⟨y, hy, x, hx, rfl⟩, hq⟩
    rw [graphicsSetPixel_mem] at hq
    obtain ⟨b1, b2, b3, b4, rfl⟩ := hq
    exact ⟨hx.1, hx.2, hy.1, hy.2, b1, b2, b3, b4, rfl⟩
  · rintro ⟨c1, c2, c3, c4, b1, b2, b3, b4, hcol⟩
    refine ⟨⟨q.x, q.y, gfx.fgColor⟩, ⟨q.y, ⟨c3, c4⟩, q.x, ⟨c1, c2⟩, rfl⟩, ?_⟩
    rw [graphicsSetPixel_mem]
    refine ⟨b1, b2, b3, b4, ?_⟩
    cases q
    simp only at hcol
    simp only [hcol]

/-- C11: with the software `fillRect` and width and height between 1 and 32767,
`graphicsClear` returns, has called the sink exactly at the pixels of the framebuffer, each
in the background colour masked to `bpp` bits and in no other colour, and has put the
foreground colour back. -/
theorem graphicsClear_software (longBits fuel : Nat) (gfx : JsGraphicsData)
    (hw : 1 ≤ gfx.width ∧ gfx.width ≤ 32767) (hh : 1 ≤ gfx.height ∧ gfx.height ≤ 32767)
    (hf : 65536 ≤ fuel) :
    ∃ calls, graphicsClear (softwareFillRect longBits fuel) gfx = some (calls, gfx) ∧
      (∀ x y : Int, 0 ≤ x → x < gfx.width → 0 ≤ y → y < gfx.height →
        (⟨x, y, gfx.bgColor &&& pixelMask longBits gfx.bpp⟩ : Pixel) ∈ calls) ∧
      (∀ q ∈ calls, 0 ≤ q.x ∧ q.x < gfx.width ∧ 0 ≤ q.y ∧ q.y < gfx.height ∧
        q.col = gfx.bgColor &&& pixelMask longBits gfx.bpp) := by
  have ew : toShort ((gfx.width : Int) - 1) = (gfx.width : Int) - 1 :=
    toShort_of_isShort (by omega) (by omega)
  have eh : toShort ((gfx.height : Int) - 1) = (gfx.height : Int) - 1 :=
    toShort_of_isShort (by omega) (by omega)
  obtain ⟨calls, ec, hc⟩ := softwareFillRect_mem longBits fuel
    { gfx with fgColor := gfx.bgColor } 0 0 ((gfx.width : Int) - 1) ((gfx.height : Int) - 1)
    (by omega) (by omega) (by omega) (by omega) hf
  refine ⟨calls, ?_, ?_, ?_⟩
  · simp only [graphicsClear, graphicsFillRect, ew, eh, ec]
  · intro x y hx0 hx1 hy0 hy1
    rw [hc]
    simp only
    refine ⟨?_, ?_, ?_, ?_, hx0, hx1, hy0, hy1, trivial⟩
    · exact le_trans (min_le_left _ _) hx0
    · exact le_trans (by omega) (le_max_right _ _)
    · exact le_trans (min_le_left _ _) hy0
    · exact le_trans (by omega) (le_max_right _ _)
  · intro q hq
    rw [hc] at hq
    obtain ⟨_, _, _, _, b1, b2, b3, b4, hcol⟩ := hq
    exact ⟨b1, b2, b3, b4, hcol⟩

theorem graphicsClear_software_witness :
    ∃ calls, graphicsClear (softwareFillRect 32 65536) (JsGraphicsData.mk 2 2 1 1 0) =
        some (calls, JsGraphicsData.mk 2 2 1 1 0) ∧
      (∀ x y : Int, 0 ≤ x → x < ((JsGraphicsData.mk 2 2 1 1 0).width : Int) → 0 ≤ y →
        y < ((JsGraphicsData.mk 2 2 1 1 0).height : Int) →
        (⟨x, y, (JsGraphicsData.mk 2 2 1 1 0).bgColor &&&
          pixelMask 32 (JsGraphicsData.mk 2 2 1 1 0).bpp⟩ : Pixel) ∈ calls) ∧
      (∀ q ∈ calls, 0 ≤ q.x ∧ q.x < ((JsGraphicsData.mk 2 2 1 1 0).width : Int) ∧
        0 ≤ q.y ∧ q.y < ((JsGraphicsData.mk 2 2 1 1 0).height : Int) ∧
        q.col = (JsGraphicsData.mk 2 2 1 1 0).bgColor &&&
          pixelMask 32 (JsGraphicsData.mk 2 2 1 1 0).bpp) :=
  graphicsClear_software 32 65536 (JsGraphicsData.mk 2 2 1 1 0) (by decide) (by decide)
    (by decide)

/-- The four `graphicsFillRect` calls of `graphicsDrawRect`, for all corners: the top
row, the column of `x2`, the bottom row and the column of `x1`. -/
theorem graphicsDrawRect_records (gfx : JsGraphicsData) (x1 y1 x2 y2 : Int) :
    graphicsDrawRect recordFillRect gfx x1 y1 x2 y2 =
      some ([⟨x1, y1, x2, y1⟩, ⟨x2, y1, x2, y2⟩, ⟨x1, y2, x2, y2⟩, ⟨x1, y2, x1, y1⟩], gfx) := by
  rfl

/-- With the software `fillRect` and corners whose coordinates are below 32767,
`graphicsDrawRect` returns and has called the sink exactly at the points of the
framebuffer that lie on the outline of the rectangle spanned by the corners. -/
theorem graphicsDrawRect_outline (longBits fuel : Nat) (gfx : JsGraphicsData)
    (x1 y1 x2 y2 : Int)
    (hx1 : -32768 ≤ x1 ∧ x1 < 32767) (hy1 : -32768 ≤ y1 ∧ y1 < 32767)
    (hx2 : -32768 ≤ x2 ∧ x2 < 32767) (hy2 : -32768 ≤ y2 ∧ y2 < 32767) (hf : 65536 ≤ fuel) :
    ∃ calls, graphicsDrawRect (softwareFillRect longBits fuel) gfx x1 y1 x2 y2 =
        some (calls, gfx) ∧
      ∀ q : Pixel, q ∈ calls ↔
        (min x1 x2 ≤ q.x ∧ q.x ≤ max x1 x2 ∧ min y1 y2 ≤ q.y ∧ q.y ≤ max y1 y2 ∧
          (q.x = x1 ∨ q.x = x2 ∨ q.y = y1 ∨ q.y = y2) ∧
          0 ≤ q.x ∧ q.x < gfx.width ∧ 0 ≤ q.y ∧ q.y < gfx.height ∧
          q.col = gfx.fgColor &&& pixelMask longBits gfx.bpp) := by
  obtain ⟨c1, e1, h1⟩ := softwareFillRect_mem longBits fuel gfx x1 y1 x2 y1 hx1 hy1 hx2 hy1 hf
  obtain ⟨c2, e2, h2⟩ := softwareFillRect_mem longBits fuel gfx x2 y1 x2 y2 hx2 hy1 hx2 hy2 hf
  obtain ⟨c3, e3, h3⟩ := softwareFillRect_mem longBits fuel gfx x1 y2 x2 y2 hx1 hy2 hx2 hy2 hf
  obtain ⟨c4, e4, h4⟩ := softwareFillRect_mem longBits fuel gfx x1 y2 x1 y1 hx1 hy2 hx1 hy1 hf
  refine ⟨c1 ++ c2 ++ c3 ++ c4, ?_, ?_⟩
  · simp only [graphicsDrawRect, graphicsFillRect, e1, e2, e3, e4]
  · intro q
    simp only [List.mem_append, h1, h2, h3, h4]
    constructor
    · rintro (((⟨a1, a2, a3, a4, b⟩ | ⟨a1, a2, a3, a4, b⟩) | ⟨a1, a2, a3, a4, b⟩) |
        ⟨a1, a2, a3, a4, b⟩)
      · exact ⟨by omega, by omega, by omega, by omega, by omega, b⟩
      · exact ⟨by omega, by omega, by omega, by omega, by omega, b⟩
      · exact ⟨by omega, by omega, by omega, by omega, by omega, b⟩
      · exact ⟨by omega, by omega, by omega, by omega, by omega, b⟩
    · rintro ⟨a1, a2, a3, a4, (hc | hc | hc | hc), b⟩
      · right
        exact ⟨by omega, by omega, by omega, by omega, b⟩
      · left
        left
        right
        exact ⟨by omega, by omega, by omega, by omega, b⟩
      · left
        left
        left
        exact ⟨by omega, by omega, by omega, by omega, b⟩
      · left
        right
        exact ⟨by omega, by omega, by omega, by omega, b⟩

/-- A loop whose body does not return at the first value of the counter does not return. -/
theorem forShort_body_none {σ : Type} (body : Int → σ → Option σ) (fuel : Nat) (lo hi : Int)
    (s : σ) (hb : body lo s = none) : forShort body fuel lo hi s = none ∨ hi < lo := by
  cases fuel with
  | zero => exact Or.inl rfl
  | succ n =>
    by_cases h : lo ≤ hi
    · left
      simp only [forShort, h, if_true, hb]
    · right
      omega

/-- The software `graphicsFallbackFillRect` with a right edge at 32767 never returns: the
`short` column counter wraps to -32768 instead of passing 32767. -/
theorem graphicsFallbackFillRect_never_ends (gfx : JsGraphicsData) (x1 y1 y2 : Int)
    (fuel : Nat) (hx : x1 ≤ 32767) :
    graphicsFallbackFillRect gfx x1 y1 32767 y2 fuel = none := by
  unfold graphicsFallbackFillRect
  have e1 : (if x1 > 32767 then (32767 : Int) else x1) = x1 := if_neg (by omega)
  have e2 : (if x1 > 32767 then x1 else (32767 : Int)) = 32767 := if_neg (by omega)
  simp only [e1, e2]
  have hy : (if y1 > y2 then y2 else y1) ≤ (if y1 > y2 then y1 else y2) := by
    split_ifs <;> omega
  rcases forShort_body_none
      (fun y acc =>
        forShort (fun x acc => some (acc ++ [(⟨x, y, gfx.fgColor⟩ : Pixel)])) fuel x1 32767 acc)
      fuel (if y1 > y2 then y2 else y1) (if y1 > y2 then y1 else y2) []
      (forShort_never_ends _ fuel x1 [] hx) with h | h
  · exact h
  · omega

/-- C12: the rectangle from (0,0) to (32767,0).  With the software `fillRect`,
`graphicsDrawRect` does not return, whatever the fuel: its first `graphicsFillRect` call,
for the top row, runs a `short` column counter up to 32767, which wraps instead of
passing the bound. -/
theorem graphicsDrawRect_never_returns (longBits fuel : Nat) (gfx : JsGraphicsData) :
    graphicsDrawRect (softwareFillRect longBits fuel) gfx 0 0 32767 0 = none := by
  have e := graphicsFallbackFillRect_never_ends gfx 0 0 0 fuel (by omega)
  simp only [graphicsDrawRect, graphicsFillRect, softwareFillRect, e]

/-! ## `jsvArrayIteratorRemoveAndGotoNext` -/

/-- C13 as stated fails when the lock count of the next sibling is at `JSV_LOCK_MAX`: the
iterator, started on name 2 of the array 1, is left on name 3, but the lock count of 3 is
15 as before, so the iterator holds no lock of its own, and freeing the iterator leaves
the count at 14. -/
theorem remove_and_goto_next_saturated_lock :
    (jsvArrayIteratorNew sampleConsts saturatedNextHeap 1).2.var = 2 ∧
    (jsvArrayIteratorRemoveAndGotoNext sampleConsts sampleRemoveChild sampleFreePtr
      (jsvArrayIteratorNew sampleConsts saturatedNextHeap 1).1
      (jsvArrayIteratorNew sampleConsts saturatedNextHeap 1).2 1).2.var = 3 ∧
    jsvGetLocks sampleConsts (saturatedNextHeap 3) = 15 ∧
    jsvGetLocks sampleConsts
      ((jsvArrayIteratorRemoveAndGotoNext sampleConsts sampleRemoveChild sampleFreePtr
        (jsvArrayIteratorNew sampleConsts saturatedNextHeap 1).1
        (jsvArrayIteratorNew sampleConsts saturatedNextHeap 1).2 1).1 3) = 15 ∧
    jsvGetLocks sampleConsts
      ((jsvArrayIteratorFree sampleConsts sampleFreePtr
        (jsvArrayIteratorRemoveAndGotoNext sampleConsts sampleRemoveChild sampleFreePtr
          (jsvArrayIteratorNew sampleConsts saturatedNextHeap 1).1
          (jsvArrayIteratorNew sampleConsts saturatedNextHeap 1).2 1).1
        (jsvArrayIteratorRemoveAndGotoNext sampleConsts sampleRemoveChild sampleFreePtr
          (jsvArrayIteratorNew sampleConsts saturatedNextHeap 1).1
          (jsvArrayIteratorNew sampleConsts saturatedNextHeap 1).2 1).2) 3) = 14 := by
  decide

/-- C13, amended: for an iterator standing on a name `N` whose next sibling, read before
the removal, is `M`, and whatever `jsvRemoveChild` does to the pool,
`jsvArrayIteratorRemoveAndGotoNext` leaves the iterator on `M` (at its end when `M` is
null) and the pool as `jsvRemoveChild(parent, N)` and the release of the lock on `N` left
it, but for `M`: when the lock count of `M` is below `JSV_LOCK_MAX`, `M` has one lock
more and is otherwise the same.  When the removed name outlives the release, the release
takes one lock from `N` and touches nothing else. -/
theorem jsvArrayIteratorRemoveAndGotoNext_spec (K : JsvConsts) (hK : K.Valid)
    (rm : Heap → Nat → Nat → Heap) (fr : Heap → Nat → Heap) (h : Heap)
    (it : JsvArrayIterator) (parent : Nat) (hN : it.var ≠ 0)
    (hlt : (h it.var).nextSibling ≠ 0 →
      jsvGetLocks K ((jsvUnLock K fr (rm h parent it.var) it.var) (h it.var).nextSibling) <
        K.JSV_LOCK_MAX) :
    (jsvArrayIteratorRemoveAndGotoNext K rm fr h it parent).2.var = (h it.var).nextSibling ∧
    (∀ q, q ≠ (h it.var).nextSibling →
      (jsvArrayIteratorRemoveAndGotoNext K rm fr h it parent).1 q =
        (jsvUnLock K fr (rm h parent it.var) it.var) q) ∧
    ((h it.var).nextSibling = 0 →
      (jsvArrayIteratorRemoveAndGotoNext K rm fr h it parent).1 =
        jsvUnLock K fr (rm h parent it.var) it.var) ∧
    ((h it.var).nextSibling ≠ 0 →
      SameButLocks K ((jsvUnLock K fr (rm h parent it.var) it.var) (h it.var).nextSibling)
        ((jsvArrayIteratorRemoveAndGotoNext K rm fr h it parent).1 (h it.var).nextSibling) ∧
      jsvGetLocks K
          ((jsvArrayIteratorRemoveAndGotoNext K rm fr h it parent).1 (h it.var).nextSibling) =
        jsvGetLocks K
          ((jsvUnLock K fr (rm h parent it.var) it.var) (h it.var).nextSibling) + 1) ∧
    (SafeUnlock K (rm h parent it.var it.var) →
      (∀ q, q ≠ it.var → (jsvUnLock K fr (rm h parent it.var) it.var) q = rm h parent it.var q) ∧
      SameButLocks K (rm h parent it.var it.var)
        ((jsvUnLock K fr (rm h parent it.var) it.var) it.var) ∧
      jsvGetLocks K ((jsvUnLock K fr (rm h parent it.var) it.var) it.var) =
        jsvGetLocks K (rm h parent it.var it.var) - 1) := by
  have hsafe : SafeUnlock K (rm h parent it.var it.var) →
      (∀ q, q ≠ it.var → (jsvUnLock K fr (rm h parent it.var) it.var) q = rm h parent it.var q) ∧
      SameButLocks K (rm h parent it.var it.var)
        ((jsvUnLock K fr (rm h parent it.var) it.var) it.var) ∧
      jsvGetLocks K ((jsvUnLock K fr (rm h parent it.var) it.var) it.var) =
        jsvGetLocks K (rm h parent it.var it.var) - 1 := by
    intro hs
    obtain ⟨u1, u2, u3⟩ := jsvUnLock_safe K hK fr (rm h parent it.var) it.var hs
    exact ⟨u1, u2 it.var, u3 hN⟩
  by_cases hM : (h it.var).nextSibling = 0
  · have e : jsvArrayIteratorRemoveAndGotoNext K rm fr h it parent =
        (jsvUnLock K fr (rm h parent it.var) it.var, ⟨0⟩) := by
      simp only [jsvArrayIteratorRemoveAndGotoNext, hN, hM, ne_eq, not_false_eq_true,
        not_true_eq_false, if_true, if_false]
    rw [e]
    exact ⟨hM.symm, fun _ _ => rfl, fun _ => rfl, fun hne => absurd hM hne, hsafe⟩
  · have e : jsvArrayIteratorRemoveAndGotoNext K rm fr h it parent =
        (jsvLock K (jsvUnLock K fr (rm h parent it.var) it.var) (h it.var).nextSibling,
          ⟨(h it.var).nextSibling⟩) := by
      simp only [jsvArrayIteratorRemoveAndGotoNext, hN, hM, ne_eq, not_false_eq_true, if_true]
    rw [e]
    refine ⟨rfl, ?_, fun h0 => absurd h0 hM, ?_, hsafe⟩
    · intro q hq
      exact jsvLock_other K _ _ q hq
    · intro _
      exact ⟨jsvLock_same K hK _ _ _, jsvLock_locks K hK _ _ (hlt hM)⟩

theorem jsvArrayIteratorRemoveAndGotoNext_spec_witness :
    (jsvArrayIteratorRemoveAndGotoNext sampleConsts sampleRemoveChild sampleFreePtr
      sampleIterHeap ⟨2⟩ 1).2.var = 3 ∧
    jsvGetLocks sampleConsts (sampleIterHeap 3) = 0 ∧
    jsvGetLocks sampleConsts
      ((jsvArrayIteratorRemoveAndGotoNext sampleConsts sampleRemoveChild sampleFreePtr
        sampleIterHeap ⟨2⟩ 1).1 3) =
      jsvGetLocks sampleConsts
        ((jsvUnLock sampleConsts sampleFreePtr (sampleRemoveChild sampleIterHeap 1 2) 2) 3) + 1 :=
  ⟨(jsvArrayIteratorRemoveAndGotoNext_spec sampleConsts sampleConsts_valid sampleRemoveChild
      sampleFreePtr sampleIterHeap ⟨2⟩ 1 (by decide) (by decide)).1,
   by decide,
   ((jsvArrayIteratorRemoveAndGotoNext_spec sampleConsts sampleConsts_valid sampleRemoveChild
      sampleFreePtr sampleIterHeap ⟨2⟩ 1 (by decide) (by decide)).2.2.2.1 (by decide)).2⟩

/-! ## Cloning iterators -/

/-- C14 as stated fails when the lock count of the cursor cell is at `JSV_LOCK_MAX`: the
clone of an array iterator standing on the name 2 has the same cursor, and the lock count
of the name is 15 before and after. -/
theorem clone_saturated_lock :
    (jsvArrayIteratorClone sampleConsts saturatedHeap ⟨2⟩).2 = ⟨2⟩ ∧
    jsvGetLocks sampleConsts (saturatedHeap 2) = 15 ∧
    jsvGetLocks sampleConsts ((jsvArrayIteratorClone sampleConsts saturatedHeap ⟨2⟩).1 2) = 15 := by
  decide

/-- One `jsvLockAgain` on a cell that is not the null pointer. -/
theorem jsvLockAgain_lockedOnce (K : JsvConsts) (hK : K.Valid) (h : Heap) (var : Nat)
    (hv : var ≠ 0) : LockedOnce K h var (jsvLockAgain K h var) := by
  refine ⟨fun h0 => absurd h0 hv, fun _ => ⟨?_, ?_, ?_, ?_⟩⟩
  · intro q hq
    exact jsvLock_other K h var q hq
  · exact jsvLock_same K hK h var var
  · intro hlt
    exact jsvLock_locks K hK h var hlt
  · intro hge
    unfold jsvLockAgain jsvLock
    rw [if_neg hge]

/-- C14, amended: for each of the string, array, object and array-buffer iterators, Clone
returns a copy equal to the original in every field, and the pool after it is the pool
before with one more lock on the cursor cell: no cell changes when the iterator is at its
end, and otherwise only the lock count of the cursor cell changes, by exactly one when it
was below `JSV_LOCK_MAX`. -/
theorem iterator_clone_locks (K : JsvConsts) (hK : K.Valid) (h : Heap) :
    (∀ it : JsvStringIterator,
      (jsvStringIteratorClone K h it).2 = it ∧
      LockedOnce K h it.var (jsvStringIteratorClone K h it).1) ∧
    (∀ it : JsvArrayIterator,
      (jsvArrayIteratorClone K h it).2 = it ∧
      LockedOnce K h it.var (jsvArrayIteratorClone K h it).1) ∧
    (∀ it : JsvObjectIterator,
      (jsvObjectIteratorClone K h it).2 = it ∧
      LockedOnce K h it.var (jsvObjectIteratorClone K h it).1) ∧
    (∀ it : JsvArrayBufferIterator,
      (jsvArrayBufferIteratorClone K h it).2 = it ∧
      LockedOnce K h it.it.var (jsvArrayBufferIteratorClone K h it).1) := by
  have hnull : ∀ v : Nat, v = 0 → LockedOnce K h v h :=
    fun v hv => ⟨fun _ => rfl, fun hne => absurd hv hne⟩
  have hstr : ∀ it : JsvStringIterator,
      (jsvStringIteratorClone K h it).2 = it ∧
      LockedOnce K h it.var (jsvStringIteratorClone K h it).1 := by
    intro it
    unfold jsvStringIteratorClone
    by_cases hv : it.var = 0
    · simp only [hv, ne_eq, not_true_eq_false, if_false]
      exact ⟨trivial, hnull 0 rfl⟩
    · simp only [ne_eq, hv, not_false_eq_true, if_true]
      exact ⟨trivial, jsvLockAgain_lockedOnce K hK h it.var hv⟩
  refine ⟨hstr, ?_, ?_, ?_⟩
  · intro it
    unfold jsvArrayIteratorClone
    by_cases hv : it.var = 0
    · simp only [hv, ne_eq, not_true_eq_false, if_false]
      exact ⟨trivial, hnull 0 rfl⟩
    · simp only [ne_eq, hv, not_false_eq_true, if_true]
      exact ⟨trivial, jsvLockAgain_lockedOnce K hK h it.var hv⟩
  · intro it
    unfold jsvObjectIteratorClone
    by_cases hv : it.var = 0
    · simp only [hv, ne_eq, not_true_eq_false, if_false]
      exact ⟨trivial, hnull 0 rfl⟩
    · simp only [ne_eq, hv, not_false_eq_true, if_true]
      exact ⟨trivial, jsvLockAgain_lockedOnce K hK h it.var hv⟩
  · intro it
    obtain ⟨e1, e2⟩ := hstr it.it
    unfold jsvArrayBufferIteratorClone
    simp only [e1]
    exact ⟨trivial, e2⟩

theorem iterator_clone_locks_witness :
    (jsvArrayIteratorClone sampleConsts sampleIterHeap ⟨2⟩).2 = ⟨2⟩ ∧
    jsvGetLocks sampleConsts (sampleIterHeap 2) = 1 ∧
    jsvGetLocks sampleConsts ((jsvArrayIteratorClone sampleConsts sampleIterHeap ⟨2⟩).1 2) =
      jsvGetLocks sampleConsts (sampleIterHeap 2) + 1 :=
  ⟨((iterator_clone_locks sampleConsts sampleConsts_valid sampleIterHeap).2.1 ⟨2⟩).1,
   by decide,
   (((iterator_clone_locks sampleConsts sampleConsts_valid sampleIterHeap).2.1 ⟨2⟩).2.2
      (by decide)).2.2.1 (by decide)⟩

/-! ## `jsvStringIteratorSetChar` -/

theorem strSet_getD (s : List Nat) (i c j : Nat) :
    (strSet s i c).getD j 0 = if j = i then c else s.getD j 0 := by
  unfold strSet
  have hlen : i < (s ++ List.replicate (i + 1 - s.length) 0).length := by
    simp only [List.length_append, List.length_replicate]
    omega
  have hpad : ∀ k, (s ++ List.replicate (i + 1 - s.length) 0).getD k 0 = s.getD k 0 := by
    intro k
    simp only [List.getD_eq_getElem?_getD]
    by_cases hk : k < s.length
    · rw [List.getElem?_append_left hk]
    · have hs : s[k]? = none := List.getElem?_eq_none (by omega)
      rw [List.getElem?_append_right (by omega), hs]
      by_cases hk2 : k - s.length < i + 1 - s.length
      · rw [List.getElem?_replicate_of_lt hk2]
        rfl
      · have hr : (List.replicate (i + 1 - s.length) 0)[k - s.length]? = none :=
          List.getElem?_eq_none (by simp only [List.length_replicate]; omega)
        rw [hr]
  by_cases hj : j = i
  · subst hj
    rw [if_pos rfl]
    simp only [List.getD_eq_getElem?_getD]
    rw [List.getElem?_set_self hlen]
    rfl
  · rw [if_neg hj, ← hpad j]
    simp only [List.getD_eq_getElem?_getD]
    rw [List.getElem?_set_ne (fun e => hj e.symm)]

/-- `jsvStringIteratorNextInline` keeps an iterator well formed: when it has no cursor
cell it reports no characters. -/
theorem jsvStringIteratorNextInline_cursor (K : JsvConsts) (fr : Heap → Nat → Heap)
    (h : Heap) (it : JsvStringIterator) (hwf : it.var = 0 → it.charsInVar = 0) :
    (jsvStringIteratorNextInline K fr h it).2.var = 0 →
      (jsvStringIteratorNextInline K fr h it).2.charsInVar = 0 := by
  unfold jsvStringIteratorNextInline
  simp only
  split_ifs with h1 h2
  · intro h0
    exact absurd h0 h2.2
  · intro _
    rfl
  · exact hwf

/-- C15: for a string iterator that has a cursor cell whenever it has a character,
`jsvStringIteratorSetChar` with a character at hand returns, `jsvStringIteratorGetChar`
then reads `c`, the iterator (and with it its index) is as before, and in the pool only
the byte at the iterator's position has changed: every other cell, every other byte of the
cursor cell, its flags (and so its character count) and its link to the next cell of the
chain are as before.  Without a character at hand the call changes nothing. -/
theorem jsvStringIteratorSetChar_spec (K : JsvConsts) (h : Heap) (it : JsvStringIterator)
    (c : Nat) (hwf : it.var = 0 → it.charsInVar = 0) :
    (jsvStringIteratorHasChar it = true →
      ∃ h', jsvStringIteratorSetChar h it c = some (h', it) ∧
        jsvStringIteratorGetChar h' it = c ∧
        jsvStringIteratorGetIndex it = it.varIndex + it.charIdx ∧
        jsvGetCharactersInVar K (h' it.var) = jsvGetCharactersInVar K (h it.var) ∧
        (∀ q, q ≠ it.var → h' q = h q) ∧
        (∀ i, i ≠ it.charIdx → (h' it.var).str.getD i 0 = (h it.var).str.getD i 0) ∧
        (h' it.var).flags = (h it.var).flags ∧
        (h' it.var).lastChild = (h it.var).lastChild) ∧
    (jsvStringIteratorHasChar it = false →
      jsvStringIteratorSetChar h it c = some (h, it)) := by
  constructor
  · intro hc
    have hv : it.var ≠ 0 := by
      intro h0
      have := hwf h0
      simp only [jsvStringIteratorHasChar, decide_eq_true_eq] at hc
      omega
    refine ⟨h.set it.var { h it.var with str := strSet (h it.var).str it.charIdx c },
      ?_, ?_, rfl, ?_, ?_, ?_, ?_, ?_⟩
    · simp only [jsvStringIteratorSetChar, hc, hv, if_true, if_false]
    · simp only [jsvStringIteratorGetChar, hv, if_false, Heap.set, if_true, strSet_getD]
    · simp only [jsvGetCharactersInVar, Heap.set, if_true]
    · intro q hq
      simp only [Heap.set, hq, if_false]
    · intro i hi
      simp only [Heap.set, if_true, strSet_getD, hi, if_false]
    all_goals simp only [Heap.set, if_true]
  · intro hc
    simp only [jsvStringIteratorSetChar, hc, Bool.false_eq_true, if_false]

theorem jsvStringIteratorSetChar_spec_witness :
    (jsvStringIteratorHasChar ⟨1, 2, 0, 4⟩ = true →
      ∃ h', jsvStringIteratorSetChar sampleHeap ⟨1, 2, 0, 4⟩ 72 = some (h', ⟨1, 2, 0, 4⟩) ∧
        jsvStringIteratorGetChar h' ⟨1, 2, 0, 4⟩ = 72 ∧
        jsvStringIteratorGetIndex ⟨1, 2, 0, 4⟩ = 0 + 1 ∧
        jsvGetCharactersInVar sampleConsts (h' 4) =
          jsvGetCharactersInVar sampleConsts (sampleHeap 4) ∧
        (∀ q, q ≠ 4 → h' q = sampleHeap q) ∧
        (∀ i, i ≠ 1 → (h' 4).str.getD i 0 = (sampleHeap 4).str.getD i 0) ∧
        (h' 4).flags = (sampleHeap 4).flags ∧
        (h' 4).lastChild = (sampleHeap 4).lastChild) ∧
    (jsvStringIteratorHasChar ⟨1, 2, 0, 4⟩ = false →
      jsvStringIteratorSetChar sampleHeap ⟨1, 2, 0, 4⟩ 72 = some (sampleHeap, ⟨1, 2, 0, 4⟩)) :=
  jsvStringIteratorSetChar_spec sampleConsts sampleHeap ⟨1, 2, 0, 4⟩ 72 (by decide)

/-! ## Array-buffer view types -/

/-- C17: the sizes of the eight view types are 1, 1, 2, 2, 4, 4, 4, 8; the signed ones are
INT8, INT16 and INT32 and no other; the floating ones are FLOAT32 and FLOAT64 and no other;
the eight codes are pairwise distinct, and two of them with the same size, signedness and
floatness are the same. -/
theorem arrayBufferViewTypes_spec :
    arrayBufferViewTypes.map JSV_ARRAYBUFFER_GET_SIZE = [1, 1, 2, 2, 4, 4, 4, 8] ∧
    arrayBufferViewTypes.map JSV_ARRAYBUFFER_IS_SIGNED =
      [false, true, false, true, false, true, false, false] ∧
    arrayBufferViewTypes.map JSV_ARRAYBUFFER_IS_FLOAT =
      [false, false, false, false, false, false, true, true] ∧
    arrayBufferViewTypes.Nodup ∧
    (∀ s ∈ arrayBufferViewTypes, ∀ t ∈ arrayBufferViewTypes,
      JSV_ARRAYBUFFER_GET_SIZE s = JSV_ARRAYBUFFER_GET_SIZE t →
      JSV_ARRAYBUFFER_IS_SIGNED s = JSV_ARRAYBUFFER_IS_SIGNED t →
      JSV_ARRAYBUFFER_IS_FLOAT s = JSV_ARRAYBUFFER_IS_FLOAT t → s = t) := by
  decide

/-! ## `graphicsFillVectorChar` -/

theorem foldlM_none_of_mem {σ α : Type} (f : σ → α → Option σ) (e : α)
    (hf : ∀ s, f s e = none) :
    ∀ (l : List α), e ∈ l → ∀ s, l.foldlM f s = none := by
  intro l
  induction l with
  | nil =>
    intro he
    exact absurd he (List.not_mem_nil _)
  | cons a l ih =>
    intro he s
    rw [List.foldlM_cons]
    rcases List.mem_cons.mp he with rfl | he'
    · rw [hf s]
      rfl
    · cases hfa : f s a with
      | none => rfl
      | some s1 =>
        simp only [Option.bind_eq_bind, Option.some_bind]
        exact ih he' s1

/-- The scan of an edge whose right end is at column 32767 never returns: the `short`
column counter wraps instead of passing the bound. -/
theorem graphicsFillPolyCreateVertScanLines_never_ends (gfx : JsGraphicsData)
    (miny maxy : ShortArray) (x1 y1 x2 y2 : Int) (fuel : Nat)
    (h1 : x1 ≤ 32767) (h2 : x2 ≤ 32767) (h : x1 = 32767 ∨ x2 = 32767) :
    graphicsFillPolyCreateVertScanLines gfx miny maxy x1 y1 x2 y2 fuel = none := by
  unfold graphicsFillPolyCreateVertScanLines
  have eb : (if x2 < x1 then x1 else x2) = 32767 := by
    split_ifs <;> omega
  have ea : (if x2 < x1 then x2 else x1) ≤ 32767 := by
    split_ifs <;> omega
  simp only [eb]
  rw [forShort_never_ends _ fuel _ _ ea]
  rfl

/-- A polygon with a vertex at column 32767: `graphicsFillPoly` never returns, whatever
the framebuffer, the interrupt signal and the fuel. -/
theorem graphicsFillPoly_never_ends (gfx : JsGraphicsData) (interrupted : Nat → Bool)
    (vs : List (Int × Int)) (fuel : Nat) (e : (Int × Int) × (Int × Int))
    (he : e ∈ polyEdges vs) (h1 : e.1.1 ≤ 32767) (h2 : e.2.1 ≤ 32767)
    (h : e.1.1 = 32767 ∨ e.2.1 = 32767) :
    graphicsFillPoly gfx interrupted vs fuel = none := by
  have hfold : ∀ init : ShortArray × ShortArray,
      (polyEdges vs).foldlM
        (fun (st : ShortArray × ShortArray) (d : (Int × Int) × (Int × Int)) =>
          graphicsFillPolyCreateVertScanLines gfx st.1 st.2 d.1.1 d.1.2 d.2.1 d.2.2 fuel)
        init = none := by
    intro init
    apply foldlM_none_of_mem _ e _ (polyEdges vs) he init
    intro s
    exact graphicsFillPolyCreateVertScanLines_never_ends gfx s.1 s.2 e.1.1 e.1.2 e.2.1
      e.2.2 fuel h1 h2 h
  unfold graphicsFillPoly
  simp only
  split
  · rfl
  · rename_i init _
    rw [hfold init]

/-- Whenever `graphicsFillVectorChar` returns, it returns what `graphicsVectorCharWidth`
returns for the same size and character, whatever the position, the framebuffer and the
interrupt signal. -/
theorem graphicsFillVectorChar_width (F : VectorFont) (gfx : JsGraphicsData)
    (interrupted : Nat → Bool) (x1 y1 size ch : Int) (fuel : Nat) (r : List Rect × Nat)
    (hr : graphicsFillVectorChar F gfx interrupted x1 y1 size ch fuel = some r) :
    r.2 = graphicsVectorCharWidth F size ch := by
  unfold graphicsFillVectorChar at hr
  unfold graphicsVectorCharWidth
  by_cases hs : size < 0
  · rw [if_pos hs] at hr
    rw [if_pos hs]
    cases hr
    rfl
  · rw [if_neg hs] at hr
    rw [if_neg hs]
    by_cases hc : ch < F.vectorFontOffset ∨ ch - F.vectorFontOffset ≥ F.vectorFontCount
    · rw [if_pos hc] at hr
      rw [if_pos hc]
      cases hr
      rfl
    · rw [if_neg hc] at hr
      rw [if_neg hc]
      simp only at hr
      split at hr
      · exact absurd hr (by simp)
      · cases hr
        rfl

/-- For a negative size or a character outside the font, `graphicsFillVectorChar` draws
nothing and returns 0, as `graphicsVectorCharWidth` does. -/
theorem graphicsFillVectorChar_outside (F : VectorFont) (gfx : JsGraphicsData)
    (interrupted : Nat → Bool) (x1 y1 size ch : Int) (fuel : Nat)
    (h : size < 0 ∨ ch < F.vectorFontOffset ∨ ch - F.vectorFontOffset ≥ F.vectorFontCount) :
    graphicsFillVectorChar F gfx interrupted x1 y1 size ch fuel = some ([], 0) ∧
    graphicsVectorCharWidth F size ch = 0 := by
  unfold graphicsFillVectorChar graphicsVectorCharWidth
  by_cases hs : size < 0
  · simp only [hs, if_true, and_self]
  · rcases h with h | h
    · exact absurd h hs
    · simp only [hs, h, if_true, if_false, and_self]

/-- C16: the glyph of the character 32 of `sampleFont`, a triangle ten units wide, drawn
at size 96 (one pixel per unit) at x = 32757, so that its right vertex is at column 32767.
`graphicsVectorCharWidth` returns 25, but `graphicsFillVectorChar` does not return,
whatever the framebuffer, the interrupt signal and the fuel: the scan of the polygon's
edges runs a `short` column counter up to 32767. -/
theorem graphicsFillVectorChar_never_returns (gfx : JsGraphicsData)
    (interrupted : Nat → Bool) (fuel : Nat) :
    graphicsVectorCharWidth sampleFont 96 32 = 25 ∧
    graphicsFillVectorChar sampleFont gfx interrupted 32757 0 96 32 fuel = none := by
  refine ⟨by decide, ?_⟩
  have hp : graphicsFillPoly gfx (fun k => interrupted (0 + k))
      [(32757, 0), (32767, 0), (32762, 10)] fuel = none :=
    graphicsFillPoly_never_ends gfx _ _ fuel ((32757, 0), (32767, 0)) (by decide)
      (by decide) (by decide) (by decide)
  have hlen : ∀ n : Nat, n < 64 → ¬ (n ≥ sampleFont.VECTOR_FONT_MAX_POLY_SIZE) := by
    intro n hn
    show ¬ (n ≥ 64)
    omega
  have hpolys : fillVectorCharPolys sampleFont gfx interrupted 32757 0 96 0 fuel [0, 2, 4]
      [] 0 [] = none := by
    have s1 : fillVectorCharPolys sampleFont gfx interrupted 32757 0 96 0 fuel [0, 2, 4]
        [] 0 [] = fillVectorCharPolys sampleFont gfx interrupted 32757 0 96 0 fuel [2, 4]
        [(32757, 0)] 0 [] := by
      rw [fillVectorCharPolys, if_neg (hlen _ (by decide)), if_neg (by decide)]
      rfl
    have s2 : fillVectorCharPolys sampleFont gfx interrupted 32757 0 96 0 fuel [2, 4]
        [(32757, 0)] 0 [] = fillVectorCharPolys sampleFont gfx interrupted 32757 0 96 0 fuel
        [4] [(32757, 0), (32767, 0)] 0 [] := by
      rw [fillVectorCharPolys, if_neg (hlen _ (by decide)), if_neg (by decide)]
      rfl
    have s3 : fillVectorCharPolys sampleFont gfx interrupted 32757 0 96 0 fuel
        [4] [(32757, 0), (32767, 0)] 0 [] = none := by
      rw [fillVectorCharPolys, if_neg (hlen _ (by decide)), if_pos (by decide)]
      have ev : [(32757, 0), (32767, 0)] ++
          [(vectorCoord sampleFont 32757 96 (sampleFont.vectorFontPolys (0 + 4 + 0)),
            vectorCoord sampleFont 0 96 (sampleFont.vectorFontPolys (0 + 4 + 1)))] =
          [(32757, 0), (32767, 0), (32762, 10)] := by decide
      simp only [ev, hp]
    rw [s1, s2, s3]
  have e : graphicsFillVectorChar sampleFont gfx interrupted 32757 0 96 32 fuel =
      match fillVectorCharPolys sampleFont gfx interrupted 32757 0 96 0 fuel [0, 2, 4]
        [] 0 [] with
      | none => none
      | some rects => some (rects, vectorAdvance sampleFont ⟨6, 50⟩ 96) := by
    rfl
  rw [e, hpolys]

/-- The same glyph drawn at the origin of a 16 by 16 framebuffer: the call returns 25,
interrupted (here at the fourth poll) or not. -/
theorem graphicsFillVectorChar_sample :
    (graphicsFillVectorChar sampleFont (JsGraphicsData.mk 16 16 1 1 0) (fun _ => false)
      0 0 96 32 65536).map Prod.snd = some 25 ∧
    (graphicsFillVectorChar sampleFont (JsGraphicsData.mk 16 16 1 1 0)
      (fun k => decide (k = 3)) 0 0 96 32 65536).map Prod.snd = some 25 := by
  decide

/-- At size 0 every vertex of a glyph drawn at x = 32767 is at column 32767. -/
theorem vectorCoord_size_zero (F : VectorFont) (x1 : Int) (b : Nat)
    (hx : -32768 ≤ x1 ∧ x1 ≤ 32767) : vectorCoord F x1 0 b = x1 := by
  unfold vectorCoord
  have hq : Int.tdiv (((b &&& 0x7F : Nat) : Int) * 0 +
      ((F.VECTOR_FONT_POLY_SIZE / 2 : Nat) : Int)) (F.VECTOR_FONT_POLY_SIZE : Int) = 0 := by
    rw [Int.tdiv_eq_ediv (by omega) (by omega), mul_zero, zero_add]
    norm_cast
    rcases Nat.eq_zero_or_pos F.VECTOR_FONT_POLY_SIZE with h0 | hpos
    · rw [h0]
    · exact Nat.div_eq_of_lt (by omega)
  rw [hq, add_zero]
  exact toShort_of_isShort hx.1 hx.2

/-- Drawing at x = 32767 with size 0: once a byte with the separator bit is still to
come, the loop of `graphicsFillVectorChar` does not return. -/
theorem fillVectorCharPolys_never_ends (F : VectorFont) (gfx : JsGraphicsData)
    (interrupted : Nat → Bool) (y1 : Int) (vertOffset fuel : Nat) :
    ∀ (idxs : List Nat) (verts : List (Int × Int)) (polls : Nat) (acc : List Rect),
      (∀ v ∈ verts, v.1 = 32767) →
      (∃ i ∈ idxs, F.vectorFontPolys (vertOffset + i + 1) &&& F.VECTOR_FONT_POLY_SEPARATOR ≠ 0) →
      fillVectorCharPolys F gfx interrupted 32767 y1 0 vertOffset fuel idxs verts polls acc =
        none := by
  intro idxs
  induction idxs with
  | nil =>
    intro verts polls acc _ hsep
    obtain ⟨i, hi, _⟩ := hsep
    exact absurd hi (List.not_mem_nil _)
  | cons i rest ih =>
    intro verts polls acc hv hsep
    rw [fillVectorCharPolys]
    by_cases hlen : verts.length ≥ F.VECTOR_FONT_MAX_POLY_SIZE
    · rw [if_pos hlen]
    · rw [if_neg hlen]
      simp only [vectorCoord_size_zero F 32767 _ (by omega)]
      have hv1 : ∀ v ∈ verts ++ [((32767 : Int),
          vectorCoord F y1 0 (F.vectorFontPolys (vertOffset + i + 1)))], v.1 = 32767 := by
        intro v hvm
        rcases List.mem_append.mp hvm with h1 | h1
        · exact hv v h1
        · rw [List.mem_singleton.mp h1]
      by_cases hs : F.vectorFontPolys (vertOffset + i + 1) &&&
          F.VECTOR_FONT_POLY_SEPARATOR ≠ 0
      · rw [if_pos hs]
        have hmem : ((32767 : Int), vectorCoord F y1 0 (F.vectorFontPolys (vertOffset + i + 1)))
            ∈ verts ++ [((32767 : Int),
              vectorCoord F y1 0 (F.vectorFontPolys (vertOffset + i + 1)))] :=
          List.mem_append_right _ (List.mem_singleton_self _)
        obtain ⟨e, he, _⟩ := exists_covering_edge _ 32767 _ _ hmem hmem (le_refl _) (le_refl _)
        obtain ⟨m1, m2⟩ := polyEdges_mem he
        rw [graphicsFillPoly_never_ends gfx _ _ fuel e he (le_of_eq (hv1 _ m1))
          (le_of_eq (hv1 _ m2)) (Or.inl (hv1 _ m1))]
      · rw [if_neg hs]
        apply ih _ polls acc hv1
        obtain ⟨j, hj, hjs⟩ := hsep
        rcases List.mem_cons.mp hj with rfl | hj'
        · exact absurd hjs hs
        · exact ⟨j, hj', hjs⟩

/-- For every font and every character of the font whose glyph has a byte with the
separator bit, `graphicsFillVectorChar` at x = 32767 with size 0 never returns. -/
theorem graphicsFillVectorChar_never_ends (F : VectorFont) (gfx : JsGraphicsData)
    (interrupted : Nat → Bool) (y1 ch : Int) (fuel : Nat)
    (hch : ¬ (ch < F.vectorFontOffset ∨ ch - F.vectorFontOffset ≥ F.vectorFontCount))
    (hsep : ∃ k, k < ((F.vectorFonts (ch - F.vectorFontOffset).toNat).vertCount + 1) / 2 ∧
      F.vectorFontPolys (((List.range (ch - F.vectorFontOffset).toNat).map
        (fun i => (F.vectorFonts i).vertCount)).sum + 2 * k + 1) &&&
          F.VECTOR_FONT_POLY_SEPARATOR ≠ 0) :
    graphicsFillVectorChar F gfx interrupted 32767 y1 0 ch fuel = none := by
  unfold graphicsFillVectorChar
  rw [if_neg (by omega), if_neg hch]
  simp only
  obtain ⟨k, hk, hks⟩ := hsep
  rw [fillVectorCharPolys_never_ends F gfx interrupted y1 _ fuel _ [] 0 []
    (fun v hv => absurd hv (List.not_mem_nil _))
    ⟨2 * k, List.mem_map.mpr ⟨k, List.mem_range.mpr hk, rfl⟩, hks⟩]

/-! ## The pixels of `graphicsFillPoly`, column by column -/

/-- C18 as stated fails on a framebuffer taller than 32767 rows: on a 16 by 40000
framebuffer the vertices of the triangle (5,5), (10,5), (7,9) lie inside the framebuffer
and the crossings computed in column 7 are rows 5 and 9, yet the pixel (7,0) is painted:
the initial minimum `(short)(height-1)` is -25537 and the span is clipped to start at
row 0.  It also fails for the polygon without vertices on a 1 by 1 framebuffer, where
the initial values `width-1 = 0` and `height-1 = 0` make the fill paint the pixel (0,0). -/
theorem graphicsFillPoly_paints_above_crossings :
    ((∀ v ∈ [((5 : Int), (5 : Int)), (10, 5), (7, 9)],
        0 ≤ v.1 ∧ v.1 < ((JsGraphicsData.mk 16 40000 1 1 0).width : Int) ∧
        0 ≤ v.2 ∧ v.2 < ((JsGraphicsData.mk 16 40000 1 1 0).height : Int)) ∧
      (∃ calls, graphicsFillPolyPixels 32 (JsGraphicsData.mk 16 40000 1 1 0) (fun _ => false)
          [(5, 5), (10, 5), (7, 9)] 65536 = some calls ∧ (⟨7, 0, 1⟩ : Pixel) ∈ calls) ∧
      (∀ e ∈ polyEdges [(5, 5), (10, 5), (7, 9)], edgeCovers e 7 →
        5 ≤ edgeRow e.1.1 e.1.2 e.2.1 e.2.2 7)) ∧
    graphicsFillPolyPixels 32 (JsGraphicsData.mk 1 1 1 1 0) (fun _ => false) [] 65536 =
      some [⟨0, 0, 1⟩] := by
  refine ⟨⟨by decide, ⟨_, rfl, by decide⟩, by decide⟩, by decide⟩

/-- C18, amended: on a framebuffer of width and height at most 32767, for every polygon
with at least one vertex whose vertices all lie inside the framebuffer, an uninterrupted
`graphicsFillPoly` with the software `fillRect` ends, and the sink is called, in the
foreground colour masked to `bpp` bits, exactly at the pixels whose column lies between
the columns of two vertices and whose row lies between the crossings computed in that
column for two edges of the polygon, that is between the least and the greatest
crossing of the column. -/
theorem graphicsFillPoly_paints_column_spans (longBits : Nat) (gfx : JsGraphicsData)
    (vs : List (Int × Int)) (fuel : Nat)
    (hw : gfx.width ≤ 32767) (hh : gfx.height ≤ 32767) (hne : vs ≠ [])
    (hv : ∀ v ∈ vs, 0 ≤ v.1 ∧ v.1 < gfx.width ∧ 0 ≤ v.2 ∧ v.2 < gfx.height)
    (hf : 65536 ≤ fuel) :
    ∃ calls, graphicsFillPolyPixels longBits gfx (fun _ => false) vs fuel = some calls ∧
      ∀ q : Pixel, q ∈ calls ↔
        ((∃ a ∈ vs, ∃ b ∈ vs, a.1 ≤ q.x ∧ q.x ≤ b.1) ∧
          (∃ e1 ∈ polyEdges vs, edgeCovers e1 q.x ∧
            edgeRow e1.1.1 e1.1.2 e1.2.1 e1.2.2 q.x ≤ q.y) ∧
          (∃ e2 ∈ polyEdges vs, edgeCovers e2 q.x ∧
            q.y ≤ edgeRow e2.1.1 e2.1.2 e2.2.1 e2.2.2 q.x) ∧
          q.col = gfx.fgColor &&& pixelMask longBits gfx.bpp) := by
  obtain ⟨v0, hv0⟩ := List.exists_mem_of_ne_nil vs hne
  have hv0b := hv v0 hv0
  have hw1 : 1 ≤ gfx.width ∧ gfx.width ≤ 32767 := ⟨by omega, hw⟩
  have hh1 : 1 ≤ gfx.height ∧ gfx.height ≤ 32767 := ⟨by omega, hh⟩
  have hvs : ∀ v ∈ vs, (-32768 ≤ v.1 ∧ v.1 < 32767) ∧ IsShort v.2 := by
    intro v hvm
    have := hv v hvm
    unfold IsShort
    omega
  obtain ⟨calls, ec, hc⟩ := graphicsFillPolyPixels_spec longBits gfx vs fuel hw1 hh1 hvs hf
  refine ⟨calls, ec, ?_⟩
  have hrow : ∀ (x : Int) (e : (Int × Int) × (Int × Int)), e ∈ polyEdges vs →
      edgeCovers e x →
      0 ≤ edgeRow e.1.1 e.1.2 e.2.1 e.2.2 x ∧
      edgeRow e.1.1 e.1.2 e.2.1 e.2.2 x ≤ (gfx.height : Int) - 1 ∧
      0 ≤ x ∧ x < gfx.width := by
    intro x e he hce
    obtain ⟨m1, m2⟩ := polyEdges_mem he
    obtain ⟨b1, b2⟩ := edgeRow_bounds e.1.1 e.1.2 e.2.1 e.2.2 x hce.1 hce.2
    have k1 := hv _ m1
    have k2 := hv _ m2
    have c1 := hce.1
    have c2 := hce.2
    refine ⟨?_, ?_, ?_, ?_⟩
    · exact le_trans (le_min k1.2.2.1 k2.2.2.1) b1
    · refine le_trans b2 (max_le ?_ ?_) <;> omega
    · exact le_trans (le_min k1.1 k2.1) c1
    · exact lt_of_le_of_lt c2 (max_lt k1.2.1 k2.2.1)
  intro q
  rw [hc q]
  constructor
  · rintro ⟨⟨hx1, hx2, _, hlo, hhi⟩, hcol⟩
    obtain ⟨_, _, _, r4, r5⟩ := fillPolyRange_spec gfx vs
    rw [toShort_of_isShort (by omega) (by omega)] at r4
    obtain ⟨a, ha, hax⟩ : ∃ a ∈ vs, a.1 ≤ q.x := by
      rcases r4 with h | ⟨v, hvm, h⟩
      · refine ⟨v0, hv0, ?_⟩
        rw [h] at hx1
        split_ifs at hx1 <;> omega
      · refine ⟨v, hvm, ?_⟩
        rw [← h]
        split_ifs at hx1 <;> omega
    obtain ⟨b, hb, hbx⟩ : ∃ b ∈ vs, q.x ≤ b.1 := by
      rcases r5 with h | ⟨v, hvm, h⟩
      · refine ⟨v0, hv0, ?_⟩
        rw [h] at hx2
        split_ifs at hx2 <;> omega
      · refine ⟨v, hvm, ?_⟩
        rw [← h]
        split_ifs at hx2 <;> omega
    obtain ⟨e0, he0, hc0⟩ := exists_covering_edge vs q.x a b ha hb hax hbx
    have hlo' : columnMin (polyEdges vs) q.x ((gfx.height : Int) - 1) ≤ q.y :=
      le_trans (le_max_left _ _) hlo
    have hhi' : q.y ≤ columnMax (polyEdges vs) q.x 0 :=
      le_trans hhi (min_le_left _ _)
    have hqy0 : 0 ≤ q.y := le_trans (le_max_right _ _) hlo
    have hqyh : q.y ≤ (gfx.height : Int) - 1 := le_trans hhi (min_le_right _ _)
    refine ⟨⟨a, ha, b, hb, hax, hbx⟩, ?_, ?_, hcol⟩
    · rcases columnMin_cases q.x (polyEdges vs) ((gfx.height : Int) - 1) with
        h | ⟨e, he, hce, h⟩
      · refine ⟨e0, he0, hc0, ?_⟩
        have := (hrow q.x e0 he0 hc0).2.1
        omega
      · exact ⟨e, he, hce, by rw [← h]; exact hlo'⟩
    · rcases columnMax_cases q.x (polyEdges vs) 0 with h | ⟨e, he, hce, h⟩
      · refine ⟨e0, he0, hc0, ?_⟩
        have := (hrow q.x e0 he0 hc0).1
        omega
      · exact ⟨e, he, hce, by rw [← h]; exact hhi'⟩
  · rintro ⟨_, ⟨e1, he1, hc1, hr1⟩, ⟨e2, he2, hc2, hr2⟩, hcol⟩
    obtain ⟨p1, p2, p3, p4⟩ := hrow q.x e1 he1 hc1
    obtain ⟨s1, s2, _, _⟩ := hrow q.x e2 he2 hc2
    obtain ⟨g1, g2⟩ := column_in_range gfx vs e1 he1 q.x hc1 p3 p4
    have m1 := columnMin_le_row q.x e1 hc1 (polyEdges vs) he1 ((gfx.height : Int) - 1)
    have m2 := row_le_columnMax q.x e2 hc2 (polyEdges vs) he2 0
    refine ⟨⟨g1, g2, ?_, ?_, ?_⟩, hcol⟩
    · omega
    · exact max_le (by omega) (by omega)
    · exact le_min (by omega) (by omega)

theorem graphicsFillPoly_paints_column_spans_witness :
    (∃ calls, graphicsFillPolyPixels 32 (JsGraphicsData.mk 16 16 1 1 0) (fun _ => false)
        [(0, 0), (10, 0), (5, 10)] 65536 = some calls ∧
      ∀ q : Pixel, q ∈ calls ↔
        ((∃ a ∈ [((0 : Int), (0 : Int)), (10, 0), (5, 10)],
            ∃ b ∈ [((0 : Int), (0 : Int)), (10, 0), (5, 10)], a.1 ≤ q.x ∧ q.x ≤ b.1) ∧
          (∃ e1 ∈ polyEdges [(0, 0), (10, 0), (5, 10)], edgeCovers e1 q.x ∧
            edgeRow e1.1.1 e1.1.2 e1.2.1 e1.2.2 q.x ≤ q.y) ∧
          (∃ e2 ∈ polyEdges [(0, 0), (10, 0), (5, 10)], edgeCovers e2 q.x ∧
            q.y ≤ edgeRow e2.1.1 e2.1.2 e2.2.1 e2.2.2 q.x) ∧
          q.col = (JsGraphicsData.mk 16 16 1 1 0).fgColor &&&
            pixelMask 32 (JsGraphicsData.mk 16 16 1 1 0).bpp)) ∧
    graphicsFillPoly (JsGraphicsData.mk 16 16 1 1 0) (fun _ => false)
        [(0, 0), (10, 0), (5, 10)] 65536 =
      some [⟨0, 0, 0, 0⟩, ⟨1, 0, 1, 2⟩, ⟨2, 0, 2, 4⟩, ⟨3, 0, 3, 6⟩, ⟨4, 0, 4, 8⟩,
        ⟨5, 0, 5, 10⟩, ⟨6, 0, 6, 8⟩, ⟨7, 0, 7, 6⟩, ⟨8, 0, 8, 4⟩, ⟨9, 0, 9, 2⟩,
        ⟨10, 0, 10, 0⟩] ∧
    (∃ calls, graphicsFillPolyPixels 32 (JsGraphicsData.mk 16 16 1 1 0) (fun _ => false)
        [(0, 0), (10, 0), (5, 10)] 65536 = some calls ∧
      (⟨5, 5, 1⟩ : Pixel) ∈ calls ∧ (⟨5, 0, 1⟩ : Pixel) ∈ calls ∧
      (∀ q ∈ calls, ¬ (q.x = 0 ∧ q.y = 9) ∧ ¬ (q.x = 10 ∧ q.y = 9))) :=
  ⟨graphicsFillPoly_paints_column_spans 32 (JsGraphicsData.mk 16 16 1 1 0)
      [(0, 0), (10, 0), (5, 10)] 65536 (by decide) (by decide) (by decide) (by decide)
      (by decide),
    by decide, ⟨_, rfl, by decide, by decide, by decide⟩⟩

/-! ## Coalescing of identical spans -/

/-- C19: the rectangle (0,-5), (3,-5), (3,3), (0,3) on a 16 by 16 framebuffer.  The spans
recorded for the columns 0 to 3 are identical, from row -5 to row 3, yet `graphicsFillPoly`
paints each column with a `graphicsFillRect` call of its own: the span of a column is
clipped in place before it is compared with the span of the next column, which is not
clipped yet.  The same rectangle moved down to rows 1 to 3 is painted by one call. -/
theorem graphicsFillPoly_splits_identical_spans :
    (∀ x ∈ [(0 : Int), 1, 2, 3],
      columnMin (polyEdges [(0, -5), (3, -5), (3, 3), (0, 3)]) x 15 = -5 ∧
      columnMax (polyEdges [(0, -5), (3, -5), (3, 3), (0, 3)]) x 0 = 3) ∧
    graphicsFillPoly (JsGraphicsData.mk 16 16 1 1 0) (fun _ => false)
        [(0, -5), (3, -5), (3, 3), (0, 3)] 65536 =
      some [⟨0, 0, 0, 3⟩, ⟨1, 0, 1, 3⟩, ⟨2, 0, 2, 3⟩, ⟨3, 0, 3, 3⟩] ∧
    graphicsFillPoly (JsGraphicsData.mk 16 16 1 1 0) (fun _ => false)
        [(0, 1), (3, 1), (3, 3), (0, 3)] 65536 = some [⟨0, 1, 3, 3⟩] := by
  decide

/-! ## `graphicsDrawLine`: the scanned axis and the number of calls -/

/-- C20: the line from (5,7) to (4,7) has its longer delta in X, |x2-x1| = 1 against
|y2-y1| = 0, so that two calls are due, at (4,7) and (5,7).  `graphicsDrawLine` scans it
in Y and makes one call, at (5,7): the zero delta in Y is replaced by 1 before the deltas
are compared. -/
theorem graphicsDrawLine_unit_horizontal_calls (gfx : JsGraphicsData) (fuel : Nat) :
    graphicsDrawLine gfx 5 7 4 7 (fuel + 2) = some [⟨5, 7, gfx.fgColor⟩] ∧
    max |(4 : Int) - 5| |(7 : Int) - 7| + 1 = 2 := by
  refine ⟨rfl, by decide⟩
/-- A line that is at least as long in Y as in X and spans at least two rows: whichever
end point comes first, `graphicsDrawLine` calls `graphicsSetPixel` once for each row from
the upper end `(x1, y1)` to the lower end `(x2, y2)`, in increasing order, at column
`floor ((256 * x1 + 128 + (y - y1) * s) / 256)` with `s` the truncated quotient of
`256 * (x2 - x1)` by `y2 - y1`. -/
theorem graphicsDrawLine_scan_y (gfx : JsGraphicsData) (x1 y1 x2 y2 : Int) (fuel : Nat)
    (hy1 : -32768 ≤ y1) (hy2 : y2 < 32767) (hx1 : IsShort x1) (hx2 : IsShort x2)
    (hy : y1 < y2) (hlong : |x2 - x1| ≤ y2 - y1) (hf : 65536 ≤ fuel) :
    graphicsDrawLine gfx x1 y1 x2 y2 fuel =
        some ((intRange y1 y2).map (fun y => (⟨
          (256 * x1 + 128 + (y - y1) * Int.tdiv (256 * (x2 - x1)) (y2 - y1)) / 256, y,
          gfx.fgColor⟩ : Pixel))) ∧
      graphicsDrawLine gfx x2 y2 x1 y1 fuel = graphicsDrawLine gfx x1 y1 x2 y2 fuel := by
  unfold IsShort at hx1 hx2
  have habs := abs_le.mp hlong
  have hxl : ¬ ((if x2 - x1 < 0 then -(x2 - x1) else if x2 - x1 = 0 then 1 else x2 - x1) >
      y2 - y1) := by
    split_ifs <;> omega
  have hxl2 : ¬ ((if x1 - x2 < 0 then -(x1 - x2) else if x1 - x2 = 0 then 1 else x1 - x2) >
      y2 - y1) := by
    split_ifs <;> omega
  have hfwd : graphicsDrawLine gfx x1 y1 x2 y2 fuel =
      (forShort (drawLineStep (fun y x => ⟨x, y, gfx.fgColor⟩)
        (Int.tdiv ((x2 - x1) * 256) (y2 - y1))) fuel y1 y2 (x1 * 256 + 128, [])).map
        Prod.snd := by
    have c1 : ¬ (y2 - y1 < 0) := by omega
    have c2 : ¬ (y2 - y1 = 0) := by omega
    have c3 : ¬ (y1 > y2) := by omega
    simp only [graphicsDrawLine, c1, c2, c3, if_false]
    rw [if_neg (by simpa using hxl)]
  have hbwd : graphicsDrawLine gfx x2 y2 x1 y1 fuel =
      (forShort (drawLineStep (fun y x => ⟨x, y, gfx.fgColor⟩)
        (Int.tdiv ((x2 - x1) * 256) (y2 - y1))) fuel y1 y2 (x1 * 256 + 128, [])).map
        Prod.snd := by
    have c1 : y1 - y2 < 0 := by omega
    have c3 : y2 > y1 := by omega
    have e : -(y1 - y2) = y2 - y1 := by ring
    simp only [graphicsDrawLine, c1, c3, if_true, e]
    rw [if_neg (by simpa using hxl2)]
  refine ⟨?_, by rw [hfwd, hbwd]⟩
  rw [hfwd, forShort_eq_foldlM _ fuel y1 y2 _ hy1 hy2 (by omega)]
  obtain ⟨p, hp⟩ := drawLine_fold (fun y x => ⟨x, y, gfx.fgColor⟩)
    (Int.tdiv ((x2 - x1) * 256) (y2 - y1)) y2 _ y1 (x1 * 256 + 128) [] rfl
  rw [hp]
  simp only [Option.map_some', List.nil_append, Option.some.injEq]
  apply List.map_congr_left
  intro y hym
  rw [mem_intRange] at hym
  have hb := step_mul_bounds (x2 - x1) (y2 - y1) (y - y1) (by omega) (by omega) (by omega)
  have e256 : 256 * (x2 - x1) = (x2 - x1) * 256 := by ring
  have e0 : 256 * x1 = x1 * 256 := by ring
  rw [shiftRight_8, e256, e0]
  generalize (y - y1) * Int.tdiv ((x2 - x1) * 256) (y2 - y1) = m at hb ⊢
  rw [toShort_of_isShort]
  · rcases le_total 0 (x2 - x1) with hd | hd
    · have := hb.1 hd
      omega
    · have := hb.2 hd
      omega
  · rcases le_total 0 (x2 - x1) with hd | hd
    · have := hb.1 hd
      omega
    · have := hb.2 hd
      omega

/-- A line whose end points coincide: one call, at the point. -/
theorem graphicsDrawLine_point (gfx : JsGraphicsData) (x y : Int) (fuel : Nat)
    (hx : IsShort x) (hy : -32768 ≤ y ∧ y < 32767) (hf : 65536 ≤ fuel) :
    graphicsDrawLine gfx x y x y fuel = some [⟨x, y, gfx.fgColor⟩] := by
  unfold IsShort at hx
  have e : graphicsDrawLine gfx x y x y fuel =
      (forShort (drawLineStep (fun y x => ⟨x, y, gfx.fgColor⟩)
        (Int.tdiv ((x - x) * 256) 1)) fuel y y (x * 256 + 128, [])).map Prod.snd := by
    simp only [graphicsDrawLine, sub_self, lt_self_iff_false, if_false, if_true, gt_iff_lt]
  rw [e, forShort_eq_foldlM _ fuel y y _ hy.1 hy.2 (by omega)]
  obtain ⟨p, hp⟩ := drawLine_fold (fun y x => ⟨x, y, gfx.fgColor⟩)
    (Int.tdiv ((x - x) * 256) 1) y _ y (x * 256 + 128) [] rfl
  rw [hp, intRange_cons (le_refl y), intRange_of_lt (by omega)]
  simp only [Option.map_some', List.nil_append, List.map_cons, List.map_nil, sub_self,
    zero_mul, add_zero, Option.some.injEq, List.cons.injEq, and_true]
  rw [shiftRight_8, toShort_of_isShort (by omega) (by omega)]
  congr 1
  omega
/-- Away from the unit horizontal line, `graphicsDrawLine` does what C20 says for end
points with coordinates below 32767: it returns, it makes one call more than the longer
delta, all in the foreground colour, and the calls run through the columns between the
end points when the line is longer in X, and through the rows between them otherwise. -/
theorem graphicsDrawLine_calls_count (gfx : JsGraphicsData) (x1 y1 x2 y2 : Int) (fuel : Nat)
    (hx1 : -32768 ≤ x1 ∧ x1 < 32767) (hy1 : -32768 ≤ y1 ∧ y1 < 32767)
    (hx2 : -32768 ≤ x2 ∧ x2 < 32767) (hy2 : -32768 ≤ y2 ∧ y2 < 32767) (hf : 65536 ≤ fuel)
    (hns : ¬ (|x2 - x1| = 1 ∧ y2 = y1)) :
    ∃ calls, graphicsDrawLine gfx x1 y1 x2 y2 fuel = some calls ∧
      (calls.length : Int) = max |x2 - x1| |y2 - y1| + 1 ∧
      (∀ q ∈ calls, q.col = gfx.fgColor) ∧
      (|y2 - y1| < |x2 - x1| → calls.map Pixel.x = intRange (min x1 x2) (max x1 x2)) ∧
      (|x2 - x1| ≤ |y2 - y1| → calls.map Pixel.y = intRange (min y1 y2) (max y1 y2)) := by
  have sx1 : IsShort x1 := ⟨hx1.1, by omega⟩
  have sx2 : IsShort x2 := ⟨hx2.1, by omega⟩
  have sy1 : IsShort y1 := ⟨hy1.1, by omega⟩
  have sy2 : IsShort y2 := ⟨hy2.1, by omega⟩
  have hcol : ∀ (l : List Int) (f : Int → Pixel), (∀ t, (f t).col = gfx.fgColor) →
      ∀ q ∈ l.map f, q.col = gfx.fgColor := by
    intro l f hfc q hq
    obtain ⟨t, _, rfl⟩ := List.mem_map.mp hq
    exact hfc t
  have hmapx : ∀ (l : List Int) (g : Int → Int),
      (l.map (fun x => (⟨x, g x, gfx.fgColor⟩ : Pixel))).map Pixel.x = l := by
    intro l g
    rw [List.map_map]
    exact List.map_id' l
  have hmapy : ∀ (l : List Int) (g : Int → Int),
      (l.map (fun y => (⟨g y, y, gfx.fgColor⟩ : Pixel))).map Pixel.y = l := by
    intro l g
    rw [List.map_map]
    exact List.map_id' l
  by_cases hlong : |y2 - y1| < |x2 - x1|
  · have hne : x1 ≠ x2 := by
      intro h
      rw [h, sub_self, abs_zero] at hlong
      exact absurd hlong (not_lt.mpr (abs_nonneg _))
    rcases lt_or_gt_of_ne hne with hx | hx
    · have hdx : |x2 - x1| = x2 - x1 := abs_of_pos (by omega)
      have hdy0 := abs_nonneg (y2 - y1)
      have hdy1 : y2 = y1 → |y2 - y1| = 0 := by
        intro h
        rw [h, sub_self, abs_zero]
      have hx' : x1 + 1 < x2 := by
        by_contra hc
        have h1 : x2 - x1 = 1 := by omega
        have h2 : |y2 - y1| = 0 := by omega
        exact hns ⟨by omega, by rw [abs_eq_zero] at h2; omega⟩
      obtain ⟨e, _⟩ := graphicsDrawLine_scan_x gfx x1 y1 x2 y2 fuel hx1.1 hx2.2 sy1 sy2 hx'
        (by omega) hf
      refine ⟨_, e, ?_, hcol _ _ (fun _ => rfl), fun _ => ?_, fun h => ?_⟩
      · rw [List.length_map, length_intRange]
        omega
      · rw [hmapx, min_eq_left (by omega), max_eq_right (by omega)]
      · omega
    · have hdx : |x2 - x1| = x1 - x2 := by
        rw [abs_sub_comm]
        exact abs_of_pos (by omega)
      have hdy0 := abs_nonneg (y2 - y1)
      have hx' : x2 + 1 < x1 := by
        by_contra hc
        have h1 : x1 - x2 = 1 := by omega
        have h2 : |y2 - y1| = 0 := by omega
        exact hns ⟨by omega, by rw [abs_eq_zero] at h2; omega⟩
      obtain ⟨e, e'⟩ := graphicsDrawLine_scan_x gfx x2 y2 x1 y1 fuel hx2.1 hx1.2 sy2 sy1 hx'
        (by rw [abs_sub_comm y1 y2]; omega) hf
      refine ⟨_, e'.trans e, ?_, hcol _ _ (fun _ => rfl), fun _ => ?_, fun h => ?_⟩
      · rw [List.length_map, length_intRange]
        omega
      · rw [hmapx, min_eq_right (by omega), max_eq_left (by omega)]
      · omega
  · have hdx0 := abs_nonneg (x2 - x1)
    rcases lt_trichotomy y1 y2 with hy | hy | hy
    · have hdy : |y2 - y1| = y2 - y1 := abs_of_pos (by omega)
      obtain ⟨e, _⟩ := graphicsDrawLine_scan_y gfx x1 y1 x2 y2 fuel hy1.1 hy2.2 sx1 sx2 hy
        (by omega) hf
      refine ⟨_, e, ?_, hcol _ _ (fun _ => rfl), fun h => ?_, fun _ => ?_⟩
      · rw [List.length_map, length_intRange]
        omega
      · omega
      · rw [hmapy, min_eq_left (by omega), max_eq_right (by omega)]
    · have hdy : |y2 - y1| = 0 := by
        rw [hy, sub_self, abs_zero]
      have hdx : |x2 - x1| = 0 := by omega
      have ex : x2 = x1 := by
        rw [abs_eq_zero] at hdx
        omega
      subst ex hy
      refine ⟨_, graphicsDrawLine_point gfx x2 y1 fuel sx2 hy1 hf, ?_, ?_, fun h => ?_,
        fun _ => ?_⟩
      · simp
      · intro q hq
        rw [List.mem_singleton.mp hq]
      · omega
      · rw [min_self, max_self, intRange_cons (le_refl y1), intRange_of_lt (by omega)]
        rfl
    · have hdy : |y2 - y1| = y1 - y2 := by
        rw [abs_sub_comm]
        exact abs_of_pos (by omega)
      obtain ⟨e, e'⟩ := graphicsDrawLine_scan_y gfx x2 y2 x1 y1 fuel hy2.1 hy1.2 sx2 sx1 hy
        (by rw [abs_sub_comm x1 x2]; omega) hf
      refine ⟨_, e'.trans e, ?_, hcol _ _ (fun _ => rfl), fun h => ?_, fun _ => ?_⟩
      · rw [List.length_map, length_intRange]
        omega
      · omega
      · rw [hmapy, min_eq_right (by omega), max_eq_left (by omega)]

/-- The loop of `graphicsFillVectorChar` returns when no interrupt is signalled, the
framebuffer is at most 32767 wide and high, the vertex buffer is large enough for the
values of the counter still to come, and every vertex is left of column 32767. -/
theorem fillVectorCharPolys_returns (F : VectorFont) (gfx : JsGraphicsData)
    (x1 y1 size : Int) (vertOffset fuel : Nat)
    (hw : 1 ≤ gfx.width ∧ gfx.width ≤ 32767) (hh : 1 ≤ gfx.height ∧ gfx.height ≤ 32767)
    (hf : 65536 ≤ fuel) :
    ∀ (idxs : List Nat) (verts : List (Int × Int)) (polls : Nat) (acc : List Rect),
      verts.length + idxs.length ≤ F.VECTOR_FONT_MAX_POLY_SIZE →
      (∀ v ∈ verts, (-32768 ≤ v.1 ∧ v.1 < 32767) ∧ IsShort v.2) →
      (∀ i ∈ idxs, vectorCoord F x1 size (F.vectorFontPolys (vertOffset + i + 0)) < 32767) →
      ∃ rects, fillVectorCharPolys F gfx (fun _ => false) x1 y1 size vertOffset fuel idxs
        verts polls acc = some rects := by
  have hshort : ∀ (a s : Int) (b : Nat), IsShort (vectorCoord F a s b) := by
    intro a s b
    unfold vectorCoord toShort IsShort
    omega
  intro idxs
  induction idxs with
  | nil =>
    intro verts polls acc _ _ _
    exact ⟨acc, rfl⟩
  | cons i rest ih =>
    intro verts polls acc hlen hv hx
    rw [fillVectorCharPolys]
    have hl : ¬ (verts.length ≥ F.VECTOR_FONT_MAX_POLY_SIZE) := by
      simp only [List.length_cons] at hlen
      omega
    rw [if_neg hl]
    simp only [Bool.false_eq_true, if_false]
    have hv1 : ∀ v ∈ verts ++
        [(vectorCoord F x1 size (F.vectorFontPolys (vertOffset + i + 0)),
          vectorCoord F y1 size (F.vectorFontPolys (vertOffset + i + 1)))],
        (-32768 ≤ v.1 ∧ v.1 < 32767) ∧ IsShort v.2 := by
      intro v hvm
      rcases List.mem_append.mp hvm with h1 | h1
      · exact hv v h1
      · rw [List.mem_singleton.mp h1]
        exact ⟨⟨(hshort _ _ _).1, hx i (List.mem_cons_self _ _)⟩, hshort _ _ _⟩
    have hx' : ∀ j ∈ rest,
        vectorCoord F x1 size (F.vectorFontPolys (vertOffset + j + 0)) < 32767 :=
      fun j hj => hx j (List.mem_cons_of_mem _ hj)
    split_ifs with hs
    · obtain ⟨rects, er, _⟩ := graphicsFillPoly_spec gfx _ fuel hw hh hv1 hf
      rw [er]
      exact ih [] _ _ (by simp only [List.length_cons, List.length_nil] at hlen ⊢; omega)
        (fun v hvm => absurd hvm (List.not_mem_nil _)) hx'
    · exact ih _ polls acc
        (by simp only [List.length_cons, List.length_append, List.length_nil] at hlen ⊢; omega)
        hv1 hx'

/-- `graphicsFillVectorChar` returns, with the value of `graphicsVectorCharWidth`, when no
interrupt is signalled, the framebuffer is at most 32767 wide and high, the vertex buffer
holds the vertices of the glyph and every vertex of the glyph is left of column 32767. -/
theorem graphicsFillVectorChar_returns (F : VectorFont) (gfx : JsGraphicsData)
    (x1 y1 size ch : Int) (fuel : Nat)
    (hw : 1 ≤ gfx.width ∧ gfx.width ≤ 32767) (hh : 1 ≤ gfx.height ∧ gfx.height ≤ 32767)
    (hf : 65536 ≤ fuel)
    (hbuf : ((F.vectorFonts (ch - F.vectorFontOffset).toNat).vertCount + 1) / 2 ≤
      F.VECTOR_FONT_MAX_POLY_SIZE)
    (hx : ∀ i, vectorCoord F x1 size (F.vectorFontPolys i) < 32767) :
    ∃ rects, graphicsFillVectorChar F gfx (fun _ => false) x1 y1 size ch fuel =
      some (rects, graphicsVectorCharWidth F size ch) := by
  unfold graphicsFillVectorChar graphicsVectorCharWidth
  by_cases hs : size < 0
  · exact ⟨[], by simp only [hs, if_true]⟩
  · by_cases hc : ch < F.vectorFontOffset ∨ ch - F.vectorFontOffset ≥ F.vectorFontCount
    · exact ⟨[], by simp only [hs, hc, if_true, if_false]⟩
    · simp only [hs, hc, if_false]
      obtain ⟨rects, er⟩ := fillVectorCharPolys_returns F gfx x1 y1 size
        ((List.range (ch - F.vectorFontOffset).toNat).map
          (fun i => (F.vectorFonts i).vertCount)).sum fuel hw hh hf
        ((List.range (((F.vectorFonts (ch - F.vectorFontOffset).toNat).vertCount + 1) / 2)).map
          (fun k => 2 * k)) [] 0 []
        (by simp only [List.length_nil, List.length_map, List.length_range]; omega)
        (fun v hvm => absurd hvm (List.not_mem_nil _))
        (fun i _ => hx _)
      exact ⟨rects, by rw [er]⟩

/-! ## `graphicsFillPoly`: the arrays and the coalescing of spans -/

/-- The loop that widens a rectangle stops at the last column of the run: the columns
after `oldx` up to the column returned hold the span of `oldx`, and the column after it,
when there is one, does not. -/
theorem fillPolyCoalesce_maximal (gfx : JsGraphicsData) (miny maxy : ShortArray)
    (oldx maxx : Int) (a b : Int) (lo hi : Int → Int) (h0 : 0 ≤ oldx)
    (hmax : maxx < gfx.width) (hm32 : maxx < 32767)
    (hold : miny oldx = some a ∧ maxy oldx = some b)
    (harr : ∀ t, oldx < t → t ≤ maxx → miny t = some (lo t) ∧ maxy t = some (hi t)) :
    ∀ (fuel : Nat) (x : Int), oldx ≤ x → x ≤ maxx → (maxx - x).toNat < fuel →
      (∀ t, oldx < t → t ≤ x → lo t = a ∧ hi t = b) →
      ∃ xe, fillPolyCoalesce gfx miny maxy oldx maxx fuel x = some xe ∧ x ≤ xe ∧ xe ≤ maxx ∧
        (∀ t, oldx < t → t ≤ xe → lo t = a ∧ hi t = b) ∧
        (xe < maxx → ¬ (lo (xe + 1) = a ∧ hi (xe + 1) = b)) := by
  intro fuel
  induction fuel with
  | zero => intro x _ _ hf _; omega
  | succ fuel ih =>
    intro x hox hxm hf hinv
    unfold fillPolyCoalesce
    by_cases hlt : x < maxx
    · rw [if_pos hlt]
      have g1 : miny.get gfx.width (x + 1) = some (lo (x + 1)) := by
        rw [ShortArray.get_of_mem _ _ _ (by omega) (by omega)]
        exact (harr (x + 1) (by omega) (by omega)).1
      have g2 : miny.get gfx.width oldx = some a := by
        rw [ShortArray.get_of_mem _ _ _ h0 (by omega)]
        exact hold.1
      have g3 : maxy.get gfx.width (x + 1) = some (hi (x + 1)) := by
        rw [ShortArray.get_of_mem _ _ _ (by omega) (by omega)]
        exact (harr (x + 1) (by omega) (by omega)).2
      have g4 : maxy.get gfx.width oldx = some b := by
        rw [ShortArray.get_of_mem _ _ _ h0 (by omega)]
        exact hold.2
      simp only [g1, g2, g3, g4]
      by_cases e1 : lo (x + 1) = a
      · rw [if_pos e1]
        by_cases e2 : hi (x + 1) = b
        · rw [if_pos e2, toShort_of_isShort (by omega) (by omega)]
          obtain ⟨xe, he, h1, h2, h3, h4⟩ := ih (x + 1) (by omega) (by omega) (by omega) (by
            intro t ht1 ht2
            by_cases htx : t ≤ x
            · exact hinv t ht1 htx
            · have : t = x + 1 := by omega
              rw [this]
              exact ⟨e1, e2⟩)
          exact ⟨xe, he, by omega, h2, h3, h4⟩
        · rw [if_neg e2]
          exact ⟨x, rfl, le_refl _, hxm, hinv, fun _ h => e2 h.2⟩
      · rw [if_neg e1]
        exact ⟨x, rfl, le_refl _, hxm, hinv, fun _ h => e1 h.1⟩
    · rw [if_neg hlt]
      exact ⟨x, rfl, le_refl _, hxm, hinv, fun h => absurd h hlt⟩

/-- The last loop of `graphicsFillPoly`, not interrupted: two adjacent columns that hold
the same span, a span that lies within the rows of the framebuffer, are covered by one
and the same rectangle, whose rows are those of the span. -/
theorem fillPolySpans_coalesced (gfx : JsGraphicsData) (maxx : Int) (lo hi : Int → Int)
    (hh : 1 ≤ gfx.height ∧ gfx.height ≤ 32767) (hmax : maxx < gfx.width)
    (hm32 : maxx < 32767) :
    ∀ (fuel : Nat) (x : Int) (miny maxy : ShortArray) (polls : Nat) (acc : List Rect),
      0 ≤ x → (maxx + 1 - x).toNat < fuel →
      (∀ t, x ≤ t → t ≤ maxx → miny t = some (lo t) ∧ maxy t = some (hi t)) →
      ∃ rects,
        fillPolySpans gfx (fun _ => false) maxx fuel x miny maxy polls acc =
          some (acc ++ rects) ∧
        ∀ t, x ≤ t → t < maxx → lo t ≤ hi t → 0 ≤ lo t → hi t ≤ (gfx.height : Int) - 1 →
          lo (t + 1) = lo t → hi (t + 1) = hi t →
          ∃ r ∈ rects, r.x1 ≤ t ∧ t + 1 ≤ r.x2 ∧ r.y1 = lo t ∧ r.y2 = hi t := by
  intro fuel
  induction fuel with
  | zero => intro x _ _ _ _ _ hf _; omega
  | succ fuel ih =>
    intro x miny maxy polls acc hx0 hf harr
    unfold fillPolySpans
    by_cases hxm : x ≤ maxx
    · rw [if_pos hxm]
      have hxw : x < (gfx.width : Int) := by omega
      have g1 : maxy.get gfx.width x = some (hi x) := by
        rw [ShortArray.get_of_mem _ _ _ hx0 hxw]
        exact (harr x (le_refl _) hxm).2
      have g2 : miny.get gfx.width x = some (lo x) := by
        rw [ShortArray.get_of_mem _ _ _ hx0 hxw]
        exact (harr x (le_refl _) hxm).1
      simp only [g1, g2]
      by_cases hspan : hi x ≥ lo x
      · rw [if_pos hspan]
        have hts : toShort ((gfx.height : Int) - 1) = (gfx.height : Int) - 1 :=
          toShort_of_isShort (by omega) (by omega)
        obtain ⟨m1, em1, hm1x, hm1t⟩ : ∃ m1 : ShortArray,
            (if lo x < 0 then miny.set gfx.width x 0 else some miny) = some m1 ∧
            m1 x = some (max (lo x) 0) ∧ ∀ t, t ≠ x → m1 t = miny t := by
          by_cases hc : lo x < 0
          · refine ⟨Function.update miny x (some 0), ?_, ?_, ?_⟩
            · rw [if_pos hc]
              unfold ShortArray.set
              rw [if_pos ⟨hx0, hxw⟩]
            · rw [Function.update_same, max_eq_right (by omega)]
            · intro t ht
              exact Function.update_noteq ht _ _
          · refine ⟨miny, by rw [if_neg hc], ?_, fun _ _ => rfl⟩
            rw [(harr x (le_refl _) hxm).1, max_eq_left (by omega)]
        obtain ⟨M1, eM1, hM1x, hM1t⟩ : ∃ M1 : ShortArray,
            (if hi x ≥ gfx.height then maxy.set gfx.width x (toShort ((gfx.height : Int) - 1))
              else some maxy) = some M1 ∧
            M1 x = some (min (hi x) ((gfx.height : Int) - 1)) ∧ ∀ t, t ≠ x → M1 t = maxy t := by
          by_cases hc : hi x ≥ gfx.height
          · refine ⟨Function.update maxy x (some ((gfx.height : Int) - 1)), ?_, ?_, ?_⟩
            · rw [if_pos hc, hts]
              unfold ShortArray.set
              rw [if_pos ⟨hx0, hxw⟩]
            · rw [Function.update_same, min_eq_right (by omega)]
            · intro t ht
              exact Function.update_noteq ht _ _
          · refine ⟨maxy, by rw [if_neg hc], ?_, fun _ _ => rfl⟩
            rw [(harr x (le_refl _) hxm).2, min_eq_left (by omega)]
        rw [em1, eM1]
        simp only
        have harr1 : ∀ t, x < t → t ≤ maxx → m1 t = some (lo t) ∧ M1 t = some (hi t) := by
          intro t ht1 ht2
          rw [hm1t t (by omega), hM1t t (by omega)]
          exact harr t (by omega) ht2
        obtain ⟨xe, hxe, hxe1, hxe2, hxe3, hxe4⟩ := fillPolyCoalesce_maximal gfx m1 M1 x maxx
          (max (lo x) 0) (min (hi x) ((gfx.height : Int) - 1)) lo hi hx0 hmax hm32
          ⟨hm1x, hM1x⟩ harr1 fuel x (le_refl _) hxm (by omega)
          (by intro t h1 h2; omega)
        rw [hxe]
        simp only
        have g3 : m1.get gfx.width xe = some (max (lo x) 0) := by
          rw [ShortArray.get_of_mem _ _ _ (by omega) (by omega)]
          by_cases hxx : xe = x
          · rw [hxx]
            exact hm1x
          · rw [(harr1 xe (by omega) hxe2).1, (hxe3 xe (by omega) (le_refl _)).1]
        have g4 : M1.get gfx.width xe = some (min (hi x) ((gfx.height : Int) - 1)) := by
          rw [ShortArray.get_of_mem _ _ _ (by omega) (by omega)]
          by_cases hxx : xe = x
          · rw [hxx]
            exact hM1x
          · rw [(harr1 xe (by omega) hxe2).2, (hxe3 xe (by omega) (le_refl _)).2]
        rw [g3, g4]
        simp only [Bool.false_eq_true, if_false]
        rw [toShort_of_isShort (by omega) (by omega)]
        obtain ⟨rects, er, hr⟩ := ih (xe + 1) m1 M1 (polls + 1)
          (acc ++ [⟨x, max (lo x) 0, xe, min (hi x) ((gfx.height : Int) - 1)⟩])
          (by omega) (by omega) (by
            intro t ht1 ht2
            exact harr1 t (by omega) ht2)
        refine ⟨⟨x, max (lo x) 0, xe, min (hi x) ((gfx.height : Int) - 1)⟩ :: rects, ?_, ?_⟩
        · rw [er, List.append_assoc]
          rfl
        · intro t ht1 ht2 hs h0 h1 elo ehi
          have hrun : lo t = max (lo x) 0 ∧ hi t = min (hi x) ((gfx.height : Int) - 1) →
              t ≤ xe → t + 1 ≤ xe := by
            intro hab hle
            by_contra hc
            have hte : t = xe := by omega
            subst hte
            exact hxe4 ht2 ⟨by rw [elo]; exact hab.1, by rw [ehi]; exact hab.2⟩
          have hab : t ≤ xe →
              lo t = max (lo x) 0 ∧ hi t = min (hi x) ((gfx.height : Int) - 1) := by
            intro hle
            by_cases htx : t = x
            · subst htx
              exact ⟨(max_eq_left h0).symm, (min_eq_left h1).symm⟩
            · exact hxe3 t (by omega) hle
          by_cases hle : t ≤ xe
          · refine ⟨_, List.mem_cons_self _ _, ht1, hrun (hab hle) hle, ?_, ?_⟩
            · exact (hab hle).1.symm
            · exact (hab hle).2.symm
          · obtain ⟨r, hrm, hrr⟩ := hr t (by omega) ht2 hs h0 h1 elo ehi
            exact ⟨r, List.mem_cons_of_mem _ hrm, hrr⟩
      · rw [if_neg hspan, toShort_of_isShort (by omega) (by omega)]
        obtain ⟨rects, er, hr⟩ := ih (x + 1) miny maxy polls acc (by omega) (by omega)
          (by
            intro t ht1 ht2
            exact harr t (by omega) ht2)
        refine ⟨rects, er, ?_⟩
        intro t ht1 ht2 hs h0 h1 elo ehi
        by_cases htx : t = x
        · subst htx
          omega
        · exact hr t (by omega) ht2 hs h0 h1 elo ehi
    · rw [if_neg hxm]
      refine ⟨[], by rw [List.append_nil], ?_⟩
      intro t ht1 ht2
      omega

/-- The arrays of `graphicsFillPoly` when its last loop starts: with `x`-coordinates below
32767 the two loops before it end, and on the columns `minx..maxx` the arrays hold the
least and the greatest row recorded for the column. -/
theorem graphicsFillPoly_arrays (gfx : JsGraphicsData) (interrupted : Nat → Bool)
    (vs : List (Int × Int)) (fuel : Nat)
    (hw : 1 ≤ gfx.width ∧ gfx.width ≤ 32767) (hh : 1 ≤ gfx.height ∧ gfx.height ≤ 32767)
    (hv : ∀ v ∈ vs, (-32768 ≤ v.1 ∧ v.1 < 32767) ∧ IsShort v.2) (hf : 65536 ≤ fuel) :
    ∃ (m M : ShortArray),
      graphicsFillPoly gfx interrupted vs fuel =
        fillPolySpans gfx interrupted
          (if (fillPolyRange gfx vs).2 ≥ gfx.width then (gfx.width : Int) - 1
            else (fillPolyRange gfx vs).2) fuel
          (if (fillPolyRange gfx vs).1 < 0 then 0 else (fillPolyRange gfx vs).1) m M 0 [] ∧
      (∀ t, (if (fillPolyRange gfx vs).1 < 0 then 0 else (fillPolyRange gfx vs).1) ≤ t →
        t ≤ (if (fillPolyRange gfx vs).2 ≥ gfx.width then (gfx.width : Int) - 1
          else (fillPolyRange gfx vs).2) →
        m t = some (columnMin (polyEdges vs) t ((gfx.height : Int) - 1)) ∧
        M t = some (columnMax (polyEdges vs) t 0)) ∧
      0 ≤ (if (fillPolyRange gfx vs).1 < 0 then 0 else (fillPolyRange gfx vs).1) ∧
      (if (fillPolyRange gfx vs).2 ≥ gfx.width then (gfx.width : Int) - 1
        else (fillPolyRange gfx vs).2) < gfx.width := by
  have htw : toShort ((gfx.width : Int) - 1) = (gfx.width : Int) - 1 :=
    toShort_of_isShort (by omega) (by omega)
  have hth : toShort ((gfx.height : Int) - 1) = (gfx.height : Int) - 1 :=
    toShort_of_isShort (by omega) (by omega)
  obtain ⟨r1, r2, r3, r4, r5⟩ := foldl_range_spec vs (toShort ((gfx.width : Int) - 1)) 0
  have hR : fillPolyRange gfx vs = vs.foldl
      (fun (m : Int × Int) (v : Int × Int) =>
        (if v.1 < m.1 then v.1 else m.1, if v.1 > m.2 then v.1 else m.2))
      (toShort ((gfx.width : Int) - 1), 0) := rfl
  rw [← hR] at r1 r2 r3 r4 r5
  rw [htw] at r2 r4
  generalize hRdef : fillPolyRange gfx vs = R at r1 r2 r3 r4 r5 ⊢
  have hR2 : R.2 < 32767 := by
    rcases r5 with h | ⟨v, hv1, h⟩
    · omega
    · rw [h]
      exact (hv v hv1).1.2
  have hR1 : -32768 ≤ R.1 := by
    rcases r4 with h | ⟨v, hv1, h⟩
    · omega
    · rw [h]
      exact (hv v hv1).1.1
  unfold graphicsFillPoly
  simp only [hRdef, htw, hth]
  generalize hminx : (if R.1 < 0 then 0 else R.1) = minx
  generalize hmaxx : (if R.2 ≥ gfx.width then (gfx.width : Int) - 1 else R.2) = maxx
  have hminx0 : 0 ≤ minx := by
    rw [← hminx]
    split_ifs <;> omega
  have hminx1 : ∀ x, 0 ≤ x → R.1 ≤ x → minx ≤ x := by
    intro x h0 h1
    rw [← hminx]
    split_ifs <;> omega
  have hmaxxw : maxx < gfx.width := by
    rw [← hmaxx]
    split_ifs <;> omega
  have hmaxx1 : ∀ x : Int, x < gfx.width → x ≤ R.2 → x ≤ maxx := by
    intro x h0 h1
    rw [← hmaxx]
    split_ifs <;> omega
  rw [forShort_eq_foldlM _ fuel minx maxx _ (by omega) (by omega) (by omega)]
  obtain ⟨a0, b0, e0, ha0, hb0⟩ := init_fold gfx maxx hmaxxw ((gfx.height : Int) - 1) 0 _ minx
    (fun _ => none) (fun _ => none) rfl hminx0
  rw [e0]
  simp only
  obtain ⟨m, M, em, hm, hM⟩ := edges_fold gfx fuel hf minx maxx hminx0 hmaxxw (polyEdges vs)
    a0 b0 (fun _ => (gfx.height : Int) - 1) (fun _ => 0)
    (by
      intro e he
      obtain ⟨m1, m2⟩ := polyEdges_mem he
      refine ⟨(hv _ m1).1, (hv _ m2).1, (hv _ m1).2, (hv _ m2).2, ?_⟩
      intro x hc h0 h1
      have b1 := r1 _ m1
      have b2 := r1 _ m2
      have c1 : R.1 ≤ x := by
        have : R.1 ≤ min e.1.1 e.2.1 := le_min b1.1 b2.1
        exact le_trans this hc.1
      have c2 : x ≤ R.2 := by
        have : max e.1.1 e.2.1 ≤ R.2 := max_le b1.2 b2.2
        exact le_trans hc.2 this
      exact ⟨hminx1 x h0 c1, hmaxx1 x h1 c2⟩)
    ha0 hb0
  rw [em]
  simp only
  refine ⟨m, M, rfl, ?_, hminx0, hmaxxw⟩
  intro t ht1 ht2
  rw [hm t, hM t, if_pos ⟨ht1, ht2⟩, if_pos ⟨ht1, ht2⟩]
  exact ⟨rfl, rfl⟩

/-- Within the framebuffer `graphicsFillPoly` coalesces: when two adjacent columns of the
column range hold the same recorded span and the span lies within the rows of the
framebuffer, one and the same `graphicsFillRect` call covers both columns, with the rows
of the span. -/
theorem graphicsFillPoly_coalesces (gfx : JsGraphicsData) (vs : List (Int × Int))
    (fuel : Nat) (hw : 1 ≤ gfx.width ∧ gfx.width ≤ 32767)
    (hh : 1 ≤ gfx.height ∧ gfx.height ≤ 32767)
    (hv : ∀ v ∈ vs, (-32768 ≤ v.1 ∧ v.1 < 32767) ∧ IsShort v.2) (hf : 65536 ≤ fuel) :
    ∃ rects, graphicsFillPoly gfx (fun _ => false) vs fuel = some rects ∧
      ∀ t, (if (fillPolyRange gfx vs).1 < 0 then 0 else (fillPolyRange gfx vs).1) ≤ t →
        t < (if (fillPolyRange gfx vs).2 ≥ gfx.width then (gfx.width : Int) - 1
          else (fillPolyRange gfx vs).2) →
        columnMin (polyEdges vs) t ((gfx.height : Int) - 1) ≤ columnMax (polyEdges vs) t 0 →
        0 ≤ columnMin (polyEdges vs) t ((gfx.height : Int) - 1) →
        columnMax (polyEdges vs) t 0 ≤ (gfx.height : Int) - 1 →
        columnMin (polyEdges vs) (t + 1) ((gfx.height : Int) - 1) =
          columnMin (polyEdges vs) t ((gfx.height : Int) - 1) →
        columnMax (polyEdges vs) (t + 1) 0 = columnMax (polyEdges vs) t 0 →
        ∃ r ∈ rects, r.x1 ≤ t ∧ t + 1 ≤ r.x2 ∧
          r.y1 = columnMin (polyEdges vs) t ((gfx.height : Int) - 1) ∧
          r.y2 = columnMax (polyEdges vs) t 0 := by
  obtain ⟨m, M, e, harr, h0, hmax⟩ := graphicsFillPoly_arrays gfx (fun _ => false) vs fuel
    hw hh hv hf
  obtain ⟨rects, er, hr⟩ := fillPolySpans_coalesced gfx _
    (fun x => columnMin (polyEdges vs) x ((gfx.height : Int) - 1))
    (fun x => columnMax (polyEdges vs) x 0) hh hmax (by omega)
    fuel _ m M 0 [] h0 (by omega) harr
  rw [List.nil_append] at er
  exact ⟨rects, e.trans er, hr⟩

/-! ## `graphicsDrawLine`: the order of the end points -/

/-- A line longer in X that spans at least three columns: in both orders of the end
points `graphicsDrawLine` is the scan in X from the left end. -/
theorem graphicsDrawLine_eq_scan_x (gfx : JsGraphicsData) (x1 y1 x2 y2 : Int) (fuel : Nat)
    (hx : x1 + 1 < x2) (hlong : |y2 - y1| < x2 - x1) :
    graphicsDrawLine gfx x1 y1 x2 y2 fuel =
      (forShort (drawLineStep (fun x y => ⟨x, y, gfx.fgColor⟩)
        (Int.tdiv ((y2 - y1) * 256) (x2 - x1))) fuel x1 x2 (y1 * 256 + 128, [])).map
        Prod.snd ∧
    graphicsDrawLine gfx x2 y2 x1 y1 fuel =
      (forShort (drawLineStep (fun x y => ⟨x, y, gfx.fgColor⟩)
        (Int.tdiv ((y2 - y1) * 256) (x2 - x1))) fuel x1 x2 (y1 * 256 + 128, [])).map
        Prod.snd := by
  have habs := abs_lt.mp hlong
  have hyl : (if y2 - y1 < 0 then -(y2 - y1) else if y2 - y1 = 0 then 1 else y2 - y1) <
      x2 - x1 := by
    split_ifs <;> omega
  have hyl2 : (if y1 - y2 < 0 then -(y1 - y2) else if y1 - y2 = 0 then 1 else y1 - y2) <
      x2 - x1 := by
    split_ifs <;> omega
  constructor
  · have c1 : ¬ (x2 - x1 < 0) := by omega
    have c2 : ¬ (x2 - x1 = 0) := by omega
    have c3 : ¬ (x1 > x2) := by omega
    simp only [graphicsDrawLine, c1, c2, c3, if_false]
    rw [if_pos (by simpa using hyl)]
  · have c1 : x1 - x2 < 0 := by omega
    have c3 : x2 > x1 := by omega
    have e : -(x1 - x2) = x2 - x1 := by ring
    simp only [graphicsDrawLine, c1, c3, if_true, e]
    rw [if_pos (by simpa using hyl2)]

/-- A line at least as long in Y as in X that spans at least two rows: in both orders of
the end points `graphicsDrawLine` is the scan in Y from the upper end. -/
theorem graphicsDrawLine_eq_scan_y (gfx : JsGraphicsData) (x1 y1 x2 y2 : Int) (fuel : Nat)
    (hy : y1 < y2) (hlong : |x2 - x1| ≤ y2 - y1) :
    graphicsDrawLine gfx x1 y1 x2 y2 fuel =
      (forShort (drawLineStep (fun y x => ⟨x, y, gfx.fgColor⟩)
        (Int.tdiv ((x2 - x1) * 256) (y2 - y1))) fuel y1 y2 (x1 * 256 + 128, [])).map
        Prod.snd ∧
    graphicsDrawLine gfx x2 y2 x1 y1 fuel =
      (forShort (drawLineStep (fun y x => ⟨x, y, gfx.fgColor⟩)
        (Int.tdiv ((x2 - x1) * 256) (y2 - y1))) fuel y1 y2 (x1 * 256 + 128, [])).map
        Prod.snd := by
  have habs := abs_le.mp hlong
  have hxl : ¬ ((if x2 - x1 < 0 then -(x2 - x1) else if x2 - x1 = 0 then 1 else x2 - x1) >
      y2 - y1) := by
    split_ifs <;> omega
  have hxl2 : ¬ ((if x1 - x2 < 0 then -(x1 - x2) else if x1 - x2 = 0 then 1 else x1 - x2) >
      y2 - y1) := by
    split_ifs <;> omega
  constructor
  · have c1 : ¬ (y2 - y1 < 0) := by omega
    have c2 : ¬ (y2 - y1 = 0) := by omega
    have c3 : ¬ (y1 > y2) := by omega
    simp only [graphicsDrawLine, c1, c2, c3, if_false]
    rw [if_neg (by simpa using hxl)]
  · have c1 : y1 - y2 < 0 := by omega
    have c3 : y2 > y1 := by omega
    have e : -(y1 - y2) = y2 - y1 := by ring
    simp only [graphicsDrawLine, c1, c3, if_true, e]
    rw [if_neg (by simpa using hxl2)]

/-- Away from the unit horizontal line the two orders of the end points run the same
scan: for all coordinates and every fuel `graphicsDrawLine` makes the same calls, in the
same order, whichever end point is given first. -/
theorem graphicsDrawLine_swap (gfx : JsGraphicsData) (x1 y1 x2 y2 : Int) (fuel : Nat)
    (hns : ¬ (y1 = y2 ∧ |x2 - x1| = 1)) :
    graphicsDrawLine gfx x2 y2 x1 y1 fuel = graphicsDrawLine gfx x1 y1 x2 y2 fuel := by
  by_cases hlong : |y2 - y1| < |x2 - x1|
  · have hdy0 := abs_nonneg (y2 - y1)
    have hne : x1 ≠ x2 := by
      intro h
      rw [h, sub_self, abs_zero] at hlong
      omega
    rcases lt_or_gt_of_ne hne with hx | hx
    · have hdx : |x2 - x1| = x2 - x1 := abs_of_pos (by omega)
      have hx' : x1 + 1 < x2 := by
        by_contra hc
        have h1 : x2 - x1 = 1 := by omega
        have h2 : |y2 - y1| = 0 := by omega
        exact hns ⟨by rw [abs_eq_zero] at h2; omega, by omega⟩
      obtain ⟨e1, e2⟩ := graphicsDrawLine_eq_scan_x gfx x1 y1 x2 y2 fuel hx' (by omega)
      rw [e1, e2]
    · have hdx : |x2 - x1| = x1 - x2 := by
        rw [abs_sub_comm]
        exact abs_of_pos (by omega)
      have hx' : x2 + 1 < x1 := by
        by_contra hc
        have h1 : x1 - x2 = 1 := by omega
        have h2 : |y2 - y1| = 0 := by omega
        exact hns ⟨by rw [abs_eq_zero] at h2; omega, by omega⟩
      obtain ⟨e1, e2⟩ := graphicsDrawLine_eq_scan_x gfx x2 y2 x1 y1 fuel hx'
        (by rw [abs_sub_comm y1 y2]; omega)
      rw [e1, e2]
  · have hdx0 := abs_nonneg (x2 - x1)
    rcases lt_trichotomy y1 y2 with hy | hy | hy
    · have hdy : |y2 - y1| = y2 - y1 := abs_of_pos (by omega)
      obtain ⟨e1, e2⟩ := graphicsDrawLine_eq_scan_y gfx x1 y1 x2 y2 fuel hy (by omega)
      rw [e1, e2]
    · have hdy : |y2 - y1| = 0 := by
        rw [hy, sub_self, abs_zero]
      have hdx : |x2 - x1| = 0 := by omega
      have ex : x2 = x1 := by
        rw [abs_eq_zero] at hdx
        omega
      rw [ex, hy]
    · have hdy : |y2 - y1| = y1 - y2 := by
        rw [abs_sub_comm]
        exact abs_of_pos (by omega)
      obtain ⟨e1, e2⟩ := graphicsDrawLine_eq_scan_y gfx x2 y2 x1 y1 fuel hy
        (by rw [abs_sub_comm x1 x2]; omega)
      rw [e1, e2]

/-- C21: the two orders of the end points (2,3) and (3,3).  From (2,3) to (3,3)
`graphicsDrawLine` calls `graphicsSetPixel` at (2,3) only, from (3,3) to (2,3) at (3,3)
only: the line is scanned in Y, where the end points are swapped only when `y1 > y2`, so
each order draws its own first end point. -/
theorem graphicsDrawLine_swap_unit_horizontal (gfx : JsGraphicsData) (fuel : Nat) :
    graphicsDrawLine gfx 2 3 3 3 (fuel + 2) = some [⟨2, 3, gfx.fgColor⟩] ∧
    graphicsDrawLine gfx 3 3 2 3 (fuel + 2) = some [⟨3, 3, gfx.fgColor⟩] :=
  ⟨rfl, rfl⟩

/-! ## `graphicsDrawLine`: termination -/

/-- A line longer in X whose right end is at column 32767 is never finished: the `short`
column counter wraps instead of passing 32767, in both orders of the end points. -/
theorem graphicsDrawLine_never_ends_x (gfx : JsGraphicsData) (x1 y1 y2 : Int) (fuel : Nat)
    (hx : x1 + 1 < 32767) (hlong : |y2 - y1| < 32767 - x1) :
    graphicsDrawLine gfx x1 y1 32767 y2 fuel = none ∧
    graphicsDrawLine gfx 32767 y2 x1 y1 fuel = none := by
  obtain ⟨e1, e2⟩ := graphicsDrawLine_eq_scan_x gfx x1 y1 32767 y2 fuel hx hlong
  rw [e1, e2, forShort_never_ends _ fuel x1 _ (by omega)]
  exact ⟨rfl, rfl⟩

/-- A line at least as long in Y as in X whose lower end is at row 32767 is never
finished, in both orders of the end points. -/
theorem graphicsDrawLine_never_ends_y (gfx : JsGraphicsData) (x1 y1 x2 : Int) (fuel : Nat)
    (hy : y1 < 32767) (hlong : |x2 - x1| ≤ 32767 - y1) :
    graphicsDrawLine gfx x1 y1 x2 32767 fuel = none ∧
    graphicsDrawLine gfx x2 32767 x1 y1 fuel = none := by
  obtain ⟨e1, e2⟩ := graphicsDrawLine_eq_scan_y gfx x1 y1 x2 32767 fuel hy hlong
  rw [e1, e2, forShort_never_ends _ fuel y1 _ (by omega)]
  exact ⟨rfl, rfl⟩

/-- C29: the horizontal line from (0,0) to (32767,0) and the vertical line from (0,0) to
(0,32767), both with signed 16-bit end points: `graphicsDrawLine` does not return,
whatever the fuel.  The loop counter is a `short` compared with `<=` against 32767; the
increment past 32767 wraps to -32768 and the loop goes on. -/
theorem graphicsDrawLine_never_returns (gfx : JsGraphicsData) (fuel : Nat) :
    graphicsDrawLine gfx 0 0 32767 0 fuel = none ∧
    graphicsDrawLine gfx 0 0 0 32767 fuel = none :=
  ⟨(graphicsDrawLine_never_ends_x gfx 0 0 0 fuel (by decide) (by decide)).1,
   (graphicsDrawLine_never_ends_y gfx 0 0 0 fuel (by decide) (by decide)).1⟩

/-! ## `graphicsClear`: the graphics data -/

/-- C24: for every installed `fillRect` that leaves the graphics data as it finds them,
`graphicsClear` returns when the `fillRect` call it makes returns, does what that call
does, and leaves the graphics data (width, height, bits per pixel, foreground and
background colour) as they were before the call. -/
theorem graphicsClear_data {τ : Type} (fillRect : FillRect τ) (gfx : JsGraphicsData)
    (hkeep : ∀ (g : JsGraphicsData) (x1 y1 x2 y2 : Int) (r : τ × JsGraphicsData),
      fillRect g x1 y1 x2 y2 = some r → r.2 = g) :
    graphicsClear fillRect gfx =
      (fillRect { gfx with fgColor := gfx.bgColor } 0 0 (toShort ((gfx.width : Int) - 1))
        (toShort ((gfx.height : Int) - 1))).map (fun r => (r.1, gfx)) := by
  unfold graphicsClear graphicsFillRect
  simp only
  cases hr : fillRect { gfx with fgColor := gfx.bgColor } 0 0
      (toShort ((gfx.width : Int) - 1)) (toShort ((gfx.height : Int) - 1)) with
  | none => rfl
  | some r =>
    have hk := hkeep _ _ _ _ _ r hr
    obtain ⟨out, g2⟩ := r
    simp only at hk
    subst hk
    rfl

theorem graphicsClear_data_witness :
    graphicsClear recordFillRect (JsGraphicsData.mk 16 8 1 1 0) =
      (recordFillRect { (JsGraphicsData.mk 16 8 1 1 0) with
          fgColor := (JsGraphicsData.mk 16 8 1 1 0).bgColor } 0 0
        (toShort (((JsGraphicsData.mk 16 8 1 1 0).width : Int) - 1))
        (toShort (((JsGraphicsData.mk 16 8 1 1 0).height : Int) - 1))).map
        (fun r => (r.1, JsGraphicsData.mk 16 8 1 1 0)) :=
  graphicsClear_data recordFillRect (JsGraphicsData.mk 16 8 1 1 0)
    (fun _ _ _ _ _ r hr => by
      unfold recordFillRect at hr
      cases hr
      rfl)

/-! ## The rows computed along an edge -/

/-- C30: for an edge whose `x`-coordinates are below 32767 (and whose coordinates are
`short` values), `graphicsFillPolyCreateVertScanLines` returns, having folded into `miny`
and `maxy` at every column of the edge inside the framebuffer the row `edgeRow` it computes
there; and at every column of the edge that row lies between the rows of the two end points
inclusive, so neither clamp changes it and its conversion to `short` is lossless. -/
theorem graphicsFillPolyCreateVertScanLines_rows (gfx : JsGraphicsData)
    (miny maxy : ShortArray) (x1 y1 x2 y2 : Int) (fuel : Nat)
    (hx1 : -32768 ≤ x1 ∧ x1 < 32767) (hx2 : -32768 ≤ x2 ∧ x2 < 32767)
    (hy1 : IsShort y1) (hy2 : IsShort y2) (hf : 65536 ≤ fuel)
    (hinit : ∀ x, min x1 x2 ≤ x → x ≤ max x1 x2 → 0 ≤ x → x < gfx.width →
      (miny x).isSome ∧ (maxy x).isSome) :
    (∃ miny' maxy',
      graphicsFillPolyCreateVertScanLines gfx miny maxy x1 y1 x2 y2 fuel =
        some (miny', maxy') ∧
      ∀ x, edgeCovers ((x1, y1), (x2, y2)) x → 0 ≤ x → x < gfx.width →
        miny' x = (miny x).map (fun lo => min lo (edgeRow x1 y1 x2 y2 x)) ∧
        maxy' x = (maxy x).map (fun hi => max hi (edgeRow x1 y1 x2 y2 x))) ∧
    ∀ x, edgeCovers ((x1, y1), (x2, y2)) x →
      min y1 y2 ≤ edgeRow x1 y1 x2 y2 x ∧ edgeRow x1 y1 x2 y2 x ≤ max y1 y2 ∧
      (if edgeRow x1 y1 x2 y2 x < -32768 then -32768 else edgeRow x1 y1 x2 y2 x) =
        edgeRow x1 y1 x2 y2 x ∧
      (if edgeRow x1 y1 x2 y2 x > 32767 then 32767 else edgeRow x1 y1 x2 y2 x) =
        edgeRow x1 y1 x2 y2 x ∧
      toShort (edgeRow x1 y1 x2 y2 x) = edgeRow x1 y1 x2 y2 x := by
  constructor
  · obtain ⟨m, M, e, hm, hM⟩ := graphicsFillPolyCreateVertScanLines_spec gfx miny maxy
      x1 y1 x2 y2 fuel hx1 hx2 hy1 hy2 hf hinit
    refine ⟨m, M, e, ?_⟩
    intro x hc h0 h1
    rw [hm x, hM x, if_pos ⟨hc, h0, h1⟩, if_pos ⟨hc, h0, h1⟩]
    exact ⟨rfl, rfl⟩
  · intro x hc
    obtain ⟨b1, b2⟩ := edgeRow_bounds x1 y1 x2 y2 x hc.1 hc.2
    have s1 := hy1
    have s2 := hy2
    unfold IsShort at s1 s2
    have m1 : -32768 ≤ min y1 y2 := le_min s1.1 s2.1
    have m2 : max y1 y2 ≤ 32767 := max_le s1.2 s2.2
    refine ⟨b1, b2, ?_, ?_, ?_⟩
    · rw [if_neg (by omega)]
    · rw [if_neg (by omega)]
    · exact toShort_of_isShort (by omega) (by omega)

theorem graphicsFillPolyCreateVertScanLines_rows_witness :
    (∃ miny' maxy',
      graphicsFillPolyCreateVertScanLines (JsGraphicsData.mk 16 16 1 1 0)
          (fun _ => some 32767) (fun _ => some (-32768)) 0 0 5 10 65536 =
        some (miny', maxy') ∧
      ∀ x, edgeCovers ((0, 0), (5, 10)) x → 0 ≤ x →
        x < (JsGraphicsData.mk 16 16 1 1 0).width →
        miny' x = (some 32767).map (fun lo => min lo (edgeRow 0 0 5 10 x)) ∧
        maxy' x = (some (-32768)).map (fun hi => max hi (edgeRow 0 0 5 10 x))) ∧
    ∀ x, edgeCovers ((0, 0), (5, 10)) x →
      min 0 10 ≤ edgeRow 0 0 5 10 x ∧ edgeRow 0 0 5 10 x ≤ max 0 10 ∧
      (if edgeRow 0 0 5 10 x < -32768 then -32768 else edgeRow 0 0 5 10 x) =
        edgeRow 0 0 5 10 x ∧
      (if edgeRow 0 0 5 10 x > 32767 then 32767 else edgeRow 0 0 5 10 x) =
        edgeRow 0 0 5 10 x ∧
      toShort (edgeRow 0 0 5 10 x) = edgeRow 0 0 5 10 x :=
  graphicsFillPolyCreateVertScanLines_rows (JsGraphicsData.mk 16 16 1 1 0)
    (fun _ => some 32767) (fun _ => some (-32768)) 0 0 5 10 65536 (by decide) (by decide)
    (by decide) (by decide) (by decide) (fun _ _ _ _ _ => ⟨rfl, rfl⟩)

/-! ## Interrupting `graphicsFillPoly` -/

/-- The last loop of `graphicsFillPoly` only appends to the calls made so far. -/
theorem fillPolySpans_prefix (gfx : JsGraphicsData) (intr : Nat → Bool) (maxx : Int) :
    ∀ (fuel : Nat) (x : Int) (miny maxy : ShortArray) (polls : Nat) (acc R : List Rect),
      fillPolySpans gfx intr maxx fuel x miny maxy polls acc = some R → acc <+: R := by
  intro fuel
  induction fuel with
  | zero =>
    intro x miny maxy polls acc R h
    simp [fillPolySpans] at h
  | succ fuel ih =>
    intro x miny maxy polls acc R h
    unfold fillPolySpans at h
    split at h
    · split at h
      · split at h
        · split at h
          · split at h
            · cases h
            · split at h
              · split at h
                · cases h
                  exact List.prefix_append _ _
                · exact (List.prefix_append _ _).trans (ih _ _ _ _ _ _ h)
              · cases h
          · cases h
        · exact ih _ _ _ _ _ _ h
      · cases h
    · cases h
      exact List.prefix_refl _

/-- When the uninterrupted loop returns the calls `R`, the loop that is interrupted at poll
`k` (and not before) returns the first `k + 1` of them. -/
theorem fillPolySpans_interrupted (gfx : JsGraphicsData) (intr : Nat → Bool) (maxx : Int)
    (k : Nat) (hfirst : ∀ j, j < k → intr j = false) (hk : intr k = true) :
    ∀ (fuel : Nat) (x : Int) (miny maxy : ShortArray) (polls : Nat) (acc R : List Rect),
      fillPolySpans gfx (fun _ => false) maxx fuel x miny maxy polls acc = some R →
      acc.length = polls → polls ≤ k →
      fillPolySpans gfx intr maxx fuel x miny maxy polls acc = some (R.take (k + 1)) := by
  intro fuel
  induction fuel with
  | zero =>
    intro x miny maxy polls acc R h
    simp [fillPolySpans] at h
  | succ fuel ih =>
    intro x miny maxy polls acc R h hlen hle
    unfold fillPolySpans at h ⊢
    split at h
    · rename_i hx
      rw [if_pos hx]
      split at h
      · rename_i hi lo e1 e2
        try simp only [e1, e2]
        split at h
        · rename_i hspan
          rw [if_pos hspan]
          split at h
          · rename_i miny1 maxy1 e3 e4
            try simp only [e3, e4]
            split at h
            · cases h
            · rename_i xe e5
              try simp only [e5]
              split at h
              · rename_i top bottom e6 e7
                try simp only [e6, e7]
                simp only [Bool.false_eq_true, if_false] at h
                have hpre := fillPolySpans_prefix gfx (fun _ => false) maxx _ _ _ _ _ _ _ h
                by_cases hp : polls = k
                · rw [hp, hk, if_pos rfl]
                  obtain ⟨rest, hrest⟩ := hpre
                  rw [← hrest]
                  have hl : (acc ++ [(⟨x, top, xe, bottom⟩ : Rect)]).length = k + 1 := by
                    rw [List.length_append, hlen, hp]
                    rfl
                  rw [List.take_left' hl]
                · have hlt : polls < k := by omega
                  rw [hfirst polls hlt]
                  simp only [Bool.false_eq_true, if_false]
                  exact ih _ _ _ _ _ _ h (by rw [List.length_append, hlen]; rfl) (by omega)
              · cases h
          · cases h
        · rename_i hspan
          rw [if_neg hspan]
          exact ih _ _ _ _ _ _ h hlen hle
      · cases h
    · rename_i hx
      rw [if_neg hx]
      cases h
      rw [List.take_of_length_le (by omega)]

/-- Whatever the interrupt signal does, the loop returns an initial part of the calls of
the uninterrupted loop. -/
theorem fillPolySpans_take (gfx : JsGraphicsData) (intr : Nat → Bool) (maxx : Int) :
    ∀ (fuel : Nat) (x : Int) (miny maxy : ShortArray) (polls : Nat) (acc R : List Rect),
      fillPolySpans gfx (fun _ => false) maxx fuel x miny maxy polls acc = some R →
      ∃ n, fillPolySpans gfx intr maxx fuel x miny maxy polls acc = some (R.take n) := by
  intro fuel
  induction fuel with
  | zero =>
    intro x miny maxy polls acc R h
    simp [fillPolySpans] at h
  | succ fuel ih =>
    intro x miny maxy polls acc R h
    unfold fillPolySpans at h ⊢
    split at h
    · rename_i hx
      rw [if_pos hx]
      split at h
      · rename_i hi lo e1 e2
        try simp only [e1, e2]
        split at h
        · rename_i hspan
          rw [if_pos hspan]
          split at h
          · rename_i miny1 maxy1 e3 e4
            try simp only [e3, e4]
            split at h
            · cases h
            · rename_i xe e5
              try simp only [e5]
              split at h
              · rename_i top bottom e6 e7
                try simp only [e6, e7]
                simp only [Bool.false_eq_true, if_false] at h
                by_cases hp : intr polls = true
                · rw [if_pos hp]
                  obtain ⟨rest, hrest⟩ :=
                    fillPolySpans_prefix gfx (fun _ => false) maxx _ _ _ _ _ _ _ h
                  refine ⟨(acc ++ [(⟨x, top, xe, bottom⟩ : Rect)]).length, ?_⟩
                  rw [← hrest, List.take_left' rfl]
                · rw [if_neg hp]
                  exact ih _ _ _ _ _ _ h
              · cases h
          · cases h
        · rename_i hspan
          rw [if_neg hspan]
          exact ih _ _ _ _ _ _ h
      · cases h
    · rename_i hx
      rw [if_neg hx]
      cases h
      exact ⟨acc.length, by rw [List.take_of_length_le (le_refl _)]⟩

/-- The loops of `graphicsFillPoly` that come before the last one do not poll the interrupt
signal: when the uninterrupted fill returns, every fill runs the last loop from the same
columns and arrays. -/
theorem graphicsFillPoly_eq_spans (gfx : JsGraphicsData) (vs : List (Int × Int)) (fuel : Nat)
    (R : List Rect) (hR : graphicsFillPoly gfx (fun _ => false) vs fuel = some R) :
    ∃ (maxx minx : Int) (m M : ShortArray), ∀ intr : Nat → Bool,
      graphicsFillPoly gfx intr vs fuel = fillPolySpans gfx intr maxx fuel minx m M 0 [] := by
  unfold graphicsFillPoly at hR ⊢
  simp only at hR ⊢
  split at hR
  · cases hR
  · split at hR
    · cases hR
    · exact ⟨_, _, _, _, fun _ => rfl⟩

/-- C22: when the interrupt signal first reports true at the poll of index `k` (counted
from 0, so at the `k + 1`-th poll, the one that follows the `k + 1`-th `graphicsFillRect`
call), `graphicsFillPoly` makes exactly the first `k + 1` calls of the uninterrupted fill,
with the same arguments, and none after; with the signal set from the start (`k = 0`) that
is at most one call. -/
theorem graphicsFillPoly_interrupted (gfx : JsGraphicsData) (interrupted : Nat → Bool)
    (vs : List (Int × Int)) (fuel k : Nat) (R : List Rect)
    (hfirst : ∀ j, j < k → interrupted j = false) (hk : interrupted k = true)
    (hR : graphicsFillPoly gfx (fun _ => false) vs fuel = some R) :
    graphicsFillPoly gfx interrupted vs fuel = some (R.take (k + 1)) ∧
    (R.take (k + 1)).length ≤ k + 1 := by
  obtain ⟨maxx, minx, m, M, h⟩ := graphicsFillPoly_eq_spans gfx vs fuel R hR
  refine ⟨?_, List.length_take_le _ _⟩
  rw [h interrupted]
  rw [h (fun _ => false)] at hR
  exact fillPolySpans_interrupted gfx interrupted maxx k hfirst hk fuel minx m M 0 [] R hR
    rfl (Nat.zero_le k)

theorem graphicsFillPoly_interrupted_witness :
    graphicsFillPoly (JsGraphicsData.mk 16 16 1 1 0) (fun j => decide (2 ≤ j))
        [(0, 0), (10, 0), (5, 10)] 65536 =
      some ([⟨0, 0, 0, 0⟩, ⟨1, 0, 1, 2⟩, ⟨2, 0, 2, 4⟩, ⟨3, 0, 3, 6⟩, ⟨4, 0, 4, 8⟩,
        ⟨5, 0, 5, 10⟩, ⟨6, 0, 6, 8⟩, ⟨7, 0, 7, 6⟩, ⟨8, 0, 8, 4⟩, ⟨9, 0, 9, 2⟩,
        ⟨10, 0, 10, 0⟩].take (2 + 1)) ∧
    (([⟨0, 0, 0, 0⟩, ⟨1, 0, 1, 2⟩, ⟨2, 0, 2, 4⟩, ⟨3, 0, 3, 6⟩, ⟨4, 0, 4, 8⟩,
        ⟨5, 0, 5, 10⟩, ⟨6, 0, 6, 8⟩, ⟨7, 0, 7, 6⟩, ⟨8, 0, 8, 4⟩, ⟨9, 0, 9, 2⟩,
        ⟨10, 0, 10, 0⟩] : List Rect).take (2 + 1)).length ≤ 2 + 1 :=
  graphicsFillPoly_interrupted (JsGraphicsData.mk 16 16 1 1 0) (fun j => decide (2 ≤ j))
    [(0, 0), (10, 0), (5, 10)] 65536 2 _ (by decide) (by decide) (by decide)

/-! ## Safety of `graphicsFillPoly` -/

/-- C26: for width and height between 1 and 32767 and vertices (of `short` coordinates)
whose `x`-coordinates are below 32767, `graphicsFillPoly` returns, whatever the interrupt
signal does, and every rectangle it passes to `graphicsFillRect` has
`0 <= x1 <= x2 < width` and `0 <= y1 <= y2 < height`.  Every access to `miny` and `maxy`
is a `ShortArray.get` or a `ShortArray.set` on `width` elements, which yield a value only
for an index in `0..width-1` and, for a read, only where an element was written before; a
fill that returns has therefore made no other access. -/
theorem graphicsFillPoly_safe (gfx : JsGraphicsData) (interrupted : Nat → Bool)
    (vs : List (Int × Int)) (fuel : Nat)
    (hw : 1 ≤ gfx.width ∧ gfx.width ≤ 32767) (hh : 1 ≤ gfx.height ∧ gfx.height ≤ 32767)
    (hv : ∀ v ∈ vs, (-32768 ≤ v.1 ∧ v.1 < 32767) ∧ IsShort v.2) (hf : 65536 ≤ fuel) :
    (∃ rects, graphicsFillPoly gfx interrupted vs fuel = some rects ∧
      ∀ r ∈ rects, 0 ≤ r.x1 ∧ r.x1 ≤ r.x2 ∧ r.x2 < gfx.width ∧
        0 ≤ r.y1 ∧ r.y1 ≤ r.y2 ∧ r.y2 < gfx.height) ∧
    (∀ (a : ShortArray) (i v : Int), a.get gfx.width i = some v →
      0 ≤ i ∧ i < gfx.width ∧ a i = some v) ∧
    (∀ (a b : ShortArray) (i v : Int), a.set gfx.width i v = some b →
      0 ≤ i ∧ i < gfx.width) := by
  refine ⟨?_, ?_, ?_⟩
  · obtain ⟨R, hR, hb, _⟩ := graphicsFillPoly_spec gfx vs fuel hw hh hv hf
    obtain ⟨maxx, minx, m, M, h⟩ := graphicsFillPoly_eq_spans gfx vs fuel R hR
    rw [h (fun _ => false)] at hR
    obtain ⟨n, hn⟩ := fillPolySpans_take gfx interrupted maxx fuel minx m M 0 [] R hR
    refine ⟨R.take n, ?_, ?_⟩
    · rw [h interrupted]
      exact hn
    · intro r hr
      exact hb r (List.mem_of_mem_take hr)
  · intro a i v h
    unfold ShortArray.get at h
    split at h
    · rename_i hi
      exact ⟨hi.1, hi.2, h⟩
    · cases h
  · intro a b i v h
    unfold ShortArray.set at h
    split at h
    · rename_i hi
      exact ⟨hi.1, hi.2⟩
    · cases h

theorem graphicsFillPoly_safe_witness :
    (∃ rects, graphicsFillPoly (JsGraphicsData.mk 16 8 1 1 0) (fun j => decide (3 ≤ j))
        [(-4, -3), (20, 2), (5, 30)] 65536 = some rects ∧
      ∀ r ∈ rects, 0 ≤ r.x1 ∧ r.x1 ≤ r.x2 ∧ r.x2 < (JsGraphicsData.mk 16 8 1 1 0).width ∧
        0 ≤ r.y1 ∧ r.y1 ≤ r.y2 ∧ r.y2 < (JsGraphicsData.mk 16 8 1 1 0).height) ∧
    (∀ (a : ShortArray) (i v : Int),
      a.get (JsGraphicsData.mk 16 8 1 1 0).width i = some v →
      0 ≤ i ∧ i < (JsGraphicsData.mk 16 8 1 1 0).width ∧ a i = some v) ∧
    (∀ (a b : ShortArray) (i v : Int),
      a.set (JsGraphicsData.mk 16 8 1 1 0).width i v = some b →
      0 ≤ i ∧ i < (JsGraphicsData.mk 16 8 1 1 0).width) :=
  graphicsFillPoly_safe (JsGraphicsData.mk 16 8 1 1 0) (fun j => decide (3 ≤ j))
    [(-4, -3), (20, 2), (5, 30)] 65536 (by decide) (by decide) (by decide) (by decide)

/-! ## `graphicsDrawLine`: the path of a line -/

/-- The truncated quotient of `256 * d` by `n` is within less than `n` of the exact one
once multiplied back, on the side of zero. -/
theorem tdiv_step_error (d n : Int) (hn : 1 ≤ n) :
    (0 ≤ d → 256 * d - n < n * Int.tdiv (256 * d) n ∧ n * Int.tdiv (256 * d) n ≤ 256 * d) ∧
    (d ≤ 0 → 256 * d ≤ n * Int.tdiv (256 * d) n ∧
      n * Int.tdiv (256 * d) n < 256 * d + n) := by
  have key : ∀ a : Int, 0 ≤ a → a - n < n * (a / n) ∧ n * (a / n) ≤ a := by
    intro a _
    have h1 : a / n * n ≤ a := Int.ediv_mul_le a (by omega)
    have h2 : a < (a / n + 1) * n := Int.lt_ediv_add_one_mul_self a (by omega)
    have e1 : a / n * n = n * (a / n) := mul_comm _ _
    have e2 : (a / n + 1) * n = n * (a / n) + n := by ring
    rw [e1] at h1
    rw [e2] at h2
    constructor <;> omega
  constructor
  · intro hd
    rw [Int.tdiv_eq_ediv (by omega) (by omega)]
    exact key _ (by omega)
  · intro hd
    have e : 256 * d = -(256 * -d) := by ring
    have e3 : n * -(256 * -d / n) = -(n * (256 * -d / n)) := by ring
    rw [e, Int.neg_tdiv, Int.tdiv_eq_ediv (by omega) (by omega), e3]
    obtain ⟨h1, h2⟩ := key (256 * -d) (by omega)
    constructor <;> omega

/-- The step of a line is at most one pixel (256) either way when the delta across is no
longer than the delta along. -/
theorem tdiv_step_bounds (d n : Int) (hn : 1 ≤ n) (hd : |d| ≤ n) :
    -256 ≤ Int.tdiv (256 * d) n ∧ Int.tdiv (256 * d) n ≤ 256 := by
  obtain ⟨hp, hm⟩ := tdiv_step_error d n hn
  have hb := abs_le.mp hd
  generalize Int.tdiv (256 * d) n = s at hp hm
  by_cases h0 : 0 ≤ d
  · obtain ⟨h1, h2⟩ := hp h0
    constructor
    · by_contra hc
      have : n * s ≤ n * (-257) := Int.mul_le_mul_of_nonneg_left (by omega) (by omega)
      omega
    · by_contra hc
      have : n * 257 ≤ n * s := Int.mul_le_mul_of_nonneg_left (by omega) (by omega)
      omega
  · obtain ⟨h1, h2⟩ := hm (by omega)
    constructor
    · by_contra hc
      have : n * s ≤ n * (-257) := Int.mul_le_mul_of_nonneg_left (by omega) (by omega)
      omega
    · by_contra hc
      have : n * 257 ≤ n * s := Int.mul_le_mul_of_nonneg_left (by omega) (by omega)
      omega

/-- A relation that holds between each integer below `hi` and its successor chains the
integers from `lo` to `hi`. -/
theorem chain_intRange (R : Int → Int → Prop) (lo hi : Int)
    (h : ∀ t, lo ≤ t → t < hi → R t (t + 1)) : List.Chain' R (intRange lo hi) := by
  unfold intRange
  rw [List.chain'_map]
  cases hn : (hi + 1 - lo).toNat with
  | zero => simp
  | succ m =>
    rw [List.chain'_range_succ]
    intro k hk
    have e : lo + ((k.succ : Nat) : Int) = lo + (k : Int) + 1 := by
      push_cast
      ring
    rw [e]
    exact h _ (by omega) (by omega)

/-- Pixels computed along a scan with a step of at most 256 move by at most one across. -/
theorem scan_cross_step (P s u : Int) (hs : -256 ≤ s ∧ s ≤ 256) :
    |(P + (u + 1) * s) / 256 - (P + u * s) / 256| ≤ 1 := by
  have e : (u + 1) * s = u * s + s := by ring
  rw [e, abs_le]
  generalize u * s = w
  constructor <;> omega

/-- A line along a single row whose ends are at most one column apart: one call, at the
first end point. -/
theorem graphicsDrawLine_single (gfx : JsGraphicsData) (x1 x2 y : Int) (fuel : Nat)
    (hx : IsShort x1) (hy : -32768 ≤ y ∧ y < 32767) (hd : |x2 - x1| ≤ 1) (hf : 2 ≤ fuel) :
    graphicsDrawLine gfx x1 y x2 y fuel = some [⟨x1, y, gfx.fgColor⟩] := by
  unfold IsShort at hx
  have hb := abs_le.mp hd
  have hxl : ¬ ((if x2 - x1 < 0 then -(x2 - x1) else if x2 - x1 = 0 then 1 else x2 - x1) >
      1) := by
    split_ifs <;> omega
  have e : graphicsDrawLine gfx x1 y x2 y fuel =
      (forShort (drawLineStep (fun y x => ⟨x, y, gfx.fgColor⟩)
        (Int.tdiv ((x2 - x1) * 256) 1)) fuel y y (x1 * 256 + 128, [])).map Prod.snd := by
    simp only [graphicsDrawLine, sub_self, lt_self_iff_false, if_false, if_true, gt_iff_lt]
    rw [if_neg (by simpa using hxl)]
  rw [e, forShort_eq_foldlM _ fuel y y _ hy.1 hy.2 (by omega)]
  obtain ⟨p, hp⟩ := drawLine_fold (fun y x => ⟨x, y, gfx.fgColor⟩)
    (Int.tdiv ((x2 - x1) * 256) 1) y _ y (x1 * 256 + 128) [] rfl
  rw [hp, intRange_cons (le_refl y), intRange_of_lt (by omega)]
  simp only [Option.map_some', List.nil_append, List.map_cons, List.map_nil, sub_self,
    zero_mul, add_zero, Option.some.injEq, List.cons.injEq, and_true]
  rw [shiftRight_8, toShort_of_isShort (by omega) (by omega)]
  congr 1
  omega

theorem chain_scan_x (c : Nat) (x1 x2 y1 s : Int) (hs : -256 ≤ s ∧ s ≤ 256) :
    List.Chain' (fun (p q : Pixel) => q.x = p.x + 1 ∧ |q.y - p.y| ≤ 1)
      ((intRange x1 x2).map (fun x =>
        (⟨x, (256 * y1 + 128 + (x - x1) * s) / 256, c⟩ : Pixel))) := by
  rw [List.chain'_map]
  apply chain_intRange
  intro t _ _
  refine ⟨rfl, ?_⟩
  have e : t + 1 - x1 = (t - x1) + 1 := by ring
  simp only
  rw [e]
  exact scan_cross_step _ s _ hs

theorem chain_scan_y (c : Nat) (y1 y2 x1 s : Int) (hs : -256 ≤ s ∧ s ≤ 256) :
    List.Chain' (fun (p q : Pixel) => q.y = p.y + 1 ∧ |q.x - p.x| ≤ 1)
      ((intRange y1 y2).map (fun y =>
        (⟨(256 * x1 + 128 + (y - y1) * s) / 256, y, c⟩ : Pixel))) := by
  rw [List.chain'_map]
  apply chain_intRange
  intro t _ _
  refine ⟨rfl, ?_⟩
  have e : t + 1 - y1 = (t - y1) + 1 := by ring
  simp only
  rw [e]
  exact scan_cross_step _ s _ hs

/-- C28: for end points with all coordinates below 32767, `graphicsDrawLine` returns, and
each call to `graphicsSetPixel` after the first is one further along the scanned
coordinate than the call before it (`x` for a line longer in X, `y` otherwise) and at most
one away from it in the other coordinate. -/
theorem graphicsDrawLine_connected (gfx : JsGraphicsData) (x1 y1 x2 y2 : Int) (fuel : Nat)
    (hx1 : -32768 ≤ x1 ∧ x1 < 32767) (hy1 : -32768 ≤ y1 ∧ y1 < 32767)
    (hx2 : -32768 ≤ x2 ∧ x2 < 32767) (hy2 : -32768 ≤ y2 ∧ y2 < 32767) (hf : 65536 ≤ fuel) :
    ∃ calls, graphicsDrawLine gfx x1 y1 x2 y2 fuel = some calls ∧
      (|y2 - y1| < |x2 - x1| →
        List.Chain' (fun (p q : Pixel) => q.x = p.x + 1 ∧ |q.y - p.y| ≤ 1) calls) ∧
      (|x2 - x1| ≤ |y2 - y1| →
        List.Chain' (fun (p q : Pixel) => q.y = p.y + 1 ∧ |q.x - p.x| ≤ 1) calls) := by
  have sx1 : IsShort x1 := ⟨hx1.1, by omega⟩
  have sx2 : IsShort x2 := ⟨hx2.1, by omega⟩
  have sy1 : IsShort y1 := ⟨hy1.1, by omega⟩
  have sy2 : IsShort y2 := ⟨hy2.1, by omega⟩
  have hdy0 := abs_nonneg (y2 - y1)
  have hdx0 := abs_nonneg (x2 - x1)
  by_cases hlong : |y2 - y1| < |x2 - x1|
  · have hnot : ¬ (|x2 - x1| ≤ |y2 - y1|) := by omega
    by_cases hslip : |x2 - x1| ≤ 1
    · have hy : y2 = y1 := by
        have h2 : |y2 - y1| = 0 := by omega
        rw [abs_eq_zero] at h2
        omega
      rw [hy]
      refine ⟨_, graphicsDrawLine_single gfx x1 x2 y1 fuel sx1 hy1 hslip (by omega), ?_, ?_⟩
      · intro _
        exact List.chain'_singleton _
      · intro _
        exact List.chain'_singleton _
    · rcases lt_trichotomy x1 x2 with hx | hx | hx
      · have hdx : |x2 - x1| = x2 - x1 := abs_of_pos (by omega)
        obtain ⟨e1, _⟩ := graphicsDrawLine_scan_x gfx x1 y1 x2 y2 fuel hx1.1 hx2.2 sy1 sy2
          (by omega) (by omega) hf
        refine ⟨_, e1, ?_, fun h => absurd h hnot⟩
        intro _
        exact chain_scan_x _ _ _ _ _ (tdiv_step_bounds _ _ (by omega) (by omega))
      · rw [hx, sub_self, abs_zero] at hlong
        omega
      · have hdx : |x2 - x1| = x1 - x2 := by
          rw [abs_sub_comm]
          exact abs_of_pos (by omega)
        have hdy : |y1 - y2| = |y2 - y1| := abs_sub_comm _ _
        obtain ⟨e1, e2⟩ := graphicsDrawLine_scan_x gfx x2 y2 x1 y1 fuel hx2.1 hx1.2 sy2 sy1
          (by omega) (by omega) hf
        rw [e1] at e2
        refine ⟨_, e2, ?_, fun h => absurd h hnot⟩
        intro _
        exact chain_scan_x _ _ _ _ _ (tdiv_step_bounds _ _ (by omega) (by omega))
  · have hle : |x2 - x1| ≤ |y2 - y1| := by omega
    rcases lt_trichotomy y1 y2 with hy | hy | hy
    · have hdy : |y2 - y1| = y2 - y1 := abs_of_pos (by omega)
      obtain ⟨e1, _⟩ := graphicsDrawLine_scan_y gfx x1 y1 x2 y2 fuel hy1.1 hy2.2 sx1 sx2
        hy (by omega) hf
      refine ⟨_, e1, fun h => absurd h hlong, ?_⟩
      intro _
      exact chain_scan_y _ _ _ _ _ (tdiv_step_bounds _ _ (by omega) (by omega))
    · have hd : |x2 - x1| ≤ 1 := by
        rw [hy, sub_self, abs_zero] at hle
        omega
      rw [← hy]
      refine ⟨_, graphicsDrawLine_single gfx x1 x2 y1 fuel sx1 hy1 hd (by omega), ?_, ?_⟩
      · intro _
        exact List.chain'_singleton _
      · intro _
        exact List.chain'_singleton _
    · have hdy : |y2 - y1| = y1 - y2 := by
        rw [abs_sub_comm]
        exact abs_of_pos (by omega)
      have hdx : |x1 - x2| = |x2 - x1| := abs_sub_comm _ _
      obtain ⟨e1, e2⟩ := graphicsDrawLine_scan_y gfx x2 y2 x1 y1 fuel hy2.1 hy1.2 sx2 sx1
        hy (by omega) hf
      rw [e1] at e2
      refine ⟨_, e2, fun h => absurd h hlong, ?_⟩
      intro _
      exact chain_scan_y _ _ _ _ _ (tdiv_step_bounds _ _ (by omega) (by omega))

theorem graphicsDrawLine_connected_witness :
    ∃ calls, graphicsDrawLine (JsGraphicsData.mk 16 16 1 1 0) 0 0 9 3 65536 = some calls ∧
      (|(3 : Int) - 0| < |(9 : Int) - 0| →
        List.Chain' (fun (p q : Pixel) => q.x = p.x + 1 ∧ |q.y - p.y| ≤ 1) calls) ∧
      (|(9 : Int) - 0| ≤ |(3 : Int) - 0| →
        List.Chain' (fun (p q : Pixel) => q.y = p.y + 1 ∧ |q.x - p.x| ≤ 1) calls) :=
  graphicsDrawLine_connected (JsGraphicsData.mk 16 16 1 1 0) 0 0 9 3 65536 (by decide)
    (by decide) (by decide) (by decide) (by decide)

/-! ## `graphicsDrawLine`: the end points -/

/-- A loop that ends within `fuel` passes has, watched for `fuel` passes, the state it
ends in. -/
theorem forShortPrefix_of_forShort {σ : Type} (body : Int → σ → Option σ) :
    ∀ (fuel : Nat) (x hi : Int) (s r : σ), forShort body fuel x hi s = some r →
      forShortPrefix body fuel x hi s = some r := by
  intro fuel
  induction fuel with
  | zero =>
    intro x hi s r h
    simp [forShort] at h
  | succ n ih =>
    intro x hi s r h
    unfold forShort at h
    unfold forShortPrefix
    split at h
    · rename_i hx
      rw [if_pos hx]
      split at h
      · cases h
      · exact ih _ _ _ _ h
    · rename_i hx
      rw [if_neg hx]
      exact h

/-- A result of either branch of a conditional carries over branch by branch. -/
theorem ite_some_transfer {c : Prop} [Decidable c] {α : Type} {A B A1 B1 : Option α}
    {r : α} (hA : A = some r → A1 = some r) (hB : B = some r → B1 = some r)
    (h : (if c then A else B) = some r) : (if c then A1 else B1) = some r := by
  by_cases hc : c
  · rw [if_pos hc] at h ⊢
    exact hA h
  · rw [if_neg hc] at h ⊢
    exact hB h

/-- When `graphicsDrawLine` returns, the calls it made are those seen by watching it for
as many passes as it had fuel. -/
theorem graphicsDrawLinePrefix_of_returns (gfx : JsGraphicsData) (x1 y1 x2 y2 : Int)
    (fuel : Nat) (calls : List Pixel)
    (h : graphicsDrawLine gfx x1 y1 x2 y2 fuel = some calls) :
    graphicsDrawLinePrefix gfx x1 y1 x2 y2 fuel = some calls := by
  have key : ∀ (body : Int → Int × List Pixel → Option (Int × List Pixel)) (x hi : Int)
      (s : Int × List Pixel), (forShort body fuel x hi s).map Prod.snd = some calls →
      (forShortPrefix body fuel x hi s).map Prod.snd = some calls := by
    intro body x hi s hs
    obtain ⟨st, hst, e⟩ := Option.map_eq_some'.mp hs
    rw [forShortPrefix_of_forShort _ _ _ _ _ _ hst]
    exact congrArg some e
  exact ite_some_transfer (key _ _ _ _) (key _ _ _ _) h

/-- The watched scan loop only appends to the calls made so far. -/
theorem drawLinePrefix_appends (mk : Int → Int → Pixel) (step hi : Int) :
    ∀ (n : Nat) (x pos : Int) (acc : List Pixel), ∃ p rest,
      forShortPrefix (drawLineStep mk step) n x hi (pos, acc) = some (p, acc ++ rest) := by
  intro n
  induction n with
  | zero =>
    intro x pos acc
    exact ⟨pos, [], by simp [forShortPrefix]⟩
  | succ n ih =>
    intro x pos acc
    unfold forShortPrefix
    by_cases hx : x ≤ hi
    · rw [if_pos hx]
      have e1 : drawLineStep mk step x (pos, acc) =
          some (pos + step, acc ++ [mk x (toShort (pos >>> (8 : Nat)))]) := rfl
      rw [e1]
      obtain ⟨p, rest, h⟩ := ih (toShort (x + 1)) (pos + step)
        (acc ++ [mk x (toShort (pos >>> (8 : Nat)))])
      refine ⟨p, [mk x (toShort (pos >>> (8 : Nat)))] ++ rest, ?_⟩
      simp only [h, List.append_assoc]
    · rw [if_neg hx]
      exact ⟨pos, [], by simp⟩

/-- The watched scan loop from counter `t` to a bound that is a `short`: given enough
passes, the calls start with one pixel per value of the counter from `t` to `hi`, the
position advanced by `step` each time, whether or not the loop ends after them. -/
theorem drawLinePrefix_range (mk : Int → Int → Pixel) (step hi : Int) (hhi : hi ≤ 32767) :
    ∀ (m n : Nat) (t pos : Int) (acc : List Pixel), (hi + 1 - t).toNat = m → m ≤ n →
      -32768 ≤ t → ∃ p rest,
        forShortPrefix (drawLineStep mk step) n t hi (pos, acc) =
          some (p, acc ++ (intRange t hi).map
            (fun x => mk x (toShort ((pos + (x - t) * step) >>> (8 : Nat)))) ++ rest) := by
  intro m
  induction m with
  | zero =>
    intro n t pos acc hm _ _
    rw [intRange_of_lt (by omega)]
    obtain ⟨p, rest, h⟩ := drawLinePrefix_appends mk step hi n t pos acc
    exact ⟨p, rest, by simpa using h⟩
  | succ m ih =>
    intro n t pos acc hm hn ht
    have htb : t ≤ hi := by omega
    obtain ⟨n', rfl⟩ : ∃ n', n = n' + 1 := ⟨n - 1, by omega⟩
    unfold forShortPrefix
    rw [if_pos htb]
    have e1 : drawLineStep mk step t (pos, acc) =
        some (pos + step, acc ++ [mk t (toShort (pos >>> (8 : Nat)))]) := rfl
    rw [e1, intRange_cons htb]
    simp only [List.map_cons, sub_self, zero_mul, add_zero]
    have e : ∀ x : Int, pos + step + (x - (t + 1)) * step = pos + (x - t) * step := by
      intro x
      ring
    by_cases hlast : t = hi
    · obtain ⟨p, rest, h⟩ := drawLinePrefix_appends mk step hi n' (toShort (t + 1))
        (pos + step) (acc ++ [mk t (toShort (pos >>> (8 : Nat)))])
      refine ⟨p, rest, ?_⟩
      rw [h, intRange_of_lt (by omega)]
      simp
    · have hts : toShort (t + 1) = t + 1 := toShort_of_isShort (by omega) (by omega)
      rw [hts]
      obtain ⟨p, rest, h⟩ := ih n' (t + 1) (pos + step)
        (acc ++ [mk t (toShort (pos >>> (8 : Nat)))]) (by omega) (by omega) (by omega)
      refine ⟨p, rest, ?_⟩
      rw [h]
      simp only [e, List.append_assoc, List.singleton_append]

/-- After `n` steps along a delta of `n` (at most 128) the position is in the pixel of the
far end: the truncation of the step loses less than half a pixel. -/
theorem scan_far_end (p d n : Int) (hn : 1 ≤ n) (hn128 : n ≤ 128) :
    (p * 256 + 128 + n * Int.tdiv (d * 256) n) / 256 = p + d := by
  obtain ⟨hp, hm⟩ := tdiv_step_error d n hn
  rw [mul_comm d 256]
  generalize n * Int.tdiv (256 * d) n = w at hp hm
  by_cases h0 : 0 ≤ d
  · obtain ⟨h1, h2⟩ := hp h0
    omega
  · obtain ⟨h1, h2⟩ := hm (by omega)
    omega

/-- The watched scan from `(a, pa)` to `(b, pb)` along a delta between 1 and 128 that is
the longer one: both ends are among the calls. -/
theorem scanPrefix_endpoints (mk : Int → Int → Pixel) (a b pa pb : Int) (n : Nat)
    (ha : -32768 ≤ a) (hb : b ≤ 32767) (hpa : IsShort pa) (hpb : IsShort pb)
    (hab : a < b) (h128 : b - a ≤ 128) (hn : 129 ≤ n) :
    ∃ p calls, forShortPrefix (drawLineStep mk (Int.tdiv ((pb - pa) * 256) (b - a))) n a b
        (pa * 256 + 128, []) = some (p, calls) ∧ mk a pa ∈ calls ∧ mk b pb ∈ calls := by
  unfold IsShort at hpa hpb
  obtain ⟨p, rest, h⟩ := drawLinePrefix_range mk (Int.tdiv ((pb - pa) * 256) (b - a)) b hb
    (b + 1 - a).toNat n a (pa * 256 + 128) [] rfl (by omega) ha
  refine ⟨p, _, h, ?_, ?_⟩
  · apply List.mem_append_left
    apply List.mem_append_right
    refine List.mem_map.mpr ⟨a, mem_intRange.mpr ⟨le_refl _, by omega⟩, ?_⟩
    simp only [sub_self, zero_mul, add_zero]
    rw [shiftRight_8]
    have e : (pa * 256 + 128) / 256 = pa := by omega
    rw [e, toShort_of_isShort hpa.1 hpa.2]
  · apply List.mem_append_left
    apply List.mem_append_right
    refine List.mem_map.mpr ⟨b, mem_intRange.mpr ⟨by omega, le_refl _⟩, ?_⟩
    rw [shiftRight_8, scan_far_end pa (pb - pa) (b - a) (by omega) h128]
    have e : pa + (pb - pa) = pb := by ring
    rw [e, toShort_of_isShort hpb.1 hpb.2]

/-- A line longer in X that spans at least three columns: in both orders of the end
points the watched `graphicsDrawLine` is the watched scan in X from the left end. -/
theorem graphicsDrawLinePrefix_eq_scan_x (gfx : JsGraphicsData) (x1 y1 x2 y2 : Int)
    (n : Nat) (hx : x1 + 1 < x2) (hlong : |y2 - y1| < x2 - x1) :
    graphicsDrawLinePrefix gfx x1 y1 x2 y2 n =
      (forShortPrefix (drawLineStep (fun x y => ⟨x, y, gfx.fgColor⟩)
        (Int.tdiv ((y2 - y1) * 256) (x2 - x1))) n x1 x2 (y1 * 256 + 128, [])).map
        Prod.snd ∧
    graphicsDrawLinePrefix gfx x2 y2 x1 y1 n =
      (forShortPrefix (drawLineStep (fun x y => ⟨x, y, gfx.fgColor⟩)
        (Int.tdiv ((y2 - y1) * 256) (x2 - x1))) n x1 x2 (y1 * 256 + 128, [])).map
        Prod.snd := by
  have habs := abs_lt.mp hlong
  have hyl : (if y2 - y1 < 0 then -(y2 - y1) else if y2 - y1 = 0 then 1 else y2 - y1) <
      x2 - x1 := by
    split_ifs <;> omega
  have hyl2 : (if y1 - y2 < 0 then -(y1 - y2) else if y1 - y2 = 0 then 1 else y1 - y2) <
      x2 - x1 := by
    split_ifs <;> omega
  constructor
  · have c1 : ¬ (x2 - x1 < 0) := by omega
    have c2 : ¬ (x2 - x1 = 0) := by omega
    have c3 : ¬ (x1 > x2) := by omega
    simp only [graphicsDrawLinePrefix, c1, c2, c3, if_false]
    rw [if_pos (by simpa using hyl)]
  · have c1 : x1 - x2 < 0 := by omega
    have c3 : x2 > x1 := by omega
    have e : -(x1 - x2) = x2 - x1 := by ring
    simp only [graphicsDrawLinePrefix, c1, c3, if_true, e]
    rw [if_pos (by simpa using hyl2)]

/-- A line at least as long in Y as in X that spans at least two rows: in both orders of
the end points the watched `graphicsDrawLine` is the watched scan in Y from the upper
end. -/
theorem graphicsDrawLinePrefix_eq_scan_y (gfx : JsGraphicsData) (x1 y1 x2 y2 : Int)
    (n : Nat) (hy : y1 < y2) (hlong : |x2 - x1| ≤ y2 - y1) :
    graphicsDrawLinePrefix gfx x1 y1 x2 y2 n =
      (forShortPrefix (drawLineStep (fun y x => ⟨x, y, gfx.fgColor⟩)
        (Int.tdiv ((x2 - x1) * 256) (y2 - y1))) n y1 y2 (x1 * 256 + 128, [])).map
        Prod.snd ∧
    graphicsDrawLinePrefix gfx x2 y2 x1 y1 n =
      (forShortPrefix (drawLineStep (fun y x => ⟨x, y, gfx.fgColor⟩)
        (Int.tdiv ((x2 - x1) * 256) (y2 - y1))) n y1 y2 (x1 * 256 + 128, [])).map
        Prod.snd := by
  have habs := abs_le.mp hlong
  have hxl : ¬ ((if x2 - x1 < 0 then -(x2 - x1) else if x2 - x1 = 0 then 1 else x2 - x1) >
      y2 - y1) := by
    split_ifs <;> omega
  have hxl2 : ¬ ((if x1 - x2 < 0 then -(x1 - x2) else if x1 - x2 = 0 then 1 else x1 - x2) >
      y2 - y1) := by
    split_ifs <;> omega
  constructor
  · have c1 : ¬ (y2 - y1 < 0) := by omega
    have c2 : ¬ (y2 - y1 = 0) := by omega
    have c3 : ¬ (y1 > y2) := by omega
    simp only [graphicsDrawLinePrefix, c1, c2, c3, if_false]
    rw [if_neg (by simpa using hxl)]
  · have c1 : y1 - y2 < 0 := by omega
    have c3 : y2 > y1 := by omega
    have e : -(y1 - y2) = y2 - y1 := by ring
    simp only [graphicsDrawLinePrefix, c1, c3, if_true, e]
    rw [if_neg (by simpa using hxl2)]

/-- Both end points are among the calls of the watched `graphicsDrawLine` when the longer
delta is between 2 and 128. -/
theorem graphicsDrawLinePrefix_endpoints (gfx : JsGraphicsData) (x1 y1 x2 y2 : Int)
    (n : Nat) (hx1 : IsShort x1) (hy1 : IsShort y1) (hx2 : IsShort x2) (hy2 : IsShort y2)
    (hlo : 2 ≤ max |x2 - x1| |y2 - y1|) (hhi : max |x2 - x1| |y2 - y1| ≤ 128)
    (hn : 129 ≤ n) :
    ∃ calls, graphicsDrawLinePrefix gfx x1 y1 x2 y2 n = some calls ∧
      (⟨x1, y1, gfx.fgColor⟩ : Pixel) ∈ calls ∧ (⟨x2, y2, gfx.fgColor⟩ : Pixel) ∈ calls := by
  have sx1 := hx1
  have sx2 := hx2
  have sy1 := hy1
  have sy2 := hy2
  unfold IsShort at sx1 sx2 sy1 sy2
  have hdy0 := abs_nonneg (y2 - y1)
  have hdx0 := abs_nonneg (x2 - x1)
  by_cases hlong : |y2 - y1| < |x2 - x1|
  · rcases lt_trichotomy x1 x2 with hx | hx | hx
    · have hdx : |x2 - x1| = x2 - x1 := abs_of_pos (by omega)
      obtain ⟨e1, _⟩ := graphicsDrawLinePrefix_eq_scan_x gfx x1 y1 x2 y2 n (by omega)
        (by omega)
      obtain ⟨p, calls, h, m1, m2⟩ := scanPrefix_endpoints
        (fun x y => (⟨x, y, gfx.fgColor⟩ : Pixel)) x1 x2 y1 y2 n sx1.1 sx2.2 hy1 hy2 hx
        (by omega) hn
      exact ⟨calls, by rw [e1, h]; rfl, m1, m2⟩
    · rw [hx, sub_self, abs_zero] at hlong
      omega
    · have hdx : |x2 - x1| = x1 - x2 := by
        rw [abs_sub_comm]
        exact abs_of_pos (by omega)
      have hdy : |y1 - y2| = |y2 - y1| := abs_sub_comm _ _
      obtain ⟨_, e2⟩ := graphicsDrawLinePrefix_eq_scan_x gfx x2 y2 x1 y1 n (by omega)
        (by omega)
      obtain ⟨p, calls, h, m1, m2⟩ := scanPrefix_endpoints
        (fun x y => (⟨x, y, gfx.fgColor⟩ : Pixel)) x2 x1 y2 y1 n sx2.1 sx1.2 hy2 hy1 hx
        (by omega) hn
      exact ⟨calls, by rw [e2, h]; rfl, m2, m1⟩
  · rcases lt_trichotomy y1 y2 with hy | hy | hy
    · have hdy : |y2 - y1| = y2 - y1 := abs_of_pos (by omega)
      obtain ⟨e1, _⟩ := graphicsDrawLinePrefix_eq_scan_y gfx x1 y1 x2 y2 n hy (by omega)
      obtain ⟨p, calls, h, m1, m2⟩ := scanPrefix_endpoints
        (fun y x => (⟨x, y, gfx.fgColor⟩ : Pixel)) y1 y2 x1 x2 n sy1.1 sy2.2 hx1 hx2 hy
        (by omega) hn
      exact ⟨calls, by rw [e1, h]; rfl, m1, m2⟩
    · rw [hy, sub_self, abs_zero] at hlo hlong
      omega
    · have hdy : |y2 - y1| = y1 - y2 := by
        rw [abs_sub_comm]
        exact abs_of_pos (by omega)
      have hdx : |x1 - x2| = |x2 - x1| := abs_sub_comm _ _
      obtain ⟨_, e2⟩ := graphicsDrawLinePrefix_eq_scan_y gfx x2 y2 x1 y1 n hy (by omega)
      obtain ⟨p, calls, h, m1, m2⟩ := scanPrefix_endpoints
        (fun y x => (⟨x, y, gfx.fgColor⟩ : Pixel)) y2 y1 x2 x1 n sy2.1 sy1.2 hx2 hx1 hy
        (by omega) hn
      exact ⟨calls, by rw [e2, h]; rfl, m2, m1⟩

/-- C27: for end points (of `short` coordinates) whose longer coordinate delta is between
2 and 128, both `(x1, y1)` and `(x2, y2)` are among the `graphicsSetPixel` calls that
`graphicsDrawLine` makes in its first 129 passes or more; this holds also for a line
ending at coordinate 32767, whose loop does not end.  Whenever `graphicsDrawLine` returns,
both end points are among the calls it returns, and with coordinates below 32767 it does
return. -/
theorem graphicsDrawLine_endpoints (gfx : JsGraphicsData) (x1 y1 x2 y2 : Int) (n : Nat)
    (hx1 : IsShort x1) (hy1 : IsShort y1) (hx2 : IsShort x2) (hy2 : IsShort y2)
    (hlo : 2 ≤ max |x2 - x1| |y2 - y1|) (hhi : max |x2 - x1| |y2 - y1| ≤ 128)
    (hn : 129 ≤ n) :
    (∃ calls, graphicsDrawLinePrefix gfx x1 y1 x2 y2 n = some calls ∧
      (⟨x1, y1, gfx.fgColor⟩ : Pixel) ∈ calls ∧ (⟨x2, y2, gfx.fgColor⟩ : Pixel) ∈ calls) ∧
    (∀ calls, graphicsDrawLine gfx x1 y1 x2 y2 n = some calls →
      (⟨x1, y1, gfx.fgColor⟩ : Pixel) ∈ calls ∧ (⟨x2, y2, gfx.fgColor⟩ : Pixel) ∈ calls) ∧
    (x1 < 32767 → y1 < 32767 → x2 < 32767 → y2 < 32767 → 65536 ≤ n →
      ∃ calls, graphicsDrawLine gfx x1 y1 x2 y2 n = some calls) := by
  obtain ⟨cs, hcs, m1, m2⟩ := graphicsDrawLinePrefix_endpoints gfx x1 y1 x2 y2 n hx1 hy1
    hx2 hy2 hlo hhi hn
  refine ⟨⟨cs, hcs, m1, m2⟩, ?_, ?_⟩
  · intro calls h
    have h2 := graphicsDrawLinePrefix_of_returns gfx x1 y1 x2 y2 n calls h
    rw [hcs] at h2
    cases h2
    exact ⟨m1, m2⟩
  · intro a1 b1 a2 b2 hf
    unfold IsShort at hx1 hy1 hx2 hy2
    obtain ⟨calls, h, _⟩ := graphicsDrawLine_calls_count gfx x1 y1 x2 y2 n ⟨hx1.1, a1⟩
      ⟨hy1.1, b1⟩ ⟨hx2.1, a2⟩ ⟨hy2.1, b2⟩ hf (by
        intro hc
        rw [hc.1, hc.2, sub_self, abs_zero] at hlo
        have : max (1 : Int) 0 = 1 := by decide
        omega)
    exact ⟨calls, h⟩

theorem graphicsDrawLine_endpoints_witness :
    (∃ calls, graphicsDrawLinePrefix (JsGraphicsData.mk 16 16 1 1 0) 11 6 2 3 65536 =
        some calls ∧
      (⟨11, 6, (JsGraphicsData.mk 16 16 1 1 0).fgColor⟩ : Pixel) ∈ calls ∧
      (⟨2, 3, (JsGraphicsData.mk 16 16 1 1 0).fgColor⟩ : Pixel) ∈ calls) ∧
    (∀ calls, graphicsDrawLine (JsGraphicsData.mk 16 16 1 1 0) 11 6 2 3 65536 =
        some calls →
      (⟨11, 6, (JsGraphicsData.mk 16 16 1 1 0).fgColor⟩ : Pixel) ∈ calls ∧
      (⟨2, 3, (JsGraphicsData.mk 16 16 1 1 0).fgColor⟩ : Pixel) ∈ calls) ∧
    ((11 : Int) < 32767 → (6 : Int) < 32767 → (2 : Int) < 32767 →
      (3 : Int) < 32767 → 65536 ≤ 65536 →
      ∃ calls, graphicsDrawLine (JsGraphicsData.mk 16 16 1 1 0) 11 6 2 3 65536 =
        some calls) :=
  graphicsDrawLine_endpoints (JsGraphicsData.mk 16 16 1 1 0) 11 6 2 3 65536
    (by decide) (by decide) (by decide) (by decide) (by decide) (by decide) (by decide)

/-! ## The object iterator and the array iterator -/

/-- C23 as stated fails when the lock count of the cursor cell is at `JSV_LOCK_MAX`: on
the name 2 of `saturatedHeap`, which holds 15 locks, `jsvObjectIteratorGetKey` and
`jsvArrayIteratorGetIndex` both return the name, and it holds 15 locks afterwards, not
one more. -/
theorem get_key_saturated_lock :
    jsvGetLocks sampleConsts (saturatedHeap 2) = 15 ∧
    (jsvObjectIteratorGetKey sampleConsts saturatedHeap ⟨2⟩).2 = 2 ∧
    jsvGetLocks sampleConsts
      ((jsvObjectIteratorGetKey sampleConsts saturatedHeap ⟨2⟩).1 2) = 15 ∧
    (jsvArrayIteratorGetIndex sampleConsts saturatedHeap ⟨2⟩).2 = 2 ∧
    jsvGetLocks sampleConsts
      ((jsvArrayIteratorGetIndex sampleConsts saturatedHeap ⟨2⟩).1 2) = 15 := by
  decide

/-- One `jsvLock` on a cell that is not the null pointer. -/
theorem jsvLock_lockedOnce (K : JsvConsts) (hK : K.Valid) (h : Heap) (var : Nat)
    (hv : var ≠ 0) : LockedOnce K h var (jsvLock K h var) :=
  jsvLockAgain_lockedOnce K hK h var hv

/-- C23, amended: the object iterator and the array iterator, on the same pool and the
same cursor, behave identically.  `New` starts both at the parent's `firstChild`; any
number of `Next` calls leave the same pool and the same cursor, on which `HasElement`
agrees; `Next` moves the cursor to its `nextSibling`, the end when that is 0;
`jsvObjectIteratorGetKey` and `jsvArrayIteratorGetIndex` return the cursor cell, and
`jsvObjectIteratorGetValue` and `jsvArrayIteratorGetElement` the cursor's `firstChild`
(the null pointer at the end), in both cases with one more lock on the cell returned: its
lock count is one higher when it was below `JSV_LOCK_MAX`, and nothing else changes. -/
theorem object_iterator_as_array_iterator (K : JsvConsts) (hK : K.Valid)
    (fr : Heap → Nat → Heap) (h : Heap) :
    (∀ p : Nat,
      (jsvObjectIteratorNew K h p).1 = (jsvArrayIteratorNew K h p).1 ∧
      (jsvObjectIteratorNew K h p).2.var = (h p).firstChild ∧
      (jsvArrayIteratorNew K h p).2.var = (h p).firstChild) ∧
    (∀ n v : Nat,
      (jsvObjectIteratorNexts K fr n (h, ⟨v⟩)).1 = (jsvArrayIteratorNexts K fr n (h, ⟨v⟩)).1 ∧
      (jsvObjectIteratorNexts K fr n (h, ⟨v⟩)).2.var =
        (jsvArrayIteratorNexts K fr n (h, ⟨v⟩)).2.var ∧
      jsvObjectIteratorHasElement (jsvObjectIteratorNexts K fr n (h, ⟨v⟩)).2 =
        jsvArrayIteratorHasElement (jsvArrayIteratorNexts K fr n (h, ⟨v⟩)).2) ∧
    (∀ v : Nat,
      (jsvObjectIteratorNext K fr h ⟨v⟩).2.var = (if v = 0 then 0 else (h v).nextSibling) ∧
      (jsvArrayIteratorNext K fr h ⟨v⟩).2.var = (if v = 0 then 0 else (h v).nextSibling) ∧
      jsvObjectIteratorHasElement ⟨v⟩ = decide (v ≠ 0) ∧
      jsvArrayIteratorHasElement ⟨v⟩ = decide (v ≠ 0)) ∧
    (∀ v : Nat,
      jsvObjectIteratorGetKey K h ⟨v⟩ = jsvArrayIteratorGetIndex K h ⟨v⟩ ∧
      (jsvObjectIteratorGetKey K h ⟨v⟩).2 = v ∧
      LockedOnce K h v (jsvObjectIteratorGetKey K h ⟨v⟩).1) ∧
    (∀ v : Nat,
      jsvObjectIteratorGetValue K h ⟨v⟩ = jsvArrayIteratorGetElement K h ⟨v⟩ ∧
      (jsvObjectIteratorGetValue K h ⟨v⟩).2 = (if v = 0 then 0 else (h v).firstChild) ∧
      LockedOnce K h (jsvObjectIteratorGetValue K h ⟨v⟩).2
        (jsvObjectIteratorGetValue K h ⟨v⟩).1) := by
  have hnull : LockedOnce K h 0 h := ⟨fun _ => rfl, fun hne => absurd rfl hne⟩
  refine ⟨?_, ?_, ?_, ?_, ?_⟩
  · intro p
    unfold jsvObjectIteratorNew jsvArrayIteratorNew
    by_cases hp : (h p).firstChild ≠ 0
    · simp only [if_pos hp]
      exact ⟨trivial, trivial, trivial⟩
    · simp only [if_neg hp]
      have e : (h p).firstChild = 0 := not_not.mp hp
      exact ⟨trivial, e.symm, e.symm⟩
  · intro n v
    obtain ⟨e1, e2⟩ := jsvObjectIteratorNexts_eq K fr n h v
    refine ⟨e1, e2, ?_⟩
    unfold jsvObjectIteratorHasElement jsvArrayIteratorHasElement
    rw [e2]
  · intro v
    unfold jsvObjectIteratorNext jsvArrayIteratorNext jsvObjectIteratorHasElement
      jsvArrayIteratorHasElement
    by_cases hv : v = 0
    · simp only [hv, ne_eq, not_true_eq_false, if_false, if_true]
      exact ⟨trivial, trivial, trivial, trivial⟩
    · simp only [ne_eq, hv, not_false_eq_true, if_true, if_false]
      by_cases hn : (h v).nextSibling = 0
      · simp only [hn, not_true_eq_false, if_false]
        exact ⟨trivial, trivial, trivial, trivial⟩
      · simp only [hn, not_false_eq_true, if_true]
        exact ⟨trivial, trivial, trivial, trivial⟩
  · intro v
    unfold jsvObjectIteratorGetKey jsvArrayIteratorGetIndex
    by_cases hv : v = 0
    · simp only [hv, if_true]
      exact ⟨trivial, trivial, hnull⟩
    · simp only [hv, if_false]
      exact ⟨trivial, trivial, jsvLockAgain_lockedOnce K hK h v hv⟩
  · intro v
    unfold jsvObjectIteratorGetValue jsvArrayIteratorGetElement
    by_cases hv : v = 0
    · simp only [hv, if_true]
      exact ⟨trivial, trivial, hnull⟩
    · simp only [hv, if_false]
      by_cases hc : (h v).firstChild = 0
      · simp only [hc, ne_eq, not_true_eq_false, if_false]
        exact ⟨trivial, trivial, hnull⟩
      · simp only [ne_eq, hc, not_false_eq_true, if_true]
        exact ⟨trivial, trivial, jsvLock_lockedOnce K hK h _ hc⟩

theorem object_iterator_as_array_iterator_witness :
    jsvObjectIteratorGetValue sampleConsts sampleValueHeap ⟨2⟩ =
      jsvArrayIteratorGetElement sampleConsts sampleValueHeap ⟨2⟩ ∧
    (jsvObjectIteratorGetValue sampleConsts sampleValueHeap ⟨2⟩).2 =
      (if 2 = 0 then 0 else (sampleValueHeap 2).firstChild) ∧
    (jsvObjectIteratorGetValue sampleConsts sampleValueHeap ⟨2⟩).2 = 6 ∧
    jsvGetLocks sampleConsts (sampleValueHeap 6) = 0 ∧
    jsvGetLocks sampleConsts
      ((jsvObjectIteratorGetValue sampleConsts sampleValueHeap ⟨2⟩).1 6) = 1 ∧
    (jsvObjectIteratorGetKey sampleConsts sampleValueHeap ⟨2⟩).2 = 2 ∧
    jsvGetLocks sampleConsts
      ((jsvObjectIteratorGetKey sampleConsts sampleValueHeap ⟨2⟩).1 2) = 1 :=
  ⟨((object_iterator_as_array_iterator sampleConsts sampleConsts_valid sampleFreePtr
      sampleValueHeap).2.2.2.2 2).1,
   ((object_iterator_as_array_iterator sampleConsts sampleConsts_valid sampleFreePtr
      sampleValueHeap).2.2.2.2 2).2.1,
   by decide, by decide, by decide, by decide, by decide⟩

/-! ## The successor of a string cell -/

/-- C25 as stated fails: the string head 4 of `sampleHeap` holds two bytes and has
`firstChild = 0` and `lastChild = 5`; on exhausting it `jsvStringIteratorNextInline` does
not end the traversal but moves to the cell 5, the one `lastChild` refers to, where it has
a character at index 2. -/
theorem string_next_follows_lastChild :
    (sampleHeap 4).firstChild = 0 ∧ (sampleHeap 4).lastChild = 5 ∧
    jsvGetCharactersInVar sampleConsts (sampleHeap 4) = 2 ∧
    (jsvStringIteratorNextInline sampleConsts sampleFreePtr sampleHeap ⟨1, 2, 0, 4⟩).2 =
      ⟨0, 1, 2, 5⟩ ∧
    jsvStringIteratorHasChar
      (jsvStringIteratorNextInline sampleConsts sampleFreePtr sampleHeap ⟨1, 2, 0, 4⟩).2 =
      true := by
  decide

/-- C25, amended: the successor of a string cell is the cell its `lastChild` refers to.
When `jsvStringIteratorNextInline` leaves the last character of a cell (or has no
character at hand), it moves to the cell referenced by the `lastChild` of the cursor cell:
the index of the first byte of that cell is the index of the first byte of the cell left
plus the number of bytes the iterator counted there, and the iterator then counts the bytes
that cell holds.  When `lastChild` is 0 (or there is no cursor cell) the traversal ends: no
cursor, and no character at hand. -/
theorem jsvStringIteratorNextInline_successor (K : JsvConsts) (fr : Heap → Nat → Heap)
    (h : Heap) (it : JsvStringIterator) (hex : it.charsInVar ≤ it.charIdx + 1) :
    (jsvStringIteratorNextInline K fr h it).2.var =
      (if it.var = 0 then 0 else (h it.var).lastChild) ∧
    (jsvStringIteratorNextInline K fr h it).2.varIndex = it.varIndex + it.charsInVar ∧
    (jsvStringIteratorNextInline K fr h it).2.charIdx = it.charIdx + 1 - it.charsInVar ∧
    ((jsvStringIteratorNextInline K fr h it).2.var ≠ 0 →
      (jsvStringIteratorNextInline K fr h it).2.charsInVar =
        jsvGetCharactersInVar K ((jsvStringIteratorNextInline K fr h it).1
          (jsvStringIteratorNextInline K fr h it).2.var)) ∧
    ((jsvStringIteratorNextInline K fr h it).2.var = 0 →
      (jsvStringIteratorNextInline K fr h it).2.charsInVar = 0 ∧
      jsvStringIteratorHasChar (jsvStringIteratorNextInline K fr h it).2 = false) := by
  have hge : it.charIdx + 1 ≥ it.charsInVar := hex
  by_cases hc : it.var ≠ 0 ∧ (h it.var).lastChild ≠ 0
  · have e : jsvStringIteratorNextInline K fr h it =
        (jsvUnLock K fr (jsvLock K h (h it.var).lastChild) it.var,
          { charIdx := it.charIdx + 1 - it.charsInVar, var := (h it.var).lastChild,
            varIndex := it.varIndex + it.charsInVar,
            charsInVar := jsvGetCharactersInVar K
              (jsvUnLock K fr (jsvLock K h (h it.var).lastChild) it.var
                (h it.var).lastChild) }) := by
      unfold jsvStringIteratorNextInline
      simp only [if_pos hge, if_pos hc]
    rw [e]
    refine ⟨?_, rfl, rfl, fun _ => rfl, fun h0 => absurd h0 hc.2⟩
    rw [if_neg hc.1]
  · have e : jsvStringIteratorNextInline K fr h it =
        (jsvUnLock K fr h it.var,
          { charIdx := it.charIdx + 1 - it.charsInVar, var := 0,
            varIndex := it.varIndex + it.charsInVar, charsInVar := 0 }) := by
      unfold jsvStringIteratorNextInline
      simp only [if_pos hge, if_neg hc]
    rw [e]
    refine ⟨?_, rfl, rfl, fun hne => absurd rfl hne, fun _ => ⟨rfl, ?_⟩⟩
    · by_cases hv : it.var = 0
      · rw [if_pos hv]
      · rw [if_neg hv]
        by_contra hl
        exact hc ⟨hv, fun h0 => hl h0.symm⟩
    · unfold jsvStringIteratorHasChar
      simp

theorem jsvStringIteratorNextInline_successor_witness :
    (jsvStringIteratorNextInline sampleConsts sampleFreePtr sampleHeap ⟨1, 2, 0, 4⟩).2.var =
      (if 4 = 0 then 0 else (sampleHeap 4).lastChild) ∧
    (jsvStringIteratorNextInline sampleConsts sampleFreePtr sampleHeap
      ⟨1, 2, 0, 4⟩).2.varIndex = 0 + 2 ∧
    (jsvStringIteratorNextInline sampleConsts sampleFreePtr sampleHeap
      ⟨0, 1, 2, 5⟩).2.var = 0 ∧
    jsvStringIteratorHasChar (jsvStringIteratorNextInline sampleConsts sampleFreePtr
      sampleHeap ⟨0, 1, 2, 5⟩).2 = false :=
  ⟨(jsvStringIteratorNextInline_successor sampleConsts sampleFreePtr sampleHeap
      ⟨1, 2, 0, 4⟩ (by decide)).1,
   (jsvStringIteratorNextInline_successor sampleConsts sampleFreePtr sampleHeap
      ⟨1, 2, 0, 4⟩ (by decide)).2.1,
   by decide, by decide⟩

/-! ## The type predicates on the null pointer -/

/-- C31: on the null pointer each of the type predicates `jsvIsRoot`, `jsvIsPin`,
`jsvIsInt`, `jsvIsFloat`, `jsvIsBoolean`, `jsvIsString`, `jsvIsStringExt`, `jsvIsNumeric`,
`jsvIsFunction`, `jsvIsFunctionParameter`, `jsvIsObject`, `jsvIsArray`, `jsvIsArrayBuffer`,
`jsvIsArrayBufferName`, `jsvIsNative`, `jsvIsNull`, `jsvIsBasic`, `jsvIsName`,
`jsvIsIntegerish` and `jsvIsIterable` returns false, for every layout of the constants and
whatever the pool holds (the null pointer carries no cell to read), and `jsvIsUndefined`
returns true on the null pointer and false on every other pointer. -/
theorem jsvIs_null_pointer (K : JsvConsts) :
    (jsvIsRoot K none = false ∧ jsvIsPin K none = false ∧ jsvIsInt K none = false ∧
      jsvIsFloat K none = false ∧ jsvIsBoolean K none = false ∧
      jsvIsString K none = false ∧ jsvIsStringExt K none = false ∧
      jsvIsNumeric K none = false ∧ jsvIsFunction K none = false ∧
      jsvIsFunctionParameter K none = false ∧ jsvIsObject K none = false ∧
      jsvIsArray K none = false ∧ jsvIsArrayBuffer K none = false ∧
      jsvIsArrayBufferName K none = false ∧ jsvIsNative K none = false ∧
      jsvIsNull K none = false ∧ jsvIsBasic K none = false ∧ jsvIsName K none = false ∧
      jsvIsIntegerish K none = false ∧ jsvIsIterable K none = false) ∧
    (∀ h : Heap, derefPointer h 0 = none) ∧
    jsvIsUndefined none = true ∧
    (∀ c : JsVar, jsvIsUndefined (some c) = false) ∧
    (∀ (h : Heap) (p : Nat), jsvIsUndefined (derefPointer h p) = true ↔ p = 0) := by
  refine ⟨⟨rfl, rfl, rfl, rfl, rfl, rfl, rfl, rfl, rfl, rfl, rfl, rfl, rfl, rfl, rfl, rfl,
    rfl, rfl, rfl, rfl⟩, fun _ => rfl, rfl, fun _ => rfl, ?_⟩
  intro h p
  unfold derefPointer
  by_cases hp : p = 0
  · simp [hp, jsvIsUndefined]
  · simp [hp, jsvIsUndefined]

/-! ## `jsvSetCharactersInVar`: what it leaves alone -/

/-- Above the type mask, the flags that `jsvSetCharactersInVar` writes have the bits of
the flags it read. -/
theorem testBit_set_tag (f t k i : Nat) (ht : t < 2 ^ k) (hi : k ≤ i) :
    (andNot f (2 ^ k - 1) ||| t).testBit i = f.testBit i := by
  have h1 : (2 ^ k - 1).testBit i = false := by
    rw [Nat.testBit_two_pow_sub_one]
    exact decide_eq_false (by omega)
  have h2 : t.testBit i = false :=
    Nat.testBit_lt_two_pow (lt_of_lt_of_le ht (Nat.pow_le_pow_right (by decide) hi))
  rw [Nat.testBit_or, testBit_andNot, h1, h2]
  simp

/-- The new tag of `jsvSetCharactersInVar` fits the type mask when the count is within
the capacity of the cell. -/
theorem set_tag_le_mask (K : JsvConsts) (hK : K.Valid) (v : JsVar) (n : Nat)
    (hcap : (jsvIsString K (some v) = true ∧ n ≤ K.JSVAR_DATA_STRING_LEN) ∨
      (jsvIsStringExt K (some v) = true ∧ n ≤ K.JSVAR_DATA_STRING_MAX_LEN)) :
    (if v.flags &&& K.JSV_VARTYPEMASK < K.JSV_STRING_EXT_0 then K.JSV_STRING_0
      else K.JSV_STRING_EXT_0) + n ≤ K.JSV_VARTYPEMASK := by
  have h1 := hK.string_max
  have h2 := hK.ext_max
  have h3 := hK.string_lt_ext
  have h4 := hK.ext_le_mask
  rcases hcap with ⟨hs, hn⟩ | ⟨hs, hn⟩
  · simp only [jsvIsString, Bool.and_eq_true, decide_eq_true_eq] at hs
    rw [if_pos (by omega)]
    omega
  · simp only [jsvIsStringExt, Bool.and_eq_true, decide_eq_true_eq] at hs
    rw [if_neg (by omega)]
    omega

/-- C32: for a string head and `n <= JSVAR_DATA_STRING_LEN`, and for a string extension and
`n <= JSVAR_DATA_STRING_MAX_LEN`, `jsvSetCharactersInVar(v, n)` changes only the type-tag
bits of `flags`: the lock count that `jsvGetLocks` reports is as before, every bit of
`flags` outside `JSV_VARTYPEMASK` is as before (so the name, native and function-parameter
bits are, these constants lying outside the mask, and `jsvIsName`, `jsvIsNative` and
`jsvIsFunctionParameter` answer as before), and every field other than `flags` is as
before. -/
theorem jsvSetCharactersInVar_frame (K : JsvConsts) (hK : K.Valid) (v : JsVar) (n : Nat)
    (hcap : (jsvIsString K (some v) = true ∧ n ≤ K.JSVAR_DATA_STRING_LEN) ∨
      (jsvIsStringExt K (some v) = true ∧ n ≤ K.JSVAR_DATA_STRING_MAX_LEN)) :
    jsvGetLocks K (jsvSetCharactersInVar K v n) = jsvGetLocks K v ∧
    (∀ m : Nat, m &&& K.JSV_VARTYPEMASK = 0 →
      (jsvSetCharactersInVar K v n).flags &&& m = v.flags &&& m) ∧
    (K.JSV_NAME &&& K.JSV_VARTYPEMASK = 0 →
      (jsvSetCharactersInVar K v n).flags &&& K.JSV_NAME = v.flags &&& K.JSV_NAME ∧
      jsvIsName K (some (jsvSetCharactersInVar K v n)) = jsvIsName K (some v)) ∧
    (K.JSV_NATIVE &&& K.JSV_VARTYPEMASK = 0 →
      (jsvSetCharactersInVar K v n).flags &&& K.JSV_NATIVE = v.flags &&& K.JSV_NATIVE ∧
      jsvIsNative K (some (jsvSetCharactersInVar K v n)) = jsvIsNative K (some v)) ∧
    (K.JSV_FUNCTION_PARAMETER &&& K.JSV_VARTYPEMASK = 0 →
      (jsvSetCharactersInVar K v n).flags &&& K.JSV_FUNCTION_PARAMETER =
        v.flags &&& K.JSV_FUNCTION_PARAMETER ∧
      jsvIsFunctionParameter K (some (jsvSetCharactersInVar K v n)) =
        jsvIsFunctionParameter K (some v)) ∧
    (jsvSetCharactersInVar K v n).str = v.str ∧
    (jsvSetCharactersInVar K v n).nextSibling = v.nextSibling ∧
    (jsvSetCharactersInVar K v n).prevSibling = v.prevSibling ∧
    (jsvSetCharactersInVar K v n).refs = v.refs ∧
    (jsvSetCharactersInVar K v n).firstChild = v.firstChild ∧
    (jsvSetCharactersInVar K v n).lastChild = v.lastChild := by
  obtain ⟨k, hk, hks⟩ := hK.typeBits
  have hpos : 0 < 2 ^ k := Nat.two_pow_pos k
  have hmask : K.JSV_VARTYPEMASK = 2 ^ k - 1 := by omega
  have htag := set_tag_le_mask K hK v n hcap
  have hflags : (jsvSetCharactersInVar K v n).flags =
      andNot v.flags (2 ^ k - 1) |||
        ((if v.flags &&& K.JSV_VARTYPEMASK < K.JSV_STRING_EXT_0 then K.JSV_STRING_0
          else K.JSV_STRING_EXT_0) + n) := by
    simp only [jsvSetCharactersInVar]
    rw [← hmask]
  generalize (if v.flags &&& K.JSV_VARTYPEMASK < K.JSV_STRING_EXT_0 then K.JSV_STRING_0
    else K.JSV_STRING_EXT_0) + n = t at htag hflags
  have ht : t < 2 ^ k := by omega
  have hbits : ∀ m : Nat, m &&& K.JSV_VARTYPEMASK = 0 →
      (jsvSetCharactersInVar K v n).flags &&& m = v.flags &&& m := by
    intro m hm
    apply Nat.eq_of_testBit_eq
    intro i
    rw [Nat.testBit_and, Nat.testBit_and, hflags]
    by_cases hi : k ≤ i
    · rw [testBit_set_tag _ _ _ _ ht hi]
    · have hmi : m.testBit i = false := by
        have h0 : (m &&& K.JSV_VARTYPEMASK).testBit i = false := by
          rw [hm]
          exact Nat.zero_testBit i
        rw [Nat.testBit_and, hmask, Nat.testBit_two_pow_sub_one] at h0
        have h1 : decide (i < k) = true := decide_eq_true (by omega)
        rw [h1, Bool.and_true] at h0
        exact h0
      rw [hmi, Bool.and_false, Bool.and_false]
  refine ⟨?_, hbits, ?_, ?_, ?_, rfl, rfl, rfl, rfl, rfl, rfl⟩
  · unfold jsvGetLocks
    have e : (jsvSetCharactersInVar K v n).flags >>> K.JSV_LOCK_SHIFT =
        v.flags >>> K.JSV_LOCK_SHIFT := by
      apply Nat.eq_of_testBit_eq
      intro i
      rw [Nat.testBit_shiftRight, Nat.testBit_shiftRight, hflags,
        testBit_set_tag _ _ _ _ ht (by omega)]
    rw [e]
  · intro hm
    have e := hbits _ hm
    exact ⟨e, by simp only [jsvIsName, e]⟩
  · intro hm
    have e := hbits _ hm
    exact ⟨e, by simp only [jsvIsNative, e]⟩
  · intro hm
    have e := hbits _ hm
    exact ⟨e, by simp only [jsvIsFunctionParameter, e]⟩

theorem jsvSetCharactersInVar_frame_witness :
    jsvGetLocks sampleConsts
        (jsvSetCharactersInVar sampleConsts ⟨2 * 2048 + 1024 + 128 + 64 + 5, [104, 105], 0, 0,
          1, 6, 5⟩ 7) =
      jsvGetLocks sampleConsts ⟨2 * 2048 + 1024 + 128 + 64 + 5, [104, 105], 0, 0, 1, 6, 5⟩ ∧
    jsvGetLocks sampleConsts ⟨2 * 2048 + 1024 + 128 + 64 + 5, [104, 105], 0, 0, 1, 6, 5⟩ =
      2 ∧
    (jsvSetCharactersInVar sampleConsts ⟨2 * 2048 + 1024 + 128 + 64 + 5, [104, 105], 0, 0,
      1, 6, 5⟩ 7).flags = 2 * 2048 + 1024 + 128 + 64 + 10 ∧
    sampleConsts.JSV_NAME &&& sampleConsts.JSV_VARTYPEMASK = 0 ∧
    sampleConsts.JSV_NATIVE &&& sampleConsts.JSV_VARTYPEMASK = 0 ∧
    sampleConsts.JSV_FUNCTION_PARAMETER &&& sampleConsts.JSV_VARTYPEMASK = 0 ∧
    jsvIsName sampleConsts (some (jsvSetCharactersInVar sampleConsts
      ⟨2 * 2048 + 1024 + 128 + 64 + 5, [104, 105], 0, 0, 1, 6, 5⟩ 7)) = true :=
  ⟨(jsvSetCharactersInVar_frame sampleConsts sampleConsts_valid
      ⟨2 * 2048 + 1024 + 128 + 64 + 5, [104, 105], 0, 0, 1, 6, 5⟩ 7
      (Or.inl ⟨by decide, by decide⟩)).1,
   by decide, by decide, by decide, by decide, by decide, by decide⟩

end Espruino
